import Mathlib

/-! MidroAudioSync: tick map, tick-map builder and pulse renderer.

A shallow embedding of `Source/TempoMap.{h,cpp}` and
`Source/PluginARAPlaybackRenderer.{h,cpp}`.

Conventions of the embedding:

* `double` values (seconds, quarter notes, sample rate) are exact rationals `ℚ`;
  rounding error of the floating-point unit is not modelled.
* `uint` values are naturals; every operation that can leave the range
  `[0, 2^32)` is reduced with `toUint`.  `int64_t` values are integers; the one
  `int` product of the builder is reduced with `toInt32`.
* A `while` statement is `whileLoop cond body fuel s`; `fuel` bounds the number of
  iterations and `none` stands for a loop that has not finished within the bound.
* `std::upper_bound` is the halving search of the standard library.
-/

namespace MidroAudioSync

/-! ## Machine arithmetic and loops -/

/-- Modulus of `uint` arithmetic, `2^32`. -/
def uintModulus : Nat := 4294967296

/-- Reduction of a natural number to the `uint` range. -/
def toUint (n : Nat) : Nat := n % uintModulus

/-- The `uint` subtraction `a - b` (operands already in range). -/
def uintSub (a b : Nat) : Nat := toUint (a + uintModulus - b)

/-- The C function `round` on a `double`: nearest integer, halves away from zero. -/
def cRound (x : ℚ) : Int := if 0 ≤ x then ⌊x + 1 / 2⌋ else -⌊-x + 1 / 2⌋

/-- The conversion `static_cast<int64_t>` of a `double`: truncation toward zero. -/
def cTrunc (x : ℚ) : Int := if 0 ≤ x then ⌊x⌋ else -⌊-x⌋

/-- The statement `while (cond) body`, run for at most `fuel` iterations. -/
def whileLoop {σ : Type} (cond : σ → Bool) (body : σ → Option σ) : Nat → σ → Option σ
  | 0, s => if cond s then none else some s
  | fuel + 1, s => if cond s then (body s).bind (whileLoop cond body fuel) else some s

/-! ## Precision comparator (`TempoMap.h`) -/

/-- The static `TempoMap::halfASampleLength` after `setSampleRate (sr)`. -/
def halfASampleLength (sr : ℚ) : ℚ := 1 / (sr * 2)

/-- `TempoMap::sampleScaleEquals`. -/
def sampleScaleEquals (sr a b : ℚ) : Bool := decide (|a - b| ≤ halfASampleLength sr)

/-- `TempoMap::sampleScaleLessThan`. -/
def sampleScaleLessThan (sr a b : ℚ) : Bool := decide (a < b) && !sampleScaleEquals sr a b

/-! ## Tick map and its queries (`TempoMap.cpp`) -/

/-- `TempoMap::TickMapElement`. -/
structure TickMapElement where
  startPosition : ℚ
  tickLength : ℚ
  barLength : Nat
  tickOffset : Nat
deriving DecidableEq

/-- The default constructor `TickMapElement()`. -/
instance : Inhabited TickMapElement := ⟨⟨0, 0, 0, 0⟩⟩

/-- Loop of `std::upper_bound (begin, end, TickMapElement (value))` over the range
`[first, first + len)`; `operator<` compares start positions with
`sampleScaleLessThan`. -/
def upperBoundLoop (sr : ℚ) (tickMap : List TickMapElement) (value : ℚ) :
    Nat → Nat → Nat → Nat
  | 0, first, _ => first
  | fuel + 1, first, len =>
    if len = 0 then first
    else
      let half := len / 2
      let mid := first + half
      if sampleScaleLessThan sr value (tickMap.getD mid default).startPosition then
        upperBoundLoop sr tickMap value fuel first half
      else
        upperBoundLoop sr tickMap value fuel (mid + 1) (len - half - 1)

/-- Index returned by `std::upper_bound` on the whole tick map. -/
def upperBound (sr : ℚ) (tickMap : List TickMapElement) (value : ℚ) : Nat :=
  upperBoundLoop sr tickMap value tickMap.length 0 tickMap.length

/-- Index of the covering segment: `upper_bound`, then one step back unless the
iterator is already `begin ()`. -/
def coveringIndex (sr : ℚ) (tickMap : List TickMapElement) (value : ℚ) : Nat :=
  let it := upperBound sr tickMap value
  if it ≠ 0 then it - 1 else it

/-- The covering segment `*it`. -/
def coveringSegment (sr : ℚ) (tickMap : List TickMapElement) (value : ℚ) : TickMapElement :=
  tickMap.getD (coveringIndex sr tickMap value) default

/-- A two-segment map used as a concrete input: 120 BPM, 4/4 from 0 s, 3/4 from 4 s. -/
def exampleTickMap : List TickMapElement := [⟨0, 1 / 48, 96, 0⟩, ⟨4, 1 / 48, 72, 0⟩]

/-- The segment `e` starts at or before the position `pos` for the precision
comparator: `pos` is not sample-scale less than its start. -/
def startsAtOrBefore (sr : ℚ) (e : TickMapElement) (pos : ℚ) : Bool :=
  !sampleScaleLessThan sr pos e.startPosition

/-- `TempoMap::getTickAndBarLengthAtPosition`: `none` is the return value `false`
(the two output references are then left untouched). -/
def getTickAndBarLengthAtPosition (sr : ℚ) (tickMap : List TickMapElement)
    (currentPos : Int) : Option (ℚ × Nat) :=
  if tickMap.isEmpty then none
  else
    let it := coveringSegment sr tickMap ((currentPos : ℚ) / sr)
    some (it.tickLength, it.barLength)

/-- One backward step of the tick scan (`tickPos -= tickLength` and the index
decrement with wrap to `barLength - 1`). -/
def scanBackStep (it : TickMapElement) (s : ℚ × Nat) : ℚ × Nat :=
  (s.1 - it.tickLength, if s.2 = 0 then uintSub it.barLength 1 else s.2 - 1)

/-- One forward step of the tick scan. -/
def scanForwardStep (it : TickMapElement) (s : ℚ × Nat) : ℚ × Nat :=
  (s.1 + it.tickLength, if toUint (s.2 + 1) = it.barLength then 0 else toUint (s.2 + 1))

/-- The two scanning loops of `getNextTickPositionInSamples` on the covering segment
`it`, for the internal query position `currentPosInTime` (delay already
subtracted).  Result: the final `(tickPos, tickIdx)`. -/
def scanTick (fuel : Nat) (sr : ℚ) (it : TickMapElement) (currentPosInTime : ℚ) :
    Option (ℚ × Nat) :=
  if sampleScaleLessThan sr currentPosInTime it.startPosition then
    whileLoop (fun s => sampleScaleLessThan sr currentPosInTime (s.1 - it.tickLength))
      (fun s => some (scanBackStep it s)) fuel (it.startPosition, it.tickOffset)
  else
    whileLoop (fun s => sampleScaleLessThan sr s.1 currentPosInTime)
      (fun s => some (scanForwardStep it s)) fuel (it.startPosition, it.tickOffset)

/-- The tick found for the internal query position, before the delay is added back,
with the flag `lastTickRightBeforeABar`. -/
def findTick (fuel : Nat) (sr : ℚ) (tickMap : List TickMapElement) (currentPosInTime : ℚ) :
    Option (ℚ × Bool) :=
  let it := coveringSegment sr tickMap currentPosInTime
  (scanTick fuel sr it currentPosInTime).map
    (fun s => (s.1, decide (s.2 = uintSub it.barLength 1)))

/-- `TempoMap::getNextTickPositionInSamples`.  `lastTick` is the value the reference
argument holds on entry; it is returned unchanged for an empty map. -/
def getNextTickPositionInSamples (fuel : Nat) (sr : ℚ) (tickMap : List TickMapElement)
    (delay : ℚ) (currentPos : Int) (lastTick : Bool) : Option (Int × Bool) :=
  if tickMap.isEmpty then some (0, lastTick)
  else
    (findTick fuel sr tickMap ((currentPos : ℚ) / sr - delay)).map
      (fun r => (cRound ((r.1 + delay) * sr), r.2))

/-! ## Tick-map builder (`TempoMap::rebuildTickMap`) -/

/-- One tempo entry of the host (`ARAContentTempoEntry`). -/
structure TempoEntry where
  timePosition : ℚ
  quarterPosition : ℚ
deriving DecidableEq

instance : Inhabited TempoEntry := ⟨⟨0, 0⟩⟩

/-- Consecutive tempo entries have strictly increasing time and quarter positions. -/
def StrictlyIncreasing (tempo : List TempoEntry) : Prop :=
  tempo.Chain' (fun a b => a.timePosition < b.timePosition
    ∧ a.quarterPosition < b.quarterPosition)

/-- One bar signature of the host (`ARAContentBarSignature`).  The members `numerator`
and `denominator` are 32-bit `int` values; a host sends a non-negative numerator and a
positive denominator (the division of step 1 is undefined for the denominator 0), and
the types of the two fields admit nothing else. -/
structure BarSignature where
  numerator : Nat
  denominator : ℕ+
  position : ℚ
deriving DecidableEq

/-- The local `struct TimeSigChange`. -/
structure TimeSigChange where
  quarterPosition : Nat
  barLength : Nat
deriving DecidableEq

instance : Inhabited TimeSigChange := ⟨⟨0, 0⟩⟩

/-- The local `struct TempoChange`. -/
structure TempoChange where
  timePosition : ℚ
  tickLength : ℚ
deriving DecidableEq

/-- Variables of the loop of step 1. -/
structure SigState where
  timeSigChanges : List TimeSigChange
  previousQuartersPerBar : Nat
  previousQuarterPos : Nat
deriving DecidableEq

/-- Reduction of an integer to the range of a 32-bit `int` (two's complement): the
value an `int` product takes when it leaves the range. -/
def toInt32 (x : Int) : Int := (x + 2147483648) % 4294967296 - 2147483648

/-- `quartersPerBar` of a bar signature: the product `4 * numerator` is formed as an
`int`, divided by the denominator with the truncating division of `int`, and the
quotient is converted to `uint`; a zero quotient is then clamped to 1. -/
def quartersPerBarOf (b : BarSignature) : Nat :=
  let quartersPerBar :=
    (Int.tdiv (toInt32 (4 * (b.numerator : Int))) ((b.denominator : Nat) : Int)
      % 4294967296).toNat
  if quartersPerBar = 0 then 1 else quartersPerBar

/-- `static_cast<uint> (round (position))`. -/
def roundedQuarterPos (b : BarSignature) : Nat := toUint (cRound b.position).toNat

/-- The quantisation of `quarterPos` to the next bar of the previous signature. -/
def quantizeQuarterPos (previousQuartersPerBar previousQuarterPos quarterPos : Nat) : Nat :=
  if previousQuartersPerBar ≠ 0 then
    let remainder := uintSub quarterPos previousQuarterPos % previousQuartersPerBar
    if remainder ≠ 0 then toUint (quarterPos + (previousQuartersPerBar - remainder))
    else quarterPos
  else quarterPos

/-- Body of the loop of step 1. -/
def sigStep (s : SigState) (b : BarSignature) : SigState :=
  let quartersPerBar := quartersPerBarOf b
  let quarterPos :=
    quantizeQuarterPos s.previousQuartersPerBar s.previousQuarterPos (roundedQuarterPos b)
  { timeSigChanges := s.timeSigChanges ++ [⟨quarterPos, toUint (24 * quartersPerBar)⟩]
    previousQuartersPerBar := quartersPerBar
    previousQuarterPos := quarterPos }

/-- Step 1: the vector `timeSigChanges`. -/
def normalizeTimeSigs (sigs : List BarSignature) : List TimeSigChange :=
  (sigs.foldl sigStep ⟨[], 0, 0⟩).timeSigChanges

/-- The tick length between tempo entries `i` and `i + 1`. -/
def rawTickLength (tempo : List TempoEntry) (i : Nat) : ℚ :=
  (((tempo.getD (i + 1) default).timePosition - (tempo.getD i default).timePosition)
    / ((tempo.getD (i + 1) default).quarterPosition - (tempo.getD i default).quarterPosition))
    / 24

/-- Body of the loop of step 2 for index `i`; the state is `(tempoChanges, nextPosition)`. -/
def tempoStep (fuel : Nat) (sr : ℚ) (tempo : List TempoEntry)
    (s : List TempoChange × ℚ) (i : Nat) : Option (List TempoChange × ℚ) :=
  let tickLength := rawTickLength tempo i
  let currentPosition := s.2
  let tempoChanges := s.1 ++ [⟨currentPosition, tickLength⟩]
  if i = tempo.length - 2 then some (tempoChanges, s.2)
  else
    let nextPosition := (tempo.getD (i + 1) default).timePosition
    (whileLoop (fun lastTickPos => sampleScaleLessThan sr lastTickPos nextPosition)
        (fun lastTickPos => some (lastTickPos + tickLength)) fuel currentPosition).map
      (fun lastTickPos =>
        if !sampleScaleEquals sr lastTickPos nextPosition then
          let nextTickLength := rawTickLength tempo (i + 1)
          let percentOfNextTickLength := (lastTickPos - nextPosition) / tickLength
          let newTickLength :=
            nextTickLength * percentOfNextTickLength + tickLength * (1 - percentOfNextTickLength)
          (tempoChanges ++ [⟨lastTickPos - tickLength, newTickLength⟩],
            lastTickPos - tickLength + newTickLength)
        else (tempoChanges, nextPosition))

/-- Step 2: the vector `tempoChanges`. -/
def normalizeTempo (fuel : Nat) (sr : ℚ) (tempo : List TempoEntry) : Option (List TempoChange) :=
  ((List.range (tempo.length - 1)).foldlM (tempoStep fuel sr tempo)
    ([], (tempo.getD 0 default).timePosition)).map (fun s => s.1)

/-- Variables of steps 3 and 4. -/
structure MergeState where
  tickMap : List TickMapElement
  timeSigChangeIdx : Nat
  tickPos : ℚ
  tickIdx : Nat
  tickOffset : Nat
deriving DecidableEq

/-- `_tickMap.back ()`; the local `lastElt` always holds this value. -/
def lastElt (s : MergeState) : TickMapElement := s.tickMap.getLastD default

/-- Tick index of signature change `k`: `timeSigChanges[k].quarterPosition * 24`. -/
def sigTick (sigs : List TimeSigChange) (k : Nat) : Nat :=
  toUint ((sigs.getD k default).quarterPosition * 24)

/-- The statements `tickPos += lastElt.tickLength; tickIdx++; tickOffset++;` with the
reset of `tickOffset` at `lastElt.barLength`. -/
def advanceTick (s : MergeState) : MergeState :=
  { s with
    tickPos := s.tickPos + (lastElt s).tickLength
    tickIdx := toUint (s.tickIdx + 1)
    tickOffset :=
      if toUint (s.tickOffset + 1) = (lastElt s).barLength then 0 else toUint (s.tickOffset + 1) }

/-- The statements `tickPos += lastElt.tickLength; tickIdx++;` of step 4. -/
def advanceTailTick (s : MergeState) : MergeState :=
  { s with
    tickPos := s.tickPos + (lastElt s).tickLength
    tickIdx := toUint (s.tickIdx + 1) }

/-- Appends the segment of the next signature change at the running tick position
(`timeSigChangeIdx++` and the `push_back` of `newElt`). -/
def pushSigChange (sigs : List TimeSigChange) (s : MergeState) : MergeState :=
  { s with
    timeSigChangeIdx := s.timeSigChangeIdx + 1
    tickMap := s.tickMap ++
      [⟨s.tickPos, (lastElt s).tickLength,
        (sigs.getD (s.timeSigChangeIdx + 1) default).barLength, 0⟩] }

/-- Appends the segment of a tempo change (the end of the body of the loop of step 3):
the signature index moves on when a signature change falls on this very tick. -/
def pushTempoChange (sigs : List TimeSigChange) (tc : TempoChange) (s : MergeState) :
    MergeState :=
  let idx :=
    if s.timeSigChangeIdx + 1 < sigs.length
        ∧ s.tickIdx = sigTick sigs (s.timeSigChangeIdx + 1) then
      s.timeSigChangeIdx + 1
    else s.timeSigChangeIdx
  { s with
    timeSigChangeIdx := idx
    tickMap := s.tickMap ++
      [⟨tc.timePosition, tc.tickLength, (sigs.getD idx default).barLength, s.tickOffset⟩] }

/-- Body of `while (sampleScaleLessThan (tickPos, nextTempoChangePos))` in step 3. -/
def mergeWhileBody (fuel : Nat) (sr : ℚ) (sigs : List TimeSigChange)
    (nextTempoChangePos : ℚ) (s : MergeState) : Option MergeState :=
  if s.timeSigChangeIdx + 1 < sigs.length then
    (whileLoop
        (fun u => sampleScaleLessThan sr u.tickPos nextTempoChangePos
          && decide (u.tickIdx < sigTick sigs (u.timeSigChangeIdx + 1)))
        (fun u => some (advanceTick u)) fuel s).map
      (fun u =>
        if sampleScaleLessThan sr u.tickPos nextTempoChangePos then pushSigChange sigs u
        else u)
  else some (advanceTick s)

/-- Body of the loop of step 3 for one tempo change. -/
def mergeStep (fuel : Nat) (sr : ℚ) (sigs : List TimeSigChange)
    (s : MergeState) (tc : TempoChange) : Option MergeState :=
  (if s.tickMap.isEmpty then some s
    else
      whileLoop (fun u => sampleScaleLessThan sr u.tickPos tc.timePosition)
        (mergeWhileBody fuel sr sigs tc.timePosition) fuel s).map
    (pushTempoChange sigs tc)

/-- Body of the loop of step 4. -/
def tailBody (fuel : Nat) (sigs : List TimeSigChange) (s : MergeState) : Option MergeState :=
  (whileLoop (fun u => decide (u.tickIdx < sigTick sigs (u.timeSigChangeIdx + 1)))
      (fun u => some (advanceTailTick u)) fuel s).map
    (pushSigChange sigs)

/-- Steps 3 and 4 on the normalised vectors. -/
def mergeAll (fuel : Nat) (sr : ℚ) (sigs : List TimeSigChange) (tempoChanges : List TempoChange) :
    Option MergeState :=
  (tempoChanges.foldlM (mergeStep fuel sr sigs) ⟨[], 0, 0, 0, 0⟩).bind
    (whileLoop (fun u => decide (u.timeSigChangeIdx + 1 < sigs.length))
      (tailBody fuel sigs) fuel)

/-- The tick map built from the tempo entries and bar signatures of the host (the body
of the inner `if` of `rebuildTickMap`). -/
def buildTickMap (fuel : Nat) (sr : ℚ) (tempo : List TempoEntry) (sigs : List BarSignature) :
    Option (List TickMapElement) :=
  (normalizeTempo fuel sr tempo).bind
    (fun tempoChanges =>
      (mergeAll fuel sr (normalizeTimeSigs sigs) tempoChanges).map (fun s => s.tickMap))

/-- `TempoMap::rebuildTickMap`: `selected` is the content of the selected musical
context (`none`: no context selected, or a content reader is invalid); `tickMap` is
the map before the call. -/
def rebuildTickMap (fuel : Nat) (sr : ℚ) (selected : Option (List TempoEntry × List BarSignature))
    (tickMap : List TickMapElement) : Option (List TickMapElement) :=
  match selected with
  | none => some tickMap
  | some (tempo, sigs) =>
    if tempo.length > 1 ∧ sigs.length > 0 then buildTickMap fuel sr tempo sigs
    else some tickMap


/-! ## Pulse renderer (`PluginARAPlaybackRenderer.{h,cpp}`) -/

/-- `TICK_HEIGHT`. -/
def tickHeight : ℚ := 35 / 100

/-- `BAR_TICK_HEIGHT`. -/
def barTickHeight : ℚ := 95 / 100

/-- `HIGH_TICK_LENGTH`. -/
def highTickLength : Nat := 26

/-- `LOW_TICK_LENGTH`. -/
def lowTickLength : Nat := 13

/-- The table `highTickSamples` (accent pulse). -/
def highTickSamples : List ℚ :=
  [tickHeight, tickHeight, tickHeight, tickHeight, tickHeight,
   tickHeight, tickHeight, tickHeight, tickHeight, tickHeight,
   tickHeight,
   tickHeight + (1 / 5) * (barTickHeight - tickHeight),
   tickHeight + (2 / 5) * (barTickHeight - tickHeight),
   tickHeight + (3 / 5) * (barTickHeight - tickHeight),
   tickHeight + (4 / 5) * (barTickHeight - tickHeight),
   barTickHeight,
   barTickHeight,
   barTickHeight,
   barTickHeight - (1 / 9) * barTickHeight,
   barTickHeight - (2 / 9) * barTickHeight,
   barTickHeight - (3 / 9) * barTickHeight,
   barTickHeight - (4 / 9) * barTickHeight,
   barTickHeight - (5 / 9) * barTickHeight,
   barTickHeight - (6 / 9) * barTickHeight,
   barTickHeight - (7 / 9) * barTickHeight,
   barTickHeight - (8 / 9) * barTickHeight]

/-- The table `lowTickSamples` (regular pulse). -/
def lowTickSamples : List ℚ :=
  [tickHeight, tickHeight, tickHeight, tickHeight, tickHeight,
   tickHeight, tickHeight, tickHeight, tickHeight, tickHeight,
   tickHeight,
   tickHeight - (1 / 3) * tickHeight,
   tickHeight - (2 / 3) * tickHeight]

/-- The timing members of `MidroAudioSyncPlaybackRenderer`.  The static
`TempoMap::sampleRate` always holds the same value as `sampleRate`. -/
structure Renderer where
  sampleRate : ℚ
  sendSignalAlways : Bool
  missingEndOfLowTick : Nat
  missingEndOfHighTick : Nat
  samplesSinceLastTick : Nat
  minSamplesSinceLastTick : Nat
  maxSamplesSinceLastTick : Nat
  currentTickIndex : Nat
deriving DecidableEq

/-- The renderer as constructed: the default member initialisers. -/
def Renderer.initial : Renderer := ⟨44100, false, 0, 0, 0, 0, 0, 0⟩

/-- `MidroAudioSyncPlaybackRenderer::prepareToPlay`, timing members only; the scratch
buffer `outputData` is reallocated and zeroed. -/
def prepareToPlay (r : Renderer) (sampleRateIn : ℚ) : Renderer :=
  let minSamples := toUint ⌈(6242976651267 / 1000000000000000 : ℚ) * sampleRateIn⌉.toNat
  let maxSamples := toUint ⌊(84602368866328 / 1000000000000000 : ℚ) * sampleRateIn⌋.toNat
  { r with
    sampleRate := sampleRateIn
    missingEndOfLowTick := 0
    missingEndOfHighTick := 0
    minSamplesSinceLastTick := minSamples
    maxSamplesSinceLastTick := maxSamples
    samplesSinceLastTick := minSamples
    currentTickIndex := 0 }

/-- Variables of one call of `processBlock`: the renderer members, the samples written
so far (`outputData[0 .. i)`; the index `i` is the length of `out`, every write being
`outputData[i++] = value`), and the locals `nextTick`, `lastTickRightBeforeABar` and
`nextTickInSeconds`. -/
structure BlockState where
  r : Renderer
  out : List ℚ
  nextTick : Int
  lastTickRightBeforeABar : Bool
  nextTickInSeconds : ℚ
deriving DecidableEq

/-- Body of the loop that emits the owed end of a regular pulse. -/
def emitLowTail (s : BlockState) : BlockState :=
  { s with
    out := s.out ++ [lowTickSamples.getD (uintSub lowTickLength s.r.missingEndOfLowTick) 0]
    r := { s.r with missingEndOfLowTick := s.r.missingEndOfLowTick - 1 } }

/-- Body of the loop that emits the owed end of an accent pulse. -/
def emitHighTail (s : BlockState) : BlockState :=
  { s with
    out := s.out ++ [highTickSamples.getD (uintSub highTickLength s.r.missingEndOfHighTick) 0]
    r := { s.r with missingEndOfHighTick := s.r.missingEndOfHighTick - 1 } }

/-- The statements `outputData[i++] = 0.0f; samplesSinceLastTick++;` (the counter is
below one of its `uint` bounds here, so the increment cannot wrap). -/
def emitSilence (s : BlockState) : BlockState :=
  { s with
    out := s.out ++ [0]
    r := { s.r with samplesSinceLastTick := s.r.samplesSinceLastTick + 1 } }

/-- The accent branch: `currentTickIndex = 0`, the counter restarts at
`HIGH_TICK_LENGTH`, and the part of the waveform that fits in the block is written. -/
def startHighTick (numSamples : Nat) (s : BlockState) : BlockState :=
  let missing :=
    if s.out.length + highTickLength > numSamples then s.out.length + highTickLength - numSamples
    else s.r.missingEndOfHighTick
  { s with
    out := s.out ++ highTickSamples.take (highTickLength - missing)
    r := { s.r with
      currentTickIndex := 0
      samplesSinceLastTick := highTickLength
      missingEndOfHighTick := missing } }

/-- The regular branch: `currentTickIndex++`, the counter restarts at
`LOW_TICK_LENGTH`, and the part of the waveform that fits in the block is written. -/
def startLowTick (numSamples : Nat) (s : BlockState) : BlockState :=
  let missing :=
    if s.out.length + lowTickLength > numSamples then s.out.length + lowTickLength - numSamples
    else s.r.missingEndOfLowTick
  { s with
    out := s.out ++ lowTickSamples.take (lowTickLength - missing)
    r := { s.r with
      currentTickIndex := toUint (s.r.currentTickIndex + 1)
      samplesSinceLastTick := lowTickLength
      missingEndOfLowTick := missing } }

/-- The first statement of the main loop: the next due tick, extrapolated while the
transport is stopped and asked from the tick map while it plays. -/
def nextDueTick (fuel : Nat) (tickMap : List TickMapElement) (delay : ℚ) (isPlaying : Bool)
    (startTimeInSamples : Int) (tickLength : ℚ) (barLength : Nat) (s : BlockState) :
    Option BlockState :=
  if !isPlaying then
    some { s with
      nextTickInSeconds := s.nextTickInSeconds + tickLength
      nextTick := cTrunc ((s.nextTickInSeconds + tickLength) * s.r.sampleRate)
      lastTickRightBeforeABar := decide (uintSub barLength 1 ≤ s.r.currentTickIndex) }
  else
    (getNextTickPositionInSamples fuel s.r.sampleRate tickMap delay
        (startTimeInSamples + s.out.length) s.lastTickRightBeforeABar).map
      (fun q => { s with nextTick := q.1 - startTimeInSamples, lastTickRightBeforeABar := q.2 })

/-- The `if (i < numSamples)` statement that ends the body of the main loop. -/
def tickOrSilence (numSamples : Nat) (s : BlockState) : BlockState :=
  if s.out.length < numSamples then
    if s.r.samplesSinceLastTick < s.r.minSamplesSinceLastTick then emitSilence s
    else if s.lastTickRightBeforeABar then startHighTick numSamples s
    else startLowTick numSamples s
  else s

/-- Body of the main loop `while (i < numSamples)`. -/
def mainBody (fuel : Nat) (tickMap : List TickMapElement) (delay : ℚ) (isPlaying : Bool)
    (startTimeInSamples : Int) (tickLength : ℚ) (barLength : Nat) (numSamples : Nat)
    (s : BlockState) : Option BlockState :=
  (nextDueTick fuel tickMap delay isPlaying startTimeInSamples tickLength barLength s).bind
    (fun s1 =>
      (whileLoop
          (fun u => decide (u.out.length < numSamples)
            && decide ((u.out.length : Int) < u.nextTick)
            && decide (u.r.samplesSinceLastTick < u.r.maxSamplesSinceLastTick))
          (fun u => some (emitSilence u)) fuel s1).map
        (tickOrSilence numSamples))

/-- `MidroAudioSyncPlaybackRenderer::processBlock`: the renderer after the call and
the `numSamples` samples copied to every output channel. -/
def processBlock (fuel : Nat) (tickMap : List TickMapElement) (delay : ℚ) (r : Renderer)
    (numSamples : Nat) (startTimeInSamples : Int) (isPlaying : Bool) :
    Option (Renderer × List ℚ) :=
  if !isPlaying && !r.sendSignalAlways then some (r, List.replicate numSamples 0)
  else
    let tb := (getTickAndBarLengthAtPosition r.sampleRate tickMap startTimeInSamples).getD (0, 0)
    let s0 : BlockState :=
      ⟨r, [], 0, false, -((r.samplesSinceLastTick : ℚ) / r.sampleRate)⟩
    ((whileLoop
        (fun u => decide (u.out.length < numSamples) && decide (0 < u.r.missingEndOfLowTick))
        (fun u => some (emitLowTail u)) fuel s0).bind
      (fun s1 =>
        (whileLoop
            (fun u => decide (u.out.length < numSamples)
              && decide (0 < u.r.missingEndOfHighTick))
            (fun u => some (emitHighTail u)) fuel s1).bind
          (fun s2 =>
            whileLoop (fun u => decide (u.out.length < numSamples))
              (mainBody fuel tickMap delay isPlaying startTimeInSamples tb.1 tb.2 numSamples)
              fuel s2))).map
      (fun s => (s.r, s.out))

/-- One render call of a session: block size, transport position, transport state and
the always-on flag in force during the call. -/
structure RenderCall where
  numSamples : Nat
  startTimeInSamples : Int
  isPlaying : Bool
  sendSignalAlways : Bool
deriving DecidableEq

/-- A sequence of render calls on one renderer; the result is the final renderer and
the concatenation of the rendered blocks. -/
def renderCalls (fuel : Nat) (tickMap : List TickMapElement) (delay : ℚ) :
    Renderer → List RenderCall → Option (Renderer × List ℚ)
  | r, [] => some (r, [])
  | r, c :: cs =>
    (processBlock fuel tickMap delay { r with sendSignalAlways := c.sendSignalAlways }
        c.numSamples c.startTimeInSamples c.isPlaying).bind
      (fun p => (renderCalls fuel tickMap delay p.1 cs).map (fun q => (q.1, p.2 ++ q.2)))

/-- Contiguous playing blocks of the given sizes, the first starting at sample
`start`. -/
def playingBlocks : Int → List Nat → List RenderCall
  | _, [] => []
  | start, n :: ns => ⟨n, start, true, false⟩ :: playingBlocks (start + n) ns

/-- Two render calls used as a concrete input: 100 and 220 contiguous playing samples. -/
def exampleCalls : List RenderCall := [⟨100, 0, true, false⟩, ⟨220, 100, true, true⟩]

/-- The stream rendered by `exampleCalls` at 44100 Hz on a map with a tick every 44.1
samples: a regular pulse at sample 0 and the first 11 samples of an accent pulse at
sample 309. -/
def exampleStream : List ℚ :=
  lowTickSamples ++ List.replicate 296 0 ++ highTickSamples.take 11

/-- Indices at which a pulse starts in a rendered stream: a non-zero sample that is
the first of the stream or follows a zero sample. -/
def pulseStarts (stream : List ℚ) : List Nat :=
  (List.range stream.length).filter
    (fun j => decide (stream.getD j 0 ≠ 0) && (decide (j = 0) || decide (stream.getD (j - 1) 0 = 0)))

/-- The pulse train of a single tempo with `n` samples per tick and bar length `B`, as
the specification describes it (compared with the rendered stream, not used by the
renderer): sample `j` belongs to tick `j / n`, which is the accent waveform when
`(j / n) mod B = B - 1` and the regular waveform otherwise; beyond the waveform the
sample is 0. -/
def pulseTrain (n B j : Nat) : ℚ :=
  if (j / n) % B = B - 1 then highTickSamples.getD (j % n) 0 else lowTickSamples.getD (j % n) 0

/-! ## Predicates used in the statements -/

/-- Adjacent segments start in strictly ascending order for the precision comparator. -/
def AscendingStarts (sr : ℚ) (tickMap : List TickMapElement) : Prop :=
  tickMap.Chain' (fun a b => sampleScaleLessThan sr a.startPosition b.startPosition = true)

/-- The running tick index has not reached the next signature change yet. -/
def BeforeNextSig (sigs : List TimeSigChange) (u : MergeState) : Prop :=
  u.timeSigChangeIdx + 1 < sigs.length → u.tickIdx < sigTick sigs (u.timeSigChangeIdx + 1)

/-- State of the merge walk while the map is ordered: the map is non-empty and
ascending, the running tick position is not sample-scale before the last segment, the
tick length in force exceeds one sample, and the running tick index is at most the
tick index of the next signature change, which it can only equal after the walk has
moved past the start of the last segment. -/
def MergeOrdered (sr : ℚ) (sigs : List TimeSigChange) (u : MergeState) : Prop :=
  AscendingStarts sr u.tickMap
  ∧ u.tickMap ≠ []
  ∧ (lastElt u).startPosition ≤ u.tickPos + halfASampleLength sr
  ∧ 2 * halfASampleLength sr < (lastElt u).tickLength
  ∧ (u.timeSigChangeIdx + 1 < sigs.length →
      u.tickIdx ≤ sigTick sigs (u.timeSigChangeIdx + 1)
      ∧ (u.tickIdx < sigTick sigs (u.timeSigChangeIdx + 1)
        ∨ (lastElt u).startPosition + halfASampleLength sr < u.tickPos))

/-- The stream ends in silence: it is empty or its last sample is 0. -/
def endsSilent (stream : List ℚ) : Bool :=
  decide (stream.length = 0) || decide (stream.getD (stream.length - 1) 0 = 0)

/-- Relation between the stream rendered so far and the renderer: consecutive pulse
starts are between `minS` and `maxS` samples apart, and, with `age` the number of
samples since the start of the last pulse (a number of at least `minS` when no pulse
has started yet) and `len` the length of its waveform, the counter is
`max age len`, the owed waveform end is `len - age`, and the stream ends in silence
exactly when the waveform is complete and followed by silence. -/
def SpacedStream (minS maxS : Nat) (stream : List ℚ) (r : Renderer) : Prop :=
  r.minSamplesSinceLastTick = minS ∧ r.maxSamplesSinceLastTick = maxS
  ∧ (pulseStarts stream).Chain' (fun a b => a + minS ≤ b ∧ b ≤ a + maxS)
  ∧ ∃ age len : Nat, (len = lowTickLength ∨ len = highTickLength) ∧ 1 ≤ age
    ∧ ((pulseStarts stream = [] ∧ minS ≤ age)
      ∨ (∃ p ∈ (pulseStarts stream).getLast?, p + age = stream.length))
    ∧ r.samplesSinceLastTick = max age len ∧ r.samplesSinceLastTick ≤ maxS
    ∧ r.missingEndOfLowTick = (if len = lowTickLength then len - age else 0)
    ∧ r.missingEndOfHighTick = (if len = highTickLength then len - age else 0)
    ∧ (endsSilent stream = true ↔ len < age)

/-- Relation between the sample position `p` in the pulse train of `n` samples per
tick with bar length `B` and the renderer: at position 0 the renderer is as prepared;
otherwise, with `k` the last tick started before `p` and `a` the number of samples
since its start, the owed waveform end and the counter are those of a pulse of tick
`k` of which `a` samples have passed. -/
def TrainState (sr : ℚ) (minS maxS n B p : Nat) (r : Renderer) : Prop :=
  r.sampleRate = sr ∧ r.minSamplesSinceLastTick = minS ∧ r.maxSamplesSinceLastTick = maxS
  ∧ ((p = 0 ∧ r.missingEndOfLowTick = 0 ∧ r.missingEndOfHighTick = 0
      ∧ r.samplesSinceLastTick = minS)
    ∨ ∃ k a, p = k * n + a ∧ 1 ≤ a ∧ a ≤ n
        ∧ ((k % B = B - 1 ∧ r.missingEndOfHighTick = highTickLength - a
            ∧ r.missingEndOfLowTick = 0 ∧ r.samplesSinceLastTick = max a highTickLength)
          ∨ (k % B ≠ B - 1 ∧ r.missingEndOfLowTick = lowTickLength - a
            ∧ r.missingEndOfHighTick = 0 ∧ r.samplesSinceLastTick = max a lowTickLength)))

/-- State of a playing block that starts at sample `p` of the pulse train: the samples
written so far are those of the train, and the renderer is in the state of the train at
the current position. -/
def TrainBlock (sr : ℚ) (minS maxS n B p numSamples : Nat) (u : BlockState) : Prop :=
  u.out = (List.range u.out.length).map (fun j => pulseTrain n B (p + j))
  ∧ u.out.length ≤ numSamples
  ∧ TrainState sr minS maxS n B (p + u.out.length) u.r

/-- The 64 samples rendered at 1000 Hz on a map with a tick every 20 samples and bars of
2 ticks: a regular pulse at sample 0, an accent pulse at sample 20, nothing at sample 40
and the first 4 samples of an accent pulse at sample 60. -/
def shortTickStream : List ℚ :=
  lowTickSamples ++ List.replicate 7 0 ++ highTickSamples ++ List.replicate 14 0
    ++ highTickSamples.take 4

/-- The value `tickPos + _delay` of `getNextTickPositionInSamples` (the tick time in
seconds, before the conversion to samples) with the bar flag, for a position in time
`posInTime` as it stands before the delay is subtracted from it. -/
def delayedTick (fuel : Nat) (sr : ℚ) (tickMap : List TickMapElement) (delay : ℚ)
    (posInTime : ℚ) : Option (ℚ × Bool) :=
  (findTick fuel sr tickMap (posInTime - delay)).map (fun r => (r.1 + delay, r.2))

/-- The tempo change `b` starts, within half a sample, on a tick of the grid of the
tempo change `a`: at `a.timePosition` plus an integer number of `a.tickLength`. -/
def StartsOnGridOf (sr : ℚ) (a b : TempoChange) : Prop :=
  ∃ m : ℤ, sampleScaleEquals sr b.timePosition (a.timePosition + m * a.tickLength) = true

/-- The 480 samples rendered at 44100 Hz while playing a map with a tick every 441
samples and bars of 2 ticks: a regular pulse at sample 0 and an accent pulse at sample
441. -/
def accentStream : List ℚ :=
  lowTickSamples ++ List.replicate 428 0 ++ highTickSamples ++ List.replicate 13 0

/-- Two render calls with the transport stopped at position 0 and always-on enabled:
170 and 450 samples. -/
def stoppedCalls : List RenderCall := [⟨170, 0, false, true⟩, ⟨450, 0, false, true⟩]

/-- The stream rendered by `stoppedCalls` at 44100 Hz on a map with a tick every 441
samples: regular pulses at samples 165 and 598. -/
def stoppedStream : List ℚ :=
  List.replicate 165 0 ++ lowTickSamples ++ List.replicate 420 0 ++ lowTickSamples
    ++ List.replicate 9 0

/-! ## Scratch buffer, persisted state and timeline selection -/

/-- The loop `for (i = 0; i < maximumSamplesPerBlock; i++) outputData[i] = 0.0f` of
`prepareToPlay`, run on the freshly allocated buffer `outputData` (whose content is
arbitrary). -/
def zeroOutputData (outputData : List ℚ) : List ℚ :=
  (List.range outputData.length).foldl (fun buf i => buf.set i 0) outputData

/-- The two values that `getStateInformation` saves and `setStateInformation` restores:
the 64-bit pattern of the `double` held by `TempoMap::_delay` and the flag
`sendSignalAlways` of the renderer. -/
structure ControlState where
  delayBits : Nat
  sendSignalAlways : Bool
deriving DecidableEq

/-- The store `*((double*)data) = value`: the 8 bytes of the bit pattern, in the byte
order of the host. -/
def storeDouble (bigEndian : Bool) (bits : Nat) : List Nat :=
  let le := (List.range 8).map (fun i => bits / 256 ^ i % 256)
  if bigEndian then le.reverse else le

/-- The load `*((double*)data)`: the bit pattern held by the first 8 bytes. -/
def loadDouble (bigEndian : Bool) (data : List Nat) : Nat :=
  let le := if bigEndian then (data.take 8).reverse else data.take 8
  (List.range 8).foldl (fun acc i => acc + le.getD i 0 % 256 * 256 ^ i) 0

/-- `MidroAudioSyncAudioProcessor::getStateInformation`: the content of `destData`
after the call.  `renderer` is `none` when the processor is not bound to ARA or has no
playback renderer of the expected class; the block is then left as it was. -/
def getStateInformation (bigEndian : Bool) (renderer : Option ControlState)
    (destData : List Nat) : List Nat :=
  match renderer with
  | none => destData
  | some r => storeDouble bigEndian r.delayBits ++ [if r.sendSignalAlways then 1 else 0]

/-- `MidroAudioSyncAudioProcessor::setStateInformation` on a block of
`sizeInBytes = data.length` bytes: the two values of the renderer after the call. -/
def setStateInformation (bigEndian : Bool) (renderer : Option ControlState)
    (data : List Nat) : Option ControlState :=
  match renderer with
  | none => none
  | some r =>
    if data.length < 8 + 1 then some r
    else some ⟨loadDouble bigEndian data, decide (data.getD 8 0 % 256 ≠ 0)⟩

/-- The members of `TempoMap` that the listener callbacks change: the selected musical
context (an identifier, `none` for `nullptr`) and the tick map. -/
structure TempoMapState where
  selectedMusicalContext : Option Nat
  tickMap : List TickMapElement
deriving DecidableEq

/-- `TempoMap::selectMusicalContext`; `content` gives the tempo entries and bar
signatures the host serves for a musical context (`none` when a content reader is
invalid). -/
def selectMusicalContext (fuel : Nat) (sr : ℚ)
    (content : Nat → Option (List TempoEntry × List BarSignature))
    (newSelectedMusicalContext : Option Nat) (t : TempoMapState) : Option TempoMapState :=
  (rebuildTickMap fuel sr (newSelectedMusicalContext.bind content) t.tickMap).map
    (fun m => ⟨newSelectedMusicalContext, m⟩)

/-- `TempoMap::willDestroyMusicalContext`. -/
def willDestroyMusicalContext (fuel : Nat) (sr : ℚ)
    (content : Nat → Option (List TempoEntry × List BarSignature))
    (musicalContext : Nat) (t : TempoMapState) : Option TempoMapState :=
  if t.selectedMusicalContext = some musicalContext then
    selectMusicalContext fuel sr content none t
  else some t

/-- The segment expected for the signature change `c` on a timeline with a single
tempo of tick length `L` that starts at time 0: it starts `24 * quarterPosition` ticks
after time 0. -/
def tailSegment (L : ℚ) (c : TimeSigChange) : TickMapElement :=
  ⟨((c.quarterPosition * 24 : Nat) : ℚ) * L, L, c.barLength, 0⟩

/-- The variables of step 4 expected once the segments of the signature changes
`0 .. k` are in the map, on a timeline with a single tempo of tick length `L`. -/
def tailState (sigs : List TimeSigChange) (L : ℚ) (k : Nat) : MergeState :=
  ⟨(sigs.take (k + 1)).map (tailSegment L), k,
    (((sigs.getD k default).quarterPosition * 24 : Nat) : ℚ) * L,
    (sigs.getD k default).quarterPosition * 24, 0⟩

/-- Four tempo entries used as a concrete input: 120 BPM from 0 s, 240 BPM from
`1 + 1/147000` s and 120 BPM from `3/2 + 2/147000` s (until `5/2 + 2/147000` s).  The
second and third entries lie 0.6 of half a sample (at 44100 Hz) after a tick of the
tempo before them, and the tempo changes are half a second apart. -/
def driftTempo : List TempoEntry :=
  [⟨0, 0⟩, ⟨147001 / 147000, 147001 / 73500⟩, ⟨110251 / 73500, 98001 / 24500⟩,
    ⟨183751 / 73500, 147001 / 24500⟩]

/-! ## Segment ordering, stopped sessions and owed waveform ends -/

/-- The friend `operator<` of `TickMapElement`: segments are compared by start position
with the precision comparator. -/
def TickMapElement.lt (sr : ℚ) (elt1 elt2 : TickMapElement) : Bool :=
  sampleScaleLessThan sr elt1.startPosition elt2.startPosition

/-- Render calls of the given sizes with the transport stopped at the frozen position
`pos` and always-on enabled. -/
def stoppedBlocks (pos : Int) (sizes : List Nat) : List RenderCall :=
  sizes.map (fun n => ⟨n, pos, false, true⟩)

/-- The samples of started waveforms that the renderer still has to write: the last
`missingEndOfLowTick` samples of the regular waveform, then the last
`missingEndOfHighTick` samples of the accent waveform (the order of the two loops at
the head of `processBlock`). -/
def owedSamples (r : Renderer) : List ℚ :=
  lowTickSamples.drop (lowTickLength - r.missingEndOfLowTick)
    ++ highTickSamples.drop (highTickLength - r.missingEndOfHighTick)

/-- A stream of complete pulses with bar length `B`, as the accent cadence is described
(compared with the rendered stream, not used by the renderer): pulse number `j`,
counted from the first argument, follows `gaps[j]` silent samples and is the accent
waveform when `j mod B = B - 1` and the regular waveform otherwise. -/
def cadenceStream (B : Nat) : Nat → List Nat → List ℚ
  | _, [] => []
  | j, g :: gs =>
    List.replicate g 0 ++ (if j % B = B - 1 then highTickSamples else lowTickSamples)
      ++ cadenceStream B (j + 1) gs

/-- A one-segment map used as a concrete input: a tick every 441 samples at 44100 Hz
and bars of 96 ticks, from 0 s. -/
def hundredTickMap : List TickMapElement := [⟨0, 1 / 100, 96, 0⟩]

/-- Relation between the stream rendered so far and the renderer in a stopped session
with bar length `B`: the stream, completed by the owed waveform end, is a cadence
stream of complete pulses followed by `z` silent samples (none while a waveform end is
owed), and the sub-beat index is the number of pulses modulo `B`. -/
def CadenceState (sr : ℚ) (B : Nat) (stream : List ℚ) (r : Renderer) : Prop :=
  r.sampleRate = sr ∧ r.missingEndOfLowTick ≤ lowTickLength
  ∧ r.missingEndOfHighTick ≤ highTickLength
  ∧ ∃ (gaps : List Nat) (z : Nat),
      stream ++ owedSamples r = cadenceStream B 0 gaps ++ List.replicate z 0
      ∧ ((r.missingEndOfLowTick = 0 ∧ r.missingEndOfHighTick = 0) ∨ z = 0)
      ∧ r.currentTickIndex = gaps.length % B

/-- The bar signatures lie on bar boundaries: every position is non-negative, the `int`
product `4 * numerator` and the `uint` product `24 * position` stay in range, and, with
the positions rounded to whole quarters, each signature starts a positive whole number
of bars of the signature before it after that signature. -/
def OnBarBoundaries (sigs : List BarSignature) : Prop :=
  (∀ b ∈ sigs, 0 ≤ b.position ∧ 4 * b.numerator < 2147483648
    ∧ 24 * (cRound b.position).toNat < uintModulus)
  ∧ sigs.Chain' (fun a b => (cRound a.position).toNat < (cRound b.position).toNat
      ∧ ((cRound b.position).toNat - (cRound a.position).toNat)
          % max 1 (4 * a.numerator / (a.denominator : Nat)) = 0)

/-! ## General facts on loops -/

section Loops

variable {σ : Type}

theorem whileLoop_done {cond : σ → Bool} {body : σ → Option σ} {s : σ}
    (h : cond s = false) (n : Nat) : whileLoop cond body n s = some s := by
  cases n <;> simp [whileLoop, h]

theorem whileLoop_succ {cond : σ → Bool} {body : σ → Option σ} {s : σ}
    (h : cond s = true) (n : Nat) :
    whileLoop cond body (n + 1) s = (body s).bind (whileLoop cond body n) := by
  simp [whileLoop, h]

/-- Partial correctness of a loop: an invariant kept by the body holds at exit,
together with the negated condition. -/
theorem whileLoop_invariant {cond : σ → Bool} {body : σ → Option σ} (inv : σ → Prop)
    (hstep : ∀ s s', inv s → cond s = true → body s = some s' → inv s') :
    ∀ (n : Nat) (s r : σ), inv s → whileLoop cond body n s = some r →
      inv r ∧ cond r = false := by
  intro n
  induction n with
  | zero =>
    intro s r hs h
    by_cases hc : cond s = true
    · simp [whileLoop, hc] at h
    · simp only [Bool.not_eq_true] at hc
      simp [whileLoop, hc] at h
      subst h
      exact ⟨hs, hc⟩
  | succ n ih =>
    intro s r hs h
    by_cases hc : cond s = true
    · rw [whileLoop_succ hc] at h
      cases hb : body s with
      | none => simp [hb] at h
      | some s' =>
        rw [hb] at h
        exact ih s' r (hstep s s' hs hc hb) h
    · simp only [Bool.not_eq_true] at hc
      rw [whileLoop_done hc] at h
      cases h
      exact ⟨hs, hc⟩

/-- Total correctness of a loop whose body may itself depend on the fuel: if every
iteration from a state satisfying the invariant finishes for all large fuels, keeps
the invariant and decreases the measure, the loop finishes for all large fuels. -/
theorem whileLoop_total (cond : σ → Bool) (body : Nat → σ → Option σ) (inv : σ → Prop)
    (μ : σ → Nat)
    (hstep : ∀ s, inv s → cond s = true →
      ∃ N s', (∀ n, N ≤ n → body n s = some s') ∧ inv s' ∧ μ s' < μ s) :
    ∀ s, inv s →
      ∃ N r, (∀ n m, N ≤ n → N ≤ m → whileLoop cond (body n) m s = some r)
        ∧ inv r ∧ cond r = false := by
  have key : ∀ k s, μ s = k → inv s →
      ∃ N r, (∀ n m, N ≤ n → N ≤ m → whileLoop cond (body n) m s = some r)
        ∧ inv r ∧ cond r = false := by
    intro k
    induction k using Nat.strong_induction_on with
    | _ k ih =>
      intro s h hs
      by_cases hc : cond s = true
      · obtain ⟨N1, s', hb, hs', hlt⟩ := hstep s hs hc
        obtain ⟨N2, r, hr, hinv, hcr⟩ := ih (μ s') (h ▸ hlt) s' rfl hs'
        refine ⟨max N1 N2 + 1, r, ?_, hinv, hcr⟩
        intro n m hn hm
        obtain ⟨m', rfl⟩ : ∃ m', m = m' + 1 := ⟨m - 1, by omega⟩
        rw [whileLoop_succ hc, hb n (by omega)]
        exact hr n m' (by omega) (by omega)
      · simp only [Bool.not_eq_true] at hc
        exact ⟨0, s, fun n m _ _ => whileLoop_done hc m, hs, hc⟩
  intro s hs
  exact key (μ s) s rfl hs

/-- Total correctness of a loop with a fuel-independent body. -/
theorem whileLoop_total_simple (cond : σ → Bool) (body : σ → σ) (inv : σ → Prop)
    (μ : σ → Nat)
    (hstep : ∀ s, inv s → cond s = true → inv (body s) ∧ μ (body s) < μ s) :
    ∀ s, inv s →
      ∃ N r, (∀ m, N ≤ m → whileLoop cond (fun u => some (body u)) m s = some r)
        ∧ inv r ∧ cond r = false := by
  intro s hs
  obtain ⟨N, r, h, hr⟩ := whileLoop_total cond (fun _ u => some (body u)) inv μ
    (fun s hs hc => ⟨0, body s, fun _ _ => rfl, hstep s hs hc⟩) s hs
  exact ⟨N, r, fun m hm => h N m le_rfl hm, hr⟩

/-- Total correctness of a `for` loop over a list whose body depends on the fuel. -/
theorem foldlM_total {α : Type} (step : Nat → σ → α → Option σ) (inv : σ → Prop)
    (hstep : ∀ s a, inv s → ∃ N s', (∀ n, N ≤ n → step n s a = some s') ∧ inv s') :
    ∀ (l : List α) (s : σ), inv s →
      ∃ N r, (∀ n, N ≤ n → l.foldlM (step n) s = some r) ∧ inv r := by
  intro l
  induction l with
  | nil => intro s hs; exact ⟨0, s, fun _ _ => rfl, hs⟩
  | cons a l ih =>
    intro s hs
    obtain ⟨N1, s', hb, hs'⟩ := hstep s a hs
    obtain ⟨N2, r, hr, hinv⟩ := ih s' hs'
    refine ⟨max N1 N2, r, ?_, hinv⟩
    intro n hn
    simp only [List.foldlM_cons]
    rw [hb n (by omega)]
    exact hr n (by omega)

/-- Partial correctness of a `for` loop over a list. -/
theorem foldlM_invariant {α : Type} (step : σ → α → Option σ) (inv : σ → Prop)
    (hstep : ∀ s a s', inv s → step s a = some s' → inv s') :
    ∀ (l : List α) (s r : σ), inv s → l.foldlM step s = some r → inv r := by
  intro l
  induction l with
  | nil => intro s r hs h; simp at h; subst h; exact hs
  | cons a l ih =>
    intro s r hs h
    simp only [List.foldlM_cons] at h
    cases hb : step s a with
    | none => simp [hb] at h
    | some s' =>
      rw [hb] at h
      exact ih s' r (hstep s a s' hs hb) h

end Loops

/-! ## Facts on the precision comparator -/

theorem halfASampleLength_pos {sr : ℚ} (hsr : 0 < sr) : 0 < halfASampleLength sr := by
  unfold halfASampleLength; positivity

theorem sampleScaleEquals_iff (sr a b : ℚ) :
    sampleScaleEquals sr a b = true ↔ |a - b| ≤ halfASampleLength sr := by
  simp [sampleScaleEquals]

theorem sampleScaleLessThan_iff {sr : ℚ} (hsr : 0 < sr) (a b : ℚ) :
    sampleScaleLessThan sr a b = true ↔ a + halfASampleLength sr < b := by
  have he := halfASampleLength_pos hsr
  simp only [sampleScaleLessThan, sampleScaleEquals, Bool.and_eq_true, decide_eq_true_eq,
    Bool.not_eq_true', decide_eq_false_iff_not, not_le]
  constructor
  · rintro ⟨hab, h⟩
    rw [abs_sub_comm, abs_of_pos (by linarith)] at h
    linarith
  · intro h
    refine ⟨by linarith, ?_⟩
    rw [abs_sub_comm, abs_of_pos (by linarith)]
    linarith

theorem sampleScaleLessThan_eq_false_iff {sr : ℚ} (hsr : 0 < sr) (a b : ℚ) :
    sampleScaleLessThan sr a b = false ↔ b ≤ a + halfASampleLength sr := by
  rw [← not_lt, ← sampleScaleLessThan_iff hsr, Bool.not_eq_true]


theorem foldlM_invariant_mem {σ α : Type} (step : σ → α → Option σ) (inv : σ → Prop)
    (l : List α) (hstep : ∀ s a s', a ∈ l → inv s → step s a = some s' → inv s') :
    ∀ (s r : σ), inv s → l.foldlM step s = some r → inv r := by
  induction l with
  | nil => intro s r hs h; simp at h; subst h; exact hs
  | cons a l ih =>
    intro s r hs h
    simp only [List.foldlM_cons] at h
    cases hb : step s a with
    | none => simp [hb] at h
    | some s' =>
      rw [hb] at h
      exact ih (fun s a s' ha => hstep s a s' (List.mem_cons_of_mem _ ha)) s' r
        (hstep s a s' (List.mem_cons_self _ _) hs hb) h


theorem foldlM_total_mem {σ α : Type} (step : Nat → σ → α → Option σ) (inv : σ → Prop)
    (l : List α)
    (hstep : ∀ s a, a ∈ l → inv s → ∃ N s', (∀ n, N ≤ n → step n s a = some s') ∧ inv s') :
    ∀ (s : σ), inv s →
      ∃ N r, (∀ n, N ≤ n → l.foldlM (step n) s = some r) ∧ inv r := by
  induction l with
  | nil => intro s hs; exact ⟨0, s, fun _ _ => rfl, hs⟩
  | cons a l ih =>
    intro s hs
    obtain ⟨N1, s', hb, hs'⟩ := hstep s a (List.mem_cons_self _ _) hs
    obtain ⟨N2, r, hr, hinv⟩ :=
      ih (fun s a ha => hstep s a (List.mem_cons_of_mem _ ha)) s' hs'
    refine ⟨max N1 N2, r, ?_, hinv⟩
    intro n hn
    simp only [List.foldlM_cons]
    rw [hb n (by omega)]
    exact hr n (by omega)

/-- Total correctness of `for (i = 0; i < n; i++)` with an invariant indexed by `i`. -/
theorem range_foldlM_total {σ : Type} (step : Nat → σ → Nat → Option σ)
    (inv : Nat → σ → Prop) (s0 : σ) (h0 : inv 0 s0) :
    ∀ (n : Nat),
      (∀ i s, i < n → inv i s → ∃ N s', (∀ m, N ≤ m → step m s i = some s') ∧ inv (i + 1) s') →
      ∃ N r, (∀ m, N ≤ m → (List.range n).foldlM (step m) s0 = some r) ∧ inv n r := by
  intro n
  induction n with
  | zero => intro _; exact ⟨0, s0, fun _ _ => rfl, h0⟩
  | succ n ih =>
    intro hstep
    obtain ⟨N1, r1, hr1, hinv1⟩ := ih (fun i s hi => hstep i s (by omega))
    obtain ⟨N2, r2, hr2, hinv2⟩ := hstep n r1 (by omega) hinv1
    refine ⟨max N1 N2, r2, ?_, hinv2⟩
    intro m hm
    rw [List.range_succ, List.foldlM_append, hr1 m (by omega)]
    simp [hr2 m (by omega)]


/-- A loop that finishes within some fuel finishes, with the same result, within any
larger fuel (also when the body is replaced by one that extends it). -/
theorem whileLoop_mono {σ : Type} {cond : σ → Bool} {b b' : σ → Option σ}
    (hb : ∀ s r, b s = some r → b' s = some r) :
    ∀ (n m : Nat) (s r : σ), n ≤ m → whileLoop cond b n s = some r →
      whileLoop cond b' m s = some r := by
  intro n
  induction n with
  | zero =>
    intro m s r _ h
    by_cases hc : cond s = true
    · simp [whileLoop, hc] at h
    · simp only [Bool.not_eq_true] at hc
      rw [whileLoop_done hc] at h
      rw [whileLoop_done hc]
      exact h
  | succ n ih =>
    intro m s r hnm h
    by_cases hc : cond s = true
    · obtain ⟨m', rfl⟩ : ∃ m', m = m' + 1 := ⟨m - 1, by omega⟩
      rw [whileLoop_succ hc] at h
      rw [whileLoop_succ hc]
      cases hbs : b s with
      | none => simp [hbs] at h
      | some s' =>
        rw [hbs] at h
        rw [hb s s' hbs]
        exact ih m' s' r (by omega) h
    · simp only [Bool.not_eq_true] at hc
      rw [whileLoop_done hc] at h
      rw [whileLoop_done hc]
      exact h

theorem foldlM_mono {σ α : Type} {f g : σ → α → Option σ}
    (hfg : ∀ s a r, f s a = some r → g s a = some r) :
    ∀ (l : List α) (s r : σ), l.foldlM f s = some r → l.foldlM g s = some r := by
  intro l
  induction l with
  | nil => intro s r h; exact h
  | cons a l ih =>
    intro s r h
    simp only [List.foldlM_cons] at h ⊢
    cases hfs : f s a with
    | none => simp [hfs] at h
    | some s' =>
      rw [hfs] at h
      rw [hfg s a s' hfs]
      exact ih s' r h


/-! ## `upper_bound` and `getTickAndBarLengthAtPosition` -/

/-- `value < element` of `operator<` is kept when the element's start moves later. -/
theorem sampleScaleLessThan_mono_right (sr : ℚ) {v x y : ℚ} (hxy : x ≤ y)
    (h : sampleScaleLessThan sr v x = true) : sampleScaleLessThan sr v y = true := by
  simp only [sampleScaleLessThan, sampleScaleEquals, Bool.and_eq_true, decide_eq_true_eq,
    Bool.not_eq_true', decide_eq_false_iff_not, not_le] at h ⊢
  obtain ⟨hvx, h⟩ := h
  refine ⟨lt_of_lt_of_le hvx hxy, ?_⟩
  rw [abs_sub_comm, abs_of_pos (by linarith)] at h
  rw [abs_sub_comm, abs_of_pos (by linarith)]
  linarith

theorem pairwise_getD_le {tickMap : List TickMapElement}
    (hs : tickMap.Pairwise (fun a b => a.startPosition ≤ b.startPosition))
    {i j : Nat} (hij : i ≤ j) (hj : j < tickMap.length) :
    (tickMap.getD i default).startPosition ≤ (tickMap.getD j default).startPosition := by
  rcases Nat.eq_or_lt_of_le hij with h | h
  · subst h; exact le_rfl
  · have hi : i < tickMap.length := lt_trans h hj
    rw [List.getD_eq_getElem _ _ hi, List.getD_eq_getElem _ _ hj]
    exact List.pairwise_iff_getElem.mp hs i j hi hj h

/-- The halving search returns the partition point of `value < element` on a map
ordered by start position. -/
theorem upperBoundLoop_spec (sr : ℚ) (tickMap : List TickMapElement) (value : ℚ)
    (hs : tickMap.Pairwise (fun a b => a.startPosition ≤ b.startPosition)) :
    ∀ (fuel first len : Nat), len ≤ fuel → first + len ≤ tickMap.length →
      (∀ j, j < first → sampleScaleLessThan sr value (tickMap.getD j default).startPosition = false) →
      (∀ j, first + len ≤ j → j < tickMap.length →
        sampleScaleLessThan sr value (tickMap.getD j default).startPosition = true) →
      upperBoundLoop sr tickMap value fuel first len ≤ tickMap.length
      ∧ (∀ j, j < upperBoundLoop sr tickMap value fuel first len →
          sampleScaleLessThan sr value (tickMap.getD j default).startPosition = false)
      ∧ (∀ j, upperBoundLoop sr tickMap value fuel first len ≤ j → j < tickMap.length →
          sampleScaleLessThan sr value (tickMap.getD j default).startPosition = true) := by
  intro fuel
  induction fuel with
  | zero =>
    intro first len hlen hbound hlo hhi
    have : len = 0 := by omega
    subst this
    simp only [upperBoundLoop]
    exact ⟨by omega, hlo, fun j hj hjl => hhi j (by omega) hjl⟩
  | succ fuel ih =>
    intro first len hlen hbound hlo hhi
    by_cases hl : len = 0
    · subst hl
      simp only [upperBoundLoop, if_true]
      exact ⟨by omega, hlo, fun j hj hjl => hhi j (by omega) hjl⟩
    · have hhalf : len / 2 < len := Nat.div_lt_self (Nat.pos_of_ne_zero hl) (by decide)
      have hmid : first + len / 2 < tickMap.length := by omega
      simp only [upperBoundLoop, hl, if_false]
      by_cases hp : sampleScaleLessThan sr value
          (tickMap.getD (first + len / 2) default).startPosition = true
      · simp only [hp, if_true]
        apply ih first (len / 2) (by omega) (by omega) hlo
        intro j hj hjl
        exact sampleScaleLessThan_mono_right sr (pairwise_getD_le hs hj hjl) hp
      · simp only [hp]
        simp only [Bool.not_eq_true] at hp
        apply ih (first + len / 2 + 1) (len - len / 2 - 1) (by omega) (by omega)
        · intro j hj
          by_contra hcon
          simp only [Bool.not_eq_false] at hcon
          have := sampleScaleLessThan_mono_right sr
            (pairwise_getD_le hs (show j ≤ first + len / 2 by omega) hmid) hcon
          rw [hp] at this
          exact Bool.false_ne_true this
        · intro j hj hjl
          exact hhi j (by omega) hjl

theorem upperBound_spec (sr : ℚ) (tickMap : List TickMapElement) (value : ℚ)
    (hs : tickMap.Pairwise (fun a b => a.startPosition ≤ b.startPosition)) :
    upperBound sr tickMap value ≤ tickMap.length
    ∧ (∀ j, j < upperBound sr tickMap value →
        sampleScaleLessThan sr value (tickMap.getD j default).startPosition = false)
    ∧ (∀ j, upperBound sr tickMap value ≤ j → j < tickMap.length →
        sampleScaleLessThan sr value (tickMap.getD j default).startPosition = true) :=
  upperBoundLoop_spec sr tickMap value hs tickMap.length 0 tickMap.length le_rfl (by omega)
    (fun j hj => absurd hj (Nat.not_lt_zero j)) (fun j hj hjl => absurd hjl (by omega))

/-- The covering index of a non-empty ordered map: a valid index; the segment there
is the last one that starts at or before the position, or the first segment when the
position precedes every segment. -/
theorem coveringIndex_spec (sr : ℚ) (tickMap : List TickMapElement) (value : ℚ)
    (hne : tickMap ≠ [])
    (hs : tickMap.Pairwise (fun a b => a.startPosition ≤ b.startPosition)) :
    coveringIndex sr tickMap value < tickMap.length
    ∧ (∀ j, coveringIndex sr tickMap value < j → j < tickMap.length →
        startsAtOrBefore sr (tickMap.getD j default) value = false)
    ∧ (startsAtOrBefore sr (tickMap.getD (coveringIndex sr tickMap value) default) value = true
      ∨ (coveringIndex sr tickMap value = 0
        ∧ ∀ j, j < tickMap.length → startsAtOrBefore sr (tickMap.getD j default) value = false)) := by
  obtain ⟨hle, hlo, hhi⟩ := upperBound_spec sr tickMap value hs
  have hlen : 0 < tickMap.length := List.length_pos.mpr hne
  unfold coveringIndex
  simp only [startsAtOrBefore]
  by_cases h0 : upperBound sr tickMap value = 0
  · simp only [h0, ne_eq, not_true_eq_false, if_false]
    refine ⟨hlen, ?_, Or.inr ⟨trivial, ?_⟩⟩
    · intro j _ hjl
      rw [hhi j (by omega) hjl]; rfl
    · intro j hjl
      rw [hhi j (by omega) hjl]; rfl
  · simp only [ne_eq, h0, not_false_eq_true, if_true]
    refine ⟨by omega, ?_, Or.inl ?_⟩
    · intro j hj hjl
      rw [hhi j (by omega) hjl]; rfl
    · rw [hlo _ (by omega)]; rfl


/-! ## The tick scan of `getNextTickPositionInSamples` -/

theorem toUint_of_lt {n : Nat} (h : n < uintModulus) : toUint n = n :=
  Nat.mod_eq_of_lt h

theorem uintSub_one {b : Nat} (h1 : 1 ≤ b) (h2 : b < uintModulus) : uintSub b 1 = b - 1 := by
  unfold uintSub toUint
  have : b + uintModulus - 1 = (b - 1) + uintModulus := by omega
  rw [this, Nat.add_mod_right]
  exact Nat.mod_eq_of_lt (by omega)

theorem int_succ_emod (x B : ℤ) (hB : 0 < B) :
    (x + 1) % B = if x % B + 1 = B then 0 else x % B + 1 := by
  have h1 := Int.emod_nonneg x (ne_of_gt hB)
  have h2 := Int.emod_lt_of_pos x hB
  have h3 := Int.emod_add_ediv x B
  split_ifs with h
  · have : x + 1 = B * (x / B + 1) := by rw [mul_add, mul_one]; linarith
    rw [this]; exact Int.mul_emod_right _ _
  · have : x + 1 = (x % B + 1) + B * (x / B) := by linarith
    rw [this, Int.add_mul_emod_self_left]
    exact Int.emod_eq_of_lt (by omega) (by omega)

theorem int_pred_emod (x B : ℤ) (hB : 0 < B) :
    (x - 1) % B = if x % B = 0 then B - 1 else x % B - 1 := by
  have h1 := Int.emod_nonneg x (ne_of_gt hB)
  have h2 := Int.emod_lt_of_pos x hB
  have h3 := Int.emod_add_ediv x B
  split_ifs with h
  · have : x - 1 = (B - 1) + B * (x / B - 1) := by rw [mul_sub, mul_one]; linarith
    rw [this, Int.add_mul_emod_self_left]
    exact Int.emod_eq_of_lt (by omega) (by omega)
  · have : x - 1 = (x % B - 1) + B * (x / B) := by linarith
    rw [this, Int.add_mul_emod_self_left]
    exact Int.emod_eq_of_lt (by omega) (by omega)

/-- Number of ticks of length `tl` needed to pass from `a` to `b`. -/
theorem ticksBetween_decreases {a b tl : ℚ} (htl : 0 < tl) (hab : a < b) :
    ⌈(b - (a + tl)) / tl⌉.toNat < ⌈(b - a) / tl⌉.toNat := by
  have h1 : (b - (a + tl)) / tl = (b - a) / tl - 1 := by field_simp; ring
  rw [h1, Int.ceil_sub_one]
  have h2 : 0 < ⌈(b - a) / tl⌉ := Int.ceil_pos.mpr (div_pos (by linarith) htl)
  omega

/-- The forward scan finishes on the grid of the segment, at the first grid tick
that is not sample-scale less than the query position. -/
theorem scanForward_total (sr : ℚ) (it : TickMapElement) (q : ℚ)
    (htl : 0 < it.tickLength) (hoff : it.tickOffset < it.barLength)
    (hB : it.barLength < uintModulus) :
    ∃ (N : Nat) (k : Nat),
      (∀ fuel, N ≤ fuel →
        whileLoop (fun s : ℚ × Nat => sampleScaleLessThan sr s.1 q)
          (fun s => some (scanForwardStep it s)) fuel (it.startPosition, it.tickOffset)
        = some (it.startPosition + k * it.tickLength, (it.tickOffset + k) % it.barLength))
      ∧ sampleScaleLessThan sr (it.startPosition + k * it.tickLength) q = false
      ∧ ∀ j : Nat, j < k →
          sampleScaleLessThan sr (it.startPosition + j * it.tickLength) q = true := by
  obtain ⟨N, r, hr, ⟨k, hk1, hk2, hk3⟩, hc⟩ := whileLoop_total_simple
    (fun s : ℚ × Nat => sampleScaleLessThan sr s.1 q)
    (scanForwardStep it)
    (fun s => ∃ k : Nat, s.1 = it.startPosition + k * it.tickLength
      ∧ s.2 = (it.tickOffset + k) % it.barLength
      ∧ ∀ j : Nat, j < k →
          sampleScaleLessThan sr (it.startPosition + j * it.tickLength) q = true)
    (fun s => ⌈(q - s.1) / it.tickLength⌉.toNat)
    (by
      rintro ⟨p, i⟩ ⟨k, hk1, hk2, hk3⟩ hc
      simp only at hk1 hk2 hc
      refine ⟨⟨k + 1, ?_, ?_, ?_⟩, ?_⟩
      · simp only [scanForwardStep, hk1]; push_cast; ring
      · have hlt : i < it.barLength := hk2 ▸ Nat.mod_lt _ (by omega)
        have hu : toUint (i + 1) = i + 1 := toUint_of_lt (by omega)
        simp only [scanForwardStep, hu]
        have hz := int_succ_emod ((it.tickOffset + k : Nat) : ℤ) (it.barLength : ℤ)
          (by exact_mod_cast (by omega : 0 < it.barLength))
        have hcast : (((it.tickOffset + k : Nat) : ℤ) + 1) % (it.barLength : ℤ)
            = (((it.tickOffset + (k + 1)) % it.barLength : Nat) : ℤ) := by
          push_cast; ring_nf
        have hcast2 : ((it.tickOffset + k : Nat) : ℤ) % (it.barLength : ℤ) = (i : ℤ) := by
          rw [hk2]; push_cast; rfl
        rw [hcast, hcast2] at hz
        split_ifs with h
        · have : (i : ℤ) + 1 = it.barLength := by exact_mod_cast h
          rw [if_pos this] at hz
          exact_mod_cast hz.symm
        · have : ¬ ((i : ℤ) + 1 = it.barLength) := by exact_mod_cast h
          rw [if_neg this] at hz
          exact_mod_cast hz.symm
      · intro j hj
        rcases Nat.lt_succ_iff_lt_or_eq.mp hj with h | h
        · exact hk3 j h
        · subst h; rw [← hk1]; exact hc
      · simp only [scanForwardStep]
        apply ticksBetween_decreases htl
        simp only [sampleScaleLessThan, Bool.and_eq_true, decide_eq_true_eq] at hc
        exact hc.1)
    (it.startPosition, it.tickOffset)
    ⟨0, by simp, by simp [Nat.mod_eq_of_lt hoff], fun j hj => absurd hj (Nat.not_lt_zero j)⟩
  obtain ⟨p, i⟩ := r
  simp only at hk1 hk2 hc
  refine ⟨N, k, fun fuel hf => ?_, hk1 ▸ hc, hk3⟩
  rw [hr fuel hf, hk1, hk2]

/-- The backward scan finishes on the grid of the segment, at the grid tick `T` with
the query position sample-scale less than every later visited tick but not less than
`T - tickLength`. -/
theorem scanBackward_total (sr : ℚ) (it : TickMapElement) (q : ℚ)
    (htl : 0 < it.tickLength) (hoff : it.tickOffset < it.barLength)
    (hB : it.barLength < uintModulus) :
    ∃ (N : Nat) (k : Nat) (i : Nat),
      (∀ fuel, N ≤ fuel →
        whileLoop (fun s : ℚ × Nat => sampleScaleLessThan sr q (s.1 - it.tickLength))
          (fun s => some (scanBackStep it s)) fuel (it.startPosition, it.tickOffset)
        = some (it.startPosition - k * it.tickLength, i))
      ∧ (i : ℤ) = ((it.tickOffset : ℤ) - k) % (it.barLength : ℤ)
      ∧ sampleScaleLessThan sr q (it.startPosition - k * it.tickLength - it.tickLength) = false
      ∧ ∀ j : Nat, j < k →
          sampleScaleLessThan sr q (it.startPosition - j * it.tickLength - it.tickLength) = true := by
  have hBpos : (0 : ℤ) < (it.barLength : ℤ) := by exact_mod_cast (by omega : 0 < it.barLength)
  obtain ⟨N, r, hr, ⟨k, hk1, hk2, hk3⟩, hc⟩ := whileLoop_total_simple
    (fun s : ℚ × Nat => sampleScaleLessThan sr q (s.1 - it.tickLength))
    (scanBackStep it)
    (fun s => ∃ k : Nat, s.1 = it.startPosition - k * it.tickLength
      ∧ (s.2 : ℤ) = ((it.tickOffset : ℤ) - k) % (it.barLength : ℤ)
      ∧ ∀ j : Nat, j < k →
          sampleScaleLessThan sr q (it.startPosition - j * it.tickLength - it.tickLength) = true)
    (fun s => ⌈(s.1 - q) / it.tickLength⌉.toNat)
    (by
      rintro ⟨p, i⟩ ⟨k, hk1, hk2, hk3⟩ hc
      simp only at hk1 hk2 hc
      refine ⟨⟨k + 1, ?_, ?_, ?_⟩, ?_⟩
      · simp only [scanBackStep, hk1]; push_cast; ring
      · have hz := int_pred_emod ((it.tickOffset : ℤ) - k) (it.barLength : ℤ) hBpos
        rw [← hk2] at hz
        have hcast : ((it.tickOffset : ℤ) - ((k + 1 : Nat) : ℤ)) = (it.tickOffset : ℤ) - k - 1 := by
          push_cast; ring
        rw [hcast, hz]
        simp only [scanBackStep]
        split_ifs with h1 h2 h2
        · rw [uintSub_one (by omega) hB]
          have : 1 ≤ it.barLength := by omega
          push_cast [this]; rfl
        · exact absurd (by exact_mod_cast h1) h2
        · exact absurd (by exact_mod_cast h2) h1
        · have : 1 ≤ i := by omega
          push_cast [this]; rfl
      · intro j hj
        rcases Nat.lt_succ_iff_lt_or_eq.mp hj with h | h
        · exact hk3 j h
        · subst h; rw [← hk1]; exact hc
      · simp only [scanBackStep]
        have hq : q < p - it.tickLength := by
          simp only [sampleScaleLessThan, Bool.and_eq_true, decide_eq_true_eq] at hc
          exact hc.1
        have := ticksBetween_decreases (a := q) (b := p) htl (by linarith)
        have he : p - it.tickLength - q = p - (q + it.tickLength) := by ring
        rw [he]
        exact this)
    (it.startPosition, it.tickOffset)
    ⟨0, by simp, by
        have h : ((it.tickOffset : ℤ)) % (it.barLength : ℤ) = it.tickOffset :=
          Int.emod_eq_of_lt (Int.natCast_nonneg _) (by exact_mod_cast hoff)
        simp [h],
      fun j hj => absurd hj (Nat.not_lt_zero j)⟩
  obtain ⟨p, i⟩ := r
  simp only at hk1 hk2 hc
  refine ⟨N, k, i, fun fuel hf => ?_, hk2, hk1 ▸ hc, hk3⟩
  rw [hr fuel hf, hk1]


/-- The tick scan on a segment `S` with positive tick length and `tickOffset <
barLength`: grid position, direction of `k` and the bar flag. -/
theorem scanTick_spec (sr : ℚ) (S : TickMapElement) (q : ℚ)
    (htl : 0 < S.tickLength) (hoff : S.tickOffset < S.barLength)
    (hB : S.barLength < uintModulus) :
    ∃ (N : Nat) (k : ℤ) (flag : Bool),
      (∀ fuel, N ≤ fuel →
        (scanTick fuel sr S q).map (fun s => (s.1, decide (s.2 = uintSub S.barLength 1)))
          = some (S.startPosition + k * S.tickLength, flag))
      ∧ (flag = true ↔
          ((S.tickOffset : ℤ) + k) % (S.barLength : ℤ) = (S.barLength : ℤ) - 1)
      ∧ (sampleScaleLessThan sr q S.startPosition = false → 0 ≤ k)
      ∧ (sampleScaleLessThan sr q S.startPosition = true →
          k ≤ 0 ∧ (k < 0 ↔
            sampleScaleLessThan sr q (S.startPosition - S.tickLength) = true)) := by
  have hB1 : 1 ≤ S.barLength := by omega
  have hsub : uintSub S.barLength 1 = S.barLength - 1 := uintSub_one hB1 hB
  by_cases hdir : sampleScaleLessThan sr q S.startPosition = true
  · obtain ⟨N, k, i, hrun, hi, hstop, hprev⟩ := scanBackward_total sr S q htl hoff hB
    refine ⟨N, -(k : ℤ), decide (i = S.barLength - 1), ?_, ?_, ?_, ?_⟩
    · intro fuel hf
      have e : S.startPosition - (k : ℚ) * S.tickLength
          = S.startPosition + ((-(k : ℤ) : ℤ) : ℚ) * S.tickLength := by push_cast; ring
      simp only [scanTick, hdir, if_true, hrun fuel hf, Option.map_some', hsub, e]
    · rw [decide_eq_true_eq]
      have : (S.tickOffset : ℤ) + -(k : ℤ) = (S.tickOffset : ℤ) - k := by ring
      rw [this, ← hi]
      omega
    · intro h; rw [h] at hdir; exact absurd hdir Bool.false_ne_true
    · intro _
      refine ⟨by omega, ?_⟩
      constructor
      · intro hk
        have := hprev 0 (by omega)
        simpa using this
      · intro hc
        by_contra hk
        have hk0 : k = 0 := by omega
        subst hk0
        simp only [Nat.cast_zero, zero_mul, sub_zero] at hstop
        rw [hc] at hstop
        exact Bool.false_ne_true hstop.symm
  · simp only [Bool.not_eq_true] at hdir
    obtain ⟨N, k, hrun, hstop, hprev⟩ := scanForward_total sr S q htl hoff hB
    refine ⟨N, (k : ℤ), decide ((S.tickOffset + k) % S.barLength = S.barLength - 1), ?_, ?_, ?_, ?_⟩
    · intro fuel hf
      simp only [scanTick, hdir, hrun fuel hf, Option.map_some', hsub]
      simp
    · rw [decide_eq_true_eq]
      have hc : ((S.tickOffset : ℤ) + (k : ℤ)) % (S.barLength : ℤ)
          = (((S.tickOffset + k) % S.barLength : Nat) : ℤ) := by push_cast; rfl
      rw [hc]
      omega
    · intro _; exact Int.natCast_nonneg k
    · intro h; rw [h] at hdir; exact absurd hdir.symm Bool.false_ne_true

/-- C3: on a non-empty map, when the covering segment `S` of the query has a positive
tick length and `tickOffset < barLength`, the tick scan finishes (for every large
enough fuel) on `S.startPosition + k * S.tickLength` for an integer `k`, with `k ≥ 0`
in the forward scan and `k ≤ 0` in the backward scan (`k < 0` exactly when the scan
steps backward at all), and `lastTickRightBeforeABar` is true if and only if
`(S.tickOffset + k) mod S.barLength = S.barLength - 1`. -/
theorem nextTick_grid_and_bar_flag (sr : ℚ) (tickMap : List TickMapElement) (delay : ℚ)
    (currentPos : Int) (lastTick : Bool) (S : TickMapElement)
    (hne : tickMap ≠ [])
    (hS : S = coveringSegment sr tickMap ((currentPos : ℚ) / sr - delay))
    (htl : 0 < S.tickLength) (hoff : S.tickOffset < S.barLength)
    (hB : S.barLength < uintModulus) :
    ∃ (N : Nat) (k : ℤ) (flag : Bool),
      (∀ fuel, N ≤ fuel →
        findTick fuel sr tickMap ((currentPos : ℚ) / sr - delay)
          = some (S.startPosition + k * S.tickLength, flag)
        ∧ getNextTickPositionInSamples fuel sr tickMap delay currentPos lastTick
          = some (cRound ((S.startPosition + k * S.tickLength + delay) * sr), flag))
      ∧ (flag = true ↔
          ((S.tickOffset : ℤ) + k) % (S.barLength : ℤ) = (S.barLength : ℤ) - 1)
      ∧ (sampleScaleLessThan sr ((currentPos : ℚ) / sr - delay) S.startPosition = false →
          0 ≤ k)
      ∧ (sampleScaleLessThan sr ((currentPos : ℚ) / sr - delay) S.startPosition = true →
          k ≤ 0 ∧ (k < 0 ↔
            sampleScaleLessThan sr ((currentPos : ℚ) / sr - delay)
              (S.startPosition - S.tickLength) = true)) := by
  have hempty : tickMap.isEmpty = false := by
    cases tickMap with
    | nil => exact absurd rfl hne
    | cons a l => rfl
  obtain ⟨N, k, flag, hrun, hrest⟩ :=
    scanTick_spec sr S ((currentPos : ℚ) / sr - delay) htl hoff hB
  refine ⟨N, k, flag, fun fuel hf => ?_, hrest⟩
  have hfind : findTick fuel sr tickMap ((currentPos : ℚ) / sr - delay)
      = some (S.startPosition + k * S.tickLength, flag) := by
    rw [← hrun fuel hf, hS]
    rfl
  refine ⟨hfind, ?_⟩
  simp only [getNextTickPositionInSamples, hempty, hfind, Option.map_some']
  rfl

/-- Witness of C3: the two-segment example map queried at sample 100000, no delay. -/
theorem nextTick_grid_and_bar_flag_witness :
    ∃ (N : Nat) (k : ℤ) (flag : Bool),
      (∀ fuel, N ≤ fuel →
        findTick fuel 44100 exampleTickMap (((100000 : ℤ) : ℚ) / 44100 - 0)
          = some ((⟨0, 1 / 48, 96, 0⟩ : TickMapElement).startPosition
              + k * (⟨0, 1 / 48, 96, 0⟩ : TickMapElement).tickLength, flag)
        ∧ getNextTickPositionInSamples fuel 44100 exampleTickMap 0 100000 false
          = some (cRound (((⟨0, 1 / 48, 96, 0⟩ : TickMapElement).startPosition
              + k * (⟨0, 1 / 48, 96, 0⟩ : TickMapElement).tickLength + 0) * 44100), flag))
      ∧ (flag = true ↔
          (((⟨0, 1 / 48, 96, 0⟩ : TickMapElement).tickOffset : ℤ) + k)
            % ((⟨0, 1 / 48, 96, 0⟩ : TickMapElement).barLength : ℤ)
          = ((⟨0, 1 / 48, 96, 0⟩ : TickMapElement).barLength : ℤ) - 1)
      ∧ (sampleScaleLessThan 44100 (((100000 : ℤ) : ℚ) / 44100 - 0)
            (⟨0, 1 / 48, 96, 0⟩ : TickMapElement).startPosition = false → 0 ≤ k)
      ∧ (sampleScaleLessThan 44100 (((100000 : ℤ) : ℚ) / 44100 - 0)
            (⟨0, 1 / 48, 96, 0⟩ : TickMapElement).startPosition = true →
          k ≤ 0 ∧ (k < 0 ↔
            sampleScaleLessThan 44100 (((100000 : ℤ) : ℚ) / 44100 - 0)
              ((⟨0, 1 / 48, 96, 0⟩ : TickMapElement).startPosition
                - (⟨0, 1 / 48, 96, 0⟩ : TickMapElement).tickLength) = true)) :=
  nextTick_grid_and_bar_flag 44100 exampleTickMap 0 100000 false
    ⟨0, 1 / 48, 96, 0⟩ (by simp [exampleTickMap]) (by decide!) (by norm_num) (by decide)
    (by decide)

/-- C4: `getTickAndBarLengthAtPosition` fails exactly on the empty map; on a non-empty
map ordered by start position it returns the tick length and bar length of the last
segment that starts at or before the position (precision comparator), or of the first
segment when the position precedes every segment. -/
theorem tempoAt_returns_covering_segment (sr : ℚ) (tickMap : List TickMapElement)
    (currentPos : Int)
    (hs : tickMap.Pairwise (fun a b => a.startPosition ≤ b.startPosition)) :
    (tickMap = [] ∧ getTickAndBarLengthAtPosition sr tickMap currentPos = none)
    ∨ (tickMap ≠ [] ∧ ∃ j, j < tickMap.length
        ∧ getTickAndBarLengthAtPosition sr tickMap currentPos
          = some ((tickMap.getD j default).tickLength, (tickMap.getD j default).barLength)
        ∧ (∀ j', j < j' → j' < tickMap.length →
            startsAtOrBefore sr (tickMap.getD j' default) ((currentPos : ℚ) / sr) = false)
        ∧ (startsAtOrBefore sr (tickMap.getD j default) ((currentPos : ℚ) / sr) = true
          ∨ (j = 0 ∧ ∀ j', j' < tickMap.length →
              startsAtOrBefore sr (tickMap.getD j' default) ((currentPos : ℚ) / sr) = false))) := by
  by_cases hne : tickMap = []
  · left
    subst hne
    exact ⟨rfl, rfl⟩
  · right
    obtain ⟨h1, h2, h3⟩ := coveringIndex_spec sr tickMap ((currentPos : ℚ) / sr) hne hs
    refine ⟨hne, coveringIndex sr tickMap ((currentPos : ℚ) / sr), h1, ?_, h2, h3⟩
    have hempty : tickMap.isEmpty = false := by
      cases tickMap with
      | nil => exact absurd rfl hne
      | cons a l => rfl
    simp [getTickAndBarLengthAtPosition, hempty, coveringSegment]


/-- Witness of C4: the two-segment example map is ordered; a query at sample 200000
(after the second segment starts) returns a segment as described. -/
theorem tempoAt_returns_covering_segment_witness :
    exampleTickMap.Pairwise (fun a b => a.startPosition ≤ b.startPosition)
    ∧ ((exampleTickMap = [] ∧ getTickAndBarLengthAtPosition 44100 exampleTickMap 200000 = none)
      ∨ (exampleTickMap ≠ [] ∧ ∃ j, j < exampleTickMap.length
        ∧ getTickAndBarLengthAtPosition 44100 exampleTickMap 200000
          = some ((exampleTickMap.getD j default).tickLength,
              (exampleTickMap.getD j default).barLength)
        ∧ (∀ j', j < j' → j' < exampleTickMap.length →
            startsAtOrBefore 44100 (exampleTickMap.getD j' default)
              (((200000 : ℤ) : ℚ) / 44100) = false)
        ∧ (startsAtOrBefore 44100 (exampleTickMap.getD j default)
              (((200000 : ℤ) : ℚ) / 44100) = true
          ∨ (j = 0 ∧ ∀ j', j' < exampleTickMap.length →
              startsAtOrBefore 44100 (exampleTickMap.getD j' default)
                (((200000 : ℤ) : ℚ) / 44100) = false)))) :=
  ⟨by decide!, tempoAt_returns_covering_segment 44100 exampleTickMap 200000 (by decide!)⟩


/-! ## Invariants of steps 3 and 4 of the builder -/

theorem advanceTick_tickMap (u : MergeState) : (advanceTick u).tickMap = u.tickMap := rfl

theorem advanceTick_idx (u : MergeState) :
    (advanceTick u).timeSigChangeIdx = u.timeSigChangeIdx := rfl

theorem advanceTailTick_tickMap (u : MergeState) : (advanceTailTick u).tickMap = u.tickMap := rfl

theorem advanceTailTick_idx (u : MergeState) :
    (advanceTailTick u).timeSigChangeIdx = u.timeSigChangeIdx := rfl

theorem pushSigChange_ne_nil (sigs : List TimeSigChange) (u : MergeState) :
    (pushSigChange sigs u).tickMap ≠ [] := by
  simp [pushSigChange]

theorem pushTempoChange_ne_nil (sigs : List TimeSigChange) (tc : TempoChange) (u : MergeState) :
    (pushTempoChange sigs tc u).tickMap ≠ [] := by
  simp [pushTempoChange]

theorem lastElt_mem {u : MergeState} (h : u.tickMap ≠ []) : lastElt u ∈ u.tickMap := by
  unfold lastElt
  rw [List.getLastD_eq_getLast?, List.getLast?_eq_getLast _ h]
  exact List.getLast_mem h

/-- Partial correctness of steps 3 and 4 for a property of the merge state that each
elementary update keeps.  The updates that read `lastElt` only run on a non-empty map,
and a signature change is only appended while a next signature change exists. -/
theorem mergeAll_invariant (fuel : Nat) (sr : ℚ) (sigs : List TimeSigChange)
    (tempoChanges : List TempoChange) (I : MergeState → Prop)
    (hne : tempoChanges ≠ [])
    (h0 : I ⟨[], 0, 0, 0, 0⟩)
    (hadv : ∀ u, I u → u.tickMap ≠ [] → I (advanceTick u))
    (htail : ∀ u, I u → u.tickMap ≠ [] → I (advanceTailTick u))
    (hsig : ∀ u, I u → u.tickMap ≠ [] → u.timeSigChangeIdx + 1 < sigs.length →
      I (pushSigChange sigs u))
    (htempo : ∀ u tc, tc ∈ tempoChanges → I u → I (pushTempoChange sigs tc u))
    (r : MergeState) (h : mergeAll fuel sr sigs tempoChanges = some r) :
    I r ∧ r.tickMap ≠ [] := by
  -- the body of the `while` of step 3
  have hbody : ∀ (next : ℚ) (s s' : MergeState), I s ∧ s.tickMap ≠ [] →
      mergeWhileBody fuel sr sigs next s = some s' → I s' ∧ s'.tickMap ≠ [] := by
    intro next s s' hs hb
    unfold mergeWhileBody at hb
    split_ifs at hb with hidx
    · cases hw : whileLoop
          (fun u => sampleScaleLessThan sr u.tickPos next
            && decide (u.tickIdx < sigTick sigs (u.timeSigChangeIdx + 1)))
          (fun u => some (advanceTick u)) fuel s with
      | none => simp [hw] at hb
      | some u =>
        rw [hw] at hb
        simp only [Option.map_some', Option.some.injEq] at hb
        have hu := (whileLoop_invariant
          (fun u => (I u ∧ u.tickMap ≠ []) ∧ u.timeSigChangeIdx + 1 < sigs.length)
          (by
            rintro a b ⟨⟨ha, hane⟩, haidx⟩ _ hab
            simp only [Option.some.injEq] at hab
            subst hab
            exact ⟨⟨hadv a ha hane, by rwa [advanceTick_tickMap]⟩,
              by rwa [advanceTick_idx]⟩)
          fuel s u ⟨hs, hidx⟩ hw).1
        split_ifs at hb
        · subst hb
          exact ⟨hsig u hu.1.1 hu.1.2 hu.2, pushSigChange_ne_nil sigs u⟩
        · subst hb
          exact hu.1
    · simp only [Option.some.injEq] at hb
      subst hb
      exact ⟨hadv s hs.1 hs.2, by rw [advanceTick_tickMap]; exact hs.2⟩
  -- the body of the `for` of step 3
  have hstep : ∀ (s : MergeState) (tc : TempoChange) (s' : MergeState), tc ∈ tempoChanges →
      I s → mergeStep fuel sr sigs s tc = some s' → I s' ∧ s'.tickMap ≠ [] := by
    intro s tc s' htc hs hm
    unfold mergeStep at hm
    by_cases hemp : s.tickMap.isEmpty = true
    · simp only [hemp, if_true, Option.map_some', Option.some.injEq] at hm
      subst hm
      exact ⟨htempo s tc htc hs, pushTempoChange_ne_nil sigs tc s⟩
    · simp only [hemp, Bool.false_eq_true, if_false] at hm
      cases hw : whileLoop (fun u => sampleScaleLessThan sr u.tickPos tc.timePosition)
          (mergeWhileBody fuel sr sigs tc.timePosition) fuel s with
      | none => simp [hw] at hm
      | some u =>
        rw [hw] at hm
        simp only [Option.map_some', Option.some.injEq] at hm
        subst hm
        have hsne : s.tickMap ≠ [] := by
          intro hnil; rw [hnil] at hemp; exact hemp rfl
        have hu := (whileLoop_invariant (fun u => I u ∧ u.tickMap ≠ [])
          (fun a b ha _ hab => hbody tc.timePosition a b ha hab) fuel s u ⟨hs, hsne⟩ hw).1
        exact ⟨htempo u tc htc hu.1, pushTempoChange_ne_nil sigs tc u⟩
  -- step 3 as a whole, then step 4
  unfold mergeAll at h
  cases hf : tempoChanges.foldlM (mergeStep fuel sr sigs) ⟨[], 0, 0, 0, 0⟩ with
  | none => simp [hf] at h
  | some m =>
    rw [hf] at h
    simp only [Option.some_bind] at h
    have hm : I m ∧ m.tickMap ≠ [] := by
      cases tempoChanges with
      | nil => exact absurd rfl hne
      | cons tc l =>
        simp only [List.foldlM_cons] at hf
        cases h1 : mergeStep fuel sr sigs ⟨[], 0, 0, 0, 0⟩ tc with
        | none => simp [h1] at hf
        | some s1 =>
          rw [h1] at hf
          have hf : l.foldlM (mergeStep fuel sr sigs) s1 = some m := hf
          have hs1 := hstep _ tc s1 (List.mem_cons_self _ _) h0 h1
          exact foldlM_invariant_mem (mergeStep fuel sr sigs) (fun u => I u ∧ u.tickMap ≠ []) l
            (fun a tc' b htc' ha hab => hstep a tc' b (List.mem_cons_of_mem _ htc') ha.1 hab)
            s1 m hs1 hf
    refine (whileLoop_invariant (fun u => I u ∧ u.tickMap ≠ []) ?_ fuel m r hm h).1
    intro a b ha hc hab
    simp only [decide_eq_true_eq] at hc
    unfold tailBody at hab
    cases hw : whileLoop (fun u => decide (u.tickIdx < sigTick sigs (u.timeSigChangeIdx + 1)))
        (fun u => some (advanceTailTick u)) fuel a with
    | none => simp [hw] at hab
    | some u =>
      rw [hw] at hab
      simp only [Option.map_some', Option.some.injEq] at hab
      subst hab
      have hu := (whileLoop_invariant
        (fun u => (I u ∧ u.tickMap ≠ []) ∧ u.timeSigChangeIdx + 1 < sigs.length)
        (by
          rintro a b ⟨⟨ha, hane⟩, haidx⟩ _ hab
          simp only [Option.some.injEq] at hab
          subst hab
          exact ⟨⟨htail a ha hane, by rwa [advanceTailTick_tickMap]⟩,
            by rwa [advanceTailTick_idx]⟩)
        fuel a u ⟨ha, hc⟩ hw).1
      exact ⟨hsig u hu.1.1 hu.1.2 hu.2, pushSigChange_ne_nil sigs u⟩


/-! ## Step 1: normalised time-signature changes -/

theorem foldl_sigStep_barLengths (sigs : List BarSignature) (s : SigState) :
    (sigs.foldl sigStep s).timeSigChanges.map (fun c => c.barLength)
      = s.timeSigChanges.map (fun c => c.barLength)
        ++ sigs.map (fun b => toUint (24 * quartersPerBarOf b)) := by
  induction sigs generalizing s with
  | nil => simp
  | cons b l ih =>
    simp only [List.foldl_cons, List.map_cons]
    rw [ih]
    simp [sigStep]

theorem normalizeTimeSigs_barLengths (sigs : List BarSignature) :
    (normalizeTimeSigs sigs).map (fun c => c.barLength)
      = sigs.map (fun b => toUint (24 * quartersPerBarOf b)) := by
  unfold normalizeTimeSigs
  rw [foldl_sigStep_barLengths]
  simp

theorem normalizeTimeSigs_length (sigs : List BarSignature) :
    (normalizeTimeSigs sigs).length = sigs.length := by
  have h := congrArg List.length (normalizeTimeSigs_barLengths sigs)
  simpa using h

/-- An `int` product that stays in range is the product. -/
theorem toInt32_of_lt {n : Nat} (h : n < 2147483648) : toInt32 (n : Int) = n := by
  unfold toInt32
  rw [Int.emod_eq_of_lt (by omega) (by omega)]
  omega

/-- When `4 * numerator` stays in the range of `int`, `quartersPerBar` is the quotient
`4 * numerator / denominator`, clamped to at least 1. -/
theorem quartersPerBarOf_eq (b : BarSignature) (h : 4 * b.numerator < 2147483648) :
    quartersPerBarOf b = max 1 (4 * b.numerator / (b.denominator : Nat)) := by
  have hq : 4 * b.numerator / (b.denominator : Nat) < 2147483648 :=
    lt_of_le_of_lt (Nat.div_le_self _ _) h
  have e1 : (4 * (b.numerator : Int)) = ((4 * b.numerator : Nat) : Int) := by push_cast; ring
  have e2 : (Int.tdiv ((4 * b.numerator : Nat) : Int) ((b.denominator : Nat) : Int)
      % 4294967296).toNat = 4 * b.numerator / (b.denominator : Nat) := by
    have hlt : ((4 * b.numerator / (b.denominator : Nat) : Nat) : Int) < 4294967296 := by
      exact_mod_cast lt_trans hq (by decide)
    rw [← Int.ofNat_tdiv, Int.emod_eq_of_lt (Int.natCast_nonneg _) hlt, Int.toNat_ofNat]
  unfold quartersPerBarOf
  simp only [e1, toInt32_of_lt h, e2]
  split_ifs with h0
  · rw [h0]; rfl
  · rw [max_eq_right (Nat.one_le_iff_ne_zero.mpr h0)]

theorem barLength_in_range (b : BarSignature) (hprod : 4 * b.numerator < 2147483648)
    (h : 24 * max 1 (4 * b.numerator / (b.denominator : Nat)) < uintModulus) :
    toUint (24 * quartersPerBarOf b) = 24 * max 1 (4 * b.numerator / (b.denominator : Nat)) := by
  rw [quartersPerBarOf_eq b hprod, toUint_of_lt h]

/-- Every bar length of the built map is the bar length of a normalised signature
change. -/
theorem mergeAll_barLengths (fuel : Nat) (sr : ℚ) (sigs : List TimeSigChange)
    (tempoChanges : List TempoChange) (hne : tempoChanges ≠ []) (hsigs : 0 < sigs.length)
    (r : MergeState) (h : mergeAll fuel sr sigs tempoChanges = some r) :
    ∀ e ∈ r.tickMap, e.barLength ∈ sigs.map (fun c => c.barLength) := by
  have hget : ∀ k, k < sigs.length →
      (sigs.getD k default).barLength ∈ sigs.map (fun c => c.barLength) := by
    intro k hk
    rw [List.getD_eq_getElem _ _ hk]
    exact List.mem_map_of_mem _ (List.getElem_mem _)
  have key := mergeAll_invariant fuel sr sigs tempoChanges
    (fun u => u.timeSigChangeIdx < sigs.length
      ∧ ∀ e ∈ u.tickMap, e.barLength ∈ sigs.map (fun c => c.barLength))
    hne ⟨hsigs, by simp⟩
    (by intro u hu _; exact ⟨hu.1, hu.2⟩)
    (by intro u hu _; exact ⟨hu.1, hu.2⟩)
    (by
      rintro u ⟨_, hu2⟩ _ hidx
      refine ⟨hidx, ?_⟩
      intro e he
      simp only [pushSigChange, List.mem_append, List.mem_singleton] at he
      rcases he with he | he
      · exact hu2 e he
      · subst he; exact hget _ hidx)
    (by
      rintro u tc _ ⟨hu1, hu2⟩
      simp only [pushTempoChange]
      split_ifs with hc
      · refine ⟨hc.1, ?_⟩
        intro e he
        simp only [List.mem_append, List.mem_singleton] at he
        rcases he with he | he
        · exact hu2 e he
        · subst he; exact hget _ hc.1
      · refine ⟨hu1, ?_⟩
        intro e he
        simp only [List.mem_append, List.mem_singleton] at he
        rcases he with he | he
        · exact hu2 e he
        · subst he; exact hget _ hu1)
    r h
  exact key.1.2

/-- Step 2 yields at least one tempo change when there are at least two tempo entries. -/
theorem normalizeTempo_ne_nil (fuel : Nat) (sr : ℚ) (tempo : List TempoEntry)
    (htempo : 1 < tempo.length) (tcs : List TempoChange)
    (h : normalizeTempo fuel sr tempo = some tcs) : tcs ≠ [] := by
  unfold normalizeTempo at h
  obtain ⟨m, hm⟩ : ∃ m, tempo.length - 1 = m + 1 := ⟨tempo.length - 2, by omega⟩
  generalize (tempo.getD 0 default).timePosition = p0 at h
  rw [hm, List.range_succ, List.foldlM_append] at h
  cases hf : (List.range m).foldlM (tempoStep fuel sr tempo) ([], p0) with
  | none => simp [hf] at h
  | some s =>
    rw [hf] at h
    simp only [Option.some_bind, List.foldlM_cons, List.foldlM_nil, Option.map_eq_some'] at h
    obtain ⟨a, ha, hat⟩ := h
    have ha' : tempoStep fuel sr tempo s m = some a := by
      cases hs : tempoStep fuel sr tempo s m with
      | none => simp [hs] at ha
      | some b => simpa [hs] using ha
    subst hat
    unfold tempoStep at ha'
    split_ifs at ha' with hi
    · simp only [Option.some.injEq] at ha'
      subst ha'; simp
    · simp only [Option.map_eq_some'] at ha'
      obtain ⟨p, _, hp⟩ := ha'
      subst hp
      split_ifs <;> simp

/-- C9 in its amended form: for signatures whose product `4 * numerator` fits in an
`int` and whose bar length `24 * max 1 (4 * numerator / denominator)` fits in a `uint`,
step 1 converts each signature to exactly that bar length, and every bar length of a
built map is a multiple of 24 that is at least 24. -/
theorem sig_normalisation_in_range (fuel : Nat) (sr : ℚ) (tempo : List TempoEntry)
    (sigs : List BarSignature) (tickMap : List TickMapElement)
    (hprod : ∀ b ∈ sigs, 4 * b.numerator < 2147483648)
    (hrange : ∀ b ∈ sigs,
      24 * max 1 (4 * b.numerator / (b.denominator : Nat)) < uintModulus)
    (htempo : 1 < tempo.length) (hsigs : 0 < sigs.length)
    (hbuilt : buildTickMap fuel sr tempo sigs = some tickMap) :
    (normalizeTimeSigs sigs).map (fun c => c.barLength)
      = sigs.map (fun b => 24 * max 1 (4 * b.numerator / (b.denominator : Nat)))
    ∧ ∀ e ∈ tickMap, 24 ∣ e.barLength ∧ 24 ≤ e.barLength := by
  have hmap : (normalizeTimeSigs sigs).map (fun c => c.barLength)
      = sigs.map (fun b => 24 * max 1 (4 * b.numerator / (b.denominator : Nat))) := by
    rw [normalizeTimeSigs_barLengths]
    exact List.map_congr_left
      (fun b hb => barLength_in_range b (hprod b hb) (hrange b hb))
  refine ⟨hmap, ?_⟩
  unfold buildTickMap at hbuilt
  cases hn : normalizeTempo fuel sr tempo with
  | none => simp [hn] at hbuilt
  | some tcs =>
    rw [hn] at hbuilt
    simp only [Option.some_bind, Option.map_eq_some'] at hbuilt
    obtain ⟨r, hr, hrm⟩ := hbuilt
    subst hrm
    have hne := normalizeTempo_ne_nil fuel sr tempo htempo tcs hn
    have hb := mergeAll_barLengths fuel sr (normalizeTimeSigs sigs) tcs hne
      (by rw [normalizeTimeSigs_length]; exact hsigs) r hr
    intro e he
    have := hb e he
    rw [hmap, List.mem_map] at this
    obtain ⟨b, _, hbe⟩ := this
    rw [← hbe]
    refine ⟨Dvd.intro _ rfl, ?_⟩
    have : 1 ≤ max 1 (4 * b.numerator / (b.denominator : Nat)) := le_max_left _ _
    omega

set_option maxRecDepth 100000 in
/-- Witness of the amended C9: 120 BPM with 4/4 at quarter 0 and 1/8 at quarter 8. -/
theorem sig_normalisation_in_range_witness :
    (∀ b ∈ ([⟨4, 4, 0⟩, ⟨1, 8, 8⟩] : List BarSignature), 4 * b.numerator < 2147483648)
    ∧ (∀ b ∈ ([⟨4, 4, 0⟩, ⟨1, 8, 8⟩] : List BarSignature),
        24 * max 1 (4 * b.numerator / (b.denominator : Nat)) < uintModulus)
    ∧ 1 < ([⟨0, 0⟩, ⟨2, 4⟩] : List TempoEntry).length
    ∧ 0 < ([⟨4, 4, 0⟩, ⟨1, 8, 8⟩] : List BarSignature).length
    ∧ buildTickMap 200 44100 [⟨0, 0⟩, ⟨2, 4⟩] [⟨4, 4, 0⟩, ⟨1, 8, 8⟩]
        = some [⟨0, 1 / 48, 96, 0⟩, ⟨4, 1 / 48, 24, 0⟩]
    ∧ ((normalizeTimeSigs [⟨4, 4, 0⟩, ⟨1, 8, 8⟩]).map (fun c => c.barLength)
        = ([⟨4, 4, 0⟩, ⟨1, 8, 8⟩] : List BarSignature).map
            (fun b => 24 * max 1 (4 * b.numerator / (b.denominator : Nat)))
      ∧ ∀ e ∈ ([⟨0, 1 / 48, 96, 0⟩, ⟨4, 1 / 48, 24, 0⟩] : List TickMapElement),
          24 ∣ e.barLength ∧ 24 ≤ e.barLength) :=
  ⟨by decide!, by decide!, by decide, by decide, by decide!,
    sig_normalisation_in_range 200 44100 [⟨0, 0⟩, ⟨2, 4⟩] [⟨4, 4, 0⟩, ⟨1, 8, 8⟩]
      [⟨0, 1 / 48, 96, 0⟩, ⟨4, 1 / 48, 24, 0⟩] (by decide!) (by decide!) (by decide)
      (by decide) (by decide!)⟩

set_option maxRecDepth 100000 in
/-- C9 as stated fails in two ways.  (1) The signature 268435456/1 has
`4 * numerator / denominator = 2^30`, and `24 * 2^30` wraps to 0 in `uint` arithmetic,
so the normalised bar length and the bar length of the built segment are 0, not
`24 * 2^30`.  (2) The signature 1073741824/1073741824 has the quotient 4, but the `int`
product `4 * 1073741824` wraps to 0, so the quotient formed by the code is 0, clamped
to 1, and the bar length is 24, not 96. -/
theorem sig_normalisation_wraps :
    ((normalizeTimeSigs [⟨268435456, 1, 0⟩]).map (fun c => c.barLength)
        ≠ ([⟨268435456, 1, 0⟩] : List BarSignature).map
            (fun b => 24 * max 1 (4 * b.numerator / (b.denominator : Nat)))
      ∧ buildTickMap 8 44100 [⟨0, 0⟩, ⟨2, 4⟩] [⟨268435456, 1, 0⟩] = some [⟨0, 1 / 48, 0, 0⟩]
      ∧ ¬ (24 ≤ (⟨0, 1 / 48, 0, 0⟩ : TickMapElement).barLength))
    ∧ (toInt32 (4 * 1073741824) = 0
      ∧ (normalizeTimeSigs [⟨1073741824, 1073741824, 0⟩]).map (fun c => c.barLength) = [24]
      ∧ ([⟨1073741824, 1073741824, 0⟩] : List BarSignature).map
            (fun b => 24 * max 1 (4 * b.numerator / (b.denominator : Nat))) = [96]
      ∧ buildTickMap 8 44100 [⟨0, 0⟩, ⟨2, 4⟩] [⟨1073741824, 1073741824, 0⟩]
        = some [⟨0, 1 / 48, 24, 0⟩]) :=
  ⟨⟨by decide!, by decide!, by decide⟩, ⟨by decide!, by decide!, by decide!, by decide!⟩⟩

/-- C10 at the signatures 4/4 at quarter 0, 3/4 at quarter 1, 2/4 at quarter 2: the
second change is quantised to quarter 4; for the third the unsigned difference `2 - 4`
wraps, and the change lands on quarter 3, before the previous change and off its bars. -/
theorem quantisation_before_previous_change :
    normalizeTimeSigs [⟨4, 4, 0⟩, ⟨3, 4, 1⟩, ⟨2, 4, 2⟩] = [⟨0, 96⟩, ⟨4, 72⟩, ⟨3, 48⟩] := by
  decide!


/-! ## Step 2: normalised tempo changes -/

theorem strictlyIncreasing_getD {tempo : List TempoEntry} (hinc : StrictlyIncreasing tempo)
    (i : Nat) (hi : i + 1 < tempo.length) :
    (tempo.getD i default).timePosition < (tempo.getD (i + 1) default).timePosition
    ∧ (tempo.getD i default).quarterPosition < (tempo.getD (i + 1) default).quarterPosition := by
  rw [List.getD_eq_getElem _ _ (by omega : i < tempo.length), List.getD_eq_getElem _ _ hi]
  exact List.chain'_iff_get.mp hinc i (by omega)

/-- The tick length between consecutive strictly increasing tempo entries is positive. -/
theorem rawTickLength_pos {tempo : List TempoEntry} (hinc : StrictlyIncreasing tempo)
    {i : Nat} (hi : i + 1 < tempo.length) : 0 < rawTickLength tempo i := by
  obtain ⟨h1, h2⟩ := strictlyIncreasing_getD hinc i hi
  unfold rawTickLength
  exact div_pos (div_pos (by linarith) (by linarith)) (by norm_num)

/-- The walk `while (sampleScaleLessThan (lastTickPos, nextPosition)) lastTickPos +=
tickLength` finishes when the tick length is positive. -/
theorem tickWalk_total (sr tl next cur : ℚ) (htl : 0 < tl) :
    ∃ N L, (∀ m, N ≤ m →
        whileLoop (fun p => sampleScaleLessThan sr p next) (fun p => some (p + tl)) m cur
          = some L)
      ∧ sampleScaleLessThan sr L next = false
      ∧ (L = cur ∨ sampleScaleLessThan sr (L - tl) next = true) := by
  obtain ⟨N, L, hrun, hinv, hc⟩ := whileLoop_total_simple
    (fun p => sampleScaleLessThan sr p next) (fun p => p + tl)
    (fun p => p = cur ∨ sampleScaleLessThan sr (p - tl) next = true)
    (fun p => ⌈(next - p) / tl⌉.toNat)
    (by
      intro p _ hc
      refine ⟨Or.inr (by simpa using hc), ?_⟩
      apply ticksBetween_decreases htl
      simp only [sampleScaleLessThan, Bool.and_eq_true, decide_eq_true_eq] at hc
      exact hc.1)
    cur (Or.inl rfl)
  exact ⟨N, L, hrun, hc, hinv⟩

/-- Step 2 finishes on strictly increasing tempo entries, and every tick length it
produces, the blended tick lengths of the inserted segments included, is positive. -/
theorem normalizeTempo_total (sr : ℚ) (hsr : 0 < sr) (tempo : List TempoEntry)
    (hinc : StrictlyIncreasing tempo) :
    ∃ N tcs, (∀ m, N ≤ m → normalizeTempo m sr tempo = some tcs)
      ∧ ∀ tc ∈ tcs, 0 < tc.tickLength := by
  have heps := halfASampleLength_pos hsr
  obtain ⟨N, r, hrun, hinv⟩ := range_foldlM_total
    (fun m s i => tempoStep m sr tempo s i)
    (fun i (s : List TempoChange × ℚ) =>
      (∀ tc ∈ s.1, 0 < tc.tickLength)
      ∧ (i + 1 < tempo.length →
          s.2 - (tempo.getD i default).timePosition < rawTickLength tempo i))
    ([], (tempo.getD 0 default).timePosition)
    ⟨by simp, fun h => by simpa using rawTickLength_pos hinc h⟩
    (tempo.length - 1)
    (by
      rintro i ⟨changes, np⟩ hi ⟨hpos, hnp⟩
      have hi1 : i + 1 < tempo.length := by omega
      have htl := rawTickLength_pos hinc hi1
      have hnp := hnp hi1
      simp only at hnp hpos
      by_cases hlast : i = tempo.length - 2
      · refine ⟨0, (changes ++ [⟨np, rawTickLength tempo i⟩], np), ?_, ?_, ?_⟩
        · intro m _
          simp [-List.getD_eq_getElem?_getD, tempoStep, hlast]
        · intro tc htc
          simp only [List.mem_append, List.mem_singleton] at htc
          rcases htc with htc | htc
          · exact hpos tc htc
          · subst htc; exact htl
        · intro h; omega
      · have hi2 : i + 2 < tempo.length := by omega
        have hntl := rawTickLength_pos hinc (i := i + 1) hi2
        obtain ⟨N, L, hwalk, hstop, hfirst⟩ := tickWalk_total sr (rawTickLength tempo i)
          (tempo.getD (i + 1) default).timePosition np htl
        by_cases heq : sampleScaleEquals sr L (tempo.getD (i + 1) default).timePosition = true
        · refine ⟨N, (changes ++ [⟨np, rawTickLength tempo i⟩],
            (tempo.getD (i + 1) default).timePosition), ?_, ?_, ?_⟩
          · intro m hm
            simp [-List.getD_eq_getElem?_getD, tempoStep, hlast, hwalk m hm, heq]
          · intro tc htc
            simp only [List.mem_append, List.mem_singleton] at htc
            rcases htc with htc | htc
            · exact hpos tc htc
            · subst htc; exact htl
          · intro _; simpa using hntl
        · simp only [Bool.not_eq_true] at heq
          -- the blend factor lies strictly between 0 and 1
          have hgt : (tempo.getD (i + 1) default).timePosition + halfASampleLength sr < L := by
            have h1 := (sampleScaleLessThan_eq_false_iff hsr _ _).mp hstop
            have h2 : ¬ |L - (tempo.getD (i + 1) default).timePosition| ≤ halfASampleLength sr := by
              rw [← sampleScaleEquals_iff, heq]; exact Bool.false_ne_true
            rw [not_le] at h2
            by_contra hcon
            rw [not_lt] at hcon
            have : |L - (tempo.getD (i + 1) default).timePosition| ≤ halfASampleLength sr := by
              rw [abs_le]; constructor <;> linarith
            exact absurd this (not_le.mpr h2)
          have hlt : L - (tempo.getD (i + 1) default).timePosition < rawTickLength tempo i := by
            rcases hfirst with hf | hf
            · subst hf
              have := (strictlyIncreasing_getD hinc i hi1).1
              linarith
            · have := (sampleScaleLessThan_iff hsr _ _).mp hf
              linarith
          have hb0 : 0 < (L - (tempo.getD (i + 1) default).timePosition) / rawTickLength tempo i :=
            div_pos (by linarith) htl
          have hb1 : (L - (tempo.getD (i + 1) default).timePosition) / rawTickLength tempo i < 1 :=
            (div_lt_one htl).mpr hlt
          have hnew : 0 < rawTickLength tempo (i + 1)
                * ((L - (tempo.getD (i + 1) default).timePosition) / rawTickLength tempo i)
              + rawTickLength tempo i
                * (1 - (L - (tempo.getD (i + 1) default).timePosition) / rawTickLength tempo i) := by
            have h1 := mul_pos hntl hb0
            have h2 := mul_pos htl (by linarith : 0 < 1 - (L - (tempo.getD (i + 1) default).timePosition) / rawTickLength tempo i)
            linarith
          refine ⟨N, (changes ++ [⟨np, rawTickLength tempo i⟩]
              ++ [⟨L - rawTickLength tempo i, rawTickLength tempo (i + 1)
                * ((L - (tempo.getD (i + 1) default).timePosition) / rawTickLength tempo i)
              + rawTickLength tempo i
                * (1 - (L - (tempo.getD (i + 1) default).timePosition) / rawTickLength tempo i)⟩],
            L - rawTickLength tempo i + (rawTickLength tempo (i + 1)
                * ((L - (tempo.getD (i + 1) default).timePosition) / rawTickLength tempo i)
              + rawTickLength tempo i
                * (1 - (L - (tempo.getD (i + 1) default).timePosition) / rawTickLength tempo i))),
            ?_, ?_, ?_⟩
          · intro m hm
            simp [-List.getD_eq_getElem?_getD, tempoStep, hlast, hwalk m hm, heq]
          · intro tc htc
            simp only [List.mem_append, List.mem_singleton] at htc
            rcases htc with (htc | htc) | htc
            · exact hpos tc htc
            · subst htc; exact htl
            · subst htc; exact hnew
          · intro _
            simp only
            have hne : rawTickLength tempo i ≠ 0 := ne_of_gt htl
            have e : L - rawTickLength tempo i + (rawTickLength tempo (i + 1)
                * ((L - (tempo.getD (i + 1) default).timePosition) / rawTickLength tempo i)
              + rawTickLength tempo i
                * (1 - (L - (tempo.getD (i + 1) default).timePosition) / rawTickLength tempo i))
              - (tempo.getD (i + 1) default).timePosition
              = rawTickLength tempo (i + 1)
                * ((L - (tempo.getD (i + 1) default).timePosition) / rawTickLength tempo i) := by
              field_simp
              ring
            rw [e]
            calc rawTickLength tempo (i + 1)
                  * ((L - (tempo.getD (i + 1) default).timePosition) / rawTickLength tempo i)
                < rawTickLength tempo (i + 1) * 1 := by
                  exact mul_lt_mul_of_pos_left hb1 hntl
              _ = rawTickLength tempo (i + 1) := mul_one _)
  refine ⟨N, r.1, ?_, hinv.1⟩
  intro m hm
  simp only [normalizeTempo]
  rw [hrun m hm]
  rfl



theorem tempoStep_mono (sr : ℚ) (tempo : List TempoEntry) {n m : Nat} (hnm : n ≤ m)
    (s : List TempoChange × ℚ) (i : Nat) (r : List TempoChange × ℚ)
    (h : tempoStep n sr tempo s i = some r) : tempoStep m sr tempo s i = some r := by
  unfold tempoStep at h ⊢
  split_ifs at h ⊢ with hi
  · exact h
  · simp only [Option.map_eq_some'] at h ⊢
    obtain ⟨L, hL, hr⟩ := h
    exact ⟨L, whileLoop_mono (fun _ _ h => h) n m _ _ hnm hL, hr⟩

theorem normalizeTempo_mono (sr : ℚ) (tempo : List TempoEntry) {n m : Nat} (hnm : n ≤ m)
    (tcs : List TempoChange) (h : normalizeTempo n sr tempo = some tcs) :
    normalizeTempo m sr tempo = some tcs := by
  unfold normalizeTempo at h ⊢
  simp only [Option.map_eq_some'] at h ⊢
  obtain ⟨a, ha, hat⟩ := h
  exact ⟨a, foldlM_mono (fun s i r => tempoStep_mono sr tempo hnm s i r) _ _ _ ha, hat⟩

/-- The first normalised tempo change starts at the time of the first tempo entry. -/
theorem normalizeTempo_head (fuel : Nat) (sr : ℚ) (tempo : List TempoEntry)
    (tcs : List TempoChange) (h : normalizeTempo fuel sr tempo = some tcs) :
    ∀ tc ∈ tcs.head?, tc.timePosition = (tempo.getD 0 default).timePosition := by
  unfold normalizeTempo at h
  simp only [Option.map_eq_some'] at h
  obtain ⟨a, ha, hat⟩ := h
  subst hat
  have key := foldlM_invariant (tempoStep fuel sr tempo)
    (fun s : List TempoChange × ℚ =>
      (s.1 = [] ∧ s.2 = (tempo.getD 0 default).timePosition)
      ∨ (s.1 ≠ [] ∧ ∀ tc ∈ s.1.head?, tc.timePosition = (tempo.getD 0 default).timePosition))
    (by
      rintro ⟨changes, np⟩ i ⟨changes', np'⟩ hs hstep
      right
      have hhead : (changes ++ [(⟨np, rawTickLength tempo i⟩ : TempoChange)]) ≠ []
          ∧ ∀ tc ∈ (changes ++ [(⟨np, rawTickLength tempo i⟩ : TempoChange)]).head?,
              tc.timePosition = (tempo.getD 0 default).timePosition := by
        refine ⟨by simp, ?_⟩
        rcases hs with ⟨h1, h2⟩ | ⟨h1, h2⟩
        · simp only at h1 h2
          subst h1
          intro tc htc
          simp only [List.nil_append, List.head?_cons, Option.mem_def, Option.some.injEq] at htc
          subst htc
          exact h2
        · simp only at h1 h2
          intro tc htc
          rw [List.head?_append_of_ne_nil _ h1] at htc
          exact h2 tc htc
      unfold tempoStep at hstep
      split_ifs at hstep with hi
      · simp only [Option.some.injEq, Prod.mk.injEq] at hstep
        obtain ⟨hc, _⟩ := hstep
        subst hc
        exact hhead
      · simp only [Option.map_eq_some'] at hstep
        obtain ⟨L, _, hL⟩ := hstep
        split_ifs at hL
        · simp only [Prod.mk.injEq] at hL
          obtain ⟨hc, _⟩ := hL
          subst hc
          refine ⟨by simp, ?_⟩
          intro tc htc
          rw [List.head?_append_of_ne_nil _ hhead.1] at htc
          exact hhead.2 tc htc
        · simp only [Prod.mk.injEq] at hL
          obtain ⟨hc, _⟩ := hL
          subst hc
          exact hhead)
    (List.range (tempo.length - 1)) _ a (Or.inl ⟨rfl, rfl⟩) ha
  rcases key with ⟨h1, _⟩ | ⟨_, h2⟩
  · intro tc htc; rw [h1] at htc; simp at htc
  · exact h2


/-! ## Steps 3 and 4 finish -/

theorem ticksLeft_mono (next : ℚ) {tl p p' : ℚ} (htl : 0 < tl) (hp : p ≤ p') :
    ⌈(next - p') / tl⌉.toNat ≤ ⌈(next - p) / tl⌉.toNat := by
  apply Int.toNat_le_toNat
  apply Int.ceil_le_ceil
  exact div_le_div_of_nonneg_right (by linarith) (le_of_lt htl)

theorem ticksLeft_decreases (next : ℚ) {tl p p' : ℚ} (htl : 0 < tl) (hlt : p < next)
    (hp : p + tl ≤ p') : ⌈(next - p') / tl⌉.toNat < ⌈(next - p) / tl⌉.toNat :=
  lt_of_le_of_lt (ticksLeft_mono next htl hp) (ticksBetween_decreases htl hlt)

theorem sigTick_lt (sigs : List TimeSigChange) (k : Nat) : sigTick sigs k < uintModulus :=
  Nat.mod_lt _ (by decide)

theorem lastElt_pushSigChange (sigs : List TimeSigChange) (u : MergeState) :
    lastElt (pushSigChange sigs u)
      = ⟨u.tickPos, (lastElt u).tickLength,
          (sigs.getD (u.timeSigChangeIdx + 1) default).barLength, 0⟩ := by
  simp [lastElt, pushSigChange]

theorem lastElt_advanceTick (u : MergeState) : lastElt (advanceTick u) = lastElt u := rfl

theorem lastElt_advanceTailTick (u : MergeState) : lastElt (advanceTailTick u) = lastElt u := rfl

theorem lessThan_lt {sr a b : ℚ} (h : sampleScaleLessThan sr a b = true) : a < b := by
  simp only [sampleScaleLessThan, Bool.and_eq_true, decide_eq_true_eq] at h
  exact h.1

/-- The inner loop of step 3 finishes; it leaves the map and the signature index alone
and either does not move or moves forward by at least one tick. -/
theorem mergeInner_total (sr : ℚ) (sigs : List TimeSigChange) (next : ℚ) (s : MergeState) :
    ∃ N u, (∀ m, N ≤ m →
        whileLoop
          (fun u => sampleScaleLessThan sr u.tickPos next
            && decide (u.tickIdx < sigTick sigs (u.timeSigChangeIdx + 1)))
          (fun u => some (advanceTick u)) m s = some u)
      ∧ u.tickMap = s.tickMap ∧ u.timeSigChangeIdx = s.timeSigChangeIdx
      ∧ (u.tickPos = s.tickPos ∨ (0 < (lastElt s).tickLength →
          s.tickPos + (lastElt s).tickLength ≤ u.tickPos))
      ∧ (sampleScaleLessThan sr u.tickPos next
          && decide (u.tickIdx < sigTick sigs (u.timeSigChangeIdx + 1))) = false := by
  obtain ⟨N, u, hrun, ⟨h1, h2, h3⟩, hc⟩ := whileLoop_total_simple
    (fun u : MergeState => sampleScaleLessThan sr u.tickPos next
      && decide (u.tickIdx < sigTick sigs (u.timeSigChangeIdx + 1)))
    advanceTick
    (fun u => u.tickMap = s.tickMap ∧ u.timeSigChangeIdx = s.timeSigChangeIdx
      ∧ (u.tickPos = s.tickPos ∨ (0 < (lastElt s).tickLength →
          s.tickPos + (lastElt s).tickLength ≤ u.tickPos)))
    (fun u => sigTick sigs (s.timeSigChangeIdx + 1) - u.tickIdx)
    (by
      rintro u ⟨h1, h2, h3⟩ hc
      simp only [Bool.and_eq_true, decide_eq_true_eq] at hc
      have hl : lastElt u = lastElt s := by unfold lastElt; rw [h1]
      refine ⟨⟨h1, h2, Or.inr ?_⟩, ?_⟩
      · intro htl
        simp only [advanceTick, hl]
        rcases h3 with h3 | h3
        · rw [h3]
        · have := h3 htl; linarith
      · have hlt := hc.2
        rw [h2] at hlt
        have := sigTick_lt sigs (s.timeSigChangeIdx + 1)
        simp only [advanceTick]
        rw [toUint_of_lt (by omega)]
        omega)
    s ⟨rfl, rfl, Or.inl rfl⟩
  exact ⟨N, u, hrun, h1, h2, h3, hc⟩

/-- The inner loop of step 4 finishes and leaves the map and the signature index alone. -/
theorem tailInner_total (sigs : List TimeSigChange) (s : MergeState) :
    ∃ N u, (∀ m, N ≤ m →
        whileLoop (fun u => decide (u.tickIdx < sigTick sigs (u.timeSigChangeIdx + 1)))
          (fun u => some (advanceTailTick u)) m s = some u)
      ∧ u.tickMap = s.tickMap ∧ u.timeSigChangeIdx = s.timeSigChangeIdx := by
  obtain ⟨N, u, hrun, ⟨h1, h2⟩, _⟩ := whileLoop_total_simple
    (fun u : MergeState => decide (u.tickIdx < sigTick sigs (u.timeSigChangeIdx + 1)))
    advanceTailTick
    (fun u => u.tickMap = s.tickMap ∧ u.timeSigChangeIdx = s.timeSigChangeIdx)
    (fun u => sigTick sigs (s.timeSigChangeIdx + 1) - u.tickIdx)
    (by
      rintro u ⟨h1, h2⟩ hc
      simp only [decide_eq_true_eq] at hc
      refine ⟨⟨h1, h2⟩, ?_⟩
      rw [h2] at hc
      have := sigTick_lt sigs (s.timeSigChangeIdx + 1)
      simp only [advanceTailTick]
      rw [toUint_of_lt (by omega)]
      omega)
    s ⟨rfl, rfl⟩
  exact ⟨N, u, hrun, h1, h2⟩

/-- The `while` of step 3 for one tempo change finishes when the tick lengths of the
map are positive. -/
theorem mergeWhile_total (sr : ℚ) (sigs : List TimeSigChange) (next : ℚ) (s : MergeState)
    (hne : s.tickMap ≠ []) (hpos : ∀ e ∈ s.tickMap, 0 < e.tickLength) :
    ∃ N r, (∀ n m, N ≤ n → N ≤ m →
        whileLoop (fun u => sampleScaleLessThan sr u.tickPos next)
          (mergeWhileBody n sr sigs next) m s = some r)
      ∧ r.tickMap ≠ [] ∧ ∀ e ∈ r.tickMap, 0 < e.tickLength := by
  have htl0 : 0 < (lastElt s).tickLength := hpos _ (lastElt_mem hne)
  obtain ⟨N, r, hrun, ⟨h1, h2, _⟩, _⟩ := whileLoop_total
    (fun u : MergeState => sampleScaleLessThan sr u.tickPos next)
    (fun n => mergeWhileBody n sr sigs next)
    (fun u => u.tickMap ≠ [] ∧ (∀ e ∈ u.tickMap, 0 < e.tickLength)
      ∧ (lastElt u).tickLength = (lastElt s).tickLength)
    (fun u => ⌈(next - u.tickPos) / (lastElt s).tickLength⌉.toNat * (sigs.length + 1)
      + (sigs.length - u.timeSigChangeIdx))
    (by
      rintro a ⟨hane, hapos, hatl⟩ hc
      have hc : sampleScaleLessThan sr a.tickPos next = true := hc
      have halt : 0 < (lastElt a).tickLength := hatl ▸ htl0
      beta_reduce
      by_cases hidx : a.timeSigChangeIdx + 1 < sigs.length
      · obtain ⟨N, u, hrun, hu1, hu2, hu3, huc⟩ := mergeInner_total sr sigs next a
        have hul : lastElt u = lastElt a := by unfold lastElt; rw [hu1]
        have hupos : a.tickPos ≤ u.tickPos := by
          rcases hu3 with h | h
          · rw [h]
          · have := h halt; linarith
        by_cases hpush : sampleScaleLessThan sr u.tickPos next = true
        · refine ⟨N, pushSigChange sigs u, ?_, ⟨pushSigChange_ne_nil sigs u, ?_, ?_⟩, ?_⟩
          · intro n hn
            simp only [mergeWhileBody, hidx, if_true, hrun n hn, Option.map_some', hpush]
          · intro e he
            simp only [pushSigChange, List.mem_append, List.mem_singleton] at he
            rcases he with he | he
            · rw [hu1] at he; exact hapos e he
            · subst he; simpa [hul] using halt
          · rw [lastElt_pushSigChange]; simp only [hul, hatl]
          · have hm := ticksLeft_mono next htl0 hupos
            have hm' := Nat.mul_le_mul_right (sigs.length + 1) hm
            simp only [pushSigChange, hu2]
            omega
        · simp only [Bool.not_eq_true] at hpush
          refine ⟨N, u, ?_, ⟨hu1 ▸ hane, hu1 ▸ hapos, by rw [hul, hatl]⟩, ?_⟩
          · intro n hn
            simp only [mergeWhileBody, hidx, if_true, hrun n hn, Option.map_some', hpush,
              Bool.false_eq_true, if_false]
          · have hmoved : a.tickPos + (lastElt s).tickLength ≤ u.tickPos := by
              rcases hu3 with h | h
              · rw [h, hc] at hpush; exact absurd hpush (by decide)
              · rw [← hatl]; exact h halt
            have hd := ticksLeft_decreases next htl0 (lessThan_lt hc) hmoved
            rw [hu2]
            exact Nat.add_lt_add_right
              ((Nat.mul_lt_mul_right (Nat.succ_pos _)).mpr hd) _
      · refine ⟨0, advanceTick a, ?_, ⟨by rwa [advanceTick_tickMap],
          by rwa [advanceTick_tickMap], by rw [lastElt_advanceTick, hatl]⟩, ?_⟩
        · intro n _
          simp only [mergeWhileBody, hidx, if_false]
        · have hd := ticksLeft_decreases next htl0 (lessThan_lt hc)
            (le_refl (a.tickPos + (lastElt s).tickLength))
          simp only [advanceTick, hatl]
          exact Nat.add_lt_add_right
            ((Nat.mul_lt_mul_right (Nat.succ_pos _)).mpr hd) _)
    s ⟨hne, hpos, rfl⟩
  exact ⟨N, r, hrun, h1, h2⟩

/-- Steps 3 and 4 finish when every normalised tempo change has a positive tick
length, and every tick length of the resulting map is positive. -/
theorem mergeAll_total (sr : ℚ) (sigs : List TimeSigChange) (tempoChanges : List TempoChange)
    (hne : tempoChanges ≠ []) (hpos : ∀ tc ∈ tempoChanges, 0 < tc.tickLength) :
    ∃ N r, (∀ n, N ≤ n → mergeAll n sr sigs tempoChanges = some r)
      ∧ ∀ e ∈ r.tickMap, 0 < e.tickLength := by
  -- step 3
  obtain ⟨N1, r1, hrun1, hr1pos, hr1ne⟩ := foldlM_total_mem
    (fun n s tc => mergeStep n sr sigs s tc)
    (fun u => (∀ e ∈ u.tickMap, 0 < e.tickLength) ∧ (u.tickMap = [] → u = ⟨[], 0, 0, 0, 0⟩))
    tempoChanges
    (by
      rintro s tc htc ⟨hspos, _⟩
      have hpush : ∀ u : MergeState, (∀ e ∈ u.tickMap, 0 < e.tickLength) →
          (∀ e ∈ (pushTempoChange sigs tc u).tickMap, 0 < e.tickLength)
          ∧ ((pushTempoChange sigs tc u).tickMap = [] →
              pushTempoChange sigs tc u = ⟨[], 0, 0, 0, 0⟩) := by
        intro u hu
        refine ⟨?_, fun h => absurd h (pushTempoChange_ne_nil sigs tc u)⟩
        intro e he
        simp only [pushTempoChange, List.mem_append, List.mem_singleton] at he
        rcases he with he | he
        · exact hu e he
        · subst he; exact hpos tc htc
      by_cases hemp : s.tickMap.isEmpty = true
      · refine ⟨0, pushTempoChange sigs tc s, ?_, hpush s hspos⟩
        intro n _
        simp only [mergeStep, hemp, if_true, Option.map_some']
      · have hsne : s.tickMap ≠ [] := by
          intro hnil; rw [hnil] at hemp; exact hemp rfl
        obtain ⟨N, r, hrun, _, hrpos⟩ := mergeWhile_total sr sigs tc.timePosition s hsne hspos
        refine ⟨N, pushTempoChange sigs tc r, ?_, hpush r hrpos⟩
        intro n hn
        simp only [mergeStep, hemp, Bool.false_eq_true, if_false, hrun n n hn hn,
          Option.map_some'])
    ⟨[], 0, 0, 0, 0⟩ ⟨by simp, fun _ => rfl⟩
  -- step 4
  obtain ⟨N2, r2, hrun2, ⟨hr2pos, _⟩, _⟩ := whileLoop_total
    (fun u : MergeState => decide (u.timeSigChangeIdx + 1 < sigs.length))
    (fun n => tailBody n sigs)
    (fun u => (∀ e ∈ u.tickMap, 0 < e.tickLength) ∧ u.tickMap ≠ [])
    (fun u => sigs.length - u.timeSigChangeIdx)
    (by
      rintro a ⟨hapos, hane⟩ hc
      simp only [decide_eq_true_eq] at hc
      beta_reduce
      obtain ⟨N, u, hrun, hu1, hu2⟩ := tailInner_total sigs a
      have hul : lastElt u = lastElt a := by unfold lastElt; rw [hu1]
      refine ⟨N, pushSigChange sigs u, ?_, ⟨?_, pushSigChange_ne_nil sigs u⟩, ?_⟩
      · intro n hn
        simp only [tailBody, hrun n hn, Option.map_some']
      · intro e he
        simp only [pushSigChange, List.mem_append, List.mem_singleton] at he
        rcases he with he | he
        · rw [hu1] at he; exact hapos e he
        · subst he; simpa [hul] using hapos _ (lastElt_mem hane)
      · simp only [pushSigChange, hu2]
        omega)
    r1 ⟨hr1pos, by
      intro hnil
      -- the map is non-empty after at least one tempo change
      cases tempoChanges with
      | nil => exact hne rfl
      | cons tc l =>
        have h := hrun1 N1 le_rfl
        simp only [List.foldlM_cons] at h
        cases h1 : mergeStep N1 sr sigs ⟨[], 0, 0, 0, 0⟩ tc with
        | none => simp [h1] at h
        | some s1 =>
          rw [h1] at h
          have h : l.foldlM (mergeStep N1 sr sigs) s1 = some r1 := h
          have hs1 : s1.tickMap ≠ [] := by
            simp only [mergeStep, List.isEmpty_nil, if_true, Option.map_some',
              Option.some.injEq] at h1
            subst h1
            exact pushTempoChange_ne_nil sigs tc _
          have := foldlM_invariant (mergeStep N1 sr sigs) (fun u => u.tickMap ≠ [])
            (by
              intro a tc' b _ hab
              unfold mergeStep at hab
              simp only [Option.map_eq_some'] at hab
              obtain ⟨x, _, hx⟩ := hab
              subst hx
              exact pushTempoChange_ne_nil sigs tc' x)
            l s1 r1 hs1 h
          exact this hnil⟩
  refine ⟨max N1 N2, r2, ?_, hr2pos⟩
  intro n hn
  simp only [mergeAll, hrun1 n (by omega), Option.some_bind]
  exact hrun2 n n (by omega) (by omega)


/-- C8: for at least two tempo entries with strictly increasing time and quarter
positions and at least one bar signature, the rebuild finishes (for every large enough
fuel) and every segment of the built map, the blended one-tick segments of the split
included, has a positive tick length. -/
theorem built_tickLength_positive (sr : ℚ) (tempo : List TempoEntry)
    (sigs : List BarSignature) (previous : List TickMapElement)
    (hsr : 0 < sr) (htempo : 1 < tempo.length) (hsigs : 0 < sigs.length)
    (hinc : StrictlyIncreasing tempo) :
    ∃ N tickMap,
      (∀ fuel, N ≤ fuel →
        rebuildTickMap fuel sr (some (tempo, sigs)) previous = some tickMap)
      ∧ ∀ e ∈ tickMap, 0 < e.tickLength := by
  obtain ⟨N1, tcs, hrun1, htcs⟩ := normalizeTempo_total sr hsr tempo hinc
  have hne : tcs ≠ [] := normalizeTempo_ne_nil N1 sr tempo htempo tcs (hrun1 N1 le_rfl)
  obtain ⟨N2, r, hrun2, hr⟩ := mergeAll_total sr (normalizeTimeSigs sigs) tcs hne htcs
  refine ⟨max N1 N2, r.tickMap, ?_, hr⟩
  intro fuel hf
  have hguard : tempo.length > 1 ∧ sigs.length > 0 := ⟨htempo, hsigs⟩
  simp only [rebuildTickMap, hguard, and_self, if_true, buildTickMap, hrun1 fuel (by omega),
    Option.some_bind, hrun2 fuel (by omega), Option.map_some']

/-- Witness of C8: three tempo entries whose middle one falls between two ticks (the
split inserts a blended segment), with one 4/4 signature, at 44100 Hz. -/
theorem built_tickLength_positive_witness :
    (0 : ℚ) < 44100
    ∧ 1 < ([⟨0, 0⟩, ⟨1, 201 / 100⟩, ⟨2, 4⟩] : List TempoEntry).length
    ∧ 0 < ([⟨4, 4, 0⟩] : List BarSignature).length
    ∧ StrictlyIncreasing [⟨0, 0⟩, ⟨1, 201 / 100⟩, ⟨2, 4⟩]
    ∧ ∃ N tickMap,
      (∀ fuel, N ≤ fuel →
        rebuildTickMap fuel 44100 (some ([⟨0, 0⟩, ⟨1, 201 / 100⟩, ⟨2, 4⟩], [⟨4, 4, 0⟩])) []
          = some tickMap)
      ∧ ∀ e ∈ tickMap, 0 < e.tickLength :=
  ⟨by norm_num, by decide, by decide, by simp [StrictlyIncreasing]; norm_num,
    built_tickLength_positive 44100 [⟨0, 0⟩, ⟨1, 201 / 100⟩, ⟨2, 4⟩] [⟨4, 4, 0⟩] []
      (by norm_num) (by decide) (by decide) (by simp [StrictlyIncreasing]; norm_num)⟩


/-! ## Ordering of the built segments -/

theorem chain'_concat {α : Type} {R : α → α → Prop} {l : List α} {a : α}
    (h : l.Chain' R) (hl : ∀ x ∈ l.getLast?, R x a) : (l ++ [a]).Chain' R := by
  rw [List.chain'_append]
  refine ⟨h, List.chain'_singleton a, ?_⟩
  intro x hx y hy
  simp only [List.head?_cons, Option.mem_def, Option.some.injEq] at hy
  subst hy
  exact hl x hx

theorem eq_lastElt_of_mem_getLast? {u : MergeState} {x : TickMapElement}
    (hx : x ∈ u.tickMap.getLast?) : x = lastElt u := by
  unfold lastElt
  rw [List.getLastD_eq_getLast?]
  simp only [Option.mem_def] at hx
  rw [hx]; rfl

theorem ascending_push {sr : ℚ} (hsr : 0 < sr) {u : MergeState} {e : TickMapElement}
    (h : AscendingStarts sr u.tickMap)
    (hl : u.tickMap ≠ [] → (lastElt u).startPosition + halfASampleLength sr < e.startPosition) :
    AscendingStarts sr (u.tickMap ++ [e]) := by
  apply chain'_concat h
  intro x hx
  have hne : u.tickMap ≠ [] := by
    intro hnil; rw [hnil] at hx; simp at hx
  rw [eq_lastElt_of_mem_getLast? hx, sampleScaleLessThan_iff hsr]
  exact hl hne

theorem lastElt_push (u : MergeState) (e : TickMapElement) (i : Nat) :
    lastElt { u with timeSigChangeIdx := i, tickMap := u.tickMap ++ [e] } = e := by
  simp [lastElt]

theorem mergeOrdered_advanceTick {sr : ℚ} (hsr : 0 < sr) {sigs : List TimeSigChange}
    {u : MergeState} (h : MergeOrdered sr sigs u) (hc : BeforeNextSig sigs u) :
    MergeOrdered sr sigs (advanceTick u) := by
  obtain ⟨h1, h2, h3, h4, h5⟩ := h
  have heps := halfASampleLength_pos hsr
  refine ⟨h1, h2, ?_, h4, ?_⟩
  · rw [lastElt_advanceTick]; simp only [advanceTick]; linarith
  · intro hidx
    have hidx' : u.timeSigChangeIdx + 1 < sigs.length := hidx
    have hlt := hc hidx'
    have hb := sigTick_lt sigs (u.timeSigChangeIdx + 1)
    rw [lastElt_advanceTick]
    simp only [advanceTick]
    rw [toUint_of_lt (by omega)]
    exact ⟨by omega, Or.inr (by linarith)⟩

theorem mergeOrdered_advanceTailTick {sr : ℚ} (hsr : 0 < sr) {sigs : List TimeSigChange}
    {u : MergeState} (h : MergeOrdered sr sigs u) (hc : BeforeNextSig sigs u) :
    MergeOrdered sr sigs (advanceTailTick u) := by
  obtain ⟨h1, h2, h3, h4, h5⟩ := h
  have heps := halfASampleLength_pos hsr
  refine ⟨h1, h2, ?_, h4, ?_⟩
  · rw [lastElt_advanceTailTick]; simp only [advanceTailTick]; linarith
  · intro hidx
    have hidx' : u.timeSigChangeIdx + 1 < sigs.length := hidx
    have hlt := hc hidx'
    have hb := sigTick_lt sigs (u.timeSigChangeIdx + 1)
    rw [lastElt_advanceTailTick]
    simp only [advanceTailTick]
    rw [toUint_of_lt (by omega)]
    exact ⟨by omega, Or.inr (by linarith)⟩

theorem mergeOrdered_pushSigChange {sr : ℚ} (hsr : 0 < sr) {sigs : List TimeSigChange}
    (hsig : ∀ k, k + 1 < sigs.length → sigTick sigs k < sigTick sigs (k + 1))
    {u : MergeState} (h : MergeOrdered sr sigs u)
    (hidx : u.timeSigChangeIdx + 1 < sigs.length)
    (hreach : sigTick sigs (u.timeSigChangeIdx + 1) ≤ u.tickIdx) :
    MergeOrdered sr sigs (pushSigChange sigs u) ∧ BeforeNextSig sigs (pushSigChange sigs u) := by
  obtain ⟨h1, h2, h3, h4, h5⟩ := h
  obtain ⟨h5a, h5b⟩ := h5 hidx
  have heq : u.tickIdx = sigTick sigs (u.timeSigChangeIdx + 1) := by omega
  have hpast : (lastElt u).startPosition + halfASampleLength sr < u.tickPos := by
    rcases h5b with h | h
    · omega
    · exact h
  have heps := halfASampleLength_pos hsr
  have hstrict : BeforeNextSig sigs (pushSigChange sigs u) := by
    intro hi
    have := hsig (u.timeSigChangeIdx + 1) hi
    simp only [pushSigChange]
    omega
  refine ⟨⟨?_, pushSigChange_ne_nil sigs u, ?_, ?_, ?_⟩, hstrict⟩
  · exact ascending_push hsr h1 (fun _ => hpast)
  · rw [lastElt_pushSigChange]; simp only [pushSigChange]; linarith
  · rw [lastElt_pushSigChange]; exact h4
  · intro hi
    have := hstrict hi
    exact ⟨le_of_lt this, Or.inl this⟩

theorem mergeOrdered_pushTempoChange {sr : ℚ} (hsr : 0 < sr) {sigs : List TimeSigChange}
    (hsig : ∀ k, k + 1 < sigs.length → sigTick sigs k < sigTick sigs (k + 1))
    {u : MergeState} {tc : TempoChange}
    (h1 : AscendingStarts sr u.tickMap)
    (hlast : u.tickMap ≠ [] →
      (lastElt u).startPosition + halfASampleLength sr < tc.timePosition)
    (hpos : tc.timePosition ≤ u.tickPos + halfASampleLength sr)
    (htl : 2 * halfASampleLength sr < tc.tickLength)
    (h5 : u.timeSigChangeIdx + 1 < sigs.length →
      u.tickIdx ≤ sigTick sigs (u.timeSigChangeIdx + 1)) :
    MergeOrdered sr sigs (pushTempoChange sigs tc u)
    ∧ BeforeNextSig sigs (pushTempoChange sigs tc u)
    ∧ (lastElt (pushTempoChange sigs tc u)).startPosition = tc.timePosition := by
  have hstrict : BeforeNextSig sigs (pushTempoChange sigs tc u) := by
    intro hi
    simp only [pushTempoChange] at hi ⊢
    split_ifs at hi ⊢ with hc
    · have := hsig (u.timeSigChangeIdx + 1) hi
      omega
    · have := h5 hi
      have hne : ¬ u.tickIdx = sigTick sigs (u.timeSigChangeIdx + 1) := fun h => hc ⟨hi, h⟩
      omega
  have hl : lastElt (pushTempoChange sigs tc u)
      = ⟨tc.timePosition, tc.tickLength,
          (sigs.getD (if u.timeSigChangeIdx + 1 < sigs.length
            ∧ u.tickIdx = sigTick sigs (u.timeSigChangeIdx + 1) then u.timeSigChangeIdx + 1
            else u.timeSigChangeIdx) default).barLength, u.tickOffset⟩ := by
    simp [lastElt, pushTempoChange]
  refine ⟨⟨?_, pushTempoChange_ne_nil sigs tc u, ?_, ?_, ?_⟩, hstrict, ?_⟩
  · exact ascending_push hsr h1 hlast
  · rw [hl]; exact hpos
  · rw [hl]; exact htl
  · intro hi
    have := hstrict hi
    exact ⟨le_of_lt this, Or.inl this⟩
  · rw [hl]


/-- The `while` of step 3 keeps the map ordered and stops at most half a sample before
the tempo change. -/
theorem mergeWhile_ordered {sr : ℚ} (hsr : 0 < sr) {sigs : List TimeSigChange}
    (hsig : ∀ k, k + 1 < sigs.length → sigTick sigs k < sigTick sigs (k + 1))
    (fuel : Nat) (next : ℚ) (s r : MergeState) (hs : MergeOrdered sr sigs s)
    (hB : (lastElt s).startPosition + halfASampleLength sr < next)
    (hrun : whileLoop (fun u => sampleScaleLessThan sr u.tickPos next)
      (mergeWhileBody fuel sr sigs next) fuel s = some r) :
    MergeOrdered sr sigs r
    ∧ (lastElt r).startPosition + halfASampleLength sr < next
    ∧ next ≤ r.tickPos + halfASampleLength sr := by
  have key := whileLoop_invariant
    (fun u => MergeOrdered sr sigs u ∧ (lastElt u).startPosition + halfASampleLength sr < next)
    (by
      rintro a b ⟨ha, haB⟩ _ hab
      unfold mergeWhileBody at hab
      split_ifs at hab with hidx
      · cases hw : whileLoop
            (fun u => sampleScaleLessThan sr u.tickPos next
              && decide (u.tickIdx < sigTick sigs (u.timeSigChangeIdx + 1)))
            (fun u => some (advanceTick u)) fuel a with
        | none => simp [hw] at hab
        | some u =>
          rw [hw] at hab
          simp only [Option.map_some', Option.some.injEq] at hab
          obtain ⟨⟨hu, huB, huidx⟩, huc⟩ := whileLoop_invariant
            (fun u => MergeOrdered sr sigs u
              ∧ (lastElt u).startPosition + halfASampleLength sr < next
              ∧ u.timeSigChangeIdx + 1 < sigs.length)
            (by
              rintro x y ⟨hx, hxB, hxidx⟩ hxc hxy
              simp only [Option.some.injEq] at hxy
              subst hxy
              simp only [Bool.and_eq_true, decide_eq_true_eq] at hxc
              exact ⟨mergeOrdered_advanceTick hsr hx (fun _ => hxc.2),
                by rw [lastElt_advanceTick]; exact hxB, hxidx⟩)
            fuel a u ⟨ha, haB, hidx⟩ hw
          split_ifs at hab with hpush
          · subst hab
            simp only [hpush, Bool.true_and, decide_eq_false_iff_not, not_lt] at huc
            refine ⟨(mergeOrdered_pushSigChange hsr hsig hu huidx huc).1, ?_⟩
            rw [lastElt_pushSigChange]
            exact (sampleScaleLessThan_iff hsr _ _).mp hpush
          · subst hab
            exact ⟨hu, huB⟩
      · simp only [Option.some.injEq] at hab
        subst hab
        exact ⟨mergeOrdered_advanceTick hsr ha (fun h => absurd h hidx),
          by rw [lastElt_advanceTick]; exact haB⟩)
    fuel s r ⟨hs, hB⟩ hrun
  exact ⟨key.1.1, key.1.2, (sampleScaleLessThan_eq_false_iff hsr _ _).mp key.2⟩

/-- One iteration of the `for` of step 3 keeps the map ordered. -/
theorem mergeStep_ordered {sr : ℚ} (hsr : 0 < sr) {sigs : List TimeSigChange}
    (hsig : ∀ k, k + 1 < sigs.length → sigTick sigs k < sigTick sigs (k + 1))
    (fuel : Nat) (tc : TempoChange) (s s' : MergeState)
    (htl : 2 * halfASampleLength sr < tc.tickLength)
    (hs : (s = ⟨[], 0, 0, 0, 0⟩ ∧ tc.timePosition = 0)
      ∨ (MergeOrdered sr sigs s
        ∧ (lastElt s).startPosition + halfASampleLength sr < tc.timePosition))
    (hrun : mergeStep fuel sr sigs s tc = some s') :
    MergeOrdered sr sigs s' ∧ BeforeNextSig sigs s'
    ∧ (lastElt s').startPosition = tc.timePosition := by
  have heps := halfASampleLength_pos hsr
  unfold mergeStep at hrun
  rcases hs with ⟨hinit, h0⟩ | ⟨hs, hB⟩
  · subst hinit
    simp only [List.isEmpty_nil, if_true, Option.map_some', Option.some.injEq] at hrun
    subst hrun
    exact mergeOrdered_pushTempoChange hsr hsig List.chain'_nil (fun h => absurd rfl h)
      (by rw [h0]; simpa using le_of_lt heps) htl (fun _ => Nat.zero_le _)
  · have hemp : s.tickMap.isEmpty = false := by
      have := hs.2.1
      cases hm : s.tickMap with
      | nil => exact absurd hm this
      | cons a l => rfl
    simp only [hemp, Bool.false_eq_true, if_false, Option.map_eq_some'] at hrun
    obtain ⟨r, hr, hrs⟩ := hrun
    subst hrs
    obtain ⟨hr1, hr2, hr3⟩ := mergeWhile_ordered hsr hsig fuel tc.timePosition s r hs hB hr
    exact mergeOrdered_pushTempoChange hsr hsig hr1.1 (fun _ => hr2) hr3 htl
      (fun hi => (hr1.2.2.2.2 hi).1)

/-- The `for` of step 3 keeps the map ordered. -/
theorem mergeFold_ordered {sr : ℚ} (hsr : 0 < sr) {sigs : List TimeSigChange}
    (hsig : ∀ k, k + 1 < sigs.length → sigTick sigs k < sigTick sigs (k + 1))
    (fuel : Nat) :
    ∀ (l : List TempoChange) (s r : MergeState),
      l.Chain' (fun a b => sampleScaleLessThan sr a.timePosition b.timePosition = true) →
      (∀ tc ∈ l, 2 * halfASampleLength sr < tc.tickLength) →
      ((s = ⟨[], 0, 0, 0, 0⟩ ∧ ∀ tc ∈ l.head?, tc.timePosition = 0)
        ∨ (MergeOrdered sr sigs s ∧ BeforeNextSig sigs s
          ∧ ∀ tc ∈ l.head?, (lastElt s).startPosition + halfASampleLength sr < tc.timePosition)) →
      l.foldlM (mergeStep fuel sr sigs) s = some r →
      (l = [] ∧ r = s) ∨ (MergeOrdered sr sigs r ∧ BeforeNextSig sigs r) := by
  intro l
  induction l with
  | nil =>
    intro s r _ _ _ h
    simp only [List.foldlM_nil] at h
    left
    exact ⟨rfl, by simpa using h.symm⟩
  | cons tc l ih =>
    intro s r hchain htl hs h
    right
    simp only [List.foldlM_cons] at h
    cases h1 : mergeStep fuel sr sigs s tc with
    | none => simp [h1] at h
    | some s1 =>
      rw [h1] at h
      have h : l.foldlM (mergeStep fuel sr sigs) s1 = some r := h
      have hs' : (s = ⟨[], 0, 0, 0, 0⟩ ∧ tc.timePosition = 0)
          ∨ (MergeOrdered sr sigs s
            ∧ (lastElt s).startPosition + halfASampleLength sr < tc.timePosition) := by
        rcases hs with ⟨ha, hb⟩ | ⟨ha, _, hc⟩
        · exact Or.inl ⟨ha, hb tc (by simp)⟩
        · exact Or.inr ⟨ha, hc tc (by simp)⟩
      obtain ⟨hm1, hm2, hm3⟩ := mergeStep_ordered hsr hsig fuel tc s s1
        (htl tc (List.mem_cons_self _ _)) hs' h1
      have hnext : ∀ tc' ∈ l.head?,
          (lastElt s1).startPosition + halfASampleLength sr < tc'.timePosition := by
        intro tc' htc'
        rw [hm3]
        cases l with
        | nil => simp at htc'
        | cons x l' =>
          simp only [List.head?_cons, Option.mem_def, Option.some.injEq] at htc'
          subst htc'
          exact (sampleScaleLessThan_iff hsr _ _).mp (List.chain'_cons.mp hchain).1
      rcases ih s1 r (List.Chain'.tail hchain)
          (fun tc' h' => htl tc' (List.mem_cons_of_mem _ h'))
          (Or.inr ⟨hm1, hm2, hnext⟩) h with ⟨_, hrs⟩ | hr
      · subst hrs; exact ⟨hm1, hm2⟩
      · exact hr

/-- Steps 3 and 4 build an ascending map when the normalised tempo changes ascend, the
signature changes fall on strictly increasing tick indices, and every tick is longer
than one sample. -/
theorem mergeAll_ordered {sr : ℚ} (hsr : 0 < sr) {sigs : List TimeSigChange}
    (hsig : ∀ k, k + 1 < sigs.length → sigTick sigs k < sigTick sigs (k + 1))
    (fuel : Nat) (tcs : List TempoChange) (r : MergeState) (hne : tcs ≠ [])
    (hchain : tcs.Chain' (fun a b => sampleScaleLessThan sr a.timePosition b.timePosition = true))
    (htl : ∀ tc ∈ tcs, 2 * halfASampleLength sr < tc.tickLength)
    (hzero : ∀ tc ∈ tcs.head?, tc.timePosition = 0)
    (hrun : mergeAll fuel sr sigs tcs = some r) :
    AscendingStarts sr r.tickMap := by
  unfold mergeAll at hrun
  cases hf : tcs.foldlM (mergeStep fuel sr sigs) ⟨[], 0, 0, 0, 0⟩ with
  | none => simp [hf] at hrun
  | some m =>
    rw [hf] at hrun
    simp only [Option.some_bind] at hrun
    rcases mergeFold_ordered hsr hsig fuel tcs _ m hchain htl (Or.inl ⟨rfl, hzero⟩) hf
      with ⟨hnil, _⟩ | hm
    · exact absurd hnil hne
    · have key := whileLoop_invariant
        (fun u => MergeOrdered sr sigs u ∧ BeforeNextSig sigs u)
        (by
          rintro a b ⟨ha, hab'⟩ hc hab
          simp only [decide_eq_true_eq] at hc
          unfold tailBody at hab
          simp only [Option.map_eq_some'] at hab
          obtain ⟨u, hu, hub⟩ := hab
          subst hub
          obtain ⟨⟨hu1, hu2⟩, huc⟩ := whileLoop_invariant
            (fun u => MergeOrdered sr sigs u ∧ u.timeSigChangeIdx + 1 < sigs.length)
            (by
              rintro x y ⟨hx, hxidx⟩ hxc hxy
              simp only [Option.some.injEq] at hxy
              subst hxy
              simp only [decide_eq_true_eq] at hxc
              exact ⟨mergeOrdered_advanceTailTick hsr hx (fun _ => hxc), hxidx⟩)
            fuel a u ⟨ha, hc⟩ hu
          simp only [decide_eq_false_iff_not, not_lt] at huc
          exact mergeOrdered_pushSigChange hsr hsig hu1 hu2 huc)
        fuel m r hm hrun
      exact key.1.1.1


theorem two_halfASampleLength {sr : ℚ} (hsr : 0 < sr) : 2 * halfASampleLength sr = 1 / sr := by
  unfold halfASampleLength
  field_simp
  ring

theorem ascendingStarts_pairwise {sr : ℚ} (hsr : 0 < sr) {tickMap : List TickMapElement}
    (h : AscendingStarts sr tickMap) :
    tickMap.Pairwise
      (fun a b => sampleScaleLessThan sr a.startPosition b.startPosition = true) := by
  have heps := halfASampleLength_pos hsr
  haveI : IsTrans TickMapElement
      (fun a b => sampleScaleLessThan sr a.startPosition b.startPosition = true) :=
    ⟨fun a b c hab hbc => by
      rw [sampleScaleLessThan_iff hsr] at hab hbc ⊢
      linarith⟩
  exact List.chain'_iff_pairwise.mp h

/-- The merge of steps 3 and 4 keeps the order of its inputs: when the tempo segments
produced by step 2 start in strictly ascending order for the precision comparator,
every tick of them is longer than one sample period, and the signature changes
produced by step 1 fall on strictly increasing tick indices, the rebuild finishes and
the segments of the built map are strictly ascending by start position. -/
theorem rebuild_ascending_of_normalised (sr : ℚ) (tempo : List TempoEntry)
    (sigs : List BarSignature) (previous : List TickMapElement)
    (fuel0 : Nat) (tcs : List TempoChange)
    (hsr : 0 < sr) (htempo : 1 < tempo.length) (hsigs : 0 < sigs.length)
    (hinc : StrictlyIncreasing tempo)
    (hzero : (tempo.getD 0 default).timePosition = 0)
    (hnorm : normalizeTempo fuel0 sr tempo = some tcs)
    (hchain : tcs.Chain'
      (fun a b => sampleScaleLessThan sr a.timePosition b.timePosition = true))
    (htl : ∀ tc ∈ tcs, 1 / sr < tc.tickLength)
    (hsig : ∀ k, k + 1 < (normalizeTimeSigs sigs).length →
      sigTick (normalizeTimeSigs sigs) k < sigTick (normalizeTimeSigs sigs) (k + 1)) :
    ∃ N tickMap,
      (∀ fuel, N ≤ fuel →
        rebuildTickMap fuel sr (some (tempo, sigs)) previous = some tickMap)
      ∧ tickMap.Pairwise
          (fun a b => sampleScaleLessThan sr a.startPosition b.startPosition = true) := by
  obtain ⟨N1, tcs', hrun1, htcs⟩ := normalizeTempo_total sr hsr tempo hinc
  have htcs_eq : tcs' = tcs := by
    have h1 := hrun1 (max N1 fuel0) (le_max_left _ _)
    have h2 := normalizeTempo_mono sr tempo (le_max_right N1 fuel0) tcs hnorm
    rw [h1] at h2
    exact Option.some.inj h2
  subst htcs_eq
  have hne : tcs' ≠ [] := normalizeTempo_ne_nil fuel0 sr tempo htempo tcs' hnorm
  obtain ⟨N2, r, hrun2, _⟩ := mergeAll_total sr (normalizeTimeSigs sigs) tcs' hne htcs
  refine ⟨max N1 N2, r.tickMap, ?_, ?_⟩
  · intro fuel hf
    have hguard : tempo.length > 1 ∧ sigs.length > 0 := ⟨htempo, hsigs⟩
    simp only [rebuildTickMap, hguard, and_self, if_true, buildTickMap, hrun1 fuel (by omega),
      Option.some_bind, hrun2 fuel (by omega), Option.map_some']
  · apply ascendingStarts_pairwise hsr
    refine mergeAll_ordered hsr hsig N2 tcs' r hne hchain ?_ ?_ (hrun2 N2 le_rfl)
    · intro tc htc
      rw [two_halfASampleLength hsr]
      exact htl tc htc
    · intro tc htc
      rw [normalizeTempo_head fuel0 sr tempo tcs' hnorm tc htc, hzero]

/-- C6 as stated fails in three ways.  (1) A tempo change inside the first tick of a
tempo segment (events at 0 s, 0.01 s, 2.01 s): the split inserts a segment that starts
at the same position as the segment before it.  (2) Two signature changes quantised to
the same bar (4/4 at quarters 0, 1 and 2): two segments start at 2 s.  (3) A tick
length of 1/24 of half a sample: the second segment starts within half a sample of the
first. -/
theorem segments_not_ascending :
    (StrictlyIncreasing [⟨0, 0⟩, ⟨1 / 100, 1 / 50⟩, ⟨201 / 100, 101 / 50⟩]
      ∧ buildTickMap 100 44100 [⟨0, 0⟩, ⟨1 / 100, 1 / 50⟩, ⟨201 / 100, 101 / 50⟩] [⟨4, 4, 0⟩]
        = some [⟨0, 1 / 48, 96, 0⟩, ⟨0, 19 / 600, 96, 0⟩, ⟨19 / 600, 1 / 24, 96, 1⟩]
      ∧ ¬ ([⟨0, 1 / 48, 96, 0⟩, ⟨0, 19 / 600, 96, 0⟩, ⟨19 / 600, 1 / 24, 96, 1⟩] :
          List TickMapElement).Pairwise
            (fun a b => sampleScaleLessThan 44100 a.startPosition b.startPosition = true))
    ∧ (StrictlyIncreasing [⟨0, 0⟩, ⟨2, 4⟩]
      ∧ buildTickMap 200 44100 [⟨0, 0⟩, ⟨2, 4⟩] [⟨4, 4, 0⟩, ⟨4, 4, 1⟩, ⟨4, 4, 2⟩]
        = some [⟨0, 1 / 48, 96, 0⟩, ⟨2, 1 / 48, 96, 0⟩, ⟨2, 1 / 48, 96, 0⟩]
      ∧ ¬ ([⟨0, 1 / 48, 96, 0⟩, ⟨2, 1 / 48, 96, 0⟩, ⟨2, 1 / 48, 96, 0⟩] :
          List TickMapElement).Pairwise
            (fun a b => sampleScaleLessThan 44100 a.startPosition b.startPosition = true))
    ∧ (StrictlyIncreasing [⟨0, 0⟩, ⟨1 / 88200, 1⟩]
      ∧ buildTickMap 100 44100 [⟨0, 0⟩, ⟨1 / 88200, 1⟩] [⟨1, 4, 0⟩, ⟨1, 4, 1⟩]
        = some [⟨0, 1 / 2116800, 24, 0⟩, ⟨1 / 88200, 1 / 2116800, 24, 0⟩]
      ∧ ¬ ([⟨0, 1 / 2116800, 24, 0⟩, ⟨1 / 88200, 1 / 2116800, 24, 0⟩] :
          List TickMapElement).Pairwise
            (fun a b => sampleScaleLessThan 44100 a.startPosition b.startPosition = true)) :=
  ⟨⟨by simp [StrictlyIncreasing]; norm_num, by decide!, by decide!⟩,
    ⟨by simp [StrictlyIncreasing], by decide!, by decide!⟩,
    ⟨by simp [StrictlyIncreasing], by decide!, by decide!⟩⟩


/-! ## Pulse starts of a stream -/

theorem getD_append_singleton_lt (s : List ℚ) (v : ℚ) {j : Nat} (hj : j < s.length) :
    (s ++ [v]).getD j 0 = s.getD j 0 := by
  rw [List.getD_eq_getElem?_getD, List.getD_eq_getElem?_getD, List.getElem?_append_left hj]

theorem getD_append_singleton_length (s : List ℚ) (v : ℚ) :
    (s ++ [v]).getD s.length 0 = v := by
  rw [List.getD_eq_getElem?_getD, List.getElem?_append_right (le_refl _)]
  simp

theorem endsSilent_append_singleton (s : List ℚ) (v : ℚ) :
    endsSilent (s ++ [v]) = decide (v = 0) := by
  unfold endsSilent
  have h1 : (s ++ [v]).length - 1 = s.length := by simp
  rw [h1, getD_append_singleton_length]
  simp

theorem pulseStarts_append_singleton (s : List ℚ) (v : ℚ) :
    pulseStarts (s ++ [v])
      = pulseStarts s ++ (if v ≠ 0 ∧ endsSilent s = true then [s.length] else []) := by
  unfold pulseStarts
  have hlen : (s ++ [v]).length = s.length + 1 := by simp
  rw [hlen, List.range_succ, List.filter_append]
  congr 1
  · apply List.filter_congr
    intro j hj
    have hj' : j < s.length := List.mem_range.mp hj
    rw [getD_append_singleton_lt s v hj', getD_append_singleton_lt s v (by omega : j - 1 < s.length)]
  · simp only [List.filter_cons, List.filter_nil, getD_append_singleton_length]
    by_cases hv : v = 0
    · simp [hv]
    · by_cases h0 : s.length = 0
      · simp [hv, h0, endsSilent]
      · have hlt : s.length - 1 < s.length := by omega
        simp only [getD_append_singleton_lt s v hlt]
        simp [hv, h0, endsSilent]

theorem pulseStarts_lt_length (s : List ℚ) : ∀ j ∈ pulseStarts s, j < s.length := by
  intro j hj
  unfold pulseStarts at hj
  exact List.mem_range.mp (List.mem_filter.mp hj).1

/-- Appending non-zero samples to a stream that does not end in silence adds no pulse
start. -/
theorem pulseStarts_append_run (w : List ℚ) (hw : ∀ x ∈ w, x ≠ 0) :
    ∀ (s : List ℚ), endsSilent s = false → pulseStarts (s ++ w) = pulseStarts s
      ∧ (endsSilent (s ++ w) = false) := by
  induction w with
  | nil => intro s hs; simpa using hs
  | cons v w ih =>
    intro s hs
    have hv : v ≠ 0 := hw v (List.mem_cons_self _ _)
    have h1 : pulseStarts (s ++ [v]) = pulseStarts s := by
      rw [pulseStarts_append_singleton]; simp [hs]
    have h2 : endsSilent (s ++ [v]) = false := by
      rw [endsSilent_append_singleton]; simp [hv]
    have := ih (fun x hx => hw x (List.mem_cons_of_mem _ hx)) (s ++ [v]) h2
    rw [List.append_assoc, List.singleton_append] at this
    rw [this.1, h1]
    exact ⟨rfl, this.2⟩

/-- Appending a non-empty run of non-zero samples to a stream that ends in silence
adds exactly one pulse start, at the first sample of the run. -/
theorem pulseStarts_append_pulse (s w : List ℚ) (hw : ∀ x ∈ w, x ≠ 0) (hne : w ≠ [])
    (hs : endsSilent s = true) :
    pulseStarts (s ++ w) = pulseStarts s ++ [s.length] ∧ endsSilent (s ++ w) = false := by
  cases w with
  | nil => exact absurd rfl hne
  | cons v w =>
    have hv : v ≠ 0 := hw v (List.mem_cons_self _ _)
    have h1 : pulseStarts (s ++ [v]) = pulseStarts s ++ [s.length] := by
      rw [pulseStarts_append_singleton]; simp [hs, hv]
    have h2 : endsSilent (s ++ [v]) = false := by
      rw [endsSilent_append_singleton]; simp [hv]
    have := pulseStarts_append_run w (fun x hx => hw x (List.mem_cons_of_mem _ hx)) (s ++ [v]) h2
    rw [List.append_assoc, List.singleton_append] at this
    rw [this.1, h1]
    exact ⟨rfl, this.2⟩

theorem lowTickSamples_ne_zero : ∀ x ∈ lowTickSamples, x ≠ 0 := by decide!

theorem highTickSamples_ne_zero : ∀ x ∈ highTickSamples, x ≠ 0 := by decide!

theorem lowTickSamples_getD_ne_zero {j : Nat} (hj : j < lowTickLength) :
    lowTickSamples.getD j 0 ≠ 0 := by
  have hlen : lowTickSamples.length = lowTickLength := rfl
  rw [List.getD_eq_getElem _ _ (by omega)]
  exact lowTickSamples_ne_zero _ (List.getElem_mem _)

theorem highTickSamples_getD_ne_zero {j : Nat} (hj : j < highTickLength) :
    highTickSamples.getD j 0 ≠ 0 := by
  have hlen : highTickSamples.length = highTickLength := rfl
  rw [List.getD_eq_getElem _ _ (by omega)]
  exact highTickSamples_ne_zero _ (List.getElem_mem _)


/-! ## The spacing invariant of the renderer -/

theorem uintSub_sub_self {len age : Nat} (h : age < len) (hl : len < uintModulus) :
    uintSub len (len - age) = age := by
  unfold uintSub toUint
  have : len + uintModulus - (len - age) = age + uintModulus := by omega
  rw [this, Nat.add_mod_right]
  exact Nat.mod_eq_of_lt (by omega)

theorem spaced_emitLowTail {minS maxS : Nat} (pre : List ℚ) (u : BlockState)
    (h : SpacedStream minS maxS (pre ++ u.out) u.r) (hm : 0 < u.r.missingEndOfLowTick) :
    SpacedStream minS maxS (pre ++ (emitLowTail u).out) (emitLowTail u).r := by
  obtain ⟨h1, h2, h3, age, len, hlen, hage, hpos, hcnt, hcntle, hlow, hhigh, hsil⟩ := h
  have hl : len = lowTickLength := by
    by_contra hne
    rw [if_neg hne] at hlow
    omega
  subst hl
  simp only [if_true] at hlow
  have hlt : age < lowTickLength := by omega
  have hidx : uintSub lowTickLength u.r.missingEndOfLowTick = age := by
    rw [hlow]; exact uintSub_sub_self hlt (by decide)
  have hv : lowTickSamples.getD age 0 ≠ 0 := lowTickSamples_getD_ne_zero hlt
  have hns : endsSilent (pre ++ u.out) = false := by
    cases hb : endsSilent (pre ++ u.out) with
    | false => rfl
    | true => have := hsil.mp hb; omega
  have hout : pre ++ (emitLowTail u).out = (pre ++ u.out) ++ [lowTickSamples.getD age 0] := by
    simp only [emitLowTail, hidx, List.append_assoc]
  obtain ⟨hps, hes⟩ := pulseStarts_append_run [lowTickSamples.getD age 0]
    (by intro x hx; simp only [List.mem_singleton] at hx; subst hx; exact hv) (pre ++ u.out) hns
  rw [hout]
  refine ⟨h1, h2, by rw [hps]; exact h3, age + 1, lowTickLength, Or.inl rfl, by omega, ?_, ?_, ?_,
    ?_, ?_, ?_⟩
  · rw [hps]
    rcases hpos with ⟨ha, hb⟩ | ⟨p, hp, hpa⟩
    · exact Or.inl ⟨ha, by omega⟩
    · exact Or.inr ⟨p, hp, by
        simp only [List.length_append, List.length_singleton] at hpa ⊢; omega⟩
  · simp only [emitLowTail, hcnt]
    rw [max_eq_right (by omega), max_eq_right (by omega)]
  · simp only [emitLowTail]; exact hcntle
  · simp only [emitLowTail, if_true, hlow]; omega
  · simp only [emitLowTail]; exact hhigh
  · rw [hes]
    constructor
    · intro hf; exact absurd hf (by decide)
    · intro hf; omega

theorem spaced_emitHighTail {minS maxS : Nat} (pre : List ℚ) (u : BlockState)
    (h : SpacedStream minS maxS (pre ++ u.out) u.r) (hm : 0 < u.r.missingEndOfHighTick) :
    SpacedStream minS maxS (pre ++ (emitHighTail u).out) (emitHighTail u).r := by
  obtain ⟨h1, h2, h3, age, len, hlen, hage, hpos, hcnt, hcntle, hlow, hhigh, hsil⟩ := h
  have hl : len = highTickLength := by
    by_contra hne
    rw [if_neg hne] at hhigh
    omega
  subst hl
  simp only [if_true] at hhigh
  have hlt : age < highTickLength := by omega
  have hidx : uintSub highTickLength u.r.missingEndOfHighTick = age := by
    rw [hhigh]; exact uintSub_sub_self hlt (by decide)
  have hv : highTickSamples.getD age 0 ≠ 0 := highTickSamples_getD_ne_zero hlt
  have hns : endsSilent (pre ++ u.out) = false := by
    cases hb : endsSilent (pre ++ u.out) with
    | false => rfl
    | true => have := hsil.mp hb; omega
  have hout : pre ++ (emitHighTail u).out = (pre ++ u.out) ++ [highTickSamples.getD age 0] := by
    simp only [emitHighTail, hidx, List.append_assoc]
  obtain ⟨hps, hes⟩ := pulseStarts_append_run [highTickSamples.getD age 0]
    (by intro x hx; simp only [List.mem_singleton] at hx; subst hx; exact hv) (pre ++ u.out) hns
  rw [hout]
  refine ⟨h1, h2, by rw [hps]; exact h3, age + 1, highTickLength, Or.inr rfl, by omega, ?_, ?_,
    ?_, ?_, ?_, ?_⟩
  · rw [hps]
    rcases hpos with ⟨ha, hb⟩ | ⟨p, hp, hpa⟩
    · exact Or.inl ⟨ha, by omega⟩
    · exact Or.inr ⟨p, hp, by
        simp only [List.length_append, List.length_singleton] at hpa ⊢; omega⟩
  · simp only [emitHighTail, hcnt]
    rw [max_eq_right (by omega), max_eq_right (by omega)]
  · simp only [emitHighTail]; exact hcntle
  · simp only [emitHighTail]; exact hlow
  · simp only [emitHighTail, if_true, hhigh]; omega
  · rw [hes]
    constructor
    · intro hf; exact absurd hf (by decide)
    · intro hf; omega

theorem spaced_emitSilence {minS maxS : Nat} (pre : List ℚ) (u : BlockState)
    (h : SpacedStream minS maxS (pre ++ u.out) u.r)
    (hlow0 : u.r.missingEndOfLowTick = 0) (hhigh0 : u.r.missingEndOfHighTick = 0)
    (hlt : u.r.samplesSinceLastTick < maxS) :
    SpacedStream minS maxS (pre ++ (emitSilence u).out) (emitSilence u).r := by
  obtain ⟨h1, h2, h3, age, len, hlen, hage, hpos, hcnt, hcntle, hlow, hhigh, hsil⟩ := h
  have hal : len ≤ age := by
    rcases hlen with hl | hl
    · subst hl; simp only [if_true] at hlow; omega
    · subst hl; simp only [if_true] at hhigh; omega
  have hout : pre ++ (emitSilence u).out = (pre ++ u.out) ++ [0] := by
    simp only [emitSilence, List.append_assoc]
  have hps : pulseStarts ((pre ++ u.out) ++ [0]) = pulseStarts (pre ++ u.out) := by
    rw [pulseStarts_append_singleton]; simp
  have hes : endsSilent ((pre ++ u.out) ++ [0]) = true := by
    rw [endsSilent_append_singleton]; simp
  rw [hout]
  have hmax : max age len = age := max_eq_left hal
  refine ⟨h1, h2, by rw [hps]; exact h3, age + 1, len, hlen, by omega, ?_, ?_, ?_, ?_, ?_, ?_⟩
  · rw [hps]
    rcases hpos with ⟨ha, hb⟩ | ⟨p, hp, hpa⟩
    · exact Or.inl ⟨ha, by omega⟩
    · exact Or.inr ⟨p, hp, by
        simp only [List.length_append, List.length_singleton] at hpa ⊢; omega⟩
  · simp only [emitSilence, hcnt, hmax]
    rw [max_eq_left (by omega)]
  · simp only [emitSilence]; omega
  · simp only [emitSilence]
    split_ifs <;> omega
  · simp only [emitSilence]
    split_ifs <;> omega
  · rw [hes]
    constructor
    · intro _; omega
    · intro _; rfl

/-- Starting a pulse when the counter has reached `minS`: the new pulse start is
between `minS` and `maxS` samples after the previous one. -/
theorem spaced_startPulse {minS maxS : Nat} (hmin : highTickLength < minS) (hmm : minS ≤ maxS)
    (stream : List ℚ) (r r' : Renderer) (len missing : Nat) (table : List ℚ)
    (h : SpacedStream minS maxS stream r)
    (hlow0 : r.missingEndOfLowTick = 0) (hhigh0 : r.missingEndOfHighTick = 0)
    (hdue : minS ≤ r.samplesSinceLastTick)
    (hkind : (len = lowTickLength ∧ table = lowTickSamples)
      ∨ (len = highTickLength ∧ table = highTickSamples))
    (hmiss : missing < len)
    (hr1 : r'.minSamplesSinceLastTick = r.minSamplesSinceLastTick)
    (hr2 : r'.maxSamplesSinceLastTick = r.maxSamplesSinceLastTick)
    (hr3 : r'.samplesSinceLastTick = len)
    (hr4 : r'.missingEndOfLowTick = if len = lowTickLength then missing else 0)
    (hr5 : r'.missingEndOfHighTick = if len = highTickLength then missing else 0) :
    SpacedStream minS maxS (stream ++ table.take (len - missing)) r' := by
  obtain ⟨h1, h2, h3, age, len0, hlen0, hage, hpos, hcnt, hcntle, hlow, hhigh, hsil⟩ := h
  have hl13 : lowTickLength = 13 := rfl
  have hl26 : highTickLength = 26 := rfl
  have hal : len0 ≤ age := by
    rcases hlen0 with hl | hl
    · subst hl; simp only [if_true] at hlow; omega
    · subst hl; simp only [if_true] at hhigh; omega
  have hmax : max age len0 = age := max_eq_left hal
  rw [hmax] at hcnt
  have hsilent : endsSilent stream = true := hsil.mpr (by rcases hlen0 with hl | hl <;> omega)
  have htl : table.length = len := by
    rcases hkind with ⟨ha, hb⟩ | ⟨ha, hb⟩ <;> subst ha <;> subst hb <;> rfl
  have hnz : ∀ x ∈ table.take (len - missing), x ≠ 0 := by
    intro x hx
    have hx' := List.mem_of_mem_take hx
    rcases hkind with ⟨_, hb⟩ | ⟨_, hb⟩
    · subst hb; exact lowTickSamples_ne_zero x hx'
    · subst hb; exact highTickSamples_ne_zero x hx'
  have hwl : (table.take (len - missing)).length = len - missing := by
    rw [List.length_take, htl]; omega
  have hne : table.take (len - missing) ≠ [] := by
    intro hnil
    rw [hnil] at hwl
    simp only [List.length_nil] at hwl
    omega
  obtain ⟨hps, hes⟩ := pulseStarts_append_pulse stream _ hnz hne hsilent
  have hlenle : len ≤ 26 := by
    rcases hkind with ⟨ha, _⟩ | ⟨ha, _⟩ <;> omega
  refine ⟨by rw [hr1]; exact h1, by rw [hr2]; exact h2, ?_, len - missing, len, ?_, by omega,
    ?_, ?_, ?_, ?_, ?_, ?_⟩
  · rw [hps]
    apply chain'_concat h3
    intro x hx
    rcases hpos with ⟨ha, _⟩ | ⟨p, hp, hpa⟩
    · rw [ha] at hx; simp at hx
    · have : x = p := by
        simp only [Option.mem_def] at hx hp
        rw [hx] at hp
        exact Option.some.inj hp
      subst this
      omega
  · rcases hkind with ⟨ha, _⟩ | ⟨ha, _⟩
    · exact Or.inl ha
    · exact Or.inr ha
  · right
    refine ⟨stream.length, ?_, ?_⟩
    · rw [hps]; simp
    · rw [List.length_append, hwl]
  · rw [hr3, max_eq_right (by omega)]
  · rw [hr3]; omega
  · rw [hr4]
    split_ifs <;> omega
  · rw [hr5]
    split_ifs <;> omega
  · rw [hes]
    constructor
    · intro hf; exact absurd hf (by decide)
    · intro hf; omega


theorem nextDueTick_keeps (fuel : Nat) (tickMap : List TickMapElement) (delay : ℚ)
    (isPlaying : Bool) (start : Int) (tickLength : ℚ) (barLength : Nat) (s s1 : BlockState)
    (h : nextDueTick fuel tickMap delay isPlaying start tickLength barLength s = some s1) :
    s1.r = s.r ∧ s1.out = s.out := by
  unfold nextDueTick at h
  split_ifs at h
  · simp only [Option.some.injEq] at h
    subst h
    exact ⟨rfl, rfl⟩
  · simp only [Option.map_eq_some'] at h
    obtain ⟨q, _, hq⟩ := h
    subst hq
    exact ⟨rfl, rfl⟩

theorem spaced_tickOrSilence {minS maxS : Nat} (hmin : highTickLength < minS)
    (hmm : minS ≤ maxS) (pre : List ℚ) (numSamples : Nat) (u : BlockState)
    (h : SpacedStream minS maxS (pre ++ u.out) u.r)
    (hm : u.out.length < numSamples →
      u.r.missingEndOfLowTick = 0 ∧ u.r.missingEndOfHighTick = 0) :
    SpacedStream minS maxS (pre ++ (tickOrSilence numSamples u).out) (tickOrSilence numSamples u).r
    ∧ ((tickOrSilence numSamples u).out.length < numSamples →
        (tickOrSilence numSamples u).r.missingEndOfLowTick = 0
        ∧ (tickOrSilence numSamples u).r.missingEndOfHighTick = 0) := by
  have hl13 : lowTickLength = 13 := rfl
  have hl26 : highTickLength = 26 := rfl
  have hlowlen : lowTickSamples.length = 13 := rfl
  have hhighlen : highTickSamples.length = 26 := rfl
  unfold tickOrSilence
  by_cases hi : u.out.length < numSamples
  · obtain ⟨hlow0, hhigh0⟩ := hm hi
    simp only [hi, if_true]
    by_cases hsup : u.r.samplesSinceLastTick < u.r.minSamplesSinceLastTick
    · simp only [hsup, if_true]
      refine ⟨spaced_emitSilence pre u h hlow0 hhigh0 (by rw [h.1] at hsup; omega), ?_⟩
      intro _
      exact ⟨hlow0, hhigh0⟩
    · simp only [hsup, if_false]
      have hdue : minS ≤ u.r.samplesSinceLastTick := by rw [h.1] at hsup; omega
      by_cases hflag : u.lastTickRightBeforeABar = true
      · simp only [hflag, if_true]
        constructor
        · have hout : pre ++ (startHighTick numSamples u).out
              = (pre ++ u.out) ++ highTickSamples.take (highTickLength
                - (if u.out.length + highTickLength > numSamples
                    then u.out.length + highTickLength - numSamples
                    else u.r.missingEndOfHighTick)) := by
            simp only [startHighTick, List.append_assoc]
          rw [hout]
          apply spaced_startPulse hmin hmm (pre ++ u.out) u.r _ highTickLength _ highTickSamples h
            hlow0 hhigh0 hdue (Or.inr ⟨rfl, rfl⟩)
          · split_ifs <;> omega
          · rfl
          · rfl
          · rfl
          · simp only [startHighTick, hlow0]; rfl
          · simp only [startHighTick, if_true]
        · intro hlt
          simp only [startHighTick, List.length_append, List.length_take, hhighlen] at hlt ⊢
          split_ifs at hlt ⊢ <;> omega
      · simp only [hflag, Bool.false_eq_true, if_false]
        constructor
        · have hout : pre ++ (startLowTick numSamples u).out
              = (pre ++ u.out) ++ lowTickSamples.take (lowTickLength
                - (if u.out.length + lowTickLength > numSamples
                    then u.out.length + lowTickLength - numSamples
                    else u.r.missingEndOfLowTick)) := by
            simp only [startLowTick, List.append_assoc]
          rw [hout]
          apply spaced_startPulse hmin hmm (pre ++ u.out) u.r _ lowTickLength _ lowTickSamples h
            hlow0 hhigh0 hdue (Or.inl ⟨rfl, rfl⟩)
          · split_ifs <;> omega
          · rfl
          · rfl
          · rfl
          · simp only [startLowTick, if_true]
          · simp only [startLowTick, hhigh0]; rfl
        · intro hlt
          simp only [startLowTick, List.length_append, List.length_take, hlowlen] at hlt ⊢
          split_ifs at hlt ⊢ <;> omega
  · rw [if_neg hi]
    exact ⟨h, fun hc => absurd hc hi⟩

/-- One render call that plays, or runs with always-on enabled, keeps the spacing
invariant. -/
theorem processBlock_spaced {minS maxS : Nat} (hmin : highTickLength < minS)
    (hmm : minS ≤ maxS) (fuel : Nat) (tickMap : List TickMapElement) (delay : ℚ)
    (r : Renderer) (numSamples : Nat) (start : Int) (isPlaying : Bool) (pre : List ℚ)
    (h : SpacedStream minS maxS pre r)
    (hmode : isPlaying = true ∨ r.sendSignalAlways = true)
    (r' : Renderer) (out : List ℚ)
    (hrun : processBlock fuel tickMap delay r numSamples start isPlaying = some (r', out)) :
    SpacedStream minS maxS (pre ++ out) r' := by
  unfold processBlock at hrun
  have hsilent : (!isPlaying && !r.sendSignalAlways) = false := by
    rcases hmode with hp | hp <;> simp [hp]
  simp only [hsilent, Bool.false_eq_true, if_false, Option.map_eq_some', Option.bind_eq_some] at hrun
  obtain ⟨s3, ⟨s1, hs1, s2, hs2, hs3⟩, hres⟩ := hrun
  simp only [Prod.mk.injEq] at hres
  obtain ⟨hr', hout⟩ := hres
  subst hr'
  subst hout
  -- the owed end of a regular pulse
  obtain ⟨hk1, hc1⟩ := whileLoop_invariant
    (fun u : BlockState => SpacedStream minS maxS (pre ++ u.out) u.r)
    (by
      intro a b ha hc hab
      simp only [Bool.and_eq_true, decide_eq_true_eq] at hc
      simp only [Option.some.injEq] at hab
      subst hab
      exact spaced_emitLowTail pre a ha hc.2)
    fuel _ s1 (by simpa using h) hs1
  -- the owed end of an accent pulse
  obtain ⟨⟨hk2, hlow2⟩, hc2⟩ := whileLoop_invariant
    (fun u : BlockState => SpacedStream minS maxS (pre ++ u.out) u.r
      ∧ (u.out.length < numSamples → u.r.missingEndOfLowTick = 0))
    (by
      rintro a b ⟨ha, hal⟩ hc hab
      simp only [Bool.and_eq_true, decide_eq_true_eq] at hc
      simp only [Option.some.injEq] at hab
      subst hab
      refine ⟨spaced_emitHighTail pre a ha hc.2, ?_⟩
      intro _
      simpa [emitHighTail] using hal hc.1)
    fuel s1 s2
    ⟨hk1, by
      intro hlt
      simp only [Bool.and_eq_false_iff, decide_eq_false_iff_not, not_lt] at hc1
      omega⟩ hs2
  -- the main loop
  obtain ⟨⟨hk3, _⟩, _⟩ := whileLoop_invariant
    (fun u : BlockState => SpacedStream minS maxS (pre ++ u.out) u.r
      ∧ (u.out.length < numSamples →
          u.r.missingEndOfLowTick = 0 ∧ u.r.missingEndOfHighTick = 0))
    (by
      rintro a b ⟨ha, ham⟩ _ hab
      unfold mainBody at hab
      simp only [Option.bind_eq_some, Option.map_eq_some'] at hab
      obtain ⟨a1, ha1, a2, ha2, hb⟩ := hab
      subst hb
      obtain ⟨hr1, ho1⟩ := nextDueTick_keeps _ _ _ _ _ _ _ _ _ ha1
      obtain ⟨⟨hq, hqm⟩, _⟩ := whileLoop_invariant
        (fun u : BlockState => SpacedStream minS maxS (pre ++ u.out) u.r
          ∧ (u.out.length < numSamples →
              u.r.missingEndOfLowTick = 0 ∧ u.r.missingEndOfHighTick = 0))
        (by
          rintro x y ⟨hx, hxm⟩ hc hxy
          simp only [Bool.and_eq_true, decide_eq_true_eq] at hc
          simp only [Option.some.injEq] at hxy
          subst hxy
          obtain ⟨hl0, hh0⟩ := hxm hc.1.1
          refine ⟨spaced_emitSilence pre x hx hl0 hh0 (by rw [← hx.2.1]; exact hc.2), ?_⟩
          intro _
          exact ⟨hl0, hh0⟩)
        fuel a1 a2 ⟨by rw [hr1, ho1]; exact ha, by rw [hr1, ho1]; exact ham⟩ ha2
      exact spaced_tickOrSilence hmin hmm pre numSamples a2 hq hqm)
    fuel s2 s3
    ⟨hk2, by
      intro hlt
      simp only [Bool.and_eq_false_iff, decide_eq_false_iff_not, not_lt] at hc2
      exact ⟨hlow2 hlt, by omega⟩⟩ hs3
  exact hk3

/-- A sequence of render calls, each playing or with always-on enabled, keeps the
spacing invariant. -/
theorem renderCalls_spaced {minS maxS : Nat} (hmin : highTickLength < minS)
    (hmm : minS ≤ maxS) (fuel : Nat) (tickMap : List TickMapElement) (delay : ℚ) :
    ∀ (calls : List RenderCall) (r : Renderer) (pre : List ℚ),
      SpacedStream minS maxS pre r →
      (∀ c ∈ calls, c.isPlaying = true ∨ c.sendSignalAlways = true) →
      ∀ (r' : Renderer) (out : List ℚ),
        renderCalls fuel tickMap delay r calls = some (r', out) →
        SpacedStream minS maxS (pre ++ out) r' := by
  intro calls
  induction calls with
  | nil =>
    intro r pre h _ r' out hrun
    simp only [renderCalls, Option.some.injEq, Prod.mk.injEq] at hrun
    obtain ⟨h1, h2⟩ := hrun
    subst h1; subst h2
    simpa using h
  | cons c cs ih =>
    intro r pre h hmode r' out hrun
    simp only [renderCalls, Option.bind_eq_some, Option.map_eq_some'] at hrun
    obtain ⟨⟨r1, out1⟩, hp, ⟨r2, out2⟩, hq, hres⟩ := hrun
    simp only [Prod.mk.injEq] at hres
    obtain ⟨h1, h2⟩ := hres
    subst h1; subst h2
    have hset : SpacedStream minS maxS pre { r with sendSignalAlways := c.sendSignalAlways } := h
    have hstep := processBlock_spaced hmin hmm fuel tickMap delay _ c.numSamples
      c.startTimeInSamples c.isPlaying pre hset
      (by
        rcases hmode c (List.mem_cons_self _ _) with hc | hc
        · exact Or.inl hc
        · exact Or.inr hc)
      r1 out1 hp
    have := ih r1 (pre ++ out1) hstep (fun c' hc' => hmode c' (List.mem_cons_of_mem _ hc'))
      r2 out2 hq
    simpa [List.append_assoc] using this


theorem prepare_min_44100 (r0 : Renderer) :
    (prepareToPlay r0 44100).minSamplesSinceLastTick = 276 := by
  show toUint ⌈(6242976651267 / 1000000000000000 : ℚ) * 44100⌉.toNat = 276
  decide!

theorem prepare_max_44100 (r0 : Renderer) :
    (prepareToPlay r0 44100).maxSamplesSinceLastTick = 3730 := by
  show toUint ⌊(84602368866328 / 1000000000000000 : ℚ) * 44100⌋.toNat = 3730
  decide!

/-- After `prepareToPlay` the renderer satisfies the spacing invariant for the empty
stream, whenever the waveforms are shorter than `minSamples` and `minSamples` is at
most `maxSamples`. -/
theorem prepare_spaced (r0 : Renderer) (sr : ℚ)
    (hmin : highTickLength < (prepareToPlay r0 sr).minSamplesSinceLastTick)
    (hmm : (prepareToPlay r0 sr).minSamplesSinceLastTick
      ≤ (prepareToPlay r0 sr).maxSamplesSinceLastTick) :
    SpacedStream (prepareToPlay r0 sr).minSamplesSinceLastTick
      (prepareToPlay r0 sr).maxSamplesSinceLastTick [] (prepareToPlay r0 sr) := by
  have hl13 : lowTickLength = 13 := rfl
  have hl26 : highTickLength = 26 := rfl
  refine ⟨rfl, rfl, List.chain'_nil, (prepareToPlay r0 sr).minSamplesSinceLastTick,
    lowTickLength, Or.inl rfl, by omega, Or.inl ⟨rfl, le_refl _⟩, ?_, hmm, ?_, ?_, ?_⟩
  · rw [max_eq_left (by omega)]; rfl
  · rw [if_pos rfl]
    show 0 = _
    omega
  · rw [if_neg (by decide)]; rfl
  · constructor
    · intro _; omega
    · intro _; rfl

/-- C2: after `prepareToPlay` at 44100 Hz, for every map, every delay and every
sequence of render calls in which each call is playing or has always-on enabled (any
block sizes and positions), whenever the calls return, the starts of two consecutive
pulses of the rendered stream are at least `minSamples` and at most `maxSamples`
samples apart. -/
theorem pulse_spacing_bound (fuel : Nat) (tickMap : List TickMapElement) (delay : ℚ)
    (r0 : Renderer) (calls : List RenderCall) (r' : Renderer) (stream : List ℚ)
    (hmode : ∀ c ∈ calls, c.isPlaying = true ∨ c.sendSignalAlways = true)
    (hrun : renderCalls fuel tickMap delay (prepareToPlay r0 44100) calls = some (r', stream)) :
    (pulseStarts stream).Chain'
      (fun a b => a + (prepareToPlay r0 44100).minSamplesSinceLastTick ≤ b
        ∧ b ≤ a + (prepareToPlay r0 44100).maxSamplesSinceLastTick) := by
  have hmin : highTickLength < (prepareToPlay r0 44100).minSamplesSinceLastTick := by
    rw [prepare_min_44100]; decide
  have hmm : (prepareToPlay r0 44100).minSamplesSinceLastTick
      ≤ (prepareToPlay r0 44100).maxSamplesSinceLastTick := by
    rw [prepare_min_44100, prepare_max_44100]; decide
  have h := renderCalls_spaced hmin hmm fuel tickMap delay calls (prepareToPlay r0 44100) []
    (prepare_spaced r0 44100 hmin hmm) hmode r' stream hrun
  simpa using h.2.2.1

set_option maxRecDepth 100000 in
/-- Witness of C2: a map with a tick every 44.1 samples, rendered at 44100 Hz by two
playing calls of 100 and 220 samples; the pulses start at samples 0 and 309. -/
theorem pulse_spacing_bound_witness :
    (∀ c ∈ exampleCalls, c.isPlaying = true ∨ c.sendSignalAlways = true)
    ∧ renderCalls 1000 [⟨0, 1 / 1000, 4, 0⟩] 0 (prepareToPlay Renderer.initial 44100)
        exampleCalls
      = some (⟨44100, true, 0, 15, 26, 276, 3730, 0⟩, exampleStream)
    ∧ (pulseStarts exampleStream).Chain'
        (fun a b => a + (prepareToPlay Renderer.initial 44100).minSamplesSinceLastTick ≤ b
          ∧ b ≤ a + (prepareToPlay Renderer.initial 44100).maxSamplesSinceLastTick) :=
  have hmode : ∀ c ∈ exampleCalls, c.isPlaying = true ∨ c.sendSignalAlways = true := by
    decide
  have hrun : renderCalls 1000 [⟨0, 1 / 1000, 4, 0⟩] 0 (prepareToPlay Renderer.initial 44100)
      exampleCalls = some (⟨44100, true, 0, 15, 26, 276, 3730, 0⟩, exampleStream) := by
    decide!
  ⟨hmode, hrun,
    pulse_spacing_bound 1000 [⟨0, 1 / 1000, 4, 0⟩] 0 Renderer.initial exampleCalls
      ⟨44100, true, 0, 15, 26, 276, 3730, 0⟩ exampleStream hmode hrun⟩


/-! ## Playing a single tempo: the pulse train -/

theorem coveringSegment_singleton (sr : ℚ) (S : TickMapElement) (v : ℚ) :
    coveringSegment sr [S] v = S := by
  cases h : sampleScaleLessThan sr v S.startPosition <;>
    simp [coveringSegment, coveringIndex, upperBound, upperBoundLoop, h]

theorem cRound_natCast (m : Nat) : cRound (m : ℚ) = (m : ℤ) := by
  unfold cRound
  rw [if_pos (by positivity)]
  have : ((m : ℚ) + 1 / 2) = ((m : ℤ) : ℚ) + 1 / 2 := by push_cast; ring
  rw [this, Int.floor_int_add]
  norm_num

/-- On the grid of `n` samples per tick, a grid tick is sample-scale less than the
sample position `p` exactly when it lies before `p`. -/
theorem gridTick_lessThan_iff {sr L : ℚ} {n : Nat} (hsr : 0 < sr) (hn : L * sr = n)
    (j p : Nat) :
    sampleScaleLessThan sr ((0 : ℚ) + (j : ℚ) * L) ((p : ℚ) / sr - 0) = true ↔ j * n < p := by
  rw [sampleScaleLessThan_iff hsr]
  unfold halfASampleLength
  have hsr' : sr ≠ 0 := ne_of_gt hsr
  have e1 : (0 : ℚ) + (j : ℚ) * L + 1 / (sr * 2) = ((j : ℚ) * n + 1 / 2) / sr := by
    rw [← hn]; field_simp; ring
  rw [e1, sub_zero, div_lt_div_iff_of_pos_right hsr]
  constructor
  · intro h
    have h' : ((j * n : Nat) : ℚ) < (p : ℚ) := by push_cast; linarith
    exact_mod_cast h'
  · intro h
    have h' : ((j * n + 1 : Nat) : ℚ) ≤ (p : ℚ) := by exact_mod_cast (Nat.succ_le_of_lt h)
    push_cast at h'
    linarith

/-- The tick query of a playing block on the one-segment map `{0, L, B, 0}` at the
sample position `p`: the first grid tick `k * n` at or after `p`, with the accent flag
of tick `k`. -/
theorem nextTick_single_segment {sr L : ℚ} {n B : Nat} (hsr : 0 < sr) (hL : 0 < L)
    (hn : L * sr = n) (hB1 : 1 ≤ B) (hB : B < uintModulus) (p : Nat) :
    ∃ (N : Nat) (k : Nat),
      (∀ fuel, N ≤ fuel → ∀ flag : Bool,
        getNextTickPositionInSamples fuel sr [⟨0, L, B, 0⟩] 0 (p : ℤ) flag
          = some (((k * n : Nat) : ℤ), decide (k % B = B - 1)))
      ∧ p ≤ k * n ∧ (k = 0 ∨ (k - 1) * n < p) := by
  obtain ⟨N, k, hrun, hstop, hprev⟩ := scanForward_total sr ⟨0, L, B, 0⟩ ((p : ℚ) / sr - 0)
    hL (by simpa using hB1) hB
  simp only at hrun hstop hprev
  have hfwd : sampleScaleLessThan sr ((p : ℚ) / sr - 0) 0 = false := by
    cases hb : sampleScaleLessThan sr ((p : ℚ) / sr - 0) 0 with
    | false => rfl
    | true =>
      have := lessThan_lt hb
      have hp : (0 : ℚ) ≤ (p : ℚ) / sr := div_nonneg (by positivity) (le_of_lt hsr)
      linarith
  refine ⟨N, k, ?_, ?_, ?_⟩
  · intro fuel hf flag
    have hcast : (((p : ℤ) : ℚ)) = (p : ℚ) := by push_cast; rfl
    simp only [getNextTickPositionInSamples, List.isEmpty_cons, Bool.false_eq_true, if_false,
      findTick, coveringSegment_singleton, scanTick, hcast, hfwd, hrun fuel hf, Option.map_some',
      uintSub_one hB1 hB, zero_add]
    have hval : ((k : ℚ) * L + 0) * sr = ((k * n : Nat) : ℚ) := by
      push_cast; rw [← hn]; ring
    rw [hval, cRound_natCast]
  · by_contra hlt
    rw [not_le] at hlt
    have := (gridTick_lessThan_iff hsr hn k p).mpr hlt
    rw [hstop] at this
    exact Bool.false_ne_true this
  · by_cases hk : k = 0
    · exact Or.inl hk
    · right
      exact (gridTick_lessThan_iff hsr hn (k - 1) p).mp (hprev (k - 1) (by omega))


theorem pulseTrain_at {n : Nat} (B k : Nat) {a : Nat} (ha : a < n) :
    pulseTrain n B (k * n + a)
      = if k % B = B - 1 then highTickSamples.getD a 0 else lowTickSamples.getD a 0 := by
  have hn : 0 < n := by omega
  have hdiv : (k * n + a) / n = k := by
    rw [Nat.add_comm, Nat.add_mul_div_right _ _ hn, Nat.div_eq_of_lt ha, Nat.zero_add]
  have hmod : (k * n + a) % n = a := by
    rw [Nat.add_comm, Nat.add_mul_mod_self_right, Nat.mod_eq_of_lt ha]
  unfold pulseTrain
  rw [hdiv, hmod]

theorem map_range_snoc (f : Nat → ℚ) (i : Nat) :
    (List.range i).map f ++ [f i] = (List.range (i + 1)).map f := by
  rw [List.range_succ, List.map_append, List.map_singleton]

theorem map_range_append (f : Nat → ℚ) (i m : Nat) :
    (List.range i).map f ++ (List.range m).map (fun j => f (i + j))
      = (List.range (i + m)).map f := by
  rw [List.range_add, List.map_append, List.map_map]
  rfl

theorem take_eq_map_range (l : List ℚ) (m : Nat) (hm : m ≤ l.length) :
    l.take m = (List.range m).map (fun j => l.getD j 0) := by
  apply List.ext_getElem
  · simp [hm]
  · intro j h1 h2
    simp only [List.length_take, lt_min_iff] at h1
    simp [h1.2]

/-- Position arithmetic of the train: a position strictly between two consecutive grid
ticks is `a < n` samples after the earlier one. -/
theorem train_between {n k a K : Nat} (han : a ≤ n)
    (hlo : K = 0 ∨ (K - 1) * n < k * n + a) (hhi : k * n + a < K * n) : a < n := by
  by_contra hcon
  have hae : a = n := by omega
  subst hae
  have h1 : (k + 1) * a < K * a := by rw [Nat.add_mul, Nat.one_mul]; exact hhi
  have h2 : k + 1 < K := Nat.lt_of_mul_lt_mul_right h1
  rcases hlo with h0 | hlo
  · omega
  · have h3 : (k + 1) * a ≤ (K - 1) * a := Nat.mul_le_mul_right a (by omega)
    rw [Nat.add_mul, Nat.one_mul] at h3
    omega

/-- Position arithmetic of the train: a positive position on a grid tick is exactly
`n` samples after the previous grid tick. -/
theorem train_on_tick {n k a K : Nat} (ha1 : 1 ≤ a) (han : a ≤ n)
    (heq : k * n + a = K * n) : a = n ∧ K = k + 1 := by
  have hn : 0 < n := by omega
  have h1 : k * n < K * n := by omega
  have h2 : k < K := Nat.lt_of_mul_lt_mul_right h1
  have h3 : (k + 1) * n ≤ K * n := Nat.mul_le_mul_right n h2
  rw [Nat.add_mul, Nat.one_mul] at h3
  have hae : a = n := by omega
  subst hae
  refine ⟨rfl, ?_⟩
  have h4 : (k + 1) * a = K * a := by rw [Nat.add_mul, Nat.one_mul]; exact heq
  exact (Nat.eq_of_mul_eq_mul_right hn h4).symm

theorem trainBlock_emitLowTail {sr : ℚ} {minS maxS n B p nb : Nat} (hn : 26 ≤ n)
    (u : BlockState) (h : TrainBlock sr minS maxS n B p nb u) (hi : u.out.length < nb)
    (hm : 0 < u.r.missingEndOfLowTick) :
    TrainBlock sr minS maxS n B p nb (emitLowTail u) := by
  have hl13 : lowTickLength = 13 := rfl
  have hl26 : highTickLength = 26 := rfl
  obtain ⟨hout, _, hsr, hmin, hmax, hst⟩ := h
  rcases hst with ⟨_, h0, _, _⟩ | ⟨k, a, hp, ha1, han, hkind⟩
  · omega
  · rcases hkind with ⟨_, _, h0, _⟩ | ⟨hk, hlow, hhigh, hcnt⟩
    · omega
    · have hlt : a < lowTickLength := by omega
      have hidx : uintSub lowTickLength u.r.missingEndOfLowTick = a := by
        rw [hlow]; exact uintSub_sub_self hlt (by decide)
      have hval : lowTickSamples.getD a 0 = pulseTrain n B (p + u.out.length) := by
        rw [hp, pulseTrain_at B k (by omega : a < n), if_neg hk]
      have hlen : (emitLowTail u).out.length = u.out.length + 1 := by simp [emitLowTail]
      refine ⟨?_, by omega, hsr, hmin, hmax, Or.inr ⟨k, a + 1, ?_, by omega, by omega,
        Or.inr ⟨hk, ?_, hhigh, ?_⟩⟩⟩
      · rw [hlen, ← map_range_snoc, ← hout]
        simp only [emitLowTail, hidx, hval]
      · rw [hlen]; omega
      · simp only [emitLowTail, hlow]; omega
      · simp only [emitLowTail, hcnt]
        rw [max_eq_right (by omega), max_eq_right (by omega)]

theorem trainBlock_emitHighTail {sr : ℚ} {minS maxS n B p nb : Nat} (hn : 26 ≤ n)
    (u : BlockState) (h : TrainBlock sr minS maxS n B p nb u) (hi : u.out.length < nb)
    (hm : 0 < u.r.missingEndOfHighTick) :
    TrainBlock sr minS maxS n B p nb (emitHighTail u) := by
  have hl13 : lowTickLength = 13 := rfl
  have hl26 : highTickLength = 26 := rfl
  obtain ⟨hout, _, hsr, hmin, hmax, hst⟩ := h
  rcases hst with ⟨_, _, h0, _⟩ | ⟨k, a, hp, ha1, han, hkind⟩
  · omega
  · rcases hkind with ⟨hk, hhigh, hlow, hcnt⟩ | ⟨_, _, h0, _⟩
    · have hlt : a < highTickLength := by omega
      have hidx : uintSub highTickLength u.r.missingEndOfHighTick = a := by
        rw [hhigh]; exact uintSub_sub_self hlt (by decide)
      have hval : highTickSamples.getD a 0 = pulseTrain n B (p + u.out.length) := by
        rw [hp, pulseTrain_at B k (by omega : a < n), if_pos hk]
      have hlen : (emitHighTail u).out.length = u.out.length + 1 := by simp [emitHighTail]
      refine ⟨?_, by omega, hsr, hmin, hmax, Or.inr ⟨k, a + 1, ?_, by omega, by omega,
        Or.inl ⟨hk, ?_, hlow, ?_⟩⟩⟩
      · rw [hlen, ← map_range_snoc, ← hout]
        simp only [emitHighTail, hidx, hval]
      · rw [hlen]; omega
      · simp only [emitHighTail, hhigh]; omega
      · simp only [emitHighTail, hcnt]
        rw [max_eq_right (by omega), max_eq_right (by omega)]
    · omega

/-- A silent sample strictly between two grid ticks, after the waveform is complete. -/
theorem trainBlock_emitSilence {sr : ℚ} {minS maxS n B p nb : Nat}
    (u : BlockState) (K : Nat) (h : TrainBlock sr minS maxS n B p nb u)
    (hi : u.out.length < nb)
    (hlow0 : u.r.missingEndOfLowTick = 0) (hhigh0 : u.r.missingEndOfHighTick = 0)
    (hlo : K = 0 ∨ (K - 1) * n < p + u.out.length) (hhi : p + u.out.length < K * n) :
    TrainBlock sr minS maxS n B p nb (emitSilence u)
    ∧ u.r.samplesSinceLastTick < n := by
  have hl13 : lowTickLength = 13 := rfl
  have hl26 : highTickLength = 26 := rfl
  obtain ⟨hout, _, hsr, hmin, hmax, hst⟩ := h
  have hlen : (emitSilence u).out.length = u.out.length + 1 := by simp [emitSilence]
  rcases hst with ⟨hp0, _, _, _⟩ | ⟨k, a, hp, ha1, han, hkind⟩
  · rcases hlo with h0 | h0
    · subst h0; omega
    · omega
  · rw [hp] at hlo hhi
    have han' : a < n := train_between han hlo hhi
    rcases hkind with ⟨hk, hhigh, hlow, hcnt⟩ | ⟨hk, hlow, hhigh, hcnt⟩
    · have hal : highTickLength ≤ a := by omega
      have hval : (0 : ℚ) = pulseTrain n B (p + u.out.length) := by
        rw [hp, pulseTrain_at B k han', if_pos hk, List.getD_eq_default _ _ (by
          show highTickSamples.length ≤ a
          exact hal)]
      have hcnt' : u.r.samplesSinceLastTick = a := by rw [hcnt, max_eq_left hal]
      refine ⟨⟨?_, by omega, hsr, hmin, hmax, Or.inr ⟨k, a + 1, ?_, by omega, by omega,
        Or.inl ⟨hk, ?_, hlow, ?_⟩⟩⟩, by omega⟩
      · rw [hlen, ← map_range_snoc, ← hout]
        simp only [emitSilence, hval]
      · rw [hlen]; omega
      · simp only [emitSilence, hhigh]; omega
      · simp only [emitSilence, hcnt']
        rw [max_eq_left (by omega)]
    · have hal : lowTickLength ≤ a := by omega
      have hval : (0 : ℚ) = pulseTrain n B (p + u.out.length) := by
        rw [hp, pulseTrain_at B k han', if_neg hk, List.getD_eq_default _ _ (by
          show lowTickSamples.length ≤ a
          exact hal)]
      have hcnt' : u.r.samplesSinceLastTick = a := by rw [hcnt, max_eq_left hal]
      refine ⟨⟨?_, by omega, hsr, hmin, hmax, Or.inr ⟨k, a + 1, ?_, by omega, by omega,
        Or.inr ⟨hk, ?_, hhigh, ?_⟩⟩⟩, by omega⟩
      · rw [hlen, ← map_range_snoc, ← hout]
        simp only [emitSilence, hval]
      · rw [hlen]; omega
      · simp only [emitSilence, hlow]; omega
      · simp only [emitSilence, hcnt']
        rw [max_eq_left (by omega)]

/-- On a grid tick the counter has reached `minSamples`. -/
theorem trainBlock_due {sr : ℚ} {minS maxS n B p nb : Nat} (hn : 26 ≤ n) (hminn : minS ≤ n)
    (u : BlockState) (K : Nat) (h : TrainBlock sr minS maxS n B p nb u)
    (htick : p + u.out.length = K * n) :
    minS ≤ u.r.samplesSinceLastTick := by
  have hl13 : lowTickLength = 13 := rfl
  have hl26 : highTickLength = 26 := rfl
  obtain ⟨_, _, _, _, _, hst⟩ := h
  rcases hst with ⟨_, _, _, hc⟩ | ⟨k, a, hp, ha1, han, hkind⟩
  · omega
  · rw [hp] at htick
    obtain ⟨hae, _⟩ := train_on_tick ha1 han htick
    rcases hkind with ⟨_, _, _, hcnt⟩ | ⟨_, _, _, hcnt⟩
    · rw [hcnt, max_eq_left (by omega)]; omega
    · rw [hcnt, max_eq_left (by omega)]; omega

/-- Starting the pulse of tick `K` on its grid position. -/
theorem trainBlock_startPulse {sr : ℚ} {minS maxS n B p nb : Nat} (hn : 26 ≤ n)
    (u : BlockState) (K : Nat) (h : TrainBlock sr minS maxS n B p nb u)
    (hi : u.out.length < nb)
    (hlow0 : u.r.missingEndOfLowTick = 0) (hhigh0 : u.r.missingEndOfHighTick = 0)
    (htick : p + u.out.length = K * n) :
    (K % B = B - 1 → TrainBlock sr minS maxS n B p nb (startHighTick nb u)
      ∧ u.out.length < (startHighTick nb u).out.length
      ∧ ((startHighTick nb u).out.length < nb →
          (startHighTick nb u).r.missingEndOfLowTick = 0
          ∧ (startHighTick nb u).r.missingEndOfHighTick = 0))
    ∧ (K % B ≠ B - 1 → TrainBlock sr minS maxS n B p nb (startLowTick nb u)
      ∧ u.out.length < (startLowTick nb u).out.length
      ∧ ((startLowTick nb u).out.length < nb →
          (startLowTick nb u).r.missingEndOfLowTick = 0
          ∧ (startLowTick nb u).r.missingEndOfHighTick = 0)) := by
  have hl13 : lowTickLength = 13 := rfl
  have hl26 : highTickLength = 26 := rfl
  have hlowlen : lowTickSamples.length = 13 := rfl
  have hhighlen : highTickSamples.length = 26 := rfl
  obtain ⟨hout, _, hsr, hmin, hmax, _⟩ := h
  constructor
  · intro hk
    -- number of samples of the waveform that fit in the block
    obtain ⟨m, hm1, hm2, hmiss, hmdef⟩ : ∃ m, 1 ≤ m ∧ m ≤ 26
        ∧ (if u.out.length + 26 > nb then u.out.length + 26 - nb
            else u.r.missingEndOfHighTick) = 26 - m
        ∧ (u.out.length + m ≤ nb ∧ (u.out.length + m < nb → m = 26)) := by
      by_cases hc : u.out.length + 26 > nb
      · exact ⟨nb - u.out.length, by omega, by omega, by rw [if_pos hc]; omega, by omega, by omega⟩
      · exact ⟨26, by omega, by omega, by rw [if_neg hc, hhigh0], by omega, fun _ => rfl⟩
    have hnewout : (startHighTick nb u).out = u.out ++ highTickSamples.take m := by
      simp only [startHighTick, hl26, hmiss]
      congr 2
      omega
    have hnewlen : (startHighTick nb u).out.length = u.out.length + m := by
      rw [hnewout, List.length_append, List.length_take, hhighlen]; omega
    have htake : highTickSamples.take m
        = (List.range m).map (fun j => pulseTrain n B (p + (u.out.length + j))) := by
      rw [take_eq_map_range _ _ (by omega)]
      apply List.map_congr_left
      intro j hj
      have hj' : j < m := List.mem_range.mp hj
      rw [← Nat.add_assoc, htick, pulseTrain_at B K (by omega : j < n), if_pos hk]
    refine ⟨⟨?_, by omega, hsr, hmin, hmax, Or.inr ⟨K, m, ?_, hm1, by omega,
      Or.inl ⟨hk, ?_, ?_, ?_⟩⟩⟩, by omega, ?_⟩
    · rw [hnewlen, ← map_range_append, ← hout, hnewout, htake]
    · rw [hnewlen, ← Nat.add_assoc, htick]
    · simp only [startHighTick, hl26, hmiss]
    · simp only [startHighTick, hlow0]
    · simp only [startHighTick]
      rw [max_eq_right (by omega)]
    · intro hlt
      rw [hnewlen] at hlt
      have hfull := hmdef.2 hlt
      simp [startHighTick, hl26, hmiss, hlow0, hfull]
  · intro hk
    obtain ⟨m, hm1, hm2, hmiss, hmdef⟩ : ∃ m, 1 ≤ m ∧ m ≤ 13
        ∧ (if u.out.length + 13 > nb then u.out.length + 13 - nb
            else u.r.missingEndOfLowTick) = 13 - m
        ∧ (u.out.length + m ≤ nb ∧ (u.out.length + m < nb → m = 13)) := by
      by_cases hc : u.out.length + 13 > nb
      · exact ⟨nb - u.out.length, by omega, by omega, by rw [if_pos hc]; omega, by omega, by omega⟩
      · exact ⟨13, by omega, by omega, by rw [if_neg hc, hlow0], by omega, fun _ => rfl⟩
    have hnewout : (startLowTick nb u).out = u.out ++ lowTickSamples.take m := by
      simp only [startLowTick, hl13, hmiss]
      congr 2
      omega
    have hnewlen : (startLowTick nb u).out.length = u.out.length + m := by
      rw [hnewout, List.length_append, List.length_take, hlowlen]; omega
    have htake : lowTickSamples.take m
        = (List.range m).map (fun j => pulseTrain n B (p + (u.out.length + j))) := by
      rw [take_eq_map_range _ _ (by omega)]
      apply List.map_congr_left
      intro j hj
      have hj' : j < m := List.mem_range.mp hj
      rw [← Nat.add_assoc, htick, pulseTrain_at B K (by omega : j < n), if_neg hk]
    refine ⟨⟨?_, by omega, hsr, hmin, hmax, Or.inr ⟨K, m, ?_, hm1, by omega,
      Or.inr ⟨hk, ?_, ?_, ?_⟩⟩⟩, by omega, ?_⟩
    · rw [hnewlen, ← map_range_append, ← hout, hnewout, htake]
    · rw [hnewlen, ← Nat.add_assoc, htick]
    · simp only [startLowTick, hl13, hmiss]
    · simp only [startLowTick, hhigh0]
    · simp only [startLowTick]
      rw [max_eq_right (by omega)]
    · intro hlt
      rw [hnewlen] at hlt
      have hfull := hmdef.2 hlt
      simp [startLowTick, hl13, hmiss, hhigh0, hfull]


/-- One pass of the main loop of a playing block on the one-segment map: the body
returns, the samples written continue the pulse train, and at least one is written. -/
theorem mainBody_train {sr L : ℚ} {minS maxS n B : Nat} (hsr : 0 < sr) (hL : 0 < L)
    (hn : L * sr = n) (h26 : 26 ≤ n) (hminn : minS ≤ n) (hnmax : n ≤ maxS)
    (hB1 : 1 ≤ B) (hB : B < uintModulus) (p nb : Nat) (tl : ℚ) (bl : Nat)
    (u : BlockState) (h : TrainBlock sr minS maxS n B p nb u) (hi : u.out.length < nb)
    (hlow0 : u.r.missingEndOfLowTick = 0) (hhigh0 : u.r.missingEndOfHighTick = 0) :
    ∃ (N : Nat) (u' : BlockState),
      (∀ fuel, N ≤ fuel →
        mainBody fuel [⟨0, L, B, 0⟩] 0 true (p : ℤ) tl bl nb u = some u')
      ∧ TrainBlock sr minS maxS n B p nb u'
      ∧ (u'.out.length < nb →
          u'.r.missingEndOfLowTick = 0 ∧ u'.r.missingEndOfHighTick = 0)
      ∧ u.out.length < u'.out.length := by
  obtain ⟨N1, k, hq, hge, hprev⟩ :=
    nextTick_single_segment hsr hL hn hB1 hB (p + u.out.length)
  have hdue : ∀ fuel, N1 ≤ fuel →
      nextDueTick fuel [⟨0, L, B, 0⟩] 0 true (p : ℤ) tl bl u
        = some { u with
            nextTick := ((k * n : Nat) : ℤ) - (p : ℤ)
            lastTickRightBeforeABar := decide (k % B = B - 1) } := by
    intro fuel hf
    have hrun := hq fuel hf u.lastTickRightBeforeABar
    rw [Nat.cast_add] at hrun
    simp only [nextDueTick, Bool.not_true, Bool.false_eq_true, if_false, h.2.2.1, hrun,
      Option.map_some']
  obtain ⟨N2, w, hloop, ⟨hw, hwnext, hwflag, hwlow, hwhigh, hwle, hwge⟩, hexit⟩ :=
    whileLoop_total_simple
      (fun v : BlockState => decide (v.out.length < nb)
        && decide ((v.out.length : Int) < v.nextTick)
        && decide (v.r.samplesSinceLastTick < v.r.maxSamplesSinceLastTick))
      emitSilence
      (fun v => TrainBlock sr minS maxS n B p nb v
        ∧ v.nextTick = ((k * n : Nat) : ℤ) - (p : ℤ)
        ∧ v.lastTickRightBeforeABar = decide (k % B = B - 1)
        ∧ v.r.missingEndOfLowTick = 0 ∧ v.r.missingEndOfHighTick = 0
        ∧ p + v.out.length ≤ k * n ∧ u.out.length ≤ v.out.length)
      (fun v => nb - v.out.length)
      (by
        intro v hv hc
        obtain ⟨hv1, hv2, hv3, hv4, hv5, hv6, hv7⟩ := hv
        simp only [Bool.and_eq_true, decide_eq_true_eq] at hc
        obtain ⟨⟨hc1, hc2⟩, hc3⟩ := hc
        rw [hv2] at hc2
        have hlt : p + v.out.length < k * n := by omega
        have hlo : k = 0 ∨ (k - 1) * n < p + v.out.length := by
          rcases hprev with h0 | h0
          · exact Or.inl h0
          · right; omega
        obtain ⟨hE, _⟩ := trainBlock_emitSilence v k hv1 hc1 hv4 hv5 hlo hlt
        have hlen : (emitSilence v).out.length = v.out.length + 1 := by simp [emitSilence]
        refine ⟨⟨hE, hv2, hv3, hv4, hv5, ?_, ?_⟩, ?_⟩
        · rw [hlen]; omega
        · rw [hlen]; omega
        · beta_reduce
          rw [hlen]; omega)
      { u with
        nextTick := ((k * n : Nat) : ℤ) - (p : ℤ)
        lastTickRightBeforeABar := decide (k % B = B - 1) }
      ⟨h, rfl, rfl, hlow0, hhigh0, hge, le_rfl⟩
  have hexit' : ¬ (w.out.length < nb ∧ (w.out.length : Int) < w.nextTick
      ∧ w.r.samplesSinceLastTick < w.r.maxSamplesSinceLastTick) := by
    rintro ⟨a, b, c⟩
    simp [a, b, c] at hexit
  refine ⟨max N1 N2, tickOrSilence nb w, ?_, ?_⟩
  · intro fuel hf
    simp only [mainBody, hdue fuel (le_of_max_le_left hf), Option.some_bind,
      hloop fuel (le_of_max_le_right hf), Option.map_some']
  · by_cases hfin : w.out.length < nb
    · have hlo : k = 0 ∨ (k - 1) * n < p + w.out.length := by
        rcases hprev with h0 | h0
        · exact Or.inl h0
        · right; omega
      have hreach : p + w.out.length = k * n := by
        by_contra hne
        have hlt : p + w.out.length < k * n := by omega
        obtain ⟨_, hcnt⟩ := trainBlock_emitSilence w k hw hfin hwlow hwhigh hlo hlt
        exact hexit' ⟨hfin, by rw [hwnext]; omega, by rw [hw.2.2.2.2.1]; omega⟩
      have hcnt := trainBlock_due h26 hminn w k hw hreach
      obtain ⟨hH, hLo⟩ := trainBlock_startPulse (B := B) h26 w k hw hfin hwlow hwhigh hreach
      have hnot : ¬ w.r.samplesSinceLastTick < w.r.minSamplesSinceLastTick := by
        rw [hw.2.2.2.1]; omega
      unfold tickOrSilence
      rw [if_pos hfin, if_neg hnot, hwflag]
      by_cases hk : k % B = B - 1
      · obtain ⟨a, b, c⟩ := hH hk
        simp only [hk, decide_True, if_true]
        exact ⟨a, c, by omega⟩
      · obtain ⟨a, b, c⟩ := hLo hk
        simp only [hk, decide_False, Bool.false_eq_true, if_false]
        exact ⟨a, c, by omega⟩
    · have hsame : tickOrSilence nb w = w := by simp [tickOrSilence, hfin]
      rw [hsame]
      exact ⟨hw, fun hlt => absurd hlt hfin, by have := hw.2.1; omega⟩

/-- A playing block of `nb` samples at position `p` of the pulse train: the call
returns, the block is the next `nb` samples of the train, and the renderer is in the
state of the train at `p + nb`. -/
theorem processBlock_train {sr L : ℚ} {minS maxS n B : Nat} (hsr : 0 < sr) (hL : 0 < L)
    (hn : L * sr = n) (h26 : 26 ≤ n) (hminn : minS ≤ n) (hnmax : n ≤ maxS)
    (hB1 : 1 ≤ B) (hB : B < uintModulus) (p nb : Nat) (r : Renderer)
    (hst : TrainState sr minS maxS n B p r) :
    ∃ (N : Nat) (r' : Renderer),
      (∀ fuel, N ≤ fuel → processBlock fuel [⟨0, L, B, 0⟩] 0 r nb (p : ℤ) true
          = some (r', (List.range nb).map (fun j => pulseTrain n B (p + j))))
      ∧ TrainState sr minS maxS n B (p + nb) r' := by
  have h0 : TrainBlock sr minS maxS n B p nb
      ⟨r, [], 0, false, -((r.samplesSinceLastTick : ℚ) / r.sampleRate)⟩ :=
    ⟨rfl, Nat.zero_le _, hst⟩
  obtain ⟨N1, s1, hl1, h1, hx1⟩ :=
    whileLoop_total_simple
      (fun u : BlockState => decide (u.out.length < nb)
        && decide (0 < u.r.missingEndOfLowTick))
      emitLowTail (TrainBlock sr minS maxS n B p nb) (fun u => nb - u.out.length)
      (by
        intro u hu hc
        simp only [Bool.and_eq_true, decide_eq_true_eq] at hc
        refine ⟨trainBlock_emitLowTail h26 u hu hc.1 hc.2, ?_⟩
        have hlen : (emitLowTail u).out.length = u.out.length + 1 := by simp [emitLowTail]
        beta_reduce
        rw [hlen]; omega)
      _ h0
  obtain ⟨N2, s2, hl2, ⟨h2, h2low⟩, hx2⟩ :=
    whileLoop_total_simple
      (fun u : BlockState => decide (u.out.length < nb)
        && decide (0 < u.r.missingEndOfHighTick))
      emitHighTail
      (fun u => TrainBlock sr minS maxS n B p nb u
        ∧ (u.out.length < nb → u.r.missingEndOfLowTick = 0))
      (fun u => nb - u.out.length)
      (by
        intro u hu hc
        simp only [Bool.and_eq_true, decide_eq_true_eq] at hc
        have hlen : (emitHighTail u).out.length = u.out.length + 1 := by simp [emitHighTail]
        refine ⟨⟨trainBlock_emitHighTail h26 u hu.1 hc.1 hc.2, fun _ => hu.2 hc.1⟩, ?_⟩
        beta_reduce
        rw [hlen]; omega)
      s1 ⟨h1, fun hlt => by simpa [hlt] using hx1⟩
  obtain ⟨N3, s3, hl3, ⟨h3, _⟩, hx3⟩ :=
    whileLoop_total
      (fun u : BlockState => decide (u.out.length < nb))
      (fun fuel => mainBody fuel [⟨0, L, B, 0⟩] 0 true (p : ℤ)
        ((getTickAndBarLengthAtPosition r.sampleRate [⟨0, L, B, 0⟩] (p : ℤ)).getD (0, 0)).1
        ((getTickAndBarLengthAtPosition r.sampleRate [⟨0, L, B, 0⟩] (p : ℤ)).getD (0, 0)).2
        nb)
      (fun u => TrainBlock sr minS maxS n B p nb u
        ∧ (u.out.length < nb →
            u.r.missingEndOfLowTick = 0 ∧ u.r.missingEndOfHighTick = 0))
      (fun u => nb - u.out.length)
      (by
        intro u hu hc
        simp only [decide_eq_true_eq] at hc
        obtain ⟨N, u', hrun, hT, hm, hprog⟩ :=
          mainBody_train hsr hL hn h26 hminn hnmax hB1 hB p nb
            ((getTickAndBarLengthAtPosition r.sampleRate [⟨0, L, B, 0⟩] (p : ℤ)).getD (0, 0)).1
            ((getTickAndBarLengthAtPosition r.sampleRate [⟨0, L, B, 0⟩] (p : ℤ)).getD (0, 0)).2
            u hu.1 hc (hu.2 hc).1 (hu.2 hc).2
        refine ⟨N, u', hrun, ⟨hT, hm⟩, ?_⟩
        have hle := hT.2.1
        beta_reduce
        omega)
      s2 ⟨h2, fun hlt => ⟨h2low hlt, by simpa [hlt] using hx2⟩⟩
  have hlen3 : s3.out.length = nb := by
    simp only [decide_eq_false_iff_not] at hx3
    have := h3.2.1
    omega
  refine ⟨max N1 (max N2 N3), s3.r, ?_, ?_⟩
  · intro fuel hf
    have hf1 : N1 ≤ fuel := le_of_max_le_left hf
    have hf2 : N2 ≤ fuel := le_of_max_le_left (le_of_max_le_right hf)
    have hf3 : N3 ≤ fuel := le_of_max_le_right (le_of_max_le_right hf)
    have hout : s3.out = (List.range nb).map (fun j => pulseTrain n B (p + j)) := by
      have := h3.1
      rw [hlen3] at this
      exact this
    simp only [processBlock, Bool.not_true, Bool.false_and, Bool.false_eq_true, if_false,
      hl1 fuel hf1, hl2 fuel hf2, hl3 fuel fuel hf3 hf3, Option.some_bind, Option.map_some',
      hout]
  · have := h3.2.2
    rw [hlen3] at this
    exact this

theorem playingBlocks_cons (start : Int) (b : Nat) (bs : List Nat) :
    playingBlocks start (b :: bs) = ⟨b, start, true, false⟩ :: playingBlocks (start + b) bs :=
  rfl

/-- Contiguous playing blocks from position `p` of the pulse train render the next
samples of the train. -/
theorem renderCalls_train {sr L : ℚ} {minS maxS n B : Nat} (hsr : 0 < sr) (hL : 0 < L)
    (hn : L * sr = n) (h26 : 26 ≤ n) (hminn : minS ≤ n) (hnmax : n ≤ maxS)
    (hB1 : 1 ≤ B) (hB : B < uintModulus) :
    ∀ (bs : List Nat) (p : Nat) (r : Renderer), TrainState sr minS maxS n B p r →
      ∃ (N : Nat) (r' : Renderer),
        (∀ fuel, N ≤ fuel →
          renderCalls fuel [⟨0, L, B, 0⟩] 0 r (playingBlocks (p : ℤ) bs)
            = some (r', (List.range bs.sum).map (fun j => pulseTrain n B (p + j))))
        ∧ TrainState sr minS maxS n B (p + bs.sum) r' := by
  intro bs
  induction bs with
  | nil =>
    intro p r hst
    exact ⟨0, r, fun _ _ => rfl, hst⟩
  | cons b bs ih =>
    intro p r hst
    obtain ⟨N1, r1, hrun1, hst1⟩ :=
      processBlock_train hsr hL hn h26 hminn hnmax hB1 hB p b
        { r with sendSignalAlways := false } hst
    obtain ⟨N2, r2, hrun2, hst2⟩ := ih (p + b) r1 hst1
    refine ⟨max N1 N2, r2, ?_, ?_⟩
    · intro fuel hf
      have hrun2 := hrun2 fuel (le_of_max_le_right hf)
      rw [Nat.cast_add] at hrun2
      rw [playingBlocks_cons]
      simp only [renderCalls, hrun1 fuel (le_of_max_le_left hf), Option.some_bind, hrun2,
        Option.map_some', List.sum_cons]
      rw [← map_range_append (fun j => pulseTrain n B (p + j)) b bs.sum]
      simp only [Nat.add_assoc]
    · rw [List.sum_cons, ← Nat.add_assoc]
      exact hst2


theorem prepare_trainState (r0 : Renderer) (sr : ℚ) (n B : Nat) :
    TrainState sr (prepareToPlay r0 sr).minSamplesSinceLastTick
      (prepareToPlay r0 sr).maxSamplesSinceLastTick n B 0 (prepareToPlay r0 sr) :=
  ⟨rfl, rfl, rfl, Or.inl ⟨rfl, rfl, rfl, rfl⟩⟩

/-- C1 (amended): after `prepareToPlay` at sample rate `sr`, with delay 0 and the
one-segment map with start 0, tick length `L`, bar length `B ≥ 1` and offset 0, where
`n = L * sr` is an integer with `minSamples ≤ n ≤ maxSamples` and `n` is at least the
26 samples of the accent waveform, contiguous playing blocks of any sizes starting at
position 0 are all rendered (with enough fuel) and the rendered stream is the pulse
train: sample `j` is entry `j mod n` of the accent table when `(j / n) mod B = B - 1`,
entry `j mod n` of the regular table otherwise, and 0 past the end of the table. -/
theorem playing_pulse_train (r0 : Renderer) (sr L : ℚ) (n B : Nat) (bs : List Nat)
    (hsr : 0 < sr) (hn : L * sr = n) (h26 : highTickLength ≤ n)
    (hmin : (prepareToPlay r0 sr).minSamplesSinceLastTick ≤ n)
    (hmax : n ≤ (prepareToPlay r0 sr).maxSamplesSinceLastTick)
    (hB1 : 1 ≤ B) (hB : B < uintModulus) :
    ∃ (N : Nat) (r' : Renderer), ∀ fuel, N ≤ fuel →
      renderCalls fuel [⟨0, L, B, 0⟩] 0 (prepareToPlay r0 sr) (playingBlocks 0 bs)
        = some (r', (List.range bs.sum).map (pulseTrain n B)) := by
  have h26' : 26 ≤ n := h26
  have hL : 0 < L := by
    have hpos : (0 : ℚ) < L * sr := by
      rw [hn]
      exact_mod_cast (by omega : 0 < n)
    exact (mul_pos_iff_of_pos_right hsr).mp hpos
  obtain ⟨N, r', hrun, _⟩ :=
    renderCalls_train hsr hL hn h26' hmin hmax hB1 hB bs 0 (prepareToPlay r0 sr)
      (prepare_trainState r0 sr n B)
  refine ⟨N, r', fun fuel hf => ?_⟩
  have h := hrun fuel hf
  simp only [Nat.cast_zero, Nat.zero_add] at h
  exact h

/-- Witness of C1: at 44100 Hz a tick every 10 ms is a tick every 441 samples; bars of 4
ticks, two blocks of 512 samples. -/
theorem playing_pulse_train_witness :
    ∃ (N : Nat) (r' : Renderer), ∀ fuel, N ≤ fuel →
      renderCalls fuel [⟨0, 1 / 100, 4, 0⟩] 0 (prepareToPlay Renderer.initial 44100)
          (playingBlocks 0 [512, 512])
        = some (r', (List.range 1024).map (pulseTrain 441 4)) :=
  playing_pulse_train Renderer.initial 44100 (1 / 100) 441 4 [512, 512]
    (by norm_num) (by norm_num) (by decide)
    (by rw [prepare_min_44100]; decide) (by rw [prepare_max_44100]; decide)
    (by decide) (by decide!)

set_option maxRecDepth 100000 in
/-- Counterexample to C1 as stated: at 1000 Hz (`minSamples = 7`, `maxSamples = 84`) a
tick every 20 samples satisfies `minSamples ≤ n ≤ maxSamples`, yet with bars of 2 ticks
the accent pulse started at sample 20 is still being written at sample 40, so no pulse
starts there: the pulses of the first 64 samples start at 0, 20 and 60, and sample 40
holds entry 20 of the accent table instead of entry 0 of the regular table. -/
theorem pulse_train_skips_tick :
    (1 / 50 : ℚ) * 1000 = (20 : Nat)
    ∧ (prepareToPlay Renderer.initial 1000).minSamplesSinceLastTick ≤ 20
    ∧ 20 ≤ (prepareToPlay Renderer.initial 1000).maxSamplesSinceLastTick
    ∧ renderCalls 100 [⟨0, 1 / 50, 2, 0⟩] 0 (prepareToPlay Renderer.initial 1000)
        (playingBlocks 0 [64])
      = some (⟨1000, false, 0, 22, 26, 7, 84, 0⟩, shortTickStream)
    ∧ pulseStarts shortTickStream = [0, 20, 60]
    ∧ shortTickStream.getD 40 0 = highTickSamples.getD 20 0
    ∧ pulseTrain 20 2 40 = lowTickSamples.getD 0 0
    ∧ shortTickStream.getD 40 0 ≠ pulseTrain 20 2 40 := by
  refine ⟨by norm_num, by decide!, by decide!, by decide!, by decide!, by decide!,
    by decide!, by decide!⟩


theorem normalizeTempo_two_events (fuel : Nat) (sr : ℚ) :
    normalizeTempo fuel sr [⟨0, 0⟩, ⟨2, 4⟩] = some [⟨0, 1 / 48⟩] := by
  have hrange : List.range 1 = [0] := rfl
  have hlen : ([⟨0, 0⟩, ⟨2, 4⟩] : List TempoEntry).length - 1 = 1 := rfl
  rw [normalizeTempo, hlen, hrange]
  simp [tempoStep, rawTickLength]
  norm_num

theorem normalizeTimeSigs_four_four : normalizeTimeSigs [⟨4, 4, 0⟩] = [⟨0, 96⟩] := by
  decide!

/-- C5: for every sample rate and every previous map, rebuilding from the two tempo
events (time 0, quarter 0) and (time 2, quarter 4) and one 4/4 signature at quarter 0
returns (with any fuel: no loop body runs) the map of exactly one segment with
`startPosition` 0, `tickLength` 1/48, `barLength` 96 and `tickOffset` 0. -/
theorem two_events_one_segment (fuel : Nat) (sr : ℚ) (previous : List TickMapElement) :
    rebuildTickMap fuel sr (some ([⟨0, 0⟩, ⟨2, 4⟩], [⟨4, 4, 0⟩])) previous
      = some [⟨0, 1 / 48, 96, 0⟩] := by
  have hdone : ∀ s : MergeState,
      whileLoop (fun _ : MergeState => false) (tailBody fuel [⟨0, 96⟩]) fuel s = some s :=
    fun s => whileLoop_done rfl fuel
  simp [rebuildTickMap, buildTickMap, normalizeTempo_two_events, normalizeTimeSigs_four_four,
    mergeAll, mergeStep, pushTempoChange, hdone]

/-- C7, failing input: tempo events (0, 0), (4, 8), (8, 24) and signatures 4/4 at
quarter 0, 6/4 at quarter 2 and 2/4 at quarter 3 (strictly increasing tempo, increasing
signature positions, both starting at 0). The third signature is quantised to quarter 6,
in the middle of a 6/4 bar that starts at quarter 4, and the last segment of the built
map has `tickOffset` 96 with `barLength` 48. -/
theorem offset_reaches_barLength :
    StrictlyIncreasing [⟨0, 0⟩, ⟨4, 8⟩, ⟨8, 24⟩]
    ∧ normalizeTimeSigs [⟨4, 4, 0⟩, ⟨6, 4, 2⟩, ⟨2, 4, 3⟩] = [⟨0, 96⟩, ⟨4, 144⟩, ⟨6, 48⟩]
    ∧ rebuildTickMap 300 44100
        (some ([⟨0, 0⟩, ⟨4, 8⟩, ⟨8, 24⟩], [⟨4, 4, 0⟩, ⟨6, 4, 2⟩, ⟨2, 4, 3⟩])) []
      = some [⟨0, 1 / 48, 96, 0⟩, ⟨2, 1 / 48, 144, 0⟩, ⟨3, 1 / 48, 48, 0⟩,
          ⟨4, 1 / 96, 48, 96⟩] := by
  refine ⟨by simp [StrictlyIncreasing]; norm_num, by decide!, by decide!⟩


/-! ## Tick query: delay and forward scan -/

theorem isEmpty_eq_false_of_ne_nil {tickMap : List TickMapElement} (hne : tickMap ≠ []) :
    tickMap.isEmpty = false := by
  cases tickMap with
  | nil => exact absurd rfl hne
  | cons a l => rfl

/-- On a non-empty map the sample position returned by the tick query is the rounded
product of the delayed tick time and the sample rate. -/
theorem getNextTick_eq_delayedTick (fuel : Nat) (sr : ℚ) (tickMap : List TickMapElement)
    (delay : ℚ) (currentPos : Int) (lastTick : Bool) (hne : tickMap ≠ []) :
    getNextTickPositionInSamples fuel sr tickMap delay currentPos lastTick
      = (delayedTick fuel sr tickMap delay ((currentPos : ℚ) / sr)).map
          (fun r => (cRound (r.1 * sr), r.2)) := by
  simp [getNextTickPositionInSamples, delayedTick, isEmpty_eq_false_of_ne_nil hne,
    Option.map_map, Function.comp_def]

/-- C14: on a non-empty map, the tick query converts the tick time `tickPos + delay` to
samples by rounding, and that tick time for delay `d` at position `p` is `d` plus the
tick time for delay 0 at position `p - d`, with the same bar flag (both sides run out
of fuel together). -/
theorem delay_applied_at_query_boundary (fuel : Nat) (sr : ℚ)
    (tickMap : List TickMapElement) (d p : ℚ) (currentPos : Int) (lastTick : Bool)
    (hne : tickMap ≠ []) :
    getNextTickPositionInSamples fuel sr tickMap d currentPos lastTick
      = (delayedTick fuel sr tickMap d ((currentPos : ℚ) / sr)).map
          (fun r => (cRound (r.1 * sr), r.2))
    ∧ delayedTick fuel sr tickMap d p
      = (delayedTick fuel sr tickMap 0 (p - d)).map (fun r => (d + r.1, r.2)) := by
  refine ⟨getNextTick_eq_delayedTick fuel sr tickMap d currentPos lastTick hne, ?_⟩
  simp only [delayedTick, sub_zero, add_zero, Option.map_map, Function.comp_def]
  congr 1
  funext r
  rw [add_comm]

/-- Witness of C14: the example map at 44100 Hz, delay 1/10 s, sample 100000 (and the
time 5/2 s): the query with delay 0 at 12/5 s finds the tick at 29/12 s. -/
theorem delay_applied_at_query_boundary_witness :
    exampleTickMap ≠ []
    ∧ delayedTick 1000 44100 exampleTickMap 0 (5 / 2 - 1 / 10) = some (29 / 12, false)
    ∧ (getNextTickPositionInSamples 1000 44100 exampleTickMap (1 / 10) 100000 false
        = (delayedTick 1000 44100 exampleTickMap (1 / 10) ((100000 : Int) / 44100)).map
            (fun r => (cRound (r.1 * 44100), r.2))
      ∧ delayedTick 1000 44100 exampleTickMap (1 / 10) (5 / 2)
        = (delayedTick 1000 44100 exampleTickMap 0 (5 / 2 - 1 / 10)).map
            (fun r => ((1 / 10 : ℚ) + r.1, r.2))) :=
  ⟨by simp [exampleTickMap], by decide!,
    delay_applied_at_query_boundary 1000 44100 exampleTickMap (1 / 10) (5 / 2) 100000 false
      (by simp [exampleTickMap])⟩

/-- The forward scan finishes whenever the tick length is positive, whatever the other
fields of the segment: it stops on the first grid tick that is not sample-scale less
than the query position. -/
theorem scanForward_pos_total (sr : ℚ) (it : TickMapElement) (q : ℚ)
    (htl : 0 < it.tickLength) :
    ∃ (N : Nat) (k : Nat) (i : Nat),
      (∀ fuel, N ≤ fuel →
        whileLoop (fun s : ℚ × Nat => sampleScaleLessThan sr s.1 q)
          (fun s => some (scanForwardStep it s)) fuel (it.startPosition, it.tickOffset)
        = some (it.startPosition + k * it.tickLength, i))
      ∧ sampleScaleLessThan sr (it.startPosition + k * it.tickLength) q = false
      ∧ ∀ j : Nat, j < k →
          sampleScaleLessThan sr (it.startPosition + j * it.tickLength) q = true := by
  obtain ⟨N, r, hr, ⟨k, hk1, hk3⟩, hc⟩ := whileLoop_total_simple
    (fun s : ℚ × Nat => sampleScaleLessThan sr s.1 q)
    (scanForwardStep it)
    (fun s => ∃ k : Nat, s.1 = it.startPosition + k * it.tickLength
      ∧ ∀ j : Nat, j < k →
          sampleScaleLessThan sr (it.startPosition + j * it.tickLength) q = true)
    (fun s => ⌈(q - s.1) / it.tickLength⌉.toNat)
    (by
      rintro ⟨p, i⟩ ⟨k, hk1, hk3⟩ hc
      simp only at hk1 hc
      refine ⟨⟨k + 1, ?_, ?_⟩, ?_⟩
      · simp only [scanForwardStep, hk1]; push_cast; ring
      · intro j hj
        rcases Nat.lt_succ_iff_lt_or_eq.mp hj with h | h
        · exact hk3 j h
        · subst h; rw [← hk1]; exact hc
      · simp only [scanForwardStep]
        apply ticksBetween_decreases htl
        simp only [sampleScaleLessThan, Bool.and_eq_true, decide_eq_true_eq] at hc
        exact hc.1)
    (it.startPosition, it.tickOffset)
    ⟨0, by simp, fun j hj => absurd hj (Nat.not_lt_zero j)⟩
  obtain ⟨p, i⟩ := r
  simp only at hk1 hc
  refine ⟨N, k, i, fun fuel hf => ?_, hk1 ▸ hc, hk3⟩
  rw [hr fuel hf, hk1]

theorem upperBoundLoop_le (sr : ℚ) (tickMap : List TickMapElement) (value : ℚ) :
    ∀ (fuel first len : Nat), upperBoundLoop sr tickMap value fuel first len ≤ first + len := by
  intro fuel
  induction fuel with
  | zero => intro first len; simp [upperBoundLoop]
  | succ n ih =>
    intro first len
    unfold upperBoundLoop
    by_cases h0 : len = 0
    · simp [h0]
    · simp only [h0, if_false]
      by_cases hlt : sampleScaleLessThan sr value
          (tickMap.getD (first + len / 2) default).startPosition = true
      · simp only [hlt, if_true]
        have := ih first (len / 2)
        have hdiv : len / 2 ≤ len := Nat.div_le_self _ _
        omega
      · simp only [hlt, Bool.false_eq_true, if_false]
        have := ih (first + len / 2 + 1) (len - len / 2 - 1)
        have hdiv : len / 2 < len := Nat.div_lt_self (by omega) (by decide)
        omega

/-- The covering segment of a non-empty map is one of its segments. -/
theorem coveringSegment_mem (sr : ℚ) (tickMap : List TickMapElement) (value : ℚ)
    (hne : tickMap ≠ []) : coveringSegment sr tickMap value ∈ tickMap := by
  have hlen : 0 < tickMap.length := List.length_pos.mpr hne
  have hub : upperBound sr tickMap value ≤ tickMap.length := by
    have := upperBoundLoop_le sr tickMap value tickMap.length 0 tickMap.length
    simpa [upperBound] using this
  have hidx : coveringIndex sr tickMap value < tickMap.length := by
    unfold coveringIndex
    simp only
    split_ifs with h
    · omega
    · omega
  unfold coveringSegment
  rw [List.getD_eq_getElem _ _ hidx]
  exact List.getElem_mem hidx

/-- Rounding a value that exceeds an integer by more than one half gives a larger
integer. -/
theorem lt_cRound {p : Int} {x : ℚ} (h : (p : ℚ) + 1 / 2 < x) : p < cRound x := by
  unfold cRound
  split_ifs with h0
  · have h1 : ((p + 1 : ℤ) : ℚ) ≤ x + 1 / 2 := by push_cast; linarith
    have := Int.le_floor.mpr h1
    omega
  · rw [not_le] at h0
    have h1 : ⌊-x + 1 / 2⌋ < -p := by
      rw [Int.floor_lt]
      push_cast
      linarith
    omega

/-- C13: on a non-empty map whose tick lengths are all positive, for every delay and
every sample position whose internal query position (position in seconds minus delay)
is not sample-scale before the start of its covering segment and is not within half a
sample of any tick of that segment's grid, the tick query returns (with enough fuel) a
tick whose time with the delay added back is strictly later than the position, and
whose sample position is strictly greater than the queried sample. -/
theorem nextTick_strictly_after (sr : ℚ) (tickMap : List TickMapElement) (d : ℚ)
    (currentPos : Int) (lastTick : Bool)
    (hsr : 0 < sr) (hne : tickMap ≠ []) (hpos : ∀ e ∈ tickMap, 0 < e.tickLength)
    (hfwd : sampleScaleLessThan sr ((currentPos : ℚ) / sr - d)
      (coveringSegment sr tickMap ((currentPos : ℚ) / sr - d)).startPosition = false)
    (hoff : ∀ k : Nat, sampleScaleEquals sr
      ((coveringSegment sr tickMap ((currentPos : ℚ) / sr - d)).startPosition
        + k * (coveringSegment sr tickMap ((currentPos : ℚ) / sr - d)).tickLength)
      ((currentPos : ℚ) / sr - d) = false) :
    ∃ (N : Nat) (t : ℚ) (flag : Bool),
      (∀ fuel, N ≤ fuel →
        delayedTick fuel sr tickMap d ((currentPos : ℚ) / sr) = some (t, flag)
        ∧ getNextTickPositionInSamples fuel sr tickMap d currentPos lastTick
          = some (cRound (t * sr), flag))
      ∧ (currentPos : ℚ) / sr < t
      ∧ currentPos < cRound (t * sr) := by
  obtain ⟨N, k, i, hrun, hstop, _⟩ :=
    scanForward_pos_total sr (coveringSegment sr tickMap ((currentPos : ℚ) / sr - d))
      ((currentPos : ℚ) / sr - d) (hpos _ (coveringSegment_mem sr tickMap _ hne))
  have heps := halfASampleLength_pos hsr
  have hgt := (sampleScaleLessThan_eq_false_iff hsr _ _).mp hstop
  have hne2 : ¬ |(coveringSegment sr tickMap ((currentPos : ℚ) / sr - d)).startPosition
        + k * (coveringSegment sr tickMap ((currentPos : ℚ) / sr - d)).tickLength
        - ((currentPos : ℚ) / sr - d)| ≤ halfASampleLength sr := by
    rw [← sampleScaleEquals_iff, hoff k]
    exact Bool.false_ne_true
  rw [not_le] at hne2
  have hT : (currentPos : ℚ) / sr - d + halfASampleLength sr
      < (coveringSegment sr tickMap ((currentPos : ℚ) / sr - d)).startPosition
        + k * (coveringSegment sr tickMap ((currentPos : ℚ) / sr - d)).tickLength := by
    by_contra hcon
    rw [not_lt] at hcon
    have : |(coveringSegment sr tickMap ((currentPos : ℚ) / sr - d)).startPosition
        + k * (coveringSegment sr tickMap ((currentPos : ℚ) / sr - d)).tickLength
        - ((currentPos : ℚ) / sr - d)| ≤ halfASampleLength sr := by
      rw [abs_le]; constructor <;> linarith
    exact absurd this (not_le.mpr hne2)
  have hdel : ∀ fuel, N ≤ fuel →
      delayedTick fuel sr tickMap d ((currentPos : ℚ) / sr)
        = some ((coveringSegment sr tickMap ((currentPos : ℚ) / sr - d)).startPosition
          + k * (coveringSegment sr tickMap ((currentPos : ℚ) / sr - d)).tickLength + d,
          decide (i = uintSub
            (coveringSegment sr tickMap ((currentPos : ℚ) / sr - d)).barLength 1)) := by
    intro fuel hf
    simp only [delayedTick, findTick, scanTick, hfwd, Bool.false_eq_true, if_false,
      hrun fuel hf, Option.map_some']
  refine ⟨N, _, _, fun fuel hf => ⟨hdel fuel hf, ?_⟩, by linarith, ?_⟩
  · rw [getNextTick_eq_delayedTick fuel sr tickMap d currentPos lastTick hne, hdel fuel hf]
    rfl
  · apply lt_cRound
    have hhalf : halfASampleLength sr * sr = 1 / 2 := by
      unfold halfASampleLength
      field_simp
    have hcp : (currentPos : ℚ) / sr * sr = currentPos := by field_simp
    nlinarith [mul_lt_mul_of_pos_right hT hsr]

/-- Witness of C13: the example map at 44100 Hz with delay 0, queried at sample 100000
(about 2.2676 s, between the ticks 108/48 s and 109/48 s of the first segment). -/
theorem nextTick_strictly_after_witness :
    ∃ (N : Nat) (t : ℚ) (flag : Bool),
      (∀ fuel, N ≤ fuel →
        delayedTick fuel 44100 exampleTickMap 0 (((100000 : Int) : ℚ) / 44100) = some (t, flag)
        ∧ getNextTickPositionInSamples fuel 44100 exampleTickMap 0 100000 false
          = some (cRound (t * 44100), flag))
      ∧ ((100000 : Int) : ℚ) / 44100 < t
      ∧ (100000 : Int) < cRound (t * 44100) :=
  nextTick_strictly_after 44100 exampleTickMap 0 100000 false (by norm_num)
    (by simp [exampleTickMap])
    (by
      intro e he
      simp only [exampleTickMap, List.mem_cons, List.mem_singleton, List.not_mem_nil,
        or_false] at he
      rcases he with rfl | rfl <;> norm_num)
    (by decide!)
    (by
      intro k
      have hS : coveringSegment 44100 exampleTickMap (((100000 : Int) : ℚ) / 44100 - 0)
          = ⟨0, 1 / 48, 96, 0⟩ := by decide!
      rw [hS, ← Bool.not_eq_true, sampleScaleEquals_iff, abs_le]
      simp only [halfASampleLength]
      rintro ⟨h1, h2⟩
      rcases Nat.lt_or_ge k 109 with hk | hk
      · have hk' : (k : ℚ) ≤ 108 := by exact_mod_cast Nat.le_of_lt_succ hk
        norm_num at h1
        linarith
      · have hk' : (109 : ℚ) ≤ k := by exact_mod_cast hk
        norm_num at h2
        linarith)


/-! ## Step 2: tempo changes on the tick grid -/

theorem eq_of_mem_getLast?_concat {α : Type} {l : List α} {a x : α}
    (hx : x ∈ (l ++ [a]).getLast?) : x = a := by
  simp only [List.getLast?_append, List.getLast?_singleton, Option.mem_def] at hx
  have hx : some a = some x := hx
  exact (Option.some.inj hx).symm

theorem sampleScaleEquals_self {sr : ℚ} (hsr : 0 < sr) (a : ℚ) :
    sampleScaleEquals sr a a = true := by
  rw [sampleScaleEquals_iff, sub_self, abs_zero]
  exact (halfASampleLength_pos hsr).le

theorem sampleScaleEquals_symm {sr a b : ℚ} (h : sampleScaleEquals sr a b = true) :
    sampleScaleEquals sr b a = true := by
  rw [sampleScaleEquals_iff] at h ⊢
  rwa [abs_sub_comm]

/-- One pass of the loop of step 2 keeps the tempo changes on the grid of their
predecessors, and leaves `nextPosition` on the grid of the last one. -/
theorem tempoStep_onGrid {sr : ℚ} (hsr : 0 < sr) (fuel : Nat) (tempo : List TempoEntry)
    (s : List TempoChange × ℚ) (i : Nat) (s' : List TempoChange × ℚ)
    (hinv : s.1.Chain' (StartsOnGridOf sr)
      ∧ ∀ last ∈ s.1.getLast?, ∃ m : ℤ,
          sampleScaleEquals sr s.2 (last.timePosition + m * last.tickLength) = true)
    (hstep : tempoStep fuel sr tempo s i = some s') :
    s'.1.Chain' (StartsOnGridOf sr)
      ∧ ∀ last ∈ s'.1.getLast?, ∃ m : ℤ,
          sampleScaleEquals sr s'.2 (last.timePosition + m * last.tickLength) = true := by
  obtain ⟨tcs, np⟩ := s
  obtain ⟨hch, hlast⟩ := hinv
  simp only at hch hlast
  have hpush : (tcs ++ [(⟨np, rawTickLength tempo i⟩ : TempoChange)]).Chain'
      (StartsOnGridOf sr) := chain'_concat hch (fun x hx => hlast x hx)
  unfold tempoStep at hstep
  simp only at hstep
  split_ifs at hstep with hi
  · simp only [Option.some.injEq] at hstep
    subst hstep
    refine ⟨hpush, ?_⟩
    intro last hl
    rw [eq_of_mem_getLast?_concat hl]
    exact ⟨0, by simpa using sampleScaleEquals_self hsr np⟩
  · simp only [Option.map_eq_some'] at hstep
    obtain ⟨L, hw, hres⟩ := hstep
    obtain ⟨⟨k, hk⟩, _⟩ := whileLoop_invariant
      (fun p : ℚ => ∃ k : Nat, p = np + k * rawTickLength tempo i)
      (by
        rintro p p' ⟨k, hk⟩ _ hp
        simp only [Option.some.injEq] at hp
        exact ⟨k + 1, by rw [← hp, hk]; push_cast; ring⟩)
      fuel np L ⟨0, by simp⟩ hw
    by_cases heq : sampleScaleEquals sr L (tempo.getD (i + 1) default).timePosition = true
    · simp only [heq, Bool.not_true, Bool.false_eq_true, if_false] at hres
      subst hres
      refine ⟨hpush, ?_⟩
      intro last hl
      rw [eq_of_mem_getLast?_concat hl]
      refine ⟨(k : ℤ), ?_⟩
      have := sampleScaleEquals_symm heq
      rw [hk] at this
      simpa using this
    · simp only [Bool.not_eq_true] at heq
      simp only [heq, Bool.not_false, if_true] at hres
      subst hres
      refine ⟨chain'_concat hpush ?_, ?_⟩
      · intro x hx
        rw [eq_of_mem_getLast?_concat hx]
        refine ⟨(k : ℤ) - 1, ?_⟩
        have e : L - rawTickLength tempo i
            = np + (((k : ℤ) - 1 : ℤ) : ℚ) * rawTickLength tempo i := by
          rw [hk]; push_cast; ring
        show sampleScaleEquals sr (L - rawTickLength tempo i)
          (np + (((k : ℤ) - 1 : ℤ) : ℚ) * rawTickLength tempo i) = true
        rw [← e]
        exact sampleScaleEquals_self hsr _
      · intro last hl
        rw [eq_of_mem_getLast?_concat hl]
        refine ⟨1, ?_⟩
        simp only [Int.cast_one, one_mul]
        exact sampleScaleEquals_self hsr _

/-- C11: for tempo entries with strictly increasing time and quarter positions, step 2
finishes (with enough fuel), and every normalised tempo change after the first starts,
within half a sample, at the start of the tempo change before it plus an integer
number of that tempo change's tick lengths. -/
theorem tempo_segments_start_on_ticks (sr : ℚ) (tempo : List TempoEntry)
    (hsr : 0 < sr) (hinc : StrictlyIncreasing tempo) :
    ∃ (N : Nat) (tcs : List TempoChange),
      (∀ fuel, N ≤ fuel → normalizeTempo fuel sr tempo = some tcs)
      ∧ tcs.Chain' (StartsOnGridOf sr) := by
  obtain ⟨N, tcs, hrun, _⟩ := normalizeTempo_total sr hsr tempo hinc
  refine ⟨N, tcs, hrun, ?_⟩
  have h := hrun N le_rfl
  unfold normalizeTempo at h
  simp only [Option.map_eq_some'] at h
  obtain ⟨a, ha, hat⟩ := h
  subst hat
  exact (foldlM_invariant (tempoStep N sr tempo)
    (fun s : List TempoChange × ℚ => s.1.Chain' (StartsOnGridOf sr)
      ∧ ∀ last ∈ s.1.getLast?, ∃ m : ℤ,
          sampleScaleEquals sr s.2 (last.timePosition + m * last.tickLength) = true)
    (fun s i s' hs hstep => tempoStep_onGrid hsr N tempo s i s' hs hstep)
    _ _ _ ⟨List.chain'_nil, by simp⟩ ha).1

/-- Witness of C11: three tempo entries whose middle one falls between two ticks of the
first tempo, so that step 2 inserts a blended segment. -/
theorem tempo_segments_start_on_ticks_witness :
    (0 : ℚ) < 44100
    ∧ StrictlyIncreasing [⟨0, 0⟩, ⟨1, 201 / 100⟩, ⟨2, 4⟩]
    ∧ ∃ (N : Nat) (tcs : List TempoChange),
      (∀ fuel, N ≤ fuel →
        normalizeTempo fuel 44100 [⟨0, 0⟩, ⟨1, 201 / 100⟩, ⟨2, 4⟩] = some tcs)
      ∧ tcs.Chain' (StartsOnGridOf 44100) :=
  ⟨by norm_num, by simp [StrictlyIncreasing]; norm_num,
    tempo_segments_start_on_ticks 44100 [⟨0, 0⟩, ⟨1, 201 / 100⟩, ⟨2, 4⟩] (by norm_num)
      (by simp [StrictlyIncreasing]; norm_num)⟩


/-! ## A proof rule for `processBlock` -/

/-- The last statement of the body of the main loop stays within the block, writes at
least one sample when the block is not full, and leaves no owed waveform end unless
the block is full. -/
theorem tickOrSilence_progress (nb : Nat) (w : BlockState) (hle : w.out.length ≤ nb)
    (hm : w.out.length < nb → w.r.missingEndOfLowTick = 0 ∧ w.r.missingEndOfHighTick = 0) :
    (tickOrSilence nb w).out.length ≤ nb
    ∧ w.out.length ≤ (tickOrSilence nb w).out.length
    ∧ (w.out.length < nb → w.out.length < (tickOrSilence nb w).out.length)
    ∧ ((tickOrSilence nb w).out.length < nb →
        (tickOrSilence nb w).r.missingEndOfLowTick = 0
        ∧ (tickOrSilence nb w).r.missingEndOfHighTick = 0) := by
  have hl13 : lowTickLength = 13 := rfl
  have hl26 : highTickLength = 26 := rfl
  have hlowlen : lowTickSamples.length = 13 := rfl
  have hhighlen : highTickSamples.length = 26 := rfl
  unfold tickOrSilence
  by_cases hi : w.out.length < nb
  · obtain ⟨hlow0, hhigh0⟩ := hm hi
    rw [if_pos hi]
    by_cases hsup : w.r.samplesSinceLastTick < w.r.minSamplesSinceLastTick
    · rw [if_pos hsup]
      have hlen : (emitSilence w).out.length = w.out.length + 1 := by simp [emitSilence]
      rw [hlen]
      exact ⟨by omega, by omega, fun _ => by omega, fun _ => ⟨hlow0, hhigh0⟩⟩
    · rw [if_neg hsup]
      by_cases hflag : w.lastTickRightBeforeABar = true
      · rw [if_pos hflag]
        by_cases hc : w.out.length + 26 > nb
        · have hlen : (startHighTick nb w).out.length = nb := by
            simp only [startHighTick, hl26, if_pos hc, List.length_append, List.length_take,
              hhighlen]
            omega
          rw [hlen]
          exact ⟨le_rfl, by omega, fun _ => hi, fun h => absurd h (lt_irrefl _)⟩
        · have hlen : (startHighTick nb w).out.length = w.out.length + 26 := by
            simp only [startHighTick, hl26, if_neg hc, List.length_append, List.length_take,
              hhighlen, hhigh0]
            omega
          have hmiss : (startHighTick nb w).r.missingEndOfLowTick = 0
              ∧ (startHighTick nb w).r.missingEndOfHighTick = 0 := by
            simp only [startHighTick, hl26, if_neg hc, hhigh0, hlow0, and_self]
          rw [hlen]
          exact ⟨by omega, by omega, fun _ => by omega, fun _ => hmiss⟩
      · rw [if_neg hflag]
        by_cases hc : w.out.length + 13 > nb
        · have hlen : (startLowTick nb w).out.length = nb := by
            simp only [startLowTick, hl13, if_pos hc, List.length_append, List.length_take,
              hlowlen]
            omega
          rw [hlen]
          exact ⟨le_rfl, by omega, fun _ => hi, fun h => absurd h (lt_irrefl _)⟩
        · have hlen : (startLowTick nb w).out.length = w.out.length + 13 := by
            simp only [startLowTick, hl13, if_neg hc, List.length_append, List.length_take,
              hlowlen, hlow0]
            omega
          have hmiss : (startLowTick nb w).r.missingEndOfLowTick = 0
              ∧ (startLowTick nb w).r.missingEndOfHighTick = 0 := by
            simp only [startLowTick, hl13, if_neg hc, hhigh0, hlow0, and_self]
          rw [hlen]
          exact ⟨by omega, by omega, fun _ => by omega, fun _ => hmiss⟩
  · rw [if_neg hi]
    exact ⟨hle, le_rfl, fun h => absurd h hi, fun h => absurd h hi⟩

/-- Total correctness of a render call that is playing or has always-on enabled, for
three assertions: `T` holds while the owed waveform ends are written, `M` at the head
of the main loop and `J` between the tick query and the end of the silent run.  The
call returns a full block and `M` holds at the end, provided each statement takes
its assertion to the next one and the tick query returns. -/
theorem processBlock_rule (tickMap : List TickMapElement) (delay : ℚ) (r : Renderer)
    (nb : Nat) (start : Int) (playing : Bool)
    (hmode : playing = true ∨ r.sendSignalAlways = true)
    (T M J : BlockState → Prop)
    (h0 : T ⟨r, [], 0, false, -((r.samplesSinceLastTick : ℚ) / r.sampleRate)⟩)
    (hlow : ∀ u, T u → u.out.length < nb → 0 < u.r.missingEndOfLowTick → T (emitLowTail u))
    (hhigh : ∀ u, T u → u.out.length < nb → u.r.missingEndOfLowTick = 0 →
      0 < u.r.missingEndOfHighTick → T (emitHighTail u))
    (hmain : ∀ u, T u →
      (u.out.length < nb → u.r.missingEndOfLowTick = 0 ∧ u.r.missingEndOfHighTick = 0) → M u)
    (hquery : ∀ u, M u → u.out.length < nb → u.r.missingEndOfLowTick = 0 →
      u.r.missingEndOfHighTick = 0 →
      ∃ (N : Nat) (u' : BlockState),
        (∀ fuel, N ≤ fuel →
          nextDueTick fuel tickMap delay playing start
            ((getTickAndBarLengthAtPosition r.sampleRate tickMap start).getD (0, 0)).1
            ((getTickAndBarLengthAtPosition r.sampleRate tickMap start).getD (0, 0)).2 u
            = some u')
        ∧ J u')
    (hsil : ∀ u, J u → u.out.length < nb → (u.out.length : Int) < u.nextTick →
      u.r.samplesSinceLastTick < u.r.maxSamplesSinceLastTick →
      u.r.missingEndOfLowTick = 0 → u.r.missingEndOfHighTick = 0 → J (emitSilence u))
    (hend : ∀ u, J u →
      ¬ (u.out.length < nb ∧ (u.out.length : Int) < u.nextTick
        ∧ u.r.samplesSinceLastTick < u.r.maxSamplesSinceLastTick) →
      (u.out.length < nb → u.r.missingEndOfLowTick = 0 ∧ u.r.missingEndOfHighTick = 0) →
      M (tickOrSilence nb u)) :
    ∃ (N : Nat) (s : BlockState),
      (∀ fuel, N ≤ fuel →
        processBlock fuel tickMap delay r nb start playing = some (s.r, s.out))
      ∧ M s ∧ s.out.length = nb := by
  -- the owed end of a regular pulse
  obtain ⟨N1, s1, hl1, ⟨h1T, h1le⟩, hx1⟩ :=
    whileLoop_total_simple
      (fun u : BlockState => decide (u.out.length < nb)
        && decide (0 < u.r.missingEndOfLowTick))
      emitLowTail (fun u => T u ∧ u.out.length ≤ nb) (fun u => nb - u.out.length)
      (by
        intro u hu hc
        simp only [Bool.and_eq_true, decide_eq_true_eq] at hc
        have hlen : (emitLowTail u).out.length = u.out.length + 1 := by simp [emitLowTail]
        refine ⟨⟨hlow u hu.1 hc.1 hc.2, by rw [hlen]; omega⟩, ?_⟩
        beta_reduce
        rw [hlen]; omega)
      ⟨r, [], 0, false, -((r.samplesSinceLastTick : ℚ) / r.sampleRate)⟩
      ⟨h0, Nat.zero_le _⟩
  -- the owed end of an accent pulse
  obtain ⟨N2, s2, hl2, ⟨h2T, h2le, h2low⟩, hx2⟩ :=
    whileLoop_total_simple
      (fun u : BlockState => decide (u.out.length < nb)
        && decide (0 < u.r.missingEndOfHighTick))
      emitHighTail
      (fun u => T u ∧ u.out.length ≤ nb ∧ (u.out.length < nb → u.r.missingEndOfLowTick = 0))
      (fun u => nb - u.out.length)
      (by
        intro u hu hc
        simp only [Bool.and_eq_true, decide_eq_true_eq] at hc
        have hlen : (emitHighTail u).out.length = u.out.length + 1 := by simp [emitHighTail]
        refine ⟨⟨hhigh u hu.1 hc.1 (hu.2.2 hc.1) hc.2, by rw [hlen]; omega,
          fun _ => hu.2.2 hc.1⟩, ?_⟩
        beta_reduce
        rw [hlen]; omega)
      s1 ⟨h1T, h1le, fun hlt => by simpa [hlt] using hx1⟩
  have h2m : s2.out.length < nb →
      s2.r.missingEndOfLowTick = 0 ∧ s2.r.missingEndOfHighTick = 0 :=
    fun hlt => ⟨h2low hlt, by simpa [hlt] using hx2⟩
  -- the main loop
  obtain ⟨N3, s3, hl3, ⟨h3M, h3le, _⟩, hx3⟩ :=
    whileLoop_total
      (fun u : BlockState => decide (u.out.length < nb))
      (fun fuel => mainBody fuel tickMap delay playing start
        ((getTickAndBarLengthAtPosition r.sampleRate tickMap start).getD (0, 0)).1
        ((getTickAndBarLengthAtPosition r.sampleRate tickMap start).getD (0, 0)).2 nb)
      (fun u => M u ∧ u.out.length ≤ nb
        ∧ (u.out.length < nb →
            u.r.missingEndOfLowTick = 0 ∧ u.r.missingEndOfHighTick = 0))
      (fun u => nb - u.out.length)
      (by
        rintro u ⟨huM, hule, hum⟩ hc
        simp only [decide_eq_true_eq] at hc
        obtain ⟨hlow0, hhigh0⟩ := hum hc
        obtain ⟨Nq, u', hq, hJ⟩ := hquery u huM hc hlow0 hhigh0
        obtain ⟨hkr, hko⟩ := nextDueTick_keeps Nq tickMap delay playing start _ _ u u'
          (hq Nq le_rfl)
        obtain ⟨Ns, w, hloop, ⟨hwJ, hwle, hwlow, hwhigh, hwge⟩, hexit⟩ :=
          whileLoop_total_simple
            (fun v : BlockState => decide (v.out.length < nb)
              && decide ((v.out.length : Int) < v.nextTick)
              && decide (v.r.samplesSinceLastTick < v.r.maxSamplesSinceLastTick))
            emitSilence
            (fun v => J v ∧ v.out.length ≤ nb ∧ v.r.missingEndOfLowTick = 0
              ∧ v.r.missingEndOfHighTick = 0 ∧ u.out.length ≤ v.out.length)
            (fun v => nb - v.out.length)
            (by
              rintro v ⟨hvJ, hvle, hvlow, hvhigh, hvge⟩ hcv
              simp only [Bool.and_eq_true, decide_eq_true_eq] at hcv
              obtain ⟨⟨hc1, hc2⟩, hc3⟩ := hcv
              have hlen : (emitSilence v).out.length = v.out.length + 1 := by
                simp [emitSilence]
              refine ⟨⟨hsil v hvJ hc1 hc2 hc3 hvlow hvhigh, by rw [hlen]; omega, hvlow,
                hvhigh, by rw [hlen]; omega⟩, ?_⟩
              beta_reduce
              rw [hlen]; omega)
            u' ⟨hJ, by rw [hko]; exact hule, by rw [hkr]; exact hlow0,
              by rw [hkr]; exact hhigh0, by rw [hko]⟩
        have hexit' : ¬ (w.out.length < nb ∧ (w.out.length : Int) < w.nextTick
            ∧ w.r.samplesSinceLastTick < w.r.maxSamplesSinceLastTick) := by
          rintro ⟨a, b, c⟩
          simp [a, b, c] at hexit
        obtain ⟨hp1, hp0, hp2, hp3⟩ :=
          tickOrSilence_progress nb w hwle (fun _ => ⟨hwlow, hwhigh⟩)
        refine ⟨max Nq Ns, tickOrSilence nb w, ?_,
          ⟨hend w hwJ hexit' (fun _ => ⟨hwlow, hwhigh⟩), hp1, hp3⟩, ?_⟩
        · intro fuel hf
          simp only [mainBody, hq fuel (le_of_max_le_left hf), Option.some_bind,
            hloop fuel (le_of_max_le_right hf), Option.map_some']
        · beta_reduce
          by_cases hfin : w.out.length < nb
          · have := hp2 hfin
            omega
          · omega)
      s2 ⟨hmain s2 h2T h2m, h2le, h2m⟩
  have hlen3 : s3.out.length = nb := by
    simp only [decide_eq_false_iff_not] at hx3
    omega
  refine ⟨max N1 (max N2 N3), s3, ?_, h3M, hlen3⟩
  intro fuel hf
  have hf1 : N1 ≤ fuel := le_of_max_le_left hf
  have hf2 : N2 ≤ fuel := le_of_max_le_left (le_of_max_le_right hf)
  have hf3 : N3 ≤ fuel := le_of_max_le_right (le_of_max_le_right hf)
  have hguard : (!playing && !r.sendSignalAlways) = false := by
    rcases hmode with h | h <;> simp [h]
  simp only [processBlock, hguard, Bool.false_eq_true, if_false,
    hl1 fuel hf1, hl2 fuel hf2, hl3 fuel fuel hf3 hf3, Option.some_bind, Option.map_some']


/-! ## Silence: stopped transport, empty map -/

/-- C16: for every renderer with always-on disabled, every map, delay, block size and
position, a render call with the transport not playing returns (with any fuel: no loop
of the model runs) the unchanged renderer and a block of zeros. -/
theorem stopped_without_always_on_is_silent (fuel : Nat) (tickMap : List TickMapElement)
    (delay : ℚ) (r : Renderer) (nb : Nat) (start : Int)
    (hoff : r.sendSignalAlways = false) :
    processBlock fuel tickMap delay r nb start false = some (r, List.replicate nb 0)
    ∧ ∀ j, j < nb → (List.replicate nb (0 : ℚ)).getD j 0 = 0 := by
  refine ⟨by simp [processBlock, hoff], ?_⟩
  intro j hj
  rw [List.getD_eq_getElem _ _ (by simpa using hj)]
  simp

/-- Witness of C16: the renderer as constructed (always-on disabled), the example map,
a block of 4 samples at position 0 and no fuel. -/
theorem stopped_without_always_on_is_silent_witness :
    Renderer.initial.sendSignalAlways = false
    ∧ processBlock 0 exampleTickMap 0 Renderer.initial 4 0 false
        = some (Renderer.initial, List.replicate 4 0)
    ∧ ∀ j, j < 4 → (List.replicate 4 (0 : ℚ)).getD j 0 = 0 :=
  ⟨rfl, stopped_without_always_on_is_silent 0 exampleTickMap 0 Renderer.initial 4 0 rfl⟩

theorem cTrunc_nonpos {x : ℚ} (hx : x ≤ 0) : cTrunc x ≤ 0 := by
  unfold cTrunc
  split_ifs with h0
  · have : x = 0 := le_antisymm hx h0
    subst this
    simp
  · have : (0 : ℤ) ≤ ⌊-x⌋ := Int.floor_nonneg.mpr (by linarith)
    omega

/-- The last statement of the body of the main loop only appends samples. -/
theorem tickOrSilence_out (nb : Nat) (u : BlockState) :
    ∃ l, (tickOrSilence nb u).out = u.out ++ l := by
  unfold tickOrSilence
  split_ifs
  · exact ⟨_, rfl⟩
  · exact ⟨_, rfl⟩
  · exact ⟨_, rfl⟩
  · exact ⟨[], by simp⟩

theorem getD_zero_append (a l : List ℚ) (ha : a ≠ []) : (a ++ l).getD 0 0 = a.getD 0 0 := by
  cases a with
  | nil => exact absurd rfl ha
  | cons x xs => rfl

/-- After `prepareToPlay`, a render call on the empty map that is playing at a
non-negative position, or is not playing with always-on enabled, returns a full block
whose first sample is the first value of the regular pulse. -/
theorem emptyMap_first_sample (delay : ℚ) (r0 : Renderer) (sr : ℚ) (nb : Nat) (start : Int)
    (playing alwaysOn : Bool) (hsr : 0 < sr) (hnb : 0 < nb)
    (hmode : (playing = true ∧ 0 ≤ start) ∨ (playing = false ∧ alwaysOn = true)) :
    ∃ (N : Nat) (r' : Renderer) (out : List ℚ),
      (∀ fuel, N ≤ fuel →
        processBlock fuel [] delay { prepareToPlay r0 sr with sendSignalAlways := alwaysOn }
          nb start playing = some (r', out))
      ∧ out.length = nb ∧ out.getD 0 0 = lowTickSamples.getD 0 0 := by
  obtain ⟨N, s, hrun, hM, hlen⟩ := processBlock_rule [] delay
    { prepareToPlay r0 sr with sendSignalAlways := alwaysOn } nb start playing
    (by rcases hmode with h | h
        · exact Or.inl h.1
        · exact Or.inr h.2)
    (fun u => u = ⟨{ prepareToPlay r0 sr with sendSignalAlways := alwaysOn }, [], 0, false,
      -(((prepareToPlay r0 sr).samplesSinceLastTick : ℚ) / sr)⟩)
    (fun u => (u.out = [] ∧ u.r = { prepareToPlay r0 sr with sendSignalAlways := alwaysOn }
        ∧ u.lastTickRightBeforeABar = false
        ∧ u.nextTickInSeconds = -(((prepareToPlay r0 sr).samplesSinceLastTick : ℚ) / sr))
      ∨ (u.out ≠ [] ∧ u.out.getD 0 0 = lowTickSamples.getD 0 0))
    (fun u => (u.out = [] ∧ u.r = { prepareToPlay r0 sr with sendSignalAlways := alwaysOn }
        ∧ u.lastTickRightBeforeABar = false ∧ u.nextTick ≤ 0)
      ∨ (u.out ≠ [] ∧ u.out.getD 0 0 = lowTickSamples.getD 0 0))
    rfl
    (by
      rintro u rfl _ h
      exact absurd h (lt_irrefl 0))
    (by
      rintro u rfl _ _ h
      exact absurd h (lt_irrefl 0))
    (by
      rintro u rfl _
      exact Or.inl ⟨rfl, rfl, rfl, rfl⟩)
    (by
      intro u hu _ _ _
      rcases hmode with ⟨hp, hstart⟩ | ⟨hp, _⟩
      · subst hp
        refine ⟨0, { u with nextTick := 0 - start }, fun fuel _ => ?_, ?_⟩
        · simp [nextDueTick, getNextTickPositionInSamples]
        · rcases hu with ⟨h1, h2, h3, _⟩ | h
          · exact Or.inl ⟨h1, h2, h3, by show 0 - start ≤ 0; omega⟩
          · exact Or.inr h
      · subst hp
        refine ⟨0, { u with
            nextTickInSeconds := u.nextTickInSeconds + 0
            nextTick := cTrunc ((u.nextTickInSeconds + 0) * u.r.sampleRate)
            lastTickRightBeforeABar := decide (uintSub 0 1 ≤ u.r.currentTickIndex) },
          fun fuel _ => ?_, ?_⟩
        · simp [nextDueTick, getTickAndBarLengthAtPosition]
        · rcases hu with ⟨h1, h2, _, h4⟩ | h
          · refine Or.inl ⟨h1, h2, ?_, ?_⟩
            · show decide (uintSub 0 1 ≤ u.r.currentTickIndex) = false
              rw [h2]
              show decide (uintSub 0 1 ≤ 0) = false
              decide!
            · show cTrunc ((u.nextTickInSeconds + 0) * u.r.sampleRate) ≤ 0
              rw [h2, h4]
              apply cTrunc_nonpos
              have h0 : (0 : ℚ) ≤ ((prepareToPlay r0 sr).samplesSinceLastTick : ℚ) / sr :=
                div_nonneg (Nat.cast_nonneg _) hsr.le
              show (-(((prepareToPlay r0 sr).samplesSinceLastTick : ℚ) / sr) + 0) * sr ≤ 0
              nlinarith
          · exact Or.inr h)
    (by
      intro u hu _ hnext _ _ _
      rcases hu with ⟨h1, _, _, h4⟩ | ⟨h1, h2⟩
      · rw [h1] at hnext
        simp only [List.length_nil, Nat.cast_zero] at hnext
        omega
      · refine Or.inr ⟨by simp [emitSilence], ?_⟩
        show (u.out ++ [0]).getD 0 0 = _
        rw [getD_zero_append _ _ h1, h2])
    (by
      intro u hu _ _
      rcases hu with ⟨h1, h2, h3, _⟩ | ⟨h1, h2⟩
      · have hlen0 : u.out.length < nb := by rw [h1]; exact hnb
        have hnot : ¬ u.r.samplesSinceLastTick < u.r.minSamplesSinceLastTick := by
          rw [h2]
          exact lt_irrefl _
        have hout : (tickOrSilence nb u).out
            = lowTickSamples.take (lowTickLength
              - (if 0 + lowTickLength > nb then 0 + lowTickLength - nb else 0)) := by
          unfold tickOrSilence
          rw [if_pos hlen0, if_neg hnot, h3]
          simp only [Bool.false_eq_true, if_false, startLowTick, h1, List.length_nil,
            List.nil_append, h2]
          rfl
        obtain ⟨m, hm⟩ : ∃ m, lowTickLength
            - (if 0 + lowTickLength > nb then 0 + lowTickLength - nb else 0) = m + 1 := by
          have hl13 : lowTickLength = 13 := rfl
          refine ⟨lowTickLength
            - (if 0 + lowTickLength > nb then 0 + lowTickLength - nb else 0) - 1, ?_⟩
          split_ifs <;> omega
        rw [hm] at hout
        refine Or.inr ⟨?_, ?_⟩
        · rw [hout]; simp [lowTickSamples]
        · rw [hout]; simp [lowTickSamples]
      · obtain ⟨l, hl⟩ := tickOrSilence_out nb u
        refine Or.inr ⟨by rw [hl]; simp [h1], ?_⟩
        rw [hl, getD_zero_append _ _ h1, h2])
  refine ⟨N, s.r, s.out, hrun, hlen, ?_⟩
  rcases hM with ⟨h1, _⟩ | ⟨_, h2⟩
  · rw [h1] at hlen
    simp only [List.length_nil] at hlen
    omega
  · exact h2

/-- C15 (amended): on the empty map a render call with the transport not playing and
always-on disabled returns a block of zeros, for every renderer state; but the first
call after `prepareToPlay` that is playing at a non-negative position, or not playing
with always-on enabled, returns a block that starts with the first value of the regular
pulse, which is not 0. -/
theorem empty_map_silent_only_when_stopped (delay : ℚ) (r0 : Renderer) (sr : ℚ) (nb : Nat)
    (start : Int) (playing alwaysOn : Bool) (hsr : 0 < sr) (hnb : 0 < nb) :
    (∀ (fuel : Nat) (r : Renderer), r.sendSignalAlways = false →
      processBlock fuel [] delay r nb start false = some (r, List.replicate nb 0))
    ∧ ((playing = true ∧ 0 ≤ start) ∨ (playing = false ∧ alwaysOn = true) →
      ∃ (N : Nat) (r' : Renderer) (out : List ℚ),
        (∀ fuel, N ≤ fuel →
          processBlock fuel [] delay { prepareToPlay r0 sr with sendSignalAlways := alwaysOn }
            nb start playing = some (r', out))
        ∧ out.length = nb ∧ out.getD 0 0 = lowTickSamples.getD 0 0 ∧ out.getD 0 0 ≠ 0) := by
  refine ⟨fun fuel r hoff => by simp [processBlock, hoff], fun hmode => ?_⟩
  obtain ⟨N, r', out, hrun, hlen, hfirst⟩ :=
    emptyMap_first_sample delay r0 sr nb start playing alwaysOn hsr hnb hmode
  exact ⟨N, r', out, hrun, hlen, hfirst,
    by rw [hfirst]; exact lowTickSamples_getD_ne_zero (by decide)⟩

/-- Witness of C15 (amended): 44100 Hz, blocks of 64 samples at position 0, playing. -/
theorem empty_map_silent_only_when_stopped_witness :
    (0 : ℚ) < 44100 ∧ 0 < 64
    ∧ (∀ (fuel : Nat) (r : Renderer), r.sendSignalAlways = false →
      processBlock fuel [] 0 r 64 0 false = some (r, List.replicate 64 0))
    ∧ ((true = true ∧ (0 : Int) ≤ 0) ∨ (true = false ∧ false = true) →
      ∃ (N : Nat) (r' : Renderer) (out : List ℚ),
        (∀ fuel, N ≤ fuel →
          processBlock fuel [] 0
            { prepareToPlay Renderer.initial 44100 with sendSignalAlways := false }
            64 0 true = some (r', out))
        ∧ out.length = 64 ∧ out.getD 0 0 = lowTickSamples.getD 0 0 ∧ out.getD 0 0 ≠ 0) :=
  ⟨by norm_num, by decide,
    empty_map_silent_only_when_stopped 0 Renderer.initial 44100 64 0 true false
      (by norm_num) (by decide)⟩

set_option maxRecDepth 100000 in
/-- Counterexample to C15 as stated: after `prepareToPlay` at 44100 Hz, a block of 64
samples on the empty map is not silent, neither while playing at position 0 nor while
stopped with always-on enabled: it starts with the 13 samples of a regular pulse. -/
theorem empty_map_not_silent :
    processBlock 100 [] 0 (prepareToPlay Renderer.initial 44100) 64 0 true
      = some (⟨44100, false, 0, 0, 64, 276, 3730, 1⟩, lowTickSamples ++ List.replicate 51 0)
    ∧ processBlock 100 [] 0
        { prepareToPlay Renderer.initial 44100 with sendSignalAlways := true } 64 0 false
      = some (⟨44100, true, 0, 0, 64, 276, 3730, 1⟩, lowTickSamples ++ List.replicate 51 0)
    ∧ (lowTickSamples ++ List.replicate 51 0).getD 0 0 ≠ 0 := by
  refine ⟨by decide!, by decide!, by decide!⟩

/-! ## Spacing bounds at 44100 Hz -/

/-- C19: at 44100 Hz `prepareToPlay` sets `minSamplesSinceLastTick` to
`ceil (0.006242976651267 * 44100)`, which is 276. -/
theorem prepare_minSamples_44100 (r0 : Renderer) :
    (prepareToPlay r0 44100).minSamplesSinceLastTick
      = ⌈(6242976651267 / 1000000000000000 : ℚ) * 44100⌉.toNat
    ∧ (prepareToPlay r0 44100).minSamplesSinceLastTick = 276 := by
  constructor
  · show toUint ⌈(6242976651267 / 1000000000000000 : ℚ) * 44100⌉.toNat = _
    decide!
  · show toUint ⌈(6242976651267 / 1000000000000000 : ℚ) * 44100⌉.toNat = 276
    decide!

/-- C20 (amended): at 44100 Hz `prepareToPlay` sets `maxSamplesSinceLastTick` to
`floor (0.084602368866328 * 44100)`, which is 3730 (the product is 3730.96...). -/
theorem prepare_maxSamples_44100 (r0 : Renderer) :
    (prepareToPlay r0 44100).maxSamplesSinceLastTick
      = ⌊(84602368866328 / 1000000000000000 : ℚ) * 44100⌋.toNat
    ∧ (prepareToPlay r0 44100).maxSamplesSinceLastTick = 3730 := by
  constructor
  · show toUint ⌊(84602368866328 / 1000000000000000 : ℚ) * 44100⌋.toNat = _
    decide!
  · show toUint ⌊(84602368866328 / 1000000000000000 : ℚ) * 44100⌋.toNat = 3730
    decide!

/-- Counterexample to C20 as stated: the value set at 44100 Hz is not 3731, because
`0.084602368866328 * 44100` lies strictly between 3730 and 3731. -/
theorem prepare_maxSamples_not_3731 :
    (prepareToPlay Renderer.initial 44100).maxSamplesSinceLastTick ≠ 3731
    ∧ (3730 : ℚ) < (84602368866328 / 1000000000000000 : ℚ) * 44100
    ∧ (84602368866328 / 1000000000000000 : ℚ) * 44100 < 3731 := by
  refine ⟨?_, by norm_num, by norm_num⟩
  show toUint ⌊(84602368866328 / 1000000000000000 : ℚ) * 44100⌋.toNat ≠ 3731
  decide!


/-! ## Accent pulse and stopped transport -/

theorem drop_take_map_range (f : Nat → ℚ) (T a b : Nat) (h : a + b ≤ T) :
    (((List.range T).map f).drop a).take b = (List.range b).map (fun j => f (a + j)) := by
  apply List.ext_getElem
  · simp only [List.length_take, List.length_drop, List.length_map, List.length_range]
    omega
  · intro j h1 h2
    simp

theorem highTickSamples_eq_map :
    highTickSamples = (List.range 26).map (fun j => highTickSamples.getD j 0) := by
  decide!

theorem lowTickSamples_padded_eq_map :
    lowTickSamples ++ List.replicate 13 0
      = (List.range 26).map (fun j => lowTickSamples.getD j 0) := by
  decide!

/-- C18 (amended): while playing the one-segment map with start 0, tick length `L`, bar
length `B ≥ 1` and offset 0 (a bar starts at tick 0), with `n = L * sr` an integer,
`minSamples ≤ n ≤ maxSamples` and `n ≥ 26`, the 26 samples from the start `k * n` of
tick `k` are the accent waveform when the sub-beat index `k mod B` is `B - 1` (the last
tick of a bar), and the regular waveform followed by 13 zeros for every other sub-beat
index, the first tick of a bar included when `B ≥ 2`. -/
theorem accent_on_last_tick_of_bar (r0 : Renderer) (sr L : ℚ) (n B : Nat) (bs : List Nat)
    (k : Nat) (hsr : 0 < sr) (hn : L * sr = n) (h26 : highTickLength ≤ n)
    (hmin : (prepareToPlay r0 sr).minSamplesSinceLastTick ≤ n)
    (hmax : n ≤ (prepareToPlay r0 sr).maxSamplesSinceLastTick)
    (hB1 : 1 ≤ B) (hB : B < uintModulus) (hk : k * n + highTickLength ≤ bs.sum) :
    ∃ (N : Nat) (r' : Renderer) (stream : List ℚ),
      (∀ fuel, N ≤ fuel →
        renderCalls fuel [⟨0, L, B, 0⟩] 0 (prepareToPlay r0 sr) (playingBlocks 0 bs)
          = some (r', stream))
      ∧ (k % B = B - 1 → (stream.drop (k * n)).take highTickLength = highTickSamples)
      ∧ (k % B ≠ B - 1 →
          (stream.drop (k * n)).take highTickLength
            = lowTickSamples ++ List.replicate 13 0)
      ∧ (2 ≤ B → k % B = 0 →
          (stream.drop (k * n)).take highTickLength
            = lowTickSamples ++ List.replicate 13 0) := by
  have hl26 : highTickLength = 26 := rfl
  have h26' : 26 ≤ n := h26
  have hL : 0 < L := by
    have hpos : (0 : ℚ) < L * sr := by
      rw [hn]
      exact_mod_cast (by omega : 0 < n)
    exact (mul_pos_iff_of_pos_right hsr).mp hpos
  obtain ⟨N, r', hrun, _⟩ :=
    renderCalls_train hsr hL hn h26' hmin hmax hB1 hB bs 0 (prepareToPlay r0 sr)
      (prepare_trainState r0 sr n B)
  have hslice : (((List.range bs.sum).map (fun j => pulseTrain n B (0 + j))).drop (k * n)).take
      highTickLength = (List.range 26).map (fun j => pulseTrain n B (0 + (k * n + j))) :=
    drop_take_map_range _ _ _ _ hk
  have hhigh : k % B = B - 1 →
      (((List.range bs.sum).map (fun j => pulseTrain n B (0 + j))).drop (k * n)).take
        highTickLength = highTickSamples := by
    intro hk1
    rw [hslice, highTickSamples_eq_map]
    apply List.map_congr_left
    intro j hj
    have hj' : j < 26 := List.mem_range.mp hj
    rw [Nat.zero_add, pulseTrain_at B k (by omega : j < n), if_pos hk1]
  have hlow : k % B ≠ B - 1 →
      (((List.range bs.sum).map (fun j => pulseTrain n B (0 + j))).drop (k * n)).take
        highTickLength = lowTickSamples ++ List.replicate 13 0 := by
    intro hk1
    rw [hslice, lowTickSamples_padded_eq_map]
    apply List.map_congr_left
    intro j hj
    have hj' : j < 26 := List.mem_range.mp hj
    rw [Nat.zero_add, pulseTrain_at B k (by omega : j < n), if_neg hk1]
  refine ⟨N, r', _, fun fuel hf => ?_, hhigh, hlow, fun hB2 hk0 => hlow (by omega)⟩
  have h := hrun fuel hf
  simp only [Nat.cast_zero] at h
  exact h

/-- Witness of C18 (amended): 44100 Hz, a tick every 441 samples, bars of 4 ticks, two
blocks of 512 samples, tick 1. -/
theorem accent_on_last_tick_of_bar_witness :
    ∃ (N : Nat) (r' : Renderer) (stream : List ℚ),
      (∀ fuel, N ≤ fuel →
        renderCalls fuel [⟨0, 1 / 100, 4, 0⟩] 0 (prepareToPlay Renderer.initial 44100)
            (playingBlocks 0 [512, 512])
          = some (r', stream))
      ∧ (1 % 4 = 4 - 1 → (stream.drop (1 * 441)).take highTickLength = highTickSamples)
      ∧ (1 % 4 ≠ 4 - 1 →
          (stream.drop (1 * 441)).take highTickLength
            = lowTickSamples ++ List.replicate 13 0)
      ∧ (2 ≤ 4 → 1 % 4 = 0 →
          (stream.drop (1 * 441)).take highTickLength
            = lowTickSamples ++ List.replicate 13 0) :=
  accent_on_last_tick_of_bar Renderer.initial 44100 (1 / 100) 441 4 [512, 512] 1
    (by norm_num) (by norm_num) (by decide)
    (by rw [prepare_min_44100]; decide) (by rw [prepare_max_44100]; decide)
    (by decide) (by decide!) (by decide)

set_option maxRecDepth 1000000 in
/-- Counterexample to C18 as stated: at 44100 Hz, playing a map with a tick every 441
samples and bars of 2 ticks, the first tick of the bar (sample 0, sub-beat index 0) is
rendered with the regular waveform, and the accent waveform is on the tick at sample
441, whose sub-beat index is 1. -/
theorem accent_not_on_first_tick :
    renderCalls 1000 [⟨0, 1 / 100, 2, 0⟩] 0 (prepareToPlay Renderer.initial 44100)
        (playingBlocks 0 [480])
      = some (⟨44100, false, 0, 0, 39, 276, 3730, 0⟩, accentStream)
    ∧ (accentStream.drop 0).take highTickLength = lowTickSamples ++ List.replicate 13 0
    ∧ (accentStream.drop 0).take highTickLength ≠ highTickSamples
    ∧ (accentStream.drop 441).take highTickLength = highTickSamples := by
  refine ⟨by decide!, by decide!, by decide!, by decide!⟩

set_option maxRecDepth 1000000 in
/-- C17, failing input: 44100 Hz, the one-segment map with a tick every 10 ms (441
samples, within the bounds 276 and 3730), transport stopped at position 0 with
always-on enabled, and two render calls of 170 and 450 samples after `prepareToPlay`.
The pulse that starts at sample 165 is cut by the end of the first call; the second
call writes its last 8 samples and starts the next pulse at its sample 428, so that
consecutive pulses start 433 samples apart, not 441. -/
theorem stopped_pulse_spacing_shrinks :
    (1 / 100 : ℚ) * 44100 = (441 : Nat)
    ∧ (prepareToPlay Renderer.initial 44100).minSamplesSinceLastTick ≤ 441
    ∧ 441 ≤ (prepareToPlay Renderer.initial 44100).maxSamplesSinceLastTick
    ∧ renderCalls 1000 [⟨0, 1 / 100, 4, 0⟩] 0 (prepareToPlay Renderer.initial 44100)
        stoppedCalls
      = some (⟨44100, true, 0, 0, 22, 276, 3730, 2⟩, stoppedStream)
    ∧ pulseStarts stoppedStream = [165, 598] := by
  refine ⟨by norm_num, by decide!, by decide!, by decide!, by decide!⟩


/-! ## Step 3: a signature change on a tempo change -/

theorem mergeWhileBody_grows (fuel : Nat) (sr : ℚ) (sigs : List TimeSigChange) (next : ℚ)
    (s s' : MergeState) (h : mergeWhileBody fuel sr sigs next s = some s') :
    ∃ l, s'.tickMap = s.tickMap ++ l := by
  unfold mergeWhileBody at h
  split_ifs at h with hidx
  · simp only [Option.map_eq_some'] at h
    obtain ⟨u, hu, hus⟩ := h
    have hkeep : u.tickMap = s.tickMap :=
      (whileLoop_invariant (fun v : MergeState => v.tickMap = s.tickMap)
        (by
          intro a b ha _ hab
          simp only [Option.some.injEq] at hab
          rw [← hab, advanceTick_tickMap]
          exact ha)
        fuel s u rfl hu).1
    split_ifs at hus
    · exact ⟨_, by rw [← hus, ← hkeep]; rfl⟩
    · exact ⟨[], by rw [← hus, hkeep, List.append_nil]⟩
  · simp only [Option.some.injEq] at h
    exact ⟨[], by rw [← h, advanceTick_tickMap, List.append_nil]⟩

theorem mergeWalk_grows (fuel : Nat) (sr : ℚ) (sigs : List TimeSigChange) (next : ℚ)
    (s u : MergeState)
    (h : whileLoop (fun v => sampleScaleLessThan sr v.tickPos next)
      (mergeWhileBody fuel sr sigs next) fuel s = some u) :
    ∃ l, u.tickMap = s.tickMap ++ l :=
  (whileLoop_invariant (fun v : MergeState => ∃ l, v.tickMap = s.tickMap ++ l)
    (by
      rintro a b ⟨l, hl⟩ _ hab
      obtain ⟨l', hl'⟩ := mergeWhileBody_grows fuel sr sigs next a b hab
      exact ⟨l ++ l', by rw [hl', hl, List.append_assoc]⟩)
    fuel s u ⟨[], by simp⟩ h).1

theorem mergeStep_grows (fuel : Nat) (sr : ℚ) (sigs : List TimeSigChange)
    (s s' : MergeState) (tc : TempoChange) (h : mergeStep fuel sr sigs s tc = some s') :
    (∃ l, s'.tickMap = s.tickMap ++ l) ∧ s'.tickMap ≠ [] := by
  unfold mergeStep at h
  simp only [Option.map_eq_some'] at h
  obtain ⟨u, hu, hus⟩ := h
  have hgrow : ∃ l, u.tickMap = s.tickMap ++ l := by
    split_ifs at hu
    · simp only [Option.some.injEq] at hu
      exact ⟨[], by rw [← hu, List.append_nil]⟩
    · exact mergeWalk_grows fuel sr sigs tc.timePosition s u hu
  obtain ⟨l, hl⟩ := hgrow
  subst hus
  obtain ⟨x, hx⟩ : ∃ x, (pushTempoChange sigs tc u).tickMap = u.tickMap ++ [x] := ⟨_, rfl⟩
  exact ⟨⟨l ++ [x], by rw [hx, hl, List.append_assoc]⟩, pushTempoChange_ne_nil sigs tc u⟩

theorem mergeFold_grows (fuel : Nat) (sr : ℚ) (sigs : List TimeSigChange)
    (tcs : List TempoChange) (s r : MergeState)
    (h : tcs.foldlM (mergeStep fuel sr sigs) s = some r) :
    ∃ l, r.tickMap = s.tickMap ++ l :=
  foldlM_invariant (mergeStep fuel sr sigs)
    (fun v : MergeState => ∃ l, v.tickMap = s.tickMap ++ l)
    (by
      rintro a tc b ⟨l, hl⟩ hab
      obtain ⟨⟨l', hl'⟩, _⟩ := mergeStep_grows fuel sr sigs a b tc hab
      exact ⟨l ++ l', by rw [hl', hl, List.append_assoc]⟩)
    tcs s r ⟨[], by simp⟩ h

theorem mergeFold_ne_nil (fuel : Nat) (sr : ℚ) (sigs : List TimeSigChange)
    (tcs : List TempoChange) (s r : MergeState) (hne : tcs ≠ [])
    (h : tcs.foldlM (mergeStep fuel sr sigs) s = some r) : r.tickMap ≠ [] := by
  cases tcs with
  | nil => exact absurd rfl hne
  | cons tc tl =>
    simp only [List.foldlM_cons] at h
    cases h1 : mergeStep fuel sr sigs s tc with
    | none => simp [h1] at h
    | some s1 =>
      rw [h1] at h
      have h : tl.foldlM (mergeStep fuel sr sigs) s1 = some r := h
      obtain ⟨l, hl⟩ := mergeFold_grows fuel sr sigs tl s1 r h
      have hs1 := (mergeStep_grows fuel sr sigs s s1 tc h1).2
      rw [hl]
      intro hcon
      exact hs1 (List.append_eq_nil.mp hcon).1

theorem tailLoop_grows (fuel : Nat) (sigs : List TimeSigChange) (m r : MergeState)
    (h : whileLoop (fun u => decide (u.timeSigChangeIdx + 1 < sigs.length))
      (tailBody fuel sigs) fuel m = some r) :
    ∃ l, r.tickMap = m.tickMap ++ l :=
  (whileLoop_invariant (fun v : MergeState => ∃ l, v.tickMap = m.tickMap ++ l)
    (by
      rintro a b ⟨l, hl⟩ _ hab
      unfold tailBody at hab
      simp only [Option.map_eq_some'] at hab
      obtain ⟨u, hu, hub⟩ := hab
      have hkeep : u.tickMap = a.tickMap :=
        (whileLoop_invariant (fun v : MergeState => v.tickMap = a.tickMap)
          (by
            intro x y hx _ hxy
            simp only [Option.some.injEq] at hxy
            rw [← hxy, advanceTailTick_tickMap]
            exact hx)
          fuel a u rfl hu).1
      obtain ⟨x, hx⟩ : ∃ x, (pushSigChange sigs u).tickMap = u.tickMap ++ [x] := ⟨_, rfl⟩
      exact ⟨l ++ [x], by rw [← hub, hx, hkeep, hl, List.append_assoc]⟩)
    fuel m r ⟨[], by simp⟩ h).1

/-- C12 (amended): for normalised tempo changes that ascend under the precision
comparator from time 0 with tick lengths above one sample period, and signature changes
on strictly increasing tick indices, steps 3 and 4 finish, and for a tempo change `tc`
after the first: if, when the walk of step 3 has reached `tc`, the running tick index
equals the tick index of the next signature change, then the built map holds one
segment for both, at `tc.timePosition`, with the tick length of `tc` and the bar length
of that signature change; every segment before it starts sample-scale before
`tc.timePosition` and every segment after it sample-scale after. -/
theorem coinciding_boundary_one_segment (sr : ℚ) (sigs : List TimeSigChange)
    (pre : List TempoChange) (tc : TempoChange) (post : List TempoChange)
    (hsr : 0 < sr) (hpre : pre ≠ [])
    (hsig : ∀ k, k + 1 < sigs.length → sigTick sigs k < sigTick sigs (k + 1))
    (hchain : (pre ++ tc :: post).Chain'
      (fun a b => sampleScaleLessThan sr a.timePosition b.timePosition = true))
    (htl : ∀ t ∈ pre ++ tc :: post, 1 / sr < t.tickLength)
    (hzero : ∀ t ∈ (pre ++ tc :: post).head?, t.timePosition = 0) :
    ∃ (N : Nat) (r : MergeState),
      (∀ fuel, N ≤ fuel → mergeAll fuel sr sigs (pre ++ tc :: post) = some r)
      ∧ ∀ fuel, N ≤ fuel → ∃ (s u : MergeState),
          pre.foldlM (mergeStep fuel sr sigs) ⟨[], 0, 0, 0, 0⟩ = some s
          ∧ whileLoop (fun v => sampleScaleLessThan sr v.tickPos tc.timePosition)
              (mergeWhileBody fuel sr sigs tc.timePosition) fuel s = some u
          ∧ (u.timeSigChangeIdx + 1 < sigs.length →
              u.tickIdx = sigTick sigs (u.timeSigChangeIdx + 1) →
              ∃ rest, r.tickMap = u.tickMap
                  ++ [⟨tc.timePosition, tc.tickLength,
                      (sigs.getD (u.timeSigChangeIdx + 1) default).barLength, u.tickOffset⟩]
                  ++ rest
                ∧ (∀ e ∈ u.tickMap,
                    sampleScaleLessThan sr e.startPosition tc.timePosition = true)
                ∧ (∀ e ∈ rest,
                    sampleScaleLessThan sr tc.timePosition e.startPosition = true)) := by
  have heps := halfASampleLength_pos hsr
  have htl2 : ∀ t ∈ pre ++ tc :: post, 2 * halfASampleLength sr < t.tickLength := by
    intro t ht
    rw [two_halfASampleLength hsr]
    exact htl t ht
  have hpos : ∀ t ∈ pre ++ tc :: post, 0 < t.tickLength := by
    intro t ht
    have := htl2 t ht
    linarith
  have hne : pre ++ tc :: post ≠ [] := by simp
  obtain ⟨N, r, hrun, _⟩ := mergeAll_total sr sigs _ hne hpos
  refine ⟨N, r, hrun, fun fuel hf => ?_⟩
  have hr := hrun fuel hf
  have hpw := ascendingStarts_pairwise hsr
    (mergeAll_ordered hsr hsig fuel _ r hne hchain htl2 hzero hr)
  unfold mergeAll at hr
  rw [List.foldlM_append] at hr
  cases h1 : pre.foldlM (mergeStep fuel sr sigs) ⟨[], 0, 0, 0, 0⟩ with
  | none => simp [h1] at hr
  | some s =>
    rw [h1] at hr
    have hr : ((tc :: post).foldlM (mergeStep fuel sr sigs) s).bind
        (whileLoop (fun u => decide (u.timeSigChangeIdx + 1 < sigs.length))
          (tailBody fuel sigs) fuel) = some r := hr
    rw [List.foldlM_cons] at hr
    cases h2 : mergeStep fuel sr sigs s tc with
    | none => simp [h2] at hr
    | some s1 =>
      rw [h2] at hr
      have hr : (post.foldlM (mergeStep fuel sr sigs) s1).bind
          (whileLoop (fun u => decide (u.timeSigChangeIdx + 1 < sigs.length))
            (tailBody fuel sigs) fuel) = some r := hr
      cases h3 : post.foldlM (mergeStep fuel sr sigs) s1 with
      | none => simp [h3] at hr
      | some m =>
        rw [h3] at hr
        have hr : whileLoop (fun u => decide (u.timeSigChangeIdx + 1 < sigs.length))
            (tailBody fuel sigs) fuel m = some r := hr
        have hsne : s.tickMap ≠ [] := mergeFold_ne_nil fuel sr sigs pre _ s hpre h1
        have hemp : s.tickMap.isEmpty = false := by
          cases hm : s.tickMap with
          | nil => exact absurd hm hsne
          | cons a l => rfl
        unfold mergeStep at h2
        simp only [hemp, Bool.false_eq_true, if_false, Option.map_eq_some'] at h2
        obtain ⟨u, hu, hs1⟩ := h2
        refine ⟨s, u, rfl, hu, fun hidx hcoin => ?_⟩
        obtain ⟨l1, hl1⟩ := mergeFold_grows fuel sr sigs post s1 m h3
        obtain ⟨l2, hl2⟩ := tailLoop_grows fuel sigs m r hr
        have hseg : s1.tickMap = u.tickMap
            ++ [⟨tc.timePosition, tc.tickLength,
                (sigs.getD (u.timeSigChangeIdx + 1) default).barLength, u.tickOffset⟩] := by
          rw [← hs1]
          simp only [pushTempoChange, hidx, hcoin, and_self, if_true]
        have hmap : r.tickMap = u.tickMap
            ++ [⟨tc.timePosition, tc.tickLength,
                (sigs.getD (u.timeSigChangeIdx + 1) default).barLength, u.tickOffset⟩]
            ++ (l1 ++ l2) := by
          rw [hl2, hl1, hseg]
          simp only [List.append_assoc]
        refine ⟨l1 ++ l2, hmap, ?_, ?_⟩
        · intro e he
          rw [hmap, List.append_assoc, List.pairwise_append] at hpw
          exact hpw.2.2 e he _ (List.mem_append_left _ (List.mem_singleton.mpr rfl))
        · intro e he
          rw [hmap, List.pairwise_append] at hpw
          exact hpw.2.2 _ (List.mem_append_right _ (List.mem_singleton.mpr rfl)) e he

/-- Witness of C12 (amended): 120 BPM until 2 s and 240 BPM after, with 4/4 at quarter
0 and 3/4 at quarter 4 (tick 96, reached at 2 s), at 44100 Hz. -/
theorem coinciding_boundary_one_segment_witness :
    ∃ (N : Nat) (r : MergeState),
      (∀ fuel, N ≤ fuel →
        mergeAll fuel 44100 [⟨0, 96⟩, ⟨4, 72⟩] ([⟨0, 1 / 48⟩] ++ ⟨2, 1 / 96⟩ :: []) = some r)
      ∧ ∀ fuel, N ≤ fuel → ∃ (s u : MergeState),
          ([⟨0, 1 / 48⟩] : List TempoChange).foldlM
              (mergeStep fuel 44100 [⟨0, 96⟩, ⟨4, 72⟩]) ⟨[], 0, 0, 0, 0⟩ = some s
          ∧ whileLoop (fun v => sampleScaleLessThan 44100 v.tickPos
                (⟨2, 1 / 96⟩ : TempoChange).timePosition)
              (mergeWhileBody fuel 44100 [⟨0, 96⟩, ⟨4, 72⟩]
                (⟨2, 1 / 96⟩ : TempoChange).timePosition) fuel s = some u
          ∧ (u.timeSigChangeIdx + 1 < ([⟨0, 96⟩, ⟨4, 72⟩] : List TimeSigChange).length →
              u.tickIdx = sigTick [⟨0, 96⟩, ⟨4, 72⟩] (u.timeSigChangeIdx + 1) →
              ∃ rest, r.tickMap = u.tickMap
                  ++ [⟨(⟨2, 1 / 96⟩ : TempoChange).timePosition,
                      (⟨2, 1 / 96⟩ : TempoChange).tickLength,
                      (([⟨0, 96⟩, ⟨4, 72⟩] : List TimeSigChange).getD
                        (u.timeSigChangeIdx + 1) default).barLength, u.tickOffset⟩]
                  ++ rest
                ∧ (∀ e ∈ u.tickMap,
                    sampleScaleLessThan 44100 e.startPosition
                      (⟨2, 1 / 96⟩ : TempoChange).timePosition = true)
                ∧ (∀ e ∈ rest,
                    sampleScaleLessThan 44100 (⟨2, 1 / 96⟩ : TempoChange).timePosition
                      e.startPosition = true)) :=
  coinciding_boundary_one_segment 44100 [⟨0, 96⟩, ⟨4, 72⟩] [⟨0, 1 / 48⟩] ⟨2, 1 / 96⟩ []
    (by norm_num) (by simp)
    (by
      intro k hk
      have hk0 : k = 0 := by
        simp only [List.length_cons, List.length_nil] at hk
        omega
      subst hk0
      decide!)
    (by
      simp only [List.singleton_append, List.chain'_cons, List.chain'_singleton, and_true]
      decide!)
    (by decide!)
    (by
      intro t ht
      simp only [List.singleton_append, List.head?_cons, Option.mem_def,
        Option.some.injEq] at ht
      rw [← ht])

/-- Counterexample to C12 as stated: tempo entries (0 s, quarter 0), (2 s, quarter 4),
(4 s, quarter 12) and signatures 4/4 at quarter 0, 3/4 at quarter 3 and 2/4 at quarter
4.  Step 1 moves the 3/4 change to quarter 4, so two signature changes sit on tick 96,
which is reached exactly at the tempo change at 2 s; the built map has two segments
that start at 2 s, one with bar length 72 and one with bar length 48. -/
theorem coinciding_boundary_two_segments :
    StrictlyIncreasing [⟨0, 0⟩, ⟨2, 4⟩, ⟨4, 12⟩]
    ∧ normalizeTimeSigs [⟨4, 4, 0⟩, ⟨3, 4, 3⟩, ⟨2, 4, 4⟩] = [⟨0, 96⟩, ⟨4, 72⟩, ⟨4, 48⟩]
    ∧ normalizeTempo 200 44100 [⟨0, 0⟩, ⟨2, 4⟩, ⟨4, 12⟩] = some [⟨0, 1 / 48⟩, ⟨2, 1 / 96⟩]
    ∧ whileLoop (fun v => sampleScaleLessThan 44100 v.tickPos 2)
        (mergeWhileBody 200 44100 [⟨0, 96⟩, ⟨4, 72⟩, ⟨4, 48⟩] 2) 200
        ⟨[⟨0, 1 / 48, 96, 0⟩], 0, 0, 0, 0⟩
      = some ⟨[⟨0, 1 / 48, 96, 0⟩], 0, 2, 96, 0⟩
    ∧ sigTick [⟨0, 96⟩, ⟨4, 72⟩, ⟨4, 48⟩] 1 = 96
    ∧ rebuildTickMap 200 44100
        (some ([⟨0, 0⟩, ⟨2, 4⟩, ⟨4, 12⟩], [⟨4, 4, 0⟩, ⟨3, 4, 3⟩, ⟨2, 4, 4⟩])) []
      = some [⟨0, 1 / 48, 96, 0⟩, ⟨2, 1 / 96, 72, 0⟩, ⟨2, 1 / 96, 48, 0⟩] := by
  refine ⟨by simp [StrictlyIncreasing]; norm_num, by decide!, by decide!, by decide!,
    by decide!, by decide!⟩


/-! ## `prepareToPlay`, persisted state, timeline selection -/

theorem foldl_set_zero (n : Nat) :
    ∀ (buf : List ℚ), n ≤ buf.length →
      (List.range n).foldl (fun b i => b.set i 0) buf
        = List.replicate n 0 ++ buf.drop n := by
  induction n with
  | zero => intro buf _; simp
  | succ n ih =>
    intro buf hn
    rw [List.range_succ, List.foldl_append, ih buf (by omega)]
    simp only [List.foldl_cons, List.foldl_nil]
    have hlen : (List.replicate n (0 : ℚ)).length = n := List.length_replicate _ _
    rw [List.set_append_right _ _ (by rw [hlen]), hlen, Nat.sub_self]
    have hd : List.drop n buf = buf[n] :: List.drop (n + 1) buf :=
      List.drop_eq_getElem_cons (by omega)
    rw [hd, List.set_cons_zero, List.replicate_succ']
    simp

theorem zeroOutputData_eq (outputData : List ℚ) :
    zeroOutputData outputData = List.replicate outputData.length 0 := by
  unfold zeroOutputData
  rw [foldl_set_zero _ _ le_rfl]
  simp

/-- C21 (amended): after `prepareToPlay`, from any prior renderer state and for any
content of the newly allocated scratch buffer, both owed waveform ends are 0, the
sub-beat index is 0 and the scratch buffer is all zeros; the samples-since-last-tick
counter is not reset to 0 but set to `minSamplesSinceLastTick`, the rounded-up product
of 0.006242976651267 s and the sample rate. -/
theorem prepare_resets_timing_state (r0 : Renderer) (sr : ℚ) (outputData : List ℚ) :
    (prepareToPlay r0 sr).missingEndOfLowTick = 0
    ∧ (prepareToPlay r0 sr).missingEndOfHighTick = 0
    ∧ (prepareToPlay r0 sr).currentTickIndex = 0
    ∧ zeroOutputData outputData = List.replicate outputData.length 0
    ∧ (prepareToPlay r0 sr).samplesSinceLastTick
        = (prepareToPlay r0 sr).minSamplesSinceLastTick
    ∧ (prepareToPlay r0 sr).minSamplesSinceLastTick
        = toUint ⌈(6242976651267 / 1000000000000000 : ℚ) * sr⌉.toNat :=
  ⟨rfl, rfl, rfl, zeroOutputData_eq outputData, rfl, rfl⟩

/-- Counterexample to C21 as stated: after `prepareToPlay` at 44100 Hz the
samples-since-last-tick counter is 276, not 0. -/
theorem prepare_counter_not_zero :
    (prepareToPlay Renderer.initial 44100).samplesSinceLastTick = 276
    ∧ (prepareToPlay Renderer.initial 44100).samplesSinceLastTick ≠ 0 := by
  have h : (prepareToPlay Renderer.initial 44100).samplesSinceLastTick = 276 := by
    show toUint ⌈(6242976651267 / 1000000000000000 : ℚ) * 44100⌉.toNat = 276
    decide!
  exact ⟨h, by rw [h]; decide⟩

theorem storeDouble_length (bigEndian : Bool) (bits : Nat) :
    (storeDouble bigEndian bits).length = 8 := by
  cases bigEndian <;> simp [storeDouble]

/-- The eight bytes of a 64-bit pattern give the pattern back. -/
theorem bytes_sum (bits : Nat) (h : bits < 2 ^ 64) :
    bits % 256 + bits / 256 % 256 * 256 + bits / 65536 % 256 * 65536
      + bits / 16777216 % 256 * 16777216 + bits / 4294967296 % 256 * 4294967296
      + bits / 1099511627776 % 256 * 1099511627776
      + bits / 281474976710656 % 256 * 281474976710656
      + bits / 72057594037927936 % 256 * 72057594037927936 = bits := by
  omega

theorem loadDouble_storeDouble (bigEndian : Bool) (bits : Nat) (tail : List Nat)
    (h : bits < 2 ^ 64) : loadDouble bigEndian (storeDouble bigEndian bits ++ tail) = bits := by
  have hb := bytes_sum bits h
  cases bigEndian
  · simp [loadDouble, storeDouble, List.range_succ]
    omega
  · simp [loadDouble, storeDouble, List.range_succ]
    omega

/-- C22: for every 64-bit delay pattern and every always-on flag held by a renderer,
and either byte order of the host, `getStateInformation` produces a block of 9 bytes
(whatever the block held before), and `setStateInformation` on that block sets the
delay pattern and the flag of a renderer in any prior state to the saved values. -/
theorem persisted_state_round_trip (bigEndian : Bool) (saved prior : ControlState)
    (destData : List Nat) (hbits : saved.delayBits < 2 ^ 64) :
    (getStateInformation bigEndian (some saved) destData).length = 9
    ∧ setStateInformation bigEndian (some prior)
        (getStateInformation bigEndian (some saved) destData) = some saved := by
  have hlen : (getStateInformation bigEndian (some saved) destData).length = 9 := by
    simp [getStateInformation, storeDouble_length]
  refine ⟨hlen, ?_⟩
  have hnot : ¬ (getStateInformation bigEndian (some saved) destData).length < 8 + 1 := by
    rw [hlen]; decide
  have hflag : (getStateInformation bigEndian (some saved) destData).getD 8 0
      = if saved.sendSignalAlways then 1 else 0 := by
    simp only [getStateInformation]
    rw [List.getD_eq_getElem?_getD, List.getElem?_append_right (by rw [storeDouble_length]),
      storeDouble_length]
    rfl
  simp only [setStateInformation, if_neg hnot, hflag]
  have hload : loadDouble bigEndian (getStateInformation bigEndian (some saved) destData)
      = saved.delayBits := loadDouble_storeDouble bigEndian _ _ hbits
  rw [hload]
  cases saved with
  | mk d f => cases f <;> simp

/-- Witness of C22: the pattern `0x3F8930BE0DED288D` of the double 0.0123 with always-on
enabled, saved on a little-endian host and loaded over a renderer with delay 0 and
always-on disabled. -/
theorem persisted_state_round_trip_witness :
    (4578244089034385549 : Nat) < 2 ^ 64
    ∧ (getStateInformation false (some ⟨4578244089034385549, true⟩) []).length = 9
    ∧ setStateInformation false (some ⟨0, false⟩)
        (getStateInformation false (some ⟨4578244089034385549, true⟩) [])
      = some ⟨4578244089034385549, true⟩ :=
  ⟨by decide, persisted_state_round_trip false ⟨4578244089034385549, true⟩ ⟨0, false⟩ []
    (by decide)⟩

/-- C23: `setStateInformation` on a block of fewer than 9 bytes, whatever its content
and the byte order, leaves the delay pattern and the always-on flag of the renderer as
they were. -/
theorem undersized_state_rejected (bigEndian : Bool) (prior : ControlState)
    (data : List Nat) (hsize : data.length < 9) :
    setStateInformation bigEndian (some prior) data = some prior := by
  simp [setStateInformation, hsize]

/-- Witness of C23: a block of 5 bytes. -/
theorem undersized_state_rejected_witness :
    ([1, 2, 3, 4, 5] : List Nat).length < 9
    ∧ setStateInformation false (some ⟨4578244089034385549, true⟩) [1, 2, 3, 4, 5]
      = some ⟨4578244089034385549, true⟩ :=
  ⟨by decide, undersized_state_rejected false ⟨4578244089034385549, true⟩ [1, 2, 3, 4, 5]
    (by decide)⟩

/-- C24: a rebuild for a selected musical context that serves fewer than 2 tempo
entries or no bar signature returns (with any fuel) the tick map as it was before the
call. -/
theorem insufficient_timeline_keeps_map (fuel : Nat) (sr : ℚ) (tempo : List TempoEntry)
    (sigs : List BarSignature) (tickMap : List TickMapElement)
    (hfew : tempo.length < 2 ∨ sigs.length = 0) :
    rebuildTickMap fuel sr (some (tempo, sigs)) tickMap = some tickMap := by
  have hguard : ¬ (tempo.length > 1 ∧ sigs.length > 0) := by
    rintro ⟨h1, h2⟩
    rcases hfew with h | h <;> omega
  simp only [rebuildTickMap, hguard, if_false]

/-- Witness of C24: one tempo entry and one bar signature, with the example map in
place. -/
theorem insufficient_timeline_keeps_map_witness :
    (([⟨0, 0⟩] : List TempoEntry).length < 2 ∨ ([⟨4, 4, 0⟩] : List BarSignature).length = 0)
    ∧ rebuildTickMap 0 44100 (some ([⟨0, 0⟩], [⟨4, 4, 0⟩])) exampleTickMap
      = some exampleTickMap :=
  ⟨Or.inl (by decide),
    insufficient_timeline_keeps_map 0 44100 [⟨0, 0⟩] [⟨4, 4, 0⟩] exampleTickMap
      (Or.inl (by decide))⟩

/-- C25 (amended): when the selected musical context is destroyed, no context is selected
any more and the tick map is left exactly as it was (with any fuel: nothing is
rebuilt); `getTickAndBarLengthAtPosition` fails afterwards exactly when the map was
already empty. -/
theorem deselecting_keeps_map (fuel : Nat) (sr : ℚ)
    (content : Nat → Option (List TempoEntry × List BarSignature)) (musicalContext : Nat)
    (t : TempoMapState) (currentPos : Int)
    (hsel : t.selectedMusicalContext = some musicalContext) :
    willDestroyMusicalContext fuel sr content musicalContext t = some ⟨none, t.tickMap⟩
    ∧ selectMusicalContext fuel sr content none t = some ⟨none, t.tickMap⟩
    ∧ (getTickAndBarLengthAtPosition sr t.tickMap currentPos = none ↔ t.tickMap = []) := by
  have hselect : selectMusicalContext fuel sr content none t = some ⟨none, t.tickMap⟩ := by
    simp [selectMusicalContext, rebuildTickMap]
  refine ⟨by simp [willDestroyMusicalContext, hsel, hselect], hselect, ?_⟩
  cases hm : t.tickMap with
  | nil => simp [getTickAndBarLengthAtPosition]
  | cons a l => simp [getTickAndBarLengthAtPosition]

/-- Witness of C25 (amended): context 1 is selected and the example map is in place. -/
theorem deselecting_keeps_map_witness :
    (⟨some 1, exampleTickMap⟩ : TempoMapState).selectedMusicalContext = some 1
    ∧ willDestroyMusicalContext 0 44100 (fun _ => none) 1 ⟨some 1, exampleTickMap⟩
      = some ⟨none, exampleTickMap⟩
    ∧ selectMusicalContext 0 44100 (fun _ => none) none ⟨some 1, exampleTickMap⟩
      = some ⟨none, exampleTickMap⟩
    ∧ (getTickAndBarLengthAtPosition 44100 exampleTickMap 0 = none ↔ exampleTickMap = []) :=
  ⟨rfl, deselecting_keeps_map 0 44100 (fun _ => none) 1 ⟨some 1, exampleTickMap⟩ 0 rfl⟩

/-- Counterexample to C25 as stated: context 1 is selected with the example map in
place; after the context is destroyed the map still holds its two segments and
`getTickAndBarLengthAtPosition` still succeeds. -/
theorem deselecting_does_not_empty :
    willDestroyMusicalContext 0 44100 (fun _ => none) 1 ⟨some 1, exampleTickMap⟩
      = some ⟨none, exampleTickMap⟩
    ∧ exampleTickMap ≠ []
    ∧ getTickAndBarLengthAtPosition 44100 exampleTickMap 0 = some (1 / 48, 96) := by
  refine ⟨by decide!, by simp [exampleTickMap], by decide!⟩


/-! ## The precision comparator -/

/-- C26: for a positive sample rate the tolerance is `0.5 / sampleRate`;
`sampleScaleEquals a b` holds iff `|a - b|` is at most the tolerance and
`sampleScaleLessThan a b` iff `a < b - tolerance`; for every pair of times exactly one
of `lessThan a b`, `equals a b`, `lessThan b a` holds; `lessThan` is irreflexive and
transitive. -/
theorem comparator_trichotomy (sr a b c : ℚ) (hsr : 0 < sr) :
    halfASampleLength sr = (1 / 2) / sr
    ∧ (sampleScaleEquals sr a b = true ↔ |a - b| ≤ (1 / 2) / sr)
    ∧ (sampleScaleLessThan sr a b = true ↔ a < b - (1 / 2) / sr)
    ∧ ((sampleScaleLessThan sr a b = true ∧ sampleScaleEquals sr a b = false
          ∧ sampleScaleLessThan sr b a = false)
      ∨ (sampleScaleLessThan sr a b = false ∧ sampleScaleEquals sr a b = true
          ∧ sampleScaleLessThan sr b a = false)
      ∨ (sampleScaleLessThan sr a b = false ∧ sampleScaleEquals sr a b = false
          ∧ sampleScaleLessThan sr b a = true))
    ∧ sampleScaleLessThan sr a a = false
    ∧ (sampleScaleLessThan sr a b = true → sampleScaleLessThan sr b c = true →
        sampleScaleLessThan sr a c = true) := by
  have heps := halfASampleLength_pos hsr
  have hhalf : halfASampleLength sr = (1 / 2) / sr := by
    unfold halfASampleLength
    field_simp
    ring
  have hE : ∀ x y : ℚ, sampleScaleEquals sr x y = true ↔ |x - y| ≤ halfASampleLength sr :=
    fun x y => sampleScaleEquals_iff sr x y
  have hL : ∀ x y : ℚ, sampleScaleLessThan sr x y = true ↔ x + halfASampleLength sr < y :=
    fun x y => sampleScaleLessThan_iff hsr x y
  have hEf : ∀ x y : ℚ, sampleScaleEquals sr x y = false ↔ ¬ |x - y| ≤ halfASampleLength sr := by
    intro x y
    rw [← hE, Bool.not_eq_true]
  have hLf : ∀ x y : ℚ, sampleScaleLessThan sr x y = false ↔ ¬ x + halfASampleLength sr < y := by
    intro x y
    rw [← hL, Bool.not_eq_true]
  refine ⟨hhalf, ?_, ?_, ?_, ?_, ?_⟩
  · rw [hE, hhalf]
  · rw [hL, hhalf]
    constructor <;> intro h <;> linarith
  · simp only [hL, hLf, hE, hEf, abs_le, not_and_or, not_le, not_lt]
    rcases lt_trichotomy (a + halfASampleLength sr) b with h | h | h
    · left
      exact ⟨h, Or.inl (by linarith), by linarith⟩
    · right; left
      exact ⟨by linarith, ⟨by linarith, by linarith⟩, by linarith⟩
    · rcases lt_or_le (b + halfASampleLength sr) a with h2 | h2
      · right; right
        exact ⟨by linarith, Or.inr (by linarith), h2⟩
      · right; left
        exact ⟨by linarith, ⟨by linarith, by linarith⟩, by linarith⟩
  · rw [hLf]
    linarith
  · rw [hL, hL, hL]
    intro h1 h2
    linarith

/-- Witness of C26: 44100 Hz and the times 0, 1/100000 (within half a sample of 0) and
1. -/
theorem comparator_trichotomy_witness :
    (0 : ℚ) < 44100
    ∧ sampleScaleEquals 44100 0 (1 / 100000) = true
    ∧ sampleScaleLessThan 44100 (1 / 100000) 1 = true
    ∧ (halfASampleLength 44100 = (1 / 2) / 44100
      ∧ (sampleScaleEquals 44100 0 (1 / 100000) = true
          ↔ |(0 : ℚ) - 1 / 100000| ≤ (1 / 2) / 44100)
      ∧ (sampleScaleLessThan 44100 0 (1 / 100000) = true
          ↔ (0 : ℚ) < 1 / 100000 - (1 / 2) / 44100)
      ∧ ((sampleScaleLessThan 44100 0 (1 / 100000) = true
            ∧ sampleScaleEquals 44100 0 (1 / 100000) = false
            ∧ sampleScaleLessThan 44100 (1 / 100000) 0 = false)
        ∨ (sampleScaleLessThan 44100 0 (1 / 100000) = false
            ∧ sampleScaleEquals 44100 0 (1 / 100000) = true
            ∧ sampleScaleLessThan 44100 (1 / 100000) 0 = false)
        ∨ (sampleScaleLessThan 44100 0 (1 / 100000) = false
            ∧ sampleScaleEquals 44100 0 (1 / 100000) = false
            ∧ sampleScaleLessThan 44100 (1 / 100000) 0 = true))
      ∧ sampleScaleLessThan 44100 0 0 = false
      ∧ (sampleScaleLessThan 44100 0 (1 / 100000) = true →
          sampleScaleLessThan 44100 (1 / 100000) 1 = true →
          sampleScaleLessThan 44100 0 1 = true)) :=
  ⟨by norm_num, by decide!, by decide!,
    comparator_trichotomy 44100 0 (1 / 100000) 1 (by norm_num)⟩


/-! ## Step 2: the blended tick -/

/-- One pass of the loop of step 2 returns, keeps the tick lengths positive and leaves
`nextPosition` less than one tick of the next tempo after the next tempo entry. -/
theorem tempoStep_total {sr : ℚ} (hsr : 0 < sr) (tempo : List TempoEntry)
    (hinc : StrictlyIncreasing tempo) (i : Nat) (s : List TempoChange × ℚ)
    (hi1 : i + 1 < tempo.length)
    (hinv : (∀ tc ∈ s.1, 0 < tc.tickLength)
      ∧ (i + 1 < tempo.length →
          s.2 - (tempo.getD i default).timePosition < rawTickLength tempo i)) :
    ∃ (N : Nat) (s' : List TempoChange × ℚ),
      (∀ m, N ≤ m → tempoStep m sr tempo s i = some s')
      ∧ ((∀ tc ∈ s'.1, 0 < tc.tickLength)
        ∧ (i + 1 + 1 < tempo.length →
            s'.2 - (tempo.getD (i + 1) default).timePosition < rawTickLength tempo (i + 1))) := by
  have heps := halfASampleLength_pos hsr
  obtain ⟨changes, np⟩ := s
  obtain ⟨hpos, hnp⟩ := hinv
  have htl := rawTickLength_pos hinc hi1
  have hnp := hnp hi1
  simp only at hnp hpos
  by_cases hlast : i = tempo.length - 2
  · refine ⟨0, (changes ++ [⟨np, rawTickLength tempo i⟩], np), ?_, ?_, ?_⟩
    · intro m _
      simp [-List.getD_eq_getElem?_getD, tempoStep, hlast]
    · intro tc htc
      simp only [List.mem_append, List.mem_singleton] at htc
      rcases htc with htc | htc
      · exact hpos tc htc
      · subst htc; exact htl
    · intro h; omega
  · have hi2 : i + 2 < tempo.length := by omega
    have hntl := rawTickLength_pos hinc (i := i + 1) hi2
    obtain ⟨N, L, hwalk, hstop, hfirst⟩ := tickWalk_total sr (rawTickLength tempo i)
      (tempo.getD (i + 1) default).timePosition np htl
    by_cases heq : sampleScaleEquals sr L (tempo.getD (i + 1) default).timePosition = true
    · refine ⟨N, (changes ++ [⟨np, rawTickLength tempo i⟩],
        (tempo.getD (i + 1) default).timePosition), ?_, ?_, ?_⟩
      · intro m hm
        simp [-List.getD_eq_getElem?_getD, tempoStep, hlast, hwalk m hm, heq]
      · intro tc htc
        simp only [List.mem_append, List.mem_singleton] at htc
        rcases htc with htc | htc
        · exact hpos tc htc
        · subst htc; exact htl
      · intro _; simpa using hntl
    · simp only [Bool.not_eq_true] at heq
      -- the blend factor lies strictly between 0 and 1
      have hgt : (tempo.getD (i + 1) default).timePosition + halfASampleLength sr < L := by
        have h1 := (sampleScaleLessThan_eq_false_iff hsr _ _).mp hstop
        have h2 : ¬ |L - (tempo.getD (i + 1) default).timePosition| ≤ halfASampleLength sr := by
          rw [← sampleScaleEquals_iff, heq]; exact Bool.false_ne_true
        rw [not_le] at h2
        by_contra hcon
        rw [not_lt] at hcon
        have : |L - (tempo.getD (i + 1) default).timePosition| ≤ halfASampleLength sr := by
          rw [abs_le]; constructor <;> linarith
        exact absurd this (not_le.mpr h2)
      have hlt : L - (tempo.getD (i + 1) default).timePosition < rawTickLength tempo i := by
        rcases hfirst with hf | hf
        · subst hf
          have := (strictlyIncreasing_getD hinc i hi1).1
          linarith
        · have := (sampleScaleLessThan_iff hsr _ _).mp hf
          linarith
      have hb0 : 0 < (L - (tempo.getD (i + 1) default).timePosition) / rawTickLength tempo i :=
        div_pos (by linarith) htl
      have hb1 : (L - (tempo.getD (i + 1) default).timePosition) / rawTickLength tempo i < 1 :=
        (div_lt_one htl).mpr hlt
      have hnew : 0 < rawTickLength tempo (i + 1)
            * ((L - (tempo.getD (i + 1) default).timePosition) / rawTickLength tempo i)
          + rawTickLength tempo i
            * (1 - (L - (tempo.getD (i + 1) default).timePosition) / rawTickLength tempo i) := by
        have h1 := mul_pos hntl hb0
        have h2 := mul_pos htl (by linarith : 0 < 1 - (L - (tempo.getD (i + 1) default).timePosition) / rawTickLength tempo i)
        linarith
      refine ⟨N, (changes ++ [⟨np, rawTickLength tempo i⟩]
          ++ [⟨L - rawTickLength tempo i, rawTickLength tempo (i + 1)
            * ((L - (tempo.getD (i + 1) default).timePosition) / rawTickLength tempo i)
          + rawTickLength tempo i
            * (1 - (L - (tempo.getD (i + 1) default).timePosition) / rawTickLength tempo i)⟩],
        L - rawTickLength tempo i + (rawTickLength tempo (i + 1)
            * ((L - (tempo.getD (i + 1) default).timePosition) / rawTickLength tempo i)
          + rawTickLength tempo i
            * (1 - (L - (tempo.getD (i + 1) default).timePosition) / rawTickLength tempo i))),
        ?_, ?_, ?_⟩
      · intro m hm
        simp [-List.getD_eq_getElem?_getD, tempoStep, hlast, hwalk m hm, heq]
      · intro tc htc
        simp only [List.mem_append, List.mem_singleton] at htc
        rcases htc with (htc | htc) | htc
        · exact hpos tc htc
        · subst htc; exact htl
        · subst htc; exact hnew
      · intro _
        simp only
        have hne : rawTickLength tempo i ≠ 0 := ne_of_gt htl
        have e : L - rawTickLength tempo i + (rawTickLength tempo (i + 1)
            * ((L - (tempo.getD (i + 1) default).timePosition) / rawTickLength tempo i)
          + rawTickLength tempo i
            * (1 - (L - (tempo.getD (i + 1) default).timePosition) / rawTickLength tempo i))
          - (tempo.getD (i + 1) default).timePosition
          = rawTickLength tempo (i + 1)
            * ((L - (tempo.getD (i + 1) default).timePosition) / rawTickLength tempo i) := by
          field_simp
          ring
        rw [e]
        calc rawTickLength tempo (i + 1)
              * ((L - (tempo.getD (i + 1) default).timePosition) / rawTickLength tempo i)
            < rawTickLength tempo (i + 1) * 1 := by
              exact mul_lt_mul_of_pos_left hb1 hntl
          _ = rawTickLength tempo (i + 1) := mul_one _


/-- The first `i` passes of the loop of step 2 return. -/
theorem tempoPrefix_total {sr : ℚ} (hsr : 0 < sr) (tempo : List TempoEntry)
    (hinc : StrictlyIncreasing tempo) (i : Nat) (hi : i + 1 < tempo.length) :
    ∃ (N : Nat) (s : List TempoChange × ℚ),
      (∀ m, N ≤ m →
        (List.range i).foldlM (tempoStep m sr tempo) ([], (tempo.getD 0 default).timePosition)
          = some s)
      ∧ (∀ tc ∈ s.1, 0 < tc.tickLength)
      ∧ s.2 - (tempo.getD i default).timePosition < rawTickLength tempo i := by
  obtain ⟨N, s, hrun, h1, h2⟩ := range_foldlM_total
    (fun m s j => tempoStep m sr tempo s j)
    (fun j (s : List TempoChange × ℚ) =>
      (∀ tc ∈ s.1, 0 < tc.tickLength)
      ∧ (j + 1 < tempo.length →
          s.2 - (tempo.getD j default).timePosition < rawTickLength tempo j))
    ([], (tempo.getD 0 default).timePosition)
    ⟨by simp, fun h => by simpa using rawTickLength_pos hinc h⟩
    i
    (fun j s hj hs => tempoStep_total hsr tempo hinc j s (by omega) hs)
  exact ⟨N, s, hrun, h1, h2 hi⟩

/-- The first tempo change pushed by a pass of the loop of step 2 starts at
`nextPosition` with the tick length of the pass. -/
theorem tempoStep_first_push (fuel : Nat) (sr : ℚ) (tempo : List TempoEntry)
    (s r : List TempoChange × ℚ) (i : Nat) (h : tempoStep fuel sr tempo s i = some r) :
    ∃ rest, r.1 = s.1 ++ ⟨s.2, rawTickLength tempo i⟩ :: rest := by
  unfold tempoStep at h
  simp only at h
  split_ifs at h with hlast
  · simp only [Option.some.injEq] at h
    exact ⟨[], by rw [← h]⟩
  · simp only [Option.map_eq_some'] at h
    obtain ⟨L, _, hL⟩ := h
    split_ifs at hL
    · subst hL
      exact ⟨_, List.append_assoc _ _ _⟩
    · exact ⟨[], by rw [← hL]⟩

/-- C28: for strictly increasing tempo entries and a tempo entry `i + 1` (time `P`)
that is not the last one, the first `i` passes of step 2 and the tick walk of pass `i`
return; the walk stops on `T0 + old`, where `T0` is on the grid of tick length `old`
laid from the start of tempo segment `i`.  When that tick is not within half a sample
of `P`, then `T0 < P < T0 + old`, the factor `b = (T0 + old - P) / old` lies strictly
between 0 and 1, pass `i` appends the tempo change of segment `i` and an inserted one
that starts at `T0` with tick length `b * new + (1 - b) * old = (P - T0) + b * new`,
and the tempo change appended by the next pass starts at `T0` plus that tick length. -/
theorem blend_formula (sr : ℚ) (tempo : List TempoEntry) (i : Nat) (old new P : ℚ)
    (hsr : 0 < sr) (hinc : StrictlyIncreasing tempo) (hi : i + 2 < tempo.length)
    (hold : old = rawTickLength tempo i) (hnew : new = rawTickLength tempo (i + 1))
    (hP : P = (tempo.getD (i + 1) default).timePosition) :
    ∃ (N : Nat) (s : List TempoChange × ℚ) (T0 : ℚ) (k : ℤ),
      (∀ fuel, N ≤ fuel →
        (List.range i).foldlM (tempoStep fuel sr tempo)
            ([], (tempo.getD 0 default).timePosition) = some s
        ∧ whileLoop (fun p => sampleScaleLessThan sr p P) (fun p => some (p + old)) fuel s.2
            = some (T0 + old))
      ∧ T0 = s.2 + k * old ∧ -1 ≤ k
      ∧ sampleScaleLessThan sr (T0 + old) P = false
      ∧ (sampleScaleEquals sr (T0 + old) P = false →
          T0 < P ∧ P < T0 + old
          ∧ 0 < (T0 + old - P) / old ∧ (T0 + old - P) / old < 1
          ∧ (T0 + old - P) / old * new + (1 - (T0 + old - P) / old) * old
              = (P - T0) + (T0 + old - P) / old * new
          ∧ (∀ fuel, N ≤ fuel →
              tempoStep fuel sr tempo s i
                = some (s.1 ++ [⟨s.2, old⟩,
                    ⟨T0, (T0 + old - P) / old * new + (1 - (T0 + old - P) / old) * old⟩],
                  T0 + ((T0 + old - P) / old * new + (1 - (T0 + old - P) / old) * old)))
          ∧ (∀ fuel r,
              tempoStep fuel sr tempo
                  (s.1 ++ [⟨s.2, old⟩,
                    ⟨T0, (T0 + old - P) / old * new + (1 - (T0 + old - P) / old) * old⟩],
                  T0 + ((T0 + old - P) / old * new + (1 - (T0 + old - P) / old) * old))
                  (i + 1) = some r →
              ∃ rest, r.1 = s.1 ++ [⟨s.2, old⟩,
                    ⟨T0, (T0 + old - P) / old * new + (1 - (T0 + old - P) / old) * old⟩]
                  ++ ⟨T0 + ((T0 + old - P) / old * new + (1 - (T0 + old - P) / old) * old),
                      new⟩ :: rest)) := by
  have heps := halfASampleLength_pos hsr
  have hi1 : i + 1 < tempo.length := by omega
  have hold_pos : 0 < old := hold ▸ rawTickLength_pos hinc hi1
  obtain ⟨N1, s, hpre, _, hnp⟩ := tempoPrefix_total hsr tempo hinc i hi1
  obtain ⟨N2, L, hwalk, hstop, hfirst⟩ := tickWalk_total sr old P s.2 hold_pos
  obtain ⟨⟨k, hk⟩, _⟩ := whileLoop_invariant
    (fun p : ℚ => ∃ k : Nat, p = s.2 + k * old)
    (by
      rintro p p' ⟨k, hk⟩ _ hp
      simp only [Option.some.injEq] at hp
      exact ⟨k + 1, by rw [← hp, hk]; push_cast; ring⟩)
    N2 s.2 L ⟨0, by simp⟩ (hwalk N2 le_rfl)
  have hL : L = (L - old) + old := by ring
  refine ⟨max N1 N2, s, L - old, (k : ℤ) - 1, ?_, ?_, by omega, ?_, ?_⟩
  · intro fuel hf
    refine ⟨hpre fuel (le_of_max_le_left hf), ?_⟩
    rw [← hL]
    exact hwalk fuel (le_of_max_le_right hf)
  · rw [hk]; push_cast; ring
  · rw [← hL]; exact hstop
  · rw [← hL]
    intro heq
    have hgt : P + halfASampleLength sr < L := by
      have h1 := (sampleScaleLessThan_eq_false_iff hsr _ _).mp hstop
      have h2 : ¬ |L - P| ≤ halfASampleLength sr := by
        rw [← sampleScaleEquals_iff, heq]; exact Bool.false_ne_true
      rw [not_le] at h2
      by_contra hcon
      rw [not_lt] at hcon
      have : |L - P| ≤ halfASampleLength sr := by
        rw [abs_le]; constructor <;> linarith
      exact absurd this (not_le.mpr h2)
    have hlt : L - P < old := by
      rcases hfirst with hf | hf
      · rw [hf, hold, hP]
        have h1 := (strictlyIncreasing_getD hinc i hi1).1
        have hnp' := hnp
        linarith
      · have := (sampleScaleLessThan_iff hsr _ _).mp hf
        linarith
    have hb0 : 0 < (L - P) / old := div_pos (by linarith) hold_pos
    have hb1 : (L - P) / old < 1 := (div_lt_one hold_pos).mpr hlt
    have hne : old ≠ 0 := ne_of_gt hold_pos
    have hblend : (L - P) / old * new + (1 - (L - P) / old) * old
        = (P - (L - old)) + (L - P) / old * new := by
      field_simp
      ring
    have hlast : ¬ i = tempo.length - 2 := by omega
    refine ⟨by linarith, by linarith, hb0, hb1, hblend, ?_, ?_⟩
    · intro fuel hf
      have hw := hwalk fuel (le_of_max_le_right hf)
      have e3 : (L - P) / old * new + (1 - (L - P) / old) * old
          = new * ((L - P) / old) + old * (1 - (L - P) / old) := by ring
      rw [e3]
      subst hold hnew hP
      simp [-List.getD_eq_getElem?_getD, tempoStep, hlast, hw, heq]
    · intro fuel r hr
      obtain ⟨rest, hrest⟩ := tempoStep_first_push fuel sr tempo _ r (i + 1) hr
      exact ⟨rest, by rw [hrest, hnew]⟩


/-- Witness of C28: three tempo entries whose middle one (at 1 s) falls between two
ticks of the first tempo (tick length 25/1206 s); the following tempo has tick length
25/1194 s. -/
theorem blend_formula_witness :
    StrictlyIncreasing [⟨0, 0⟩, ⟨1, 201 / 100⟩, ⟨2, 4⟩]
    ∧ ∃ (N : Nat) (s : List TempoChange × ℚ) (T0 : ℚ) (k : ℤ),
      (∀ fuel, N ≤ fuel →
        (List.range 0).foldlM (tempoStep fuel 44100 [⟨0, 0⟩, ⟨1, 201 / 100⟩, ⟨2, 4⟩])
            ([], (([⟨0, 0⟩, ⟨1, 201 / 100⟩, ⟨2, 4⟩] : List TempoEntry).getD 0
              default).timePosition) = some s
        ∧ whileLoop (fun p => sampleScaleLessThan 44100 p 1)
            (fun p => some (p + 25 / 1206)) fuel s.2 = some (T0 + 25 / 1206))
      ∧ T0 = s.2 + k * (25 / 1206) ∧ -1 ≤ k
      ∧ sampleScaleLessThan 44100 (T0 + 25 / 1206) 1 = false
      ∧ (sampleScaleEquals 44100 (T0 + 25 / 1206) 1 = false →
          T0 < 1 ∧ 1 < T0 + 25 / 1206
          ∧ 0 < (T0 + 25 / 1206 - 1) / (25 / 1206) ∧ (T0 + 25 / 1206 - 1) / (25 / 1206) < 1
          ∧ (T0 + 25 / 1206 - 1) / (25 / 1206) * (25 / 1194)
                + (1 - (T0 + 25 / 1206 - 1) / (25 / 1206)) * (25 / 1206)
              = (1 - T0) + (T0 + 25 / 1206 - 1) / (25 / 1206) * (25 / 1194)
          ∧ (∀ fuel, N ≤ fuel →
              tempoStep fuel 44100 [⟨0, 0⟩, ⟨1, 201 / 100⟩, ⟨2, 4⟩] s 0
                = some (s.1 ++ [⟨s.2, 25 / 1206⟩,
                    ⟨T0, (T0 + 25 / 1206 - 1) / (25 / 1206) * (25 / 1194)
                      + (1 - (T0 + 25 / 1206 - 1) / (25 / 1206)) * (25 / 1206)⟩],
                  T0 + ((T0 + 25 / 1206 - 1) / (25 / 1206) * (25 / 1194)
                      + (1 - (T0 + 25 / 1206 - 1) / (25 / 1206)) * (25 / 1206))))
          ∧ (∀ fuel r,
              tempoStep fuel 44100 [⟨0, 0⟩, ⟨1, 201 / 100⟩, ⟨2, 4⟩]
                  (s.1 ++ [⟨s.2, 25 / 1206⟩,
                    ⟨T0, (T0 + 25 / 1206 - 1) / (25 / 1206) * (25 / 1194)
                      + (1 - (T0 + 25 / 1206 - 1) / (25 / 1206)) * (25 / 1206)⟩],
                  T0 + ((T0 + 25 / 1206 - 1) / (25 / 1206) * (25 / 1194)
                      + (1 - (T0 + 25 / 1206 - 1) / (25 / 1206)) * (25 / 1206)))
                  (0 + 1) = some r →
              ∃ rest, r.1 = s.1 ++ [⟨s.2, 25 / 1206⟩,
                    ⟨T0, (T0 + 25 / 1206 - 1) / (25 / 1206) * (25 / 1194)
                      + (1 - (T0 + 25 / 1206 - 1) / (25 / 1206)) * (25 / 1206)⟩]
                  ++ ⟨T0 + ((T0 + 25 / 1206 - 1) / (25 / 1206) * (25 / 1194)
                      + (1 - (T0 + 25 / 1206 - 1) / (25 / 1206)) * (25 / 1206)),
                      25 / 1194⟩ :: rest)) :=
  have hinc : StrictlyIncreasing [⟨0, 0⟩, ⟨1, 201 / 100⟩, ⟨2, 4⟩] := by
    simp [StrictlyIncreasing]; norm_num
  ⟨hinc, blend_formula 44100 [⟨0, 0⟩, ⟨1, 201 / 100⟩, ⟨2, 4⟩] 0 (25 / 1206) (25 / 1194) 1
    (by norm_num) hinc (by decide) (by norm_num [rawTickLength])
    (by norm_num [rawTickLength]) rfl⟩


/-! ## Step 4: signature changes after the last tempo change -/

theorem take_succ_map_getD {α β : Type} [Inhabited α] (f : α → β) (l : List α) (k : Nat)
    (hk : k < l.length) :
    (l.take (k + 1)).map f = (l.take k).map f ++ [f (l.getD k default)] := by
  rw [List.take_succ, List.map_append, List.getD_eq_getElem _ _ hk,
    List.getElem?_eq_getElem hk]
  rfl

theorem lastElt_tailState (sigs : List TimeSigChange) (L : ℚ) (k : Nat)
    (hk : k < sigs.length) (u : MergeState)
    (hu : u.tickMap = (sigs.take (k + 1)).map (tailSegment L)) :
    lastElt u = tailSegment L (sigs.getD k default) := by
  unfold lastElt
  rw [hu, take_succ_map_getD _ _ _ hk]
  simp

/-- The inner loop of step 4 from the state reached after signature change `k` walks
to the tick of signature change `k + 1`. -/
theorem tailInner_exact (sigs : List TimeSigChange) (L : ℚ) (k : Nat)
    (hk : k + 1 < sigs.length)
    (hlt : (sigs.getD k default).quarterPosition < (sigs.getD (k + 1) default).quarterPosition)
    (hrange : (sigs.getD (k + 1) default).quarterPosition * 24 < uintModulus) :
    ∃ (N : Nat), ∀ fuel, N ≤ fuel →
      whileLoop (fun u => decide (u.tickIdx < sigTick sigs (u.timeSigChangeIdx + 1)))
        (fun u => some (advanceTailTick u)) fuel (tailState sigs L k)
      = some { tailState sigs L k with
          tickPos := (((sigs.getD (k + 1) default).quarterPosition * 24 : Nat) : ℚ) * L
          tickIdx := (sigs.getD (k + 1) default).quarterPosition * 24 } := by
  have hsig : sigTick sigs (k + 1) = (sigs.getD (k + 1) default).quarterPosition * 24 :=
    toUint_of_lt hrange
  obtain ⟨N, r, hrun, ⟨h1, h2, h3, h4, h5⟩, hexit⟩ := whileLoop_total_simple
    (fun u : MergeState => decide (u.tickIdx < sigTick sigs (u.timeSigChangeIdx + 1)))
    advanceTailTick
    (fun v => v.tickMap = (tailState sigs L k).tickMap ∧ v.timeSigChangeIdx = k
      ∧ v.tickOffset = 0
      ∧ v.tickIdx ≤ (sigs.getD (k + 1) default).quarterPosition * 24
      ∧ v.tickPos = ((v.tickIdx : Nat) : ℚ) * L)
    (fun v => (sigs.getD (k + 1) default).quarterPosition * 24 - v.tickIdx)
    (by
      rintro v ⟨h1, h2, h3, h4, h5⟩ hc
      simp only [decide_eq_true_eq, h2, hsig] at hc
      have hlast : lastElt v = tailSegment L (sigs.getD k default) :=
        lastElt_tailState sigs L k (by omega) v h1
      have hidx : (advanceTailTick v).tickIdx = v.tickIdx + 1 := by
        show toUint (v.tickIdx + 1) = v.tickIdx + 1
        exact toUint_of_lt (by omega)
      refine ⟨⟨h1, h2, h3, by rw [hidx]; omega, ?_⟩, ?_⟩
      · rw [hidx]
        show v.tickPos + (lastElt v).tickLength = _
        rw [hlast, h5]
        simp only [tailSegment]
        push_cast
        ring
      · beta_reduce
        rw [hidx]
        omega)
    (tailState sigs L k)
    ⟨rfl, rfl, rfl, by
      show (sigs.getD k default).quarterPosition * 24 ≤ _
      omega, rfl⟩
  refine ⟨N, fun fuel hf => ?_⟩
  rw [hrun fuel hf]
  simp only [decide_eq_false_iff_not, not_lt, h2, hsig] at hexit
  have hidx : r.tickIdx = (sigs.getD (k + 1) default).quarterPosition * 24 := by omega
  congr 1
  cases r with
  | mk tm idx tp ti toff =>
    simp only at h1 h2 h3 h5 hidx
    subst h1 h2 h3 hidx
    rw [h5]
    rfl

/-- One pass of the loop of step 4 appends the expected segment of signature change
`k + 1`. -/
theorem tailBody_exact (sigs : List TimeSigChange) (L : ℚ) (k : Nat)
    (hk : k + 1 < sigs.length)
    (hlt : (sigs.getD k default).quarterPosition < (sigs.getD (k + 1) default).quarterPosition)
    (hrange : (sigs.getD (k + 1) default).quarterPosition * 24 < uintModulus) :
    ∃ (N : Nat), ∀ fuel, N ≤ fuel →
      tailBody fuel sigs (tailState sigs L k) = some (tailState sigs L (k + 1)) := by
  obtain ⟨N, hrun⟩ := tailInner_exact sigs L k hk hlt hrange
  refine ⟨N, fun fuel hf => ?_⟩
  have hlast : lastElt { tailState sigs L k with
      tickPos := (((sigs.getD (k + 1) default).quarterPosition * 24 : Nat) : ℚ) * L
      tickIdx := (sigs.getD (k + 1) default).quarterPosition * 24 }
      = tailSegment L (sigs.getD k default) :=
    lastElt_tailState sigs L k (by omega) _ rfl
  simp only [tailBody, hrun fuel hf, Option.map_some', pushSigChange, hlast]
  congr 1
  simp only [tailState, take_succ_map_getD (tailSegment L) sigs (k + 1) hk]
  rfl

/-- The loop of step 4 from the state reached after the first signature change ends
with the expected segments of all signature changes. -/
theorem tailLoop_exact (sigs : List TimeSigChange) (L : ℚ) (hne : sigs ≠ [])
    (hinc : ∀ k, k + 1 < sigs.length →
      (sigs.getD k default).quarterPosition < (sigs.getD (k + 1) default).quarterPosition)
    (hrange : ∀ k, k < sigs.length → (sigs.getD k default).quarterPosition * 24 < uintModulus) :
    ∃ (N : Nat) (r : MergeState),
      (∀ fuel, N ≤ fuel →
        whileLoop (fun u => decide (u.timeSigChangeIdx + 1 < sigs.length))
          (tailBody fuel sigs) fuel (tailState sigs L 0) = some r)
      ∧ r.tickMap = sigs.map (tailSegment L) := by
  have hlen : 0 < sigs.length := List.length_pos.mpr hne
  obtain ⟨N, r, hrun, ⟨k, hk, hr⟩, hexit⟩ := whileLoop_total
    (fun u : MergeState => decide (u.timeSigChangeIdx + 1 < sigs.length))
    (fun fuel => tailBody fuel sigs)
    (fun u => ∃ k, k < sigs.length ∧ u = tailState sigs L k)
    (fun u => sigs.length - u.timeSigChangeIdx)
    (by
      rintro u ⟨k, hk, rfl⟩ hc
      have hc : k + 1 < sigs.length := by simpa [tailState] using hc
      obtain ⟨N, hN⟩ := tailBody_exact sigs L k hc (hinc k hc) (hrange (k + 1) hc)
      refine ⟨N, tailState sigs L (k + 1), hN, ⟨k + 1, hc, rfl⟩, ?_⟩
      show sigs.length - (k + 1) < sigs.length - k
      omega)
    (tailState sigs L 0) ⟨0, hlen, rfl⟩
  refine ⟨N, r, fun fuel hf => hrun fuel fuel hf hf, ?_⟩
  subst hr
  have hlast : ¬ k + 1 < sigs.length := by simpa [tailState] using hexit
  have hk1 : k + 1 = sigs.length := by omega
  show (sigs.take (k + 1)).map (tailSegment L) = _
  rw [hk1, List.take_length]

theorem normalizeTempo_pair (fuel : Nat) (sr : ℚ) (e0 e1 : TempoEntry) :
    normalizeTempo fuel sr [e0, e1]
      = some [⟨e0.timePosition, rawTickLength [e0, e1] 0⟩] := by
  have hrange : List.range 1 = [0] := rfl
  have hlen : ([e0, e1] : List TempoEntry).length - 1 = 1 := rfl
  rw [normalizeTempo, hlen, hrange]
  simp [tempoStep]

/-- Steps 3 and 4 on a single tempo change at time 0. -/
theorem mergeAll_single_tempo (sr : ℚ) (sigs : List TimeSigChange) (L : ℚ) (hne : sigs ≠ [])
    (hQ0 : (sigs.getD 0 default).quarterPosition = 0)
    (hinc : ∀ k, k + 1 < sigs.length →
      (sigs.getD k default).quarterPosition < (sigs.getD (k + 1) default).quarterPosition)
    (hrange : ∀ k, k < sigs.length → (sigs.getD k default).quarterPosition * 24 < uintModulus) :
    ∃ (N : Nat) (r : MergeState),
      (∀ fuel, N ≤ fuel → mergeAll fuel sr sigs [⟨0, L⟩] = some r)
      ∧ r.tickMap = sigs.map (tailSegment L) := by
  obtain ⟨N, r, hrun, hr⟩ := tailLoop_exact sigs L hne hinc hrange
  refine ⟨N, r, fun fuel hf => ?_, hr⟩
  have hidx : ¬ (0 + 1 < sigs.length ∧ 0 = sigTick sigs (0 + 1)) := by
    rintro ⟨h1, h2⟩
    have hs : sigTick sigs (0 + 1) = (sigs.getD (0 + 1) default).quarterPosition * 24 :=
      toUint_of_lt (hrange (0 + 1) h1)
    have := hinc 0 h1
    rw [hQ0] at this
    omega
  have hstart : pushTempoChange sigs ⟨0, L⟩ ⟨[], 0, 0, 0, 0⟩ = tailState sigs L 0 := by
    cases sigs with
    | nil => exact absurd rfl hne
    | cons c rest =>
      have hc : c.quarterPosition = 0 := hQ0
      simp only [pushTempoChange, hidx, if_false, tailState, tailSegment, List.take_succ_cons,
        List.take_zero, List.map_cons, List.map_nil, List.nil_append, List.getD_cons_zero, hc]
      simp
  simp only [mergeAll, List.foldlM_cons, List.foldlM_nil, mergeStep, List.isEmpty_nil, if_true,
    Option.map_some', hstart]
  exact hrun fuel hf

/-- C29 (amended): for a timeline with exactly two tempo entries, the first at time 0
(one tempo, tick length `L`), and bar signatures whose normalised changes sit at
strictly increasing quarter positions `0 = Q0 < Q1 < ... < Qm` with `24 * Qm` below
`2^32`, the rebuild finishes and the map has exactly one segment per signature change:
segment `i` starts at `24 * Qi * L` with tick length `L`, the bar length of signature
change `i` and `tickOffset` 0. -/
theorem tail_signature_segments (sr : ℚ) (e0 e1 : TempoEntry) (sigs : List BarSignature)
    (previous : List TickMapElement) (L : ℚ)
    (hL : L = rawTickLength [e0, e1] 0) (h0 : e0.timePosition = 0) (hsigs : sigs ≠ [])
    (hQ0 : ((normalizeTimeSigs sigs).getD 0 default).quarterPosition = 0)
    (hinc : (normalizeTimeSigs sigs).Chain' (fun a b => a.quarterPosition < b.quarterPosition))
    (hrange : ∀ c ∈ normalizeTimeSigs sigs, c.quarterPosition * 24 < uintModulus) :
    ∃ (N : Nat), ∀ fuel, N ≤ fuel →
      rebuildTickMap fuel sr (some ([e0, e1], sigs)) previous
        = some ((normalizeTimeSigs sigs).map
            (fun c => ⟨((c.quarterPosition * 24 : Nat) : ℚ) * L, L, c.barLength, 0⟩))
      ∧ ((normalizeTimeSigs sigs).map
            (fun c => (⟨((c.quarterPosition * 24 : Nat) : ℚ) * L, L, c.barLength, 0⟩ :
              TickMapElement))).length = sigs.length := by
  have hlen := normalizeTimeSigs_length sigs
  have hne : normalizeTimeSigs sigs ≠ [] := by
    intro h
    rw [h] at hlen
    exact hsigs (List.length_eq_zero.mp hlen.symm)
  obtain ⟨N, r, hrun, hr⟩ := mergeAll_single_tempo sr (normalizeTimeSigs sigs) L hne hQ0
    (by
      intro k hk
      rw [List.getD_eq_getElem _ _ (by omega : k < (normalizeTimeSigs sigs).length),
        List.getD_eq_getElem _ _ hk]
      exact List.chain'_iff_get.mp hinc k (by omega))
    (by
      intro k hk
      rw [List.getD_eq_getElem _ _ hk]
      exact hrange _ (List.getElem_mem hk))
  refine ⟨N, fun fuel hf => ⟨?_, by rw [List.length_map, hlen]⟩⟩
  have hguard : ([e0, e1] : List TempoEntry).length > 1 ∧ sigs.length > 0 :=
    ⟨by simp, List.length_pos.mpr hsigs⟩
  simp only [rebuildTickMap, hguard, and_self, if_true, buildTickMap, normalizeTempo_pair,
    Option.some_bind, h0, ← hL, hrun fuel hf, Option.map_some', hr]
  rfl

/-- Witness of C29 (amended): 120 BPM with 4/4 at quarter 0 and 3/4 at quarter 8; the
segments start at 0 s and at 4 s. -/
theorem tail_signature_segments_witness :
    normalizeTimeSigs [⟨4, 4, 0⟩, ⟨3, 4, 8⟩] = [⟨0, 96⟩, ⟨8, 72⟩]
    ∧ ∃ (N : Nat), ∀ fuel, N ≤ fuel →
      rebuildTickMap fuel 44100 (some ([⟨0, 0⟩, ⟨2, 4⟩], [⟨4, 4, 0⟩, ⟨3, 4, 8⟩])) []
        = some ((normalizeTimeSigs [⟨4, 4, 0⟩, ⟨3, 4, 8⟩]).map
            (fun c => ⟨((c.quarterPosition * 24 : Nat) : ℚ) * (1 / 48), 1 / 48,
              c.barLength, 0⟩))
      ∧ ((normalizeTimeSigs [⟨4, 4, 0⟩, ⟨3, 4, 8⟩]).map
            (fun c => (⟨((c.quarterPosition * 24 : Nat) : ℚ) * (1 / 48), 1 / 48,
              c.barLength, 0⟩ : TickMapElement))).length
          = ([⟨4, 4, 0⟩, ⟨3, 4, 8⟩] : List BarSignature).length :=
  have hns : normalizeTimeSigs [⟨4, 4, 0⟩, ⟨3, 4, 8⟩] = [⟨0, 96⟩, ⟨8, 72⟩] := by decide!
  ⟨hns, tail_signature_segments 44100 ⟨0, 0⟩ ⟨2, 4⟩ [⟨4, 4, 0⟩, ⟨3, 4, 8⟩] [] (1 / 48)
    (by norm_num [rawTickLength]) rfl (by simp)
    (by rw [hns]; rfl)
    (by rw [hns]; simp [List.chain'_cons])
    (by rw [hns]; decide!)⟩

/-- Counterexample to C29 as stated: 120 BPM with 4/4 at quarter 0 and 3/4 at quarter
178956972 (a multiple of 4).  The tick index `24 * 178956972` wraps to 32 in `uint`
arithmetic, and the second segment starts at tick 32 (2/3 s), not at
`24 * 178956972 / 48 = 89478486` s. -/
theorem tail_signature_tick_wraps :
    normalizeTimeSigs [⟨4, 4, 0⟩, ⟨3, 4, 178956972⟩] = [⟨0, 96⟩, ⟨178956972, 72⟩]
    ∧ sigTick [⟨0, 96⟩, ⟨178956972, 72⟩] 1 = 32
    ∧ rebuildTickMap 100 44100
        (some ([⟨0, 0⟩, ⟨2, 4⟩], [⟨4, 4, 0⟩, ⟨3, 4, 178956972⟩])) []
      = some [⟨0, 1 / 48, 96, 0⟩, ⟨2 / 3, 1 / 48, 72, 0⟩]
    ∧ ((178956972 * 24 : Nat) : ℚ) * (1 / 48) = 89478486 := by
  refine ⟨by decide!, by decide!, by decide!, by norm_num⟩


/-! ## Step 3: the running tick position at a tempo change -/

set_option maxRecDepth 100000 in
/-- C30, failing input: at 44100 Hz, the tempo entries `driftTempo` (each tempo change
within half a sample of a tick of the tempo before it, so step 2 inserts no segment)
with 4/4 at quarter 0.  When step 3 reaches the third tempo change, at
`3/2 + 2/147000` s, the running tick position after 96 ticks is 3/2 s, which is more
than half a sample before the tempo change, so the walk takes one more tick: the
segment is appended with the running tick position at 145/96 s (not equal to the
tempo change within half a sample) and the running tick index at 97 although 96 ticks
have elapsed (48 of 1/48 s and 48 of 1/96 s); the segment gets `tickOffset` 1 instead
of 0. -/
theorem merge_walk_overshoots :
    StrictlyIncreasing driftTempo
    ∧ normalizeTempo 300 44100 driftTempo
      = some [⟨0, 1 / 48⟩, ⟨147001 / 147000, 1 / 96⟩, ⟨110251 / 73500, 1 / 48⟩]
    ∧ sampleScaleEquals 44100 (0 + 48 * (1 / 48)) (147001 / 147000) = true
    ∧ sampleScaleEquals 44100 (147001 / 147000 + 48 * (1 / 96)) (110251 / 73500) = true
    ∧ ([⟨0, 1 / 48⟩, ⟨147001 / 147000, 1 / 96⟩] : List TempoChange).foldlM
        (mergeStep 300 44100 [⟨0, 96⟩]) ⟨[], 0, 0, 0, 0⟩
      = some ⟨[⟨0, 1 / 48, 96, 0⟩, ⟨147001 / 147000, 1 / 96, 96, 48⟩], 0, 1, 48, 48⟩
    ∧ whileLoop (fun u => sampleScaleLessThan 44100 u.tickPos (110251 / 73500))
        (mergeWhileBody 300 44100 [⟨0, 96⟩] (110251 / 73500)) 300
        ⟨[⟨0, 1 / 48, 96, 0⟩, ⟨147001 / 147000, 1 / 96, 96, 48⟩], 0, 1, 48, 48⟩
      = some ⟨[⟨0, 1 / 48, 96, 0⟩, ⟨147001 / 147000, 1 / 96, 96, 48⟩], 0, 145 / 96, 97, 1⟩
    ∧ sampleScaleEquals 44100 (145 / 96) (110251 / 73500) = false
    ∧ rebuildTickMap 300 44100 (some (driftTempo, [⟨4, 4, 0⟩])) []
      = some [⟨0, 1 / 48, 96, 0⟩, ⟨147001 / 147000, 1 / 96, 96, 48⟩,
          ⟨110251 / 73500, 1 / 48, 96, 1⟩] := by
  refine ⟨by simp [StrictlyIncreasing, driftTempo]; norm_num, by decide!, by decide!,
    by decide!, by decide!, by decide!, by decide!, by decide!⟩


/-! ## The segment ordering is not a strict weak ordering -/

/-- C35: for every positive sample rate there are times `a`, `b`, `c` with
`sampleScaleEquals a b`, `sampleScaleEquals b c` and `sampleScaleLessThan a c`; the
segment ordering `operator<` is irreflexive and transitive, and there are segments
`x`, `y`, `z` with `x`, `y` incomparable and `y`, `z` incomparable but `x < z`. -/
theorem equality_not_transitive (sr : ℚ) (hsr : 0 < sr) :
    (∃ a b c : ℚ, sampleScaleEquals sr a b = true ∧ sampleScaleEquals sr b c = true
      ∧ sampleScaleLessThan sr a c = true)
    ∧ (∀ x : TickMapElement, TickMapElement.lt sr x x = false)
    ∧ (∀ x y z : TickMapElement, TickMapElement.lt sr x y = true →
        TickMapElement.lt sr y z = true → TickMapElement.lt sr x z = true)
    ∧ ∃ x y z : TickMapElement,
        (TickMapElement.lt sr x y = false ∧ TickMapElement.lt sr y x = false)
        ∧ (TickMapElement.lt sr y z = false ∧ TickMapElement.lt sr z y = false)
        ∧ TickMapElement.lt sr x z = true := by
  have he := halfASampleLength_pos hsr
  have hab : sampleScaleEquals sr 0 (halfASampleLength sr) = true := by
    rw [sampleScaleEquals_iff, zero_sub, abs_neg, abs_of_pos he]
  have hba : sampleScaleEquals sr (halfASampleLength sr) 0 = true := by
    rw [sampleScaleEquals_iff, sub_zero, abs_of_pos he]
  have hbc : sampleScaleEquals sr (halfASampleLength sr) (2 * halfASampleLength sr) = true := by
    rw [sampleScaleEquals_iff]
    have : halfASampleLength sr - 2 * halfASampleLength sr = -halfASampleLength sr := by ring
    rw [this, abs_neg, abs_of_pos he]
  have hcb : sampleScaleEquals sr (2 * halfASampleLength sr) (halfASampleLength sr) = true := by
    rw [sampleScaleEquals_iff]
    have : 2 * halfASampleLength sr - halfASampleLength sr = halfASampleLength sr := by ring
    rw [this, abs_of_pos he]
  have hac : sampleScaleLessThan sr 0 (2 * halfASampleLength sr) = true := by
    rw [sampleScaleLessThan_iff hsr]; linarith
  have hnot : ∀ a b : ℚ, sampleScaleEquals sr a b = true → sampleScaleLessThan sr a b = false := by
    intro a b h
    simp [sampleScaleLessThan, h]
  refine ⟨⟨0, halfASampleLength sr, 2 * halfASampleLength sr, hab, hbc, hac⟩, ?_, ?_, ?_⟩
  · intro x
    unfold TickMapElement.lt
    rw [sampleScaleLessThan_eq_false_iff hsr]
    linarith
  · intro x y z hxy hyz
    unfold TickMapElement.lt at *
    rw [sampleScaleLessThan_iff hsr] at *
    linarith
  · refine ⟨⟨0, 0, 0, 0⟩, ⟨halfASampleLength sr, 0, 0, 0⟩, ⟨2 * halfASampleLength sr, 0, 0, 0⟩,
      ⟨hnot _ _ hab, hnot _ _ hba⟩, ⟨hnot _ _ hbc, hnot _ _ hcb⟩, hac⟩

/-- Witness of C35: the sample rate 44100 Hz. -/
theorem equality_not_transitive_witness :
    (0 : ℚ) < 44100
    ∧ (∃ a b c : ℚ, sampleScaleEquals 44100 a b = true ∧ sampleScaleEquals 44100 b c = true
      ∧ sampleScaleLessThan 44100 a c = true)
    ∧ (∀ x : TickMapElement, TickMapElement.lt 44100 x x = false)
    ∧ (∀ x y z : TickMapElement, TickMapElement.lt 44100 x y = true →
        TickMapElement.lt 44100 y z = true → TickMapElement.lt 44100 x z = true)
    ∧ ∃ x y z : TickMapElement,
        (TickMapElement.lt 44100 x y = false ∧ TickMapElement.lt 44100 y x = false)
        ∧ (TickMapElement.lt 44100 y z = false ∧ TickMapElement.lt 44100 z y = false)
        ∧ TickMapElement.lt 44100 x z = true :=
  ⟨by norm_num, equality_not_transitive 44100 (by norm_num)⟩


/-! ## The tick scans: step bound and the tick found -/

/-- A loop whose body lowers a natural-number measure finishes within as many
iterations as the measure of the initial state. -/
theorem whileLoop_within {σ : Type} (cond : σ → Bool) (body : σ → σ) (μ : σ → Nat)
    (hstep : ∀ s, cond s = true → μ (body s) < μ s) :
    ∀ (fuel : Nat) (s : σ), μ s ≤ fuel →
      ∃ r, whileLoop cond (fun u => some (body u)) fuel s = some r := by
  intro fuel
  induction fuel with
  | zero =>
    intro s hs
    by_cases hc : cond s = true
    · have := hstep s hc
      omega
    · simp only [Bool.not_eq_true] at hc
      exact ⟨s, whileLoop_done hc 0⟩
  | succ n ih =>
    intro s hs
    by_cases hc : cond s = true
    · have hlt := hstep s hc
      obtain ⟨r, hr⟩ := ih (body s) (by omega)
      exact ⟨r, by rw [whileLoop_succ hc, Option.some_bind, hr]⟩
    · simp only [Bool.not_eq_true] at hc
      exact ⟨s, whileLoop_done hc (n + 1)⟩

theorem lessThan_lt_of_true {sr a b : ℚ} (h : sampleScaleLessThan sr a b = true) : a < b := by
  simp only [sampleScaleLessThan, Bool.and_eq_true, decide_eq_true_eq] at h
  exact h.1

/-- The number of grid ticks between two positions is at most the floor of their
distance in ticks, plus one. -/
theorem ticksBetween_le (a b tl : ℚ) (htl : 0 < tl) :
    ⌈(b - a) / tl⌉.toNat ≤ ⌊|b - a| / tl⌋.toNat + 1 := by
  by_cases hab : a < b
  · rw [abs_of_pos (by linarith)]
    have h1 : ⌈(b - a) / tl⌉ ≤ ⌊(b - a) / tl⌋ + 1 := Int.ceil_le_floor_add_one _
    have h2 : 0 ≤ ⌊(b - a) / tl⌋ := Int.floor_nonneg.mpr (div_nonneg (by linarith) htl.le)
    omega
  · have h1 : (b - a) / tl ≤ 0 := div_nonpos_of_nonpos_of_nonneg (by linarith) htl.le
    have h2 : ⌈(b - a) / tl⌉ ≤ 0 := Int.ceil_le.mpr (by simpa using h1)
    omega

/-- The forward scan finishes within `|q - startPosition| / tickLength + 1` steps. -/
theorem scanForward_within (sr : ℚ) (it : TickMapElement) (q : ℚ)
    (htl : 0 < it.tickLength) (fuel : Nat)
    (hfuel : ⌊|q - it.startPosition| / it.tickLength⌋.toNat + 1 ≤ fuel) :
    ∃ r, whileLoop (fun s : ℚ × Nat => sampleScaleLessThan sr s.1 q)
      (fun s => some (scanForwardStep it s)) fuel (it.startPosition, it.tickOffset) = some r := by
  apply whileLoop_within (fun s : ℚ × Nat => sampleScaleLessThan sr s.1 q)
    (scanForwardStep it) (fun s => ⌈(q - s.1) / it.tickLength⌉.toNat)
  · intro s hc
    simp only [scanForwardStep]
    exact ticksBetween_decreases htl (lessThan_lt_of_true hc)
  · have := ticksBetween_le it.startPosition q it.tickLength htl
    show ⌈(q - it.startPosition) / it.tickLength⌉.toNat ≤ fuel
    omega

/-- The backward scan finishes within `|q - startPosition| / tickLength + 1` steps. -/
theorem scanBackward_within (sr : ℚ) (it : TickMapElement) (q : ℚ)
    (htl : 0 < it.tickLength) (fuel : Nat)
    (hfuel : ⌊|q - it.startPosition| / it.tickLength⌋.toNat + 1 ≤ fuel) :
    ∃ r, whileLoop (fun s : ℚ × Nat => sampleScaleLessThan sr q (s.1 - it.tickLength))
      (fun s => some (scanBackStep it s)) fuel (it.startPosition, it.tickOffset) = some r := by
  apply whileLoop_within (fun s : ℚ × Nat => sampleScaleLessThan sr q (s.1 - it.tickLength))
    (scanBackStep it) (fun s => ⌈(s.1 - q) / it.tickLength⌉.toNat)
  · intro s hc
    simp only [scanBackStep]
    have hq : q < s.1 - it.tickLength := lessThan_lt_of_true hc
    have := ticksBetween_decreases (a := q) (b := s.1) htl (by linarith)
    have he : s.1 - it.tickLength - q = s.1 - (q + it.tickLength) := by ring
    rw [he]
    exact this
  · have := ticksBetween_le q it.startPosition it.tickLength htl
    rw [abs_sub_comm] at this
    show ⌈(it.startPosition - q) / it.tickLength⌉.toNat ≤ fuel
    omega

/-- C36: on a non-empty map in which every segment has a positive tick length, for
every segment and every internal query position `q` both the forward and the backward
scan finish within `floor (|q - startPosition| / tickLength) + 1` iterations, and for
every position and delay the tick query returns within that number of iterations for
the covering segment. -/
theorem nextTick_terminates (sr : ℚ) (tickMap : List TickMapElement)
    (hne : tickMap ≠ []) (hpos : ∀ e ∈ tickMap, 0 < e.tickLength) :
    (∀ it ∈ tickMap, ∀ (q : ℚ) (fuel : Nat),
      ⌊|q - it.startPosition| / it.tickLength⌋.toNat + 1 ≤ fuel →
      (∃ r, whileLoop (fun s : ℚ × Nat => sampleScaleLessThan sr s.1 q)
        (fun s => some (scanForwardStep it s)) fuel (it.startPosition, it.tickOffset) = some r)
      ∧ (∃ r, whileLoop (fun s : ℚ × Nat => sampleScaleLessThan sr q (s.1 - it.tickLength))
        (fun s => some (scanBackStep it s)) fuel (it.startPosition, it.tickOffset) = some r))
    ∧ ∀ (delay : ℚ) (currentPos : Int) (lastTick : Bool) (fuel : Nat),
        ⌊|((currentPos : ℚ) / sr - delay)
            - (coveringSegment sr tickMap ((currentPos : ℚ) / sr - delay)).startPosition|
          / (coveringSegment sr tickMap ((currentPos : ℚ) / sr - delay)).tickLength⌋.toNat + 1
          ≤ fuel →
        ∃ r, getNextTickPositionInSamples fuel sr tickMap delay currentPos lastTick = some r := by
  refine ⟨fun it hit q fuel hfuel =>
    ⟨scanForward_within sr it q (hpos it hit) fuel hfuel,
      scanBackward_within sr it q (hpos it hit) fuel hfuel⟩, ?_⟩
  intro delay currentPos lastTick fuel hfuel
  have hmem := coveringSegment_mem sr tickMap ((currentPos : ℚ) / sr - delay) hne
  obtain ⟨r1, hr1⟩ := scanForward_within sr _ _ (hpos _ hmem) fuel hfuel
  obtain ⟨r2, hr2⟩ := scanBackward_within sr _ _ (hpos _ hmem) fuel hfuel
  simp only [getNextTickPositionInSamples, isEmpty_eq_false_of_ne_nil hne, findTick, scanTick,
    Bool.false_eq_true, if_false]
  split_ifs
  · rw [hr2]; exact ⟨_, rfl⟩
  · rw [hr1]; exact ⟨_, rfl⟩

set_option maxRecDepth 100000 in
/-- Witness of C36: the example map (two segments of 120 BPM), position 100000 samples at
44100 Hz and a delay of 10 ms; the bound is 109 iterations. -/
theorem nextTick_terminates_witness :
    exampleTickMap ≠ [] ∧ (∀ e ∈ exampleTickMap, (0 : ℚ) < e.tickLength)
    ∧ ⌊|((100000 : Int) : ℚ) / 44100 - 1 / 100
          - (coveringSegment 44100 exampleTickMap (((100000 : Int) : ℚ) / 44100 - 1 / 100)).startPosition|
        / (coveringSegment 44100 exampleTickMap (((100000 : Int) : ℚ) / 44100 - 1 / 100)).tickLength⌋.toNat
        + 1 = 109
    ∧ ∃ r, getNextTickPositionInSamples 109 44100 exampleTickMap (1 / 100) 100000 false = some r :=
  have hne : exampleTickMap ≠ [] := by simp [exampleTickMap]
  have hpos : ∀ e ∈ exampleTickMap, (0 : ℚ) < e.tickLength := by
    intro e he
    simp only [exampleTickMap, List.mem_cons, List.mem_singleton, List.not_mem_nil,
      or_false] at he
    rcases he with h | h <;> subst h <;> norm_num
  have hb : ⌊|((100000 : Int) : ℚ) / 44100 - 1 / 100
          - (coveringSegment 44100 exampleTickMap (((100000 : Int) : ℚ) / 44100 - 1 / 100)).startPosition|
        / (coveringSegment 44100 exampleTickMap (((100000 : Int) : ℚ) / 44100 - 1 / 100)).tickLength⌋.toNat
        + 1 = 109 := by decide!
  ⟨hne, hpos, hb,
    (nextTick_terminates 44100 exampleTickMap hne hpos).2 (1 / 100) 100000 false 109
      (le_of_eq hb)⟩

/-- The backward scan finishes whenever the tick length is positive, whatever the other
fields of the segment: it stops on the grid tick `T` such that the query position is
sample-scale less than every visited tick but not less than `T - tickLength`. -/
theorem scanBackward_pos_total (sr : ℚ) (it : TickMapElement) (q : ℚ)
    (htl : 0 < it.tickLength) :
    ∃ (N : Nat) (k : Nat) (i : Nat),
      (∀ fuel, N ≤ fuel →
        whileLoop (fun s : ℚ × Nat => sampleScaleLessThan sr q (s.1 - it.tickLength))
          (fun s => some (scanBackStep it s)) fuel (it.startPosition, it.tickOffset)
        = some (it.startPosition - k * it.tickLength, i))
      ∧ sampleScaleLessThan sr q (it.startPosition - k * it.tickLength - it.tickLength) = false
      ∧ ∀ j : Nat, j < k →
          sampleScaleLessThan sr q (it.startPosition - j * it.tickLength - it.tickLength)
            = true := by
  obtain ⟨N, r, hr, ⟨k, hk1, hk3⟩, hc⟩ := whileLoop_total_simple
    (fun s : ℚ × Nat => sampleScaleLessThan sr q (s.1 - it.tickLength))
    (scanBackStep it)
    (fun s => ∃ k : Nat, s.1 = it.startPosition - k * it.tickLength
      ∧ ∀ j : Nat, j < k →
          sampleScaleLessThan sr q (it.startPosition - j * it.tickLength - it.tickLength)
            = true)
    (fun s => ⌈(s.1 - q) / it.tickLength⌉.toNat)
    (by
      rintro ⟨p, i⟩ ⟨k, hk1, hk3⟩ hc
      simp only at hk1 hc
      refine ⟨⟨k + 1, ?_, ?_⟩, ?_⟩
      · simp only [scanBackStep, hk1]; push_cast; ring
      · intro j hj
        rcases Nat.lt_succ_iff_lt_or_eq.mp hj with h | h
        · exact hk3 j h
        · subst h; rw [← hk1]; exact hc
      · simp only [scanBackStep]
        have hq : q < p - it.tickLength := lessThan_lt_of_true hc
        have := ticksBetween_decreases (a := q) (b := p) htl (by linarith)
        have he : p - it.tickLength - q = p - (q + it.tickLength) := by ring
        rw [he]
        exact this)
    (it.startPosition, it.tickOffset)
    ⟨0, by simp, fun j hj => absurd hj (Nat.not_lt_zero j)⟩
  obtain ⟨p, i⟩ := r
  simp only at hk1 hc
  refine ⟨N, k, i, fun fuel hf => ?_, hk1 ▸ hc, hk3⟩
  rw [hr fuel hf, hk1]

/-- Twice the tolerance is one sample length (also for the sample rate 0, where both
sides are 0). -/
theorem two_halfASampleLength_eq (sr : ℚ) : 2 * halfASampleLength sr = 1 / sr := by
  unfold halfASampleLength
  by_cases h : sr = 0
  · subst h; simp
  · field_simp
    ring

/-- What `sampleScaleLessThan a b = true` says in terms of the tolerance. -/
theorem lessThan_gap {sr a b : ℚ} (h : sampleScaleLessThan sr a b = true) :
    a < b ∧ halfASampleLength sr < b - a := by
  simp only [sampleScaleLessThan, sampleScaleEquals, Bool.and_eq_true, decide_eq_true_eq,
    Bool.not_eq_true', decide_eq_false_iff_not, not_le] at h
  refine ⟨h.1, ?_⟩
  have := h.2
  rw [abs_sub_comm, abs_of_pos (by linarith)] at this
  exact this

/-- What `sampleScaleLessThan a b = false` says in terms of the tolerance. -/
theorem not_lessThan_gap {sr a b : ℚ} (h : sampleScaleLessThan sr a b = false) :
    b ≤ a ∨ b - a ≤ halfASampleLength sr := by
  by_cases hab : a < b
  · right
    simp only [sampleScaleLessThan, sampleScaleEquals, hab, decide_True, Bool.true_and,
      Bool.not_eq_false', decide_eq_true_eq] at h
    rw [abs_sub_comm, abs_of_pos (by linarith)] at h
    exact h
  · left; linarith

/-- What `sampleScaleEquals a b = true` says in terms of the tolerance. -/
theorem equals_gap {sr a b : ℚ} (h : sampleScaleEquals sr a b = true) :
    a - b ≤ halfASampleLength sr ∧ b - a ≤ halfASampleLength sr
    ∧ 0 ≤ halfASampleLength sr := by
  rw [sampleScaleEquals_iff] at h
  have h1 := le_abs_self (a - b)
  have h2 := neg_abs_le (a - b)
  have h3 := abs_nonneg (a - b)
  exact ⟨by linarith, by linarith, by linarith⟩

/-- C34: on a non-empty map whose covering segment for the internal query position
`q = currentPos / sampleRate - delay` has a positive tick length, the tick query returns
the sample position of `T + delay` for a grid tick `T` such that: when `q` is
sample-scale less than the start of the covering segment, `T` lies at or before the
start on the grid, `q` is sample-scale less than `T` but not less than `T - tickLength`,
so every grid tick within half a sample of `q` is earlier than `T` (and `T` is the grid
tick right after it when a tick is longer than a sample); otherwise `T` is the first
grid tick from the start that is not sample-scale less than `q`, so it is at or before
every grid tick within half a sample of `q` (and equal to it when a tick is longer than
a sample). -/
theorem backward_scan_skips_coinciding_tick (sr : ℚ) (tickMap : List TickMapElement)
    (delay : ℚ) (currentPos : Int) (lastTick : Bool) (q start L : ℚ)
    (hne : tickMap ≠ [])
    (hq : q = (currentPos : ℚ) / sr - delay)
    (hstart : start = (coveringSegment sr tickMap q).startPosition)
    (hL : L = (coveringSegment sr tickMap q).tickLength)
    (htl : 0 < L) :
    ∃ (N : Nat) (T : ℚ) (flag : Bool),
      (∀ fuel, N ≤ fuel →
        getNextTickPositionInSamples fuel sr tickMap delay currentPos lastTick
          = some (cRound ((T + delay) * sr), flag))
      ∧ (sampleScaleLessThan sr q start = true →
          (∃ k : Nat, T = start - k * L)
          ∧ sampleScaleLessThan sr q T = true
          ∧ sampleScaleLessThan sr q (T - L) = false
          ∧ ∀ m : ℤ, sampleScaleEquals sr q (start + m * L) = true →
              start + m * L < T ∧ (1 / sr < L → T = start + m * L + L))
      ∧ (sampleScaleLessThan sr q start = false →
          (∃ k : Nat, T = start + k * L
            ∧ ∀ j : Nat, j < k → sampleScaleLessThan sr (start + j * L) q = true)
          ∧ sampleScaleLessThan sr T q = false
          ∧ ∀ m : Nat, sampleScaleEquals sr (start + m * L) q = true →
              T ≤ start + m * L ∧ (1 / sr < L → T = start + m * L)) := by
  have h2e := two_halfASampleLength_eq sr
  have hempty := isEmpty_eq_false_of_ne_nil hne
  by_cases hb : sampleScaleLessThan sr q start = true
  · -- backward scan
    obtain ⟨N, k, i, hrun, hexit, hvis⟩ :=
      scanBackward_pos_total sr (coveringSegment sr tickMap q) q (hL ▸ htl)
    rw [← hstart, ← hL] at hrun hexit hvis
    have hlt : sampleScaleLessThan sr q (start - k * L) = true := by
      cases k with
      | zero => simpa using hb
      | succ n =>
        have := hvis n (Nat.lt_succ_self n)
        have he : start - ((n + 1 : Nat) : ℚ) * L = start - (n : ℚ) * L - L := by
          push_cast; ring
        rw [he]; exact this
    refine ⟨N, start - k * L, decide (i = uintSub (coveringSegment sr tickMap q).barLength 1),
      fun fuel hf => ?_, fun _ => ⟨⟨k, rfl⟩, hlt, hexit, ?_⟩,
      fun h => absurd hb (by simp [h])⟩
    · simp only [getNextTickPositionInSamples, hempty, Bool.false_eq_true, if_false, findTick,
        scanTick, ← hq, ← hstart, ← hL, hb, if_true, hrun fuel hf, Option.map_some']
    · intro m hm
      obtain ⟨_, hg2, he0⟩ := equals_gap hm
      obtain ⟨_, hgap⟩ := lessThan_gap hlt
      have hGT : start + m * L < start - k * L := by linarith
      refine ⟨hGT, fun hlong => ?_⟩
      by_contra hne2
      -- the number of ticks from the coinciding tick to `T` is at least 2
      have hint : ((m : ℤ) + k : ℤ) < 0 := by
        have : ((m : ℚ) + k) * L < 0 := by linarith
        have h0 : ((m : ℚ) + k) < 0 := by
          by_contra hcon
          push_neg at hcon
          have := mul_nonneg hcon htl.le
          linarith
        exact_mod_cast h0
      have hint2 : ((m : ℤ) + k : ℤ) ≠ -1 := by
        intro h1
        apply hne2
        have h1q : ((m : ℚ) + k) = -1 := by exact_mod_cast h1
        have : (k : ℚ) = -1 - m := by linarith
        rw [this]; ring
      have hint3 : ((m : ℤ) + k : ℤ) ≤ -2 := by omega
      have h3q : ((m : ℚ) + k) ≤ -2 := by exact_mod_cast hint3
      have hfar : start + m * L + L ≤ start - k * L - L := by
        have := mul_le_mul_of_nonneg_right h3q htl.le
        linarith
      rcases not_lessThan_gap hexit with h | h <;> linarith
  · -- forward scan
    simp only [Bool.not_eq_true] at hb
    obtain ⟨N, k, i, hrun, hexit, hvis⟩ :=
      scanForward_pos_total sr (coveringSegment sr tickMap q) q (hL ▸ htl)
    rw [← hstart, ← hL] at hrun hexit hvis
    refine ⟨N, start + k * L, decide (i = uintSub (coveringSegment sr tickMap q).barLength 1),
      fun fuel hf => ?_, fun h => absurd h (by simp [hb]),
      fun _ => ⟨⟨k, rfl, hvis⟩, hexit, ?_⟩⟩
    · simp only [getNextTickPositionInSamples, hempty, Bool.false_eq_true, if_false, findTick,
        scanTick, ← hq, ← hstart, ← hL, hb, hrun fuel hf, Option.map_some']
    · intro m hm
      have hkm : k ≤ m := by
        by_contra hcon
        push_neg at hcon
        have := hvis m hcon
        simp [sampleScaleLessThan, hm] at this
      have hkmq : (k : ℚ) ≤ m := by exact_mod_cast hkm
      have hle : start + k * L ≤ start + m * L := by
        have := mul_le_mul_of_nonneg_right hkmq htl.le
        linarith
      refine ⟨hle, fun hlong => ?_⟩
      by_contra hne2
      have hkm2 : k + 1 ≤ m := by
        rcases Nat.lt_or_eq_of_le hkm with h | h
        · exact h
        · exact absurd (by rw [h]) hne2
      have hkmq2 : (k : ℚ) + 1 ≤ m := by exact_mod_cast hkm2
      have hfar : start + k * L + L ≤ start + m * L := by
        have := mul_le_mul_of_nonneg_right hkmq2 htl.le
        linarith
      obtain ⟨hg1, _, he0⟩ := equals_gap hm
      rcases not_lessThan_gap hexit with h | h <;> linarith

set_option maxRecDepth 100000 in
/-- Witness of C34: the map `hundredTickMap` (a tick every 441 samples from 0 s) at
44100 Hz with a delay of 505 samples, asked at sample 64: the internal query position
is -441 samples, exactly on the grid tick before the start. -/
theorem backward_scan_skips_coinciding_tick_witness :
    hundredTickMap ≠ []
    ∧ (-(1 / 100) : ℚ) = ((64 : Int) : ℚ) / 44100 - 101 / 8820
    ∧ (0 : ℚ) = (coveringSegment 44100 hundredTickMap (-(1 / 100))).startPosition
    ∧ (1 / 100 : ℚ) = (coveringSegment 44100 hundredTickMap (-(1 / 100))).tickLength
    ∧ (0 : ℚ) < 1 / 100
    ∧ sampleScaleLessThan 44100 (-(1 / 100)) 0 = true
    ∧ sampleScaleEquals 44100 (-(1 / 100)) (0 + ((-1 : ℤ) : ℚ) * (1 / 100)) = true
    ∧ getNextTickPositionInSamples 10 44100 hundredTickMap (101 / 8820) 64 false
        = some (505, false)
    ∧ ∃ (N : Nat) (T : ℚ) (flag : Bool),
      (∀ fuel, N ≤ fuel →
        getNextTickPositionInSamples fuel 44100 hundredTickMap (101 / 8820) 64 false
          = some (cRound ((T + 101 / 8820) * 44100), flag))
      ∧ (sampleScaleLessThan 44100 (-(1 / 100)) 0 = true →
          (∃ k : Nat, T = 0 - k * (1 / 100))
          ∧ sampleScaleLessThan 44100 (-(1 / 100)) T = true
          ∧ sampleScaleLessThan 44100 (-(1 / 100)) (T - 1 / 100) = false
          ∧ ∀ m : ℤ, sampleScaleEquals 44100 (-(1 / 100)) (0 + m * (1 / 100)) = true →
              0 + m * (1 / 100) < T ∧ ((1 : ℚ) / 44100 < 1 / 100 → T = 0 + m * (1 / 100) + 1 / 100))
      ∧ (sampleScaleLessThan 44100 (-(1 / 100)) 0 = false →
          (∃ k : Nat, T = 0 + k * (1 / 100)
            ∧ ∀ j : Nat, j < k → sampleScaleLessThan 44100 (0 + j * (1 / 100)) (-(1 / 100)) = true)
          ∧ sampleScaleLessThan 44100 T (-(1 / 100)) = false
          ∧ ∀ m : Nat, sampleScaleEquals 44100 (0 + m * (1 / 100)) (-(1 / 100)) = true →
              T ≤ 0 + m * (1 / 100) ∧ ((1 : ℚ) / 44100 < 1 / 100 → T = 0 + m * (1 / 100))) :=
  have hne : hundredTickMap ≠ [] := by simp [hundredTickMap]
  have hq : (-(1 / 100) : ℚ) = ((64 : Int) : ℚ) / 44100 - 101 / 8820 := by norm_num
  have hs : (0 : ℚ) = (coveringSegment 44100 hundredTickMap (-(1 / 100))).startPosition := by
    decide!
  have hl : (1 / 100 : ℚ) = (coveringSegment 44100 hundredTickMap (-(1 / 100))).tickLength := by
    decide!
  ⟨hne, hq, hs, hl, by norm_num, by decide!, by decide!, by decide!,
    backward_scan_skips_coinciding_tick 44100 hundredTickMap (101 / 8820) 64 false
      (-(1 / 100)) 0 (1 / 100) hne hq hs hl (by norm_num)⟩


/-! ## One playing block against the same frames in two blocks -/

set_option maxRecDepth 100000 in
/-- C33, failing input: at 44100 Hz after `prepareToPlay`, the map `hundredTickMap`
(a tick every 441 samples from 0 s, bars of 96 ticks) and a delay of 505 samples
(101/8820 s), playing from sample 0.  One block of 128 frames holds the accent pulse of
the tick before the start of the map at sample 64; blocks of 64 and 64 frames hold no
pulse, because the query at sample 64 falls exactly on that tick and the backward scan
passes over it, and the final counter is 404 instead of 64. -/
theorem block_split_drops_tick :
    processBlock 1000 hundredTickMap (101 / 8820) (prepareToPlay Renderer.initial 44100)
        128 0 true
      = some (⟨44100, false, 0, 0, 64, 276, 3730, 0⟩,
          List.replicate 64 0 ++ highTickSamples ++ List.replicate 38 0)
    ∧ renderCalls 1000 hundredTickMap (101 / 8820) (prepareToPlay Renderer.initial 44100)
        (playingBlocks 0 [64, 64])
      = some (⟨44100, false, 0, 0, 404, 276, 3730, 0⟩, List.replicate 128 0)
    ∧ playingBlocks 0 [64, 64] = [⟨64, 0, true, false⟩, ⟨64, 64, true, false⟩]
    ∧ getNextTickPositionInSamples 1000 44100 hundredTickMap (101 / 8820) 0 false
      = some (64, true)
    ∧ getNextTickPositionInSamples 1000 44100 hundredTickMap (101 / 8820) 64 false
      = some (505, false) := by
  refine ⟨by decide!, by decide!, by decide!, by decide!, by decide!⟩


/-! ## Owed waveform ends -/

theorem uintSub_of_le {a b : Nat} (hb : b ≤ a) (ha : a < uintModulus) : uintSub a b = a - b := by
  unfold uintSub toUint
  have : a + uintModulus - b = (a - b) + uintModulus := by omega
  rw [this, Nat.add_mod_right]
  exact Nat.mod_eq_of_lt (by omega)

theorem drop_eq_getD_cons (l : List ℚ) (n : Nat) (h : n < l.length) :
    l.drop n = l.getD n 0 :: l.drop (n + 1) := by
  rw [List.drop_eq_getElem_cons h]
  simp [List.getD_eq_getElem?_getD, List.getElem?_eq_getElem h]

theorem owedSamples_nil {r : Renderer} (h1 : r.missingEndOfLowTick = 0)
    (h2 : r.missingEndOfHighTick = 0) : owedSamples r = [] := by
  unfold owedSamples
  rw [h1, h2]
  rfl

/-- One iteration of the first loop writes the first owed sample. -/
theorem owed_emitLowTail (u : BlockState) (h0 : 0 < u.r.missingEndOfLowTick)
    (h13 : u.r.missingEndOfLowTick ≤ lowTickLength) :
    (emitLowTail u).out ++ owedSamples (emitLowTail u).r = u.out ++ owedSamples u.r := by
  have hl13 : lowTickLength = 13 := rfl
  have hlen : lowTickSamples.length = 13 := rfl
  have e1 : uintSub lowTickLength u.r.missingEndOfLowTick = 13 - u.r.missingEndOfLowTick := by
    rw [uintSub_of_le h13 (by decide), hl13]
  have e2 : lowTickLength - (u.r.missingEndOfLowTick - 1) = 13 - u.r.missingEndOfLowTick + 1 := by
    omega
  have e3 : lowTickLength - u.r.missingEndOfLowTick = 13 - u.r.missingEndOfLowTick := by omega
  have hd := drop_eq_getD_cons lowTickSamples (13 - u.r.missingEndOfLowTick)
    (by rw [hlen]; omega)
  simp only [emitLowTail, owedSamples, e1, e2, e3, hd, List.append_assoc, List.singleton_append,
    List.cons_append, List.nil_append]

/-- One iteration of the second loop writes the first owed sample, once the regular
waveform is complete. -/
theorem owed_emitHighTail (u : BlockState) (hl : u.r.missingEndOfLowTick = 0)
    (h0 : 0 < u.r.missingEndOfHighTick) (h26 : u.r.missingEndOfHighTick ≤ highTickLength) :
    (emitHighTail u).out ++ owedSamples (emitHighTail u).r = u.out ++ owedSamples u.r := by
  have hl26 : highTickLength = 26 := rfl
  have hlen : highTickSamples.length = 26 := rfl
  have e1 : uintSub highTickLength u.r.missingEndOfHighTick
      = 26 - u.r.missingEndOfHighTick := by
    rw [uintSub_of_le h26 (by decide), hl26]
  have e2 : highTickLength - (u.r.missingEndOfHighTick - 1)
      = 26 - u.r.missingEndOfHighTick + 1 := by omega
  have e3 : highTickLength - u.r.missingEndOfHighTick = 26 - u.r.missingEndOfHighTick := by
    omega
  have hd := drop_eq_getD_cons highTickSamples (26 - u.r.missingEndOfHighTick)
    (by rw [hlen]; omega)
  have hnil : List.drop (lowTickLength - 0) lowTickSamples = [] := rfl
  simp only [emitHighTail, owedSamples, hl, hnil, e1, e2, e3, hd, List.append_assoc,
    List.singleton_append, List.nil_append]

/-- A started accent pulse: what is written and what is owed make the whole waveform. -/
theorem owed_startHighTick (nb : Nat) (u : BlockState) (hi : u.out.length < nb)
    (hl : u.r.missingEndOfLowTick = 0) (hh : u.r.missingEndOfHighTick = 0) :
    (startHighTick nb u).out ++ owedSamples (startHighTick nb u).r = u.out ++ highTickSamples
    ∧ (startHighTick nb u).r.missingEndOfLowTick = 0
    ∧ (startHighTick nb u).r.missingEndOfHighTick ≤ highTickLength
    ∧ (startHighTick nb u).r.currentTickIndex = 0
    ∧ (startHighTick nb u).r.sampleRate = u.r.sampleRate := by
  have hl26 : highTickLength = 26 := rfl
  have hnil : List.drop (lowTickLength - 0) lowTickSamples = [] := rfl
  by_cases hc : u.out.length + highTickLength > nb
  · refine ⟨?_, ?_, ?_, ?_, ?_⟩
    · simp only [startHighTick, if_pos hc, owedSamples, hl, hnil, List.nil_append,
        List.append_assoc, List.take_append_drop]
    · simp only [startHighTick, hl]
    · simp only [startHighTick, if_pos hc]; omega
    · simp only [startHighTick]
    · simp only [startHighTick]
  · refine ⟨?_, ?_, ?_, ?_, ?_⟩
    · simp only [startHighTick, if_neg hc, owedSamples, hl, hh, hnil, List.nil_append,
        List.append_assoc, List.take_append_drop]
    · simp only [startHighTick, hl]
    · simp only [startHighTick, if_neg hc, hh]; omega
    · simp only [startHighTick]
    · simp only [startHighTick]

/-- A started regular pulse: what is written and what is owed make the whole waveform. -/
theorem owed_startLowTick (nb : Nat) (u : BlockState) (hi : u.out.length < nb)
    (hl : u.r.missingEndOfLowTick = 0) (hh : u.r.missingEndOfHighTick = 0) :
    (startLowTick nb u).out ++ owedSamples (startLowTick nb u).r = u.out ++ lowTickSamples
    ∧ (startLowTick nb u).r.missingEndOfLowTick ≤ lowTickLength
    ∧ (startLowTick nb u).r.missingEndOfHighTick = 0
    ∧ (startLowTick nb u).r.currentTickIndex = toUint (u.r.currentTickIndex + 1)
    ∧ (startLowTick nb u).r.sampleRate = u.r.sampleRate := by
  have hl13 : lowTickLength = 13 := rfl
  have hnil : List.drop (highTickLength - 0) highTickSamples = [] := rfl
  by_cases hc : u.out.length + lowTickLength > nb
  · refine ⟨?_, ?_, ?_, ?_, ?_⟩
    · simp only [startLowTick, if_pos hc, owedSamples, hh, hnil, List.append_nil,
        List.append_assoc, List.take_append_drop]
    · simp only [startLowTick, if_pos hc]; omega
    · simp only [startLowTick, hh]
    · simp only [startLowTick]
    · simp only [startLowTick]
  · refine ⟨?_, ?_, ?_, ?_, ?_⟩
    · simp only [startLowTick, if_neg hc, owedSamples, hl, hh, hnil, List.append_nil,
        List.append_assoc, List.take_append_drop]
    · simp only [startLowTick, if_neg hc, hl]; omega
    · simp only [startLowTick, hh]
    · simp only [startLowTick]
    · simp only [startLowTick]

/-- The tick query of the map returns on every map whose segments have positive tick
lengths. -/
theorem getNextTick_total (sr : ℚ) (tickMap : List TickMapElement) (delay : ℚ)
    (currentPos : Int) (lastTick : Bool) (hpos : ∀ e ∈ tickMap, 0 < e.tickLength) :
    ∃ (N : Nat) (x : Int × Bool),
      ∀ fuel, N ≤ fuel →
        getNextTickPositionInSamples fuel sr tickMap delay currentPos lastTick = some x := by
  by_cases hne : tickMap = []
  · subst hne
    exact ⟨0, (0, lastTick), fun _ _ => by simp [getNextTickPositionInSamples]⟩
  · have hempty := isEmpty_eq_false_of_ne_nil hne
    obtain ⟨q, hq⟩ : ∃ q : ℚ, q = (currentPos : ℚ) / sr - delay := ⟨_, rfl⟩
    obtain ⟨it, hit⟩ : ∃ it, it = coveringSegment sr tickMap q := ⟨_, rfl⟩
    have hmem : it ∈ tickMap := hit ▸ coveringSegment_mem sr tickMap q hne
    obtain ⟨N1, k1, i1, hf, _, _⟩ := scanForward_pos_total sr it q (hpos _ hmem)
    obtain ⟨N2, k2, i2, hb, _, _⟩ := scanBackward_pos_total sr it q (hpos _ hmem)
    by_cases hbr : sampleScaleLessThan sr q it.startPosition = true
    · exact ⟨N2, (cRound ((it.startPosition - k2 * it.tickLength + delay) * sr),
        decide (i2 = uintSub it.barLength 1)), fun fuel hfu => by
          simp only [getNextTickPositionInSamples, hempty, Bool.false_eq_true, if_false,
            findTick, scanTick, ← hq, ← hit, hbr, if_true, hb fuel hfu, Option.map_some']⟩
    · exact ⟨N1, (cRound ((it.startPosition + k1 * it.tickLength + delay) * sr),
        decide (i1 = uintSub it.barLength 1)), fun fuel hfu => by
          simp only [getNextTickPositionInSamples, hempty, Bool.false_eq_true, if_false,
            findTick, scanTick, ← hq, ← hit, hbr, hf fuel hfu, Option.map_some']⟩

/-- The tick query of the renderer returns on every map whose segments have positive
tick lengths, and leaves the renderer members and the written samples as they are. -/
theorem nextDueTick_total (tickMap : List TickMapElement) (delay : ℚ) (isPlaying : Bool)
    (start : Int) (tickLength : ℚ) (barLength : Nat)
    (hpos : ∀ e ∈ tickMap, 0 < e.tickLength) (u : BlockState) :
    ∃ (N : Nat) (u' : BlockState),
      (∀ fuel, N ≤ fuel →
        nextDueTick fuel tickMap delay isPlaying start tickLength barLength u = some u')
      ∧ u'.r = u.r ∧ u'.out = u.out := by
  cases isPlaying with
  | false =>
    exact ⟨0, { u with
        nextTickInSeconds := u.nextTickInSeconds + tickLength
        nextTick := cTrunc ((u.nextTickInSeconds + tickLength) * u.r.sampleRate)
        lastTickRightBeforeABar := decide (uintSub barLength 1 ≤ u.r.currentTickIndex) },
      fun _ _ => by simp only [nextDueTick, Bool.not_false, if_true], rfl, rfl⟩
  | true =>
    obtain ⟨N, x, hx⟩ := getNextTick_total u.r.sampleRate tickMap delay
      (start + u.out.length) u.lastTickRightBeforeABar hpos
    exact ⟨N, { u with nextTick := x.1 - start, lastTickRightBeforeABar := x.2 },
      fun fuel hfu => by
        simp only [nextDueTick, Bool.not_true, Bool.false_eq_true, if_false, hx fuel hfu,
          Option.map_some'], rfl, rfl⟩


/-! ## A pulse cut by a block boundary -/

theorem length_lt_of_prefix {out owed rest : List ℚ} {nb : Nat}
    (h : out = owed.take nb ++ rest) (hlt : out.length < nb) : owed.length < nb := by
  have := congrArg List.length h
  simp only [List.length_append, List.length_take] at this
  omega

/-- C32 (amended): a renderer that owes the end of a started waveform (at most 13 samples
of the regular and 26 of the accent waveform), on a map whose tick lengths are
positive.  If the next render call is playing or has always-on enabled, it returns a
full block that begins with the owed samples, in order, as far as the block reaches,
and the samples that did not fit stay owed.  If the next call is stopped with always-on
disabled, the block is all zeros and the renderer, with the owed samples, is left as it
was. -/
theorem owed_end_written_first (tickMap : List TickMapElement) (delay : ℚ) (r : Renderer)
    (nb : Nat) (start : Int) (playing : Bool)
    (hpos : ∀ e ∈ tickMap, 0 < e.tickLength)
    (hlow : r.missingEndOfLowTick ≤ lowTickLength)
    (hhigh : r.missingEndOfHighTick ≤ highTickLength) :
    (playing = true ∨ r.sendSignalAlways = true →
      ∃ (N : Nat) (r' : Renderer) (out : List ℚ),
        (∀ fuel, N ≤ fuel →
          processBlock fuel tickMap delay r nb start playing = some (r', out))
        ∧ out.length = nb
        ∧ (∃ rest, out = (owedSamples r).take nb ++ rest)
        ∧ (nb ≤ (owedSamples r).length → owedSamples r' = (owedSamples r).drop nb))
    ∧ (playing = false → r.sendSignalAlways = false →
        ∀ fuel, processBlock fuel tickMap delay r nb start playing
          = some (r, List.replicate nb 0)) := by
  refine ⟨fun hmode => ?_, fun hp hs fuel => by simp [processBlock, hp, hs]⟩
  obtain ⟨N, s, hrun, ⟨⟨rest, hrest⟩, hleft⟩, hlen⟩ := processBlock_rule tickMap delay r nb start
    playing hmode
    (fun u => u.out ++ owedSamples u.r = owedSamples r
      ∧ u.r.missingEndOfLowTick ≤ lowTickLength ∧ u.r.missingEndOfHighTick ≤ highTickLength
      ∧ u.out.length ≤ nb)
    (fun u => (∃ rest, u.out = (owedSamples r).take nb ++ rest)
      ∧ (nb ≤ (owedSamples r).length → u.out ++ owedSamples u.r = owedSamples r))
    (fun u => (∃ rest, u.out = (owedSamples r).take nb ++ rest)
      ∧ (nb ≤ (owedSamples r).length → u.out ++ owedSamples u.r = owedSamples r))
    ⟨by simp, hlow, hhigh, Nat.zero_le _⟩
    (by
      rintro u ⟨he, h13, h26, hle⟩ hi h0
      refine ⟨by rw [owed_emitLowTail u h0 h13]; exact he, ?_, h26, ?_⟩
      · simp only [emitLowTail]; omega
      · simp only [emitLowTail, List.length_append, List.length_singleton]; omega)
    (by
      rintro u ⟨he, h13, h26, hle⟩ hi hl0 h0
      refine ⟨by rw [owed_emitHighTail u hl0 h0 h26]; exact he, ?_, ?_, ?_⟩
      · simp only [emitHighTail]; exact h13
      · simp only [emitHighTail]; omega
      · simp only [emitHighTail, List.length_append, List.length_singleton]; omega)
    (by
      rintro u ⟨he, h13, h26, hle⟩ hz
      by_cases hlt : u.out.length < nb
      · obtain ⟨hl0, hh0⟩ := hz hlt
        rw [owedSamples_nil hl0 hh0, List.append_nil] at he
        refine ⟨⟨[], ?_⟩, fun hnb => ?_⟩
        · rw [← he, List.append_nil, List.take_of_length_le (by omega)]
        · rw [← he] at hnb; omega
      · have hlen : u.out.length = nb := by omega
        refine ⟨⟨[], ?_⟩, fun _ => he⟩
        rw [← he, List.append_nil, List.take_left' hlen])
    (by
      rintro u hM hi hl0 hh0
      obtain ⟨N, u', hq, hr, ho⟩ := nextDueTick_total tickMap delay playing start
        ((getTickAndBarLengthAtPosition r.sampleRate tickMap start).getD (0, 0)).1
        ((getTickAndBarLengthAtPosition r.sampleRate tickMap start).getD (0, 0)).2 hpos u
      exact ⟨N, u', hq, by beta_reduce; rw [hr, ho]; exact hM⟩)
    (by
      rintro u ⟨⟨rest, hrest⟩, _⟩ hi _ _ _ _
      have hshort := length_lt_of_prefix hrest hi
      refine ⟨⟨rest ++ [0], ?_⟩, fun hnb => absurd hnb (by omega)⟩
      simp only [emitSilence, hrest, List.append_assoc])
    (by
      rintro u ⟨⟨rest, hrest⟩, hleft⟩ _ _
      by_cases hi : u.out.length < nb
      · have hshort := length_lt_of_prefix hrest hi
        obtain ⟨l, hl⟩ := tickOrSilence_out nb u
        refine ⟨⟨rest ++ l, ?_⟩, fun hnb => absurd hnb (by omega)⟩
        rw [hl, hrest, List.append_assoc]
      · have hid : tickOrSilence nb u = u := by simp [tickOrSilence, hi]
        rw [hid]
        exact ⟨⟨rest, hrest⟩, hleft⟩)
  refine ⟨N, s.r, s.out, hrun, hlen, ⟨rest, hrest⟩, fun hnb => ?_⟩
  have he := hleft hnb
  have hrest0 : rest = [] := by
    have := congrArg List.length hrest
    simp only [List.length_append, List.length_take] at this
    exact List.length_eq_zero.mp (by omega)
  rw [hrest0, List.append_nil] at hrest
  have hsplit : (owedSamples r).take nb ++ (owedSamples r).drop nb = owedSamples r :=
    List.take_append_drop _ _
  rw [hrest] at he
  exact List.append_cancel_left (he.trans hsplit.symm)

set_option maxRecDepth 100000 in
/-- Witness of C32 (amended): the renderer left by `exampleCalls`, which owes the last 15
samples of an accent pulse, on a map with a tick every 44.1 samples; the next call is
playing, 64 frames from sample 320. -/
theorem owed_end_written_first_witness :
    (∀ e ∈ ([⟨0, 1 / 1000, 4, 0⟩] : List TickMapElement), 0 < e.tickLength)
    ∧ (⟨44100, true, 0, 15, 26, 276, 3730, 0⟩ : Renderer).missingEndOfLowTick ≤ lowTickLength
    ∧ (⟨44100, true, 0, 15, 26, 276, 3730, 0⟩ : Renderer).missingEndOfHighTick
        ≤ highTickLength
    ∧ owedSamples ⟨44100, true, 0, 15, 26, 276, 3730, 0⟩ = highTickSamples.drop 11
    ∧ ((true = true ∨ (⟨44100, true, 0, 15, 26, 276, 3730, 0⟩ : Renderer).sendSignalAlways = true →
      ∃ (N : Nat) (r' : Renderer) (out : List ℚ),
        (∀ fuel, N ≤ fuel →
          processBlock fuel [⟨0, 1 / 1000, 4, 0⟩] 0 ⟨44100, true, 0, 15, 26, 276, 3730, 0⟩
            64 320 true = some (r', out))
        ∧ out.length = 64
        ∧ (∃ rest, out = (owedSamples ⟨44100, true, 0, 15, 26, 276, 3730, 0⟩).take 64 ++ rest)
        ∧ (64 ≤ (owedSamples ⟨44100, true, 0, 15, 26, 276, 3730, 0⟩).length →
            owedSamples r' = (owedSamples ⟨44100, true, 0, 15, 26, 276, 3730, 0⟩).drop 64))
    ∧ (true = false → (⟨44100, true, 0, 15, 26, 276, 3730, 0⟩ : Renderer).sendSignalAlways = false →
        ∀ fuel, processBlock fuel [⟨0, 1 / 1000, 4, 0⟩] 0 ⟨44100, true, 0, 15, 26, 276, 3730, 0⟩
          64 320 true = some (⟨44100, true, 0, 15, 26, 276, 3730, 0⟩, List.replicate 64 0))) :=
  ⟨by
      intro e he
      simp only [List.mem_singleton] at he
      subst he
      norm_num,
    by decide, by decide, rfl,
    owed_end_written_first [⟨0, 1 / 1000, 4, 0⟩] 0 ⟨44100, true, 0, 15, 26, 276, 3730, 0⟩ 64 320
      true
      (by
        intro e he
        simp only [List.mem_singleton] at he
        subst he
        norm_num)
      (by decide) (by decide)⟩

set_option maxRecDepth 100000 in
/-- Counterexample to C32 as stated: the two calls of `exampleCalls` end with 11 of the 26
samples of an accent pulse written; a third call with the transport stopped and
always-on disabled returns 64 zeros, although the first owed sample is not 0, and the
15 samples stay owed. -/
theorem stopped_call_truncates_pulse :
    renderCalls 1000 [⟨0, 1 / 1000, 4, 0⟩] 0 (prepareToPlay Renderer.initial 44100)
        (exampleCalls ++ [⟨64, 320, false, false⟩])
      = some (⟨44100, false, 0, 15, 26, 276, 3730, 0⟩, exampleStream ++ List.replicate 64 0)
    ∧ exampleStream = lowTickSamples ++ List.replicate 296 0 ++ highTickSamples.take 11
    ∧ owedSamples ⟨44100, false, 0, 15, 26, 276, 3730, 0⟩ = highTickSamples.drop 11
    ∧ (highTickSamples.drop 11).length = 15
    ∧ (highTickSamples.drop 11).getD 0 0 ≠ 0 := by
  refine ⟨by decide!, rfl, rfl, rfl, by decide!⟩


/-! ## The accent cadence of a stopped session -/

theorem cadenceStream_append (B : Nat) (g : Nat) :
    ∀ (gs : List Nat) (j : Nat),
      cadenceStream B j (gs ++ [g])
        = cadenceStream B j gs
          ++ (List.replicate g 0
            ++ (if (j + gs.length) % B = B - 1 then highTickSamples else lowTickSamples)) := by
  intro gs
  induction gs with
  | nil => intro j; simp [cadenceStream]
  | cons a l ih =>
    intro j
    have e : j + 1 + l.length = j + (l.length + 1) := by omega
    simp only [List.cons_append, cadenceStream, List.append_eq, ih (j + 1), List.length_cons,
      e, List.append_assoc]

theorem succ_mod_of_last {n B : Nat} (hB : 0 < B) (h : n % B = B - 1) : (n + 1) % B = 0 := by
  have h1 := Nat.mod_add_div n B
  have h2 : n + 1 = B * (n / B + 1) := by
    rw [h] at h1
    rw [Nat.mul_add, mul_one]
    generalize B * (n / B) = p at h1 ⊢
    omega
  rw [h2]
  exact Nat.mul_mod_right _ _

theorem succ_mod_of_lt {n B : Nat} (h : n % B + 1 < B) : (n + 1) % B = n % B + 1 := by
  rw [Nat.add_mod, Nat.mod_eq_of_lt (by omega : 1 < B), Nat.mod_eq_of_lt h]

theorem cadence_emitLowTail {sr : ℚ} {B : Nat} (pre : List ℚ) (u : BlockState)
    (h : CadenceState sr B (pre ++ u.out) u.r) (h0 : 0 < u.r.missingEndOfLowTick) :
    CadenceState sr B (pre ++ (emitLowTail u).out) (emitLowTail u).r := by
  obtain ⟨hsr, h13, h26, gaps, z, he, hz, hidx⟩ := h
  have hz0 : z = 0 := by
    rcases hz with hz | hz
    · omega
    · exact hz
  refine ⟨hsr, ?_, h26, gaps, z, ?_, Or.inr hz0, hidx⟩
  · simp only [emitLowTail]; omega
  · rw [List.append_assoc, owed_emitLowTail u h0 h13, ← List.append_assoc]
    exact he

theorem cadence_emitHighTail {sr : ℚ} {B : Nat} (pre : List ℚ) (u : BlockState)
    (h : CadenceState sr B (pre ++ u.out) u.r) (hl : u.r.missingEndOfLowTick = 0)
    (h0 : 0 < u.r.missingEndOfHighTick) :
    CadenceState sr B (pre ++ (emitHighTail u).out) (emitHighTail u).r := by
  obtain ⟨hsr, h13, h26, gaps, z, he, hz, hidx⟩ := h
  have hz0 : z = 0 := by
    rcases hz with hz | hz
    · omega
    · exact hz
  refine ⟨hsr, h13, ?_, gaps, z, ?_, Or.inr hz0, hidx⟩
  · simp only [emitHighTail]; omega
  · rw [List.append_assoc, owed_emitHighTail u hl h0 h26, ← List.append_assoc]
    exact he

theorem cadence_emitSilence {sr : ℚ} {B : Nat} (pre : List ℚ) (u : BlockState)
    (h : CadenceState sr B (pre ++ u.out) u.r) (hl : u.r.missingEndOfLowTick = 0)
    (hh : u.r.missingEndOfHighTick = 0) :
    CadenceState sr B (pre ++ (emitSilence u).out) (emitSilence u).r := by
  obtain ⟨hsr, h13, h26, gaps, z, he, _, hidx⟩ := h
  rw [owedSamples_nil hl hh, List.append_nil] at he
  have hnil : owedSamples (emitSilence u).r = [] := owedSamples_nil hl hh
  refine ⟨hsr, h13, h26, gaps, z + 1, ?_, Or.inl ⟨hl, hh⟩, hidx⟩
  rw [hnil, List.append_nil]
  simp only [emitSilence, ← List.append_assoc, he, List.replicate_succ']

theorem cadence_tickOrSilence {sr : ℚ} {B : Nat} (hB1 : 0 < B) (hB2 : B < uintModulus)
    (pre : List ℚ) (nb : Nat) (u : BlockState)
    (h : CadenceState sr B (pre ++ u.out) u.r)
    (hflag : u.lastTickRightBeforeABar = decide (uintSub B 1 ≤ u.r.currentTickIndex))
    (hm : u.out.length < nb → u.r.missingEndOfLowTick = 0 ∧ u.r.missingEndOfHighTick = 0) :
    CadenceState sr B (pre ++ (tickOrSilence nb u).out) (tickOrSilence nb u).r := by
  unfold tickOrSilence
  by_cases hi : u.out.length < nb
  · obtain ⟨hl, hh⟩ := hm hi
    rw [if_pos hi]
    by_cases hsup : u.r.samplesSinceLastTick < u.r.minSamplesSinceLastTick
    · rw [if_pos hsup]
      exact cadence_emitSilence pre u h hl hh
    · rw [if_neg hsup]
      obtain ⟨hsr, h13, h26, gaps, z, he, _, hidx⟩ := h
      rw [owedSamples_nil hl hh, List.append_nil] at he
      have hlt : gaps.length % B < B := Nat.mod_lt _ hB1
      rw [uintSub_one hB1 hB2] at hflag
      by_cases hf : u.lastTickRightBeforeABar = true
      · rw [if_pos hf]
        rw [hf] at hflag
        have hge : B - 1 ≤ u.r.currentTickIndex := by simpa using hflag.symm
        have hlast : gaps.length % B = B - 1 := by omega
        obtain ⟨ho, hl', hh', hi', hs'⟩ := owed_startHighTick nb u hi hl hh
        refine ⟨by rw [hs']; exact hsr, by rw [hl']; exact Nat.zero_le _, hh', gaps ++ [z], 0,
          ?_, Or.inr rfl, ?_⟩
        · rw [List.append_assoc, ho, ← List.append_assoc, he, cadenceStream_append,
            Nat.zero_add, if_pos hlast]
          simp only [List.replicate_zero, List.append_nil, List.append_assoc]
        · rw [hi', List.length_append, List.length_singleton, succ_mod_of_last hB1 hlast]
      · rw [if_neg hf]
        simp only [Bool.not_eq_true] at hf
        rw [hf] at hflag
        have hnge : ¬ (B - 1 ≤ u.r.currentTickIndex) := by simpa using hflag.symm
        have hnot : ¬ (gaps.length % B = B - 1) := by omega
        obtain ⟨ho, hl', hh', hi', hs'⟩ := owed_startLowTick nb u hi hl hh
        refine ⟨by rw [hs']; exact hsr, hl', by rw [hh']; exact Nat.zero_le _, gaps ++ [z], 0,
          ?_, Or.inr rfl, ?_⟩
        · rw [List.append_assoc, ho, ← List.append_assoc, he, cadenceStream_append,
            Nat.zero_add, if_neg hnot]
          simp only [List.replicate_zero, List.append_nil, List.append_assoc]
        · rw [hi', List.length_append, List.length_singleton, succ_mod_of_lt (by omega),
            toUint_of_lt (by omega), hidx]
  · rw [if_neg hi]
    exact h

/-- The tick query of the renderer while the transport is stopped. -/
theorem nextDueTick_stopped (fuel : Nat) (tickMap : List TickMapElement) (delay : ℚ)
    (start : Int) (tickLength : ℚ) (barLength : Nat) (u : BlockState) :
    nextDueTick fuel tickMap delay false start tickLength barLength u
      = some { u with
          nextTickInSeconds := u.nextTickInSeconds + tickLength
          nextTick := cTrunc ((u.nextTickInSeconds + tickLength) * u.r.sampleRate)
          lastTickRightBeforeABar := decide (uintSub barLength 1 ≤ u.r.currentTickIndex) } := by
  simp only [nextDueTick, Bool.not_false, if_true]

/-- One stopped render call with always-on enabled keeps the cadence relation. -/
theorem processBlock_cadence {sr : ℚ} {B : Nat} (hB1 : 0 < B) (hB2 : B < uintModulus)
    (tickMap : List TickMapElement) (delay : ℚ) (pos : Int) (L : ℚ)
    (hB : getTickAndBarLengthAtPosition sr tickMap pos = some (L, B))
    (pre : List ℚ) (r : Renderer) (nb : Nat) (h : CadenceState sr B pre r) :
    ∃ (N : Nat) (r' : Renderer) (out : List ℚ),
      (∀ fuel, N ≤ fuel →
        processBlock fuel tickMap delay { r with sendSignalAlways := true } nb pos false
          = some (r', out))
      ∧ CadenceState sr B (pre ++ out) r' := by
  have hsr : r.sampleRate = sr := h.1
  have hbar : ((getTickAndBarLengthAtPosition
      ({ r with sendSignalAlways := true } : Renderer).sampleRate tickMap pos).getD (0, 0)).2
      = B := by
    show ((getTickAndBarLengthAtPosition r.sampleRate tickMap pos).getD (0, 0)).2 = B
    rw [hsr, hB]; rfl
  obtain ⟨N, s, hrun, hM, _⟩ := processBlock_rule tickMap delay
    { r with sendSignalAlways := true } nb pos false (Or.inr rfl)
    (fun u => CadenceState sr B (pre ++ u.out) u.r)
    (fun u => CadenceState sr B (pre ++ u.out) u.r)
    (fun u => CadenceState sr B (pre ++ u.out) u.r
      ∧ u.lastTickRightBeforeABar = decide (uintSub B 1 ≤ u.r.currentTickIndex))
    (by
      show CadenceState sr B (pre ++ []) { r with sendSignalAlways := true }
      rw [List.append_nil]
      exact h)
    (fun u hu _ h0 => cadence_emitLowTail pre u hu h0)
    (fun u hu _ hl h0 => cadence_emitHighTail pre u hu hl h0)
    (fun u hu _ => hu)
    (by
      intro u hu _ _ _
      rw [hbar]
      refine ⟨0, _, fun fuel _ => nextDueTick_stopped fuel tickMap delay pos _ B u, ?_⟩
      beta_reduce
      refine ⟨hu, ?_⟩
      simp only)
    (fun u hu _ _ _ hl hh => ⟨cadence_emitSilence pre u hu.1 hl hh, hu.2⟩)
    (fun u hu _ hm => cadence_tickOrSilence hB1 hB2 pre nb u hu.1 hu.2 hm)
  exact ⟨N, s.r, s.out, hrun, hM⟩

/-- A stopped session with always-on enabled keeps the cadence relation. -/
theorem renderCalls_cadence {sr : ℚ} {B : Nat} (hB1 : 0 < B) (hB2 : B < uintModulus)
    (tickMap : List TickMapElement) (delay : ℚ) (pos : Int) (L : ℚ)
    (hB : getTickAndBarLengthAtPosition sr tickMap pos = some (L, B)) :
    ∀ (sizes : List Nat) (pre : List ℚ) (r : Renderer), CadenceState sr B pre r →
      ∃ (N : Nat) (r' : Renderer) (out : List ℚ),
        (∀ fuel, N ≤ fuel →
          renderCalls fuel tickMap delay r (stoppedBlocks pos sizes) = some (r', out))
        ∧ CadenceState sr B (pre ++ out) r' := by
  intro sizes
  induction sizes with
  | nil =>
    intro pre r h
    exact ⟨0, r, [], fun _ _ => rfl, by simpa using h⟩
  | cons n ns ih =>
    intro pre r h
    obtain ⟨N1, r1, out1, hrun1, h1⟩ :=
      processBlock_cadence hB1 hB2 tickMap delay pos L hB pre r n h
    obtain ⟨N2, r2, out2, hrun2, h2⟩ := ih (pre ++ out1) r1 h1
    refine ⟨max N1 N2, r2, out1 ++ out2, fun fuel hf => ?_, by
      rw [← List.append_assoc]; exact h2⟩
    have hstep := hrun1 fuel (le_of_max_le_left hf)
    have hrest := hrun2 fuel (le_of_max_le_right hf)
    simp only [stoppedBlocks, List.map_cons, renderCalls] at hrest ⊢
    rw [hstep]
    simp only [Option.some_bind, hrest, Option.map_some']

/-- C31: a renderer with sub-beat index 0 that owes no waveform end, a map whose bar
length at the frozen position `pos` is `B` (with `1 ≤ B < 2^32`), and any sequence of
render calls with the transport stopped at `pos` and always-on enabled.  The calls
return, and the rendered stream, completed by the waveform end still owed, is a
sequence of complete pulses separated by silence in which pulse number `j` (from 0) is
the accent waveform when `j mod B = B - 1` and the regular waveform otherwise; the
sub-beat index after the calls is the number of pulses modulo `B`, so it is 0 after
each accent. -/
theorem stopped_accent_cadence (tickMap : List TickMapElement) (delay : ℚ) (r : Renderer)
    (pos : Int) (sizes : List Nat) (L : ℚ) (B : Nat)
    (hB : getTickAndBarLengthAtPosition r.sampleRate tickMap pos = some (L, B))
    (hB1 : 0 < B) (hB2 : B < uintModulus)
    (hidx : r.currentTickIndex = 0)
    (hlow : r.missingEndOfLowTick = 0) (hhigh : r.missingEndOfHighTick = 0) :
    ∃ (N : Nat) (r' : Renderer) (stream : List ℚ),
      (∀ fuel, N ≤ fuel →
        renderCalls fuel tickMap delay r (stoppedBlocks pos sizes) = some (r', stream))
      ∧ ∃ (gaps : List Nat) (z : Nat),
          stream ++ owedSamples r' = cadenceStream B 0 gaps ++ List.replicate z 0
          ∧ r'.currentTickIndex = gaps.length % B := by
  have h0 : CadenceState r.sampleRate B [] r :=
    ⟨rfl, by rw [hlow]; exact Nat.zero_le _, by rw [hhigh]; exact Nat.zero_le _, [], 0,
      by simp [owedSamples_nil hlow hhigh, cadenceStream], Or.inr rfl, by simp [hidx]⟩
  obtain ⟨N, r', out, hrun, _, _, _, gaps, z, he, _, hi⟩ :=
    renderCalls_cadence hB1 hB2 tickMap delay pos L hB sizes [] r h0
  exact ⟨N, r', out, hrun, gaps, z, by simpa using he, hi⟩

set_option maxRecDepth 100000 in
/-- Witness of C31: after `prepareToPlay` at 44100 Hz, a map with a tick every 294
samples and bars of 2 ticks, and stopped calls of 20 and 300 frames: a regular pulse
at sample 18 and an accent pulse at sample 301, of which the last 7 samples are still
owed. -/
theorem stopped_accent_cadence_witness :
    getTickAndBarLengthAtPosition (prepareToPlay Renderer.initial 44100).sampleRate
        [⟨0, 1 / 150, 2, 0⟩] 0 = some (1 / 150, 2)
    ∧ renderCalls 1000 [⟨0, 1 / 150, 2, 0⟩] 0 (prepareToPlay Renderer.initial 44100)
        (stoppedBlocks 0 [20, 300])
      = some (⟨44100, true, 0, 7, 26, 276, 3730, 0⟩,
          List.replicate 18 0 ++ lowTickSamples ++ List.replicate 270 0
            ++ highTickSamples.take 19)
    ∧ ∃ (N : Nat) (r' : Renderer) (stream : List ℚ),
      (∀ fuel, N ≤ fuel →
        renderCalls fuel [⟨0, 1 / 150, 2, 0⟩] 0 (prepareToPlay Renderer.initial 44100)
          (stoppedBlocks 0 [20, 300]) = some (r', stream))
      ∧ ∃ (gaps : List Nat) (z : Nat),
          stream ++ owedSamples r' = cadenceStream 2 0 gaps ++ List.replicate z 0
          ∧ r'.currentTickIndex = gaps.length % 2 :=
  have hB : getTickAndBarLengthAtPosition (prepareToPlay Renderer.initial 44100).sampleRate
      [⟨0, 1 / 150, 2, 0⟩] 0 = some (1 / 150, 2) := by decide!
  ⟨hB, by decide!,
    stopped_accent_cadence [⟨0, 1 / 150, 2, 0⟩] 0 (prepareToPlay Renderer.initial 44100) 0
      [20, 300] (1 / 150) 2 hB (by decide) (by decide) rfl rfl rfl⟩


/-! ## Ascending segments from conditions on the host input -/

/-- The walk of step 2 finishes on the grid of the current position, at the first grid
tick that is not sample-scale less than the next position. -/
theorem tickWalk_grid (sr tl next cur : ℚ) (htl : 0 < tl) :
    ∃ (N k : Nat),
      (∀ m, N ≤ m →
        whileLoop (fun p => sampleScaleLessThan sr p next) (fun p => some (p + tl)) m cur
          = some (cur + k * tl))
      ∧ sampleScaleLessThan sr (cur + k * tl) next = false
      ∧ ∀ j : Nat, j < k → sampleScaleLessThan sr (cur + j * tl) next = true := by
  obtain ⟨N, r, hr, ⟨k, hk1, hk3⟩, hc⟩ := whileLoop_total_simple
    (fun p : ℚ => sampleScaleLessThan sr p next) (fun p => p + tl)
    (fun p => ∃ k : Nat, p = cur + k * tl
      ∧ ∀ j : Nat, j < k → sampleScaleLessThan sr (cur + j * tl) next = true)
    (fun p => ⌈(next - p) / tl⌉.toNat)
    (by
      rintro p ⟨k, hk1, hk3⟩ hc
      refine ⟨⟨k + 1, ?_, ?_⟩, ?_⟩
      · rw [hk1]; push_cast; ring
      · intro j hj
        rcases Nat.lt_succ_iff_lt_or_eq.mp hj with h | h
        · exact hk3 j h
        · subst h; rw [← hk1]; exact hc
      · exact ticksBetween_decreases htl (lessThan_lt_of_true hc))
    cur ⟨0, by simp, fun j hj => absurd hj (Nat.not_lt_zero j)⟩
  refine ⟨N, k, fun m hm => ?_, hk1 ▸ hc, hk3⟩
  rw [hr m hm, hk1]

/-- The time between two tempo entries is 24 tick lengths per quarter note. -/
theorem timeStep_eq {tempo : List TempoEntry} (hinc : StrictlyIncreasing tempo) {i : Nat}
    (hi : i + 1 < tempo.length) :
    (tempo.getD (i + 1) default).timePosition - (tempo.getD i default).timePosition
      = rawTickLength tempo i * 24
        * ((tempo.getD (i + 1) default).quarterPosition
          - (tempo.getD i default).quarterPosition) := by
  obtain ⟨_, h2⟩ := strictlyIncreasing_getD hinc i hi
  have hne : (tempo.getD (i + 1) default).quarterPosition
      - (tempo.getD i default).quarterPosition ≠ 0 := by
    intro h; linarith
  have key : ∀ a d : ℚ, d ≠ 0 → a = a / d / 24 * 24 * d := by
    intro a d hd
    field_simp
    ring
  exact key _ _ hne

/-- Step 2 on tempo entries that are far enough apart: when every tick is longer than one
sample period and every tempo change comes at least 1/12 of a quarter note (two ticks)
after the tempo entry before it, step 2 finishes, the tempo segments it produces (the
inserted blended segments included) start in strictly ascending order for the
precision comparator, and every tick of them is longer than one sample period. -/
theorem normalizeTempo_spaced (sr : ℚ) (hsr : 0 < sr) (tempo : List TempoEntry)
    (hinc : StrictlyIncreasing tempo)
    (hlong : ∀ i, i + 1 < tempo.length → 1 / sr < rawTickLength tempo i)
    (hapart : ∀ i, i + 2 < tempo.length →
      1 / 12 ≤ (tempo.getD (i + 1) default).quarterPosition
        - (tempo.getD i default).quarterPosition) :
    ∃ N tcs, (∀ m, N ≤ m → normalizeTempo m sr tempo = some tcs)
      ∧ tcs.Chain' (fun a b => sampleScaleLessThan sr a.timePosition b.timePosition = true)
      ∧ ∀ tc ∈ tcs, 1 / sr < tc.tickLength := by
  have heps := halfASampleLength_pos hsr
  have h2e := two_halfASampleLength_eq sr
  obtain ⟨N, r, hrun, hinv⟩ := range_foldlM_total
    (fun m s i => tempoStep m sr tempo s i)
    (fun i (s : List TempoChange × ℚ) =>
      (∀ tc ∈ s.1, 1 / sr < tc.tickLength)
      ∧ s.1.Chain' (fun a b => sampleScaleLessThan sr a.timePosition b.timePosition = true)
      ∧ (i + 1 < tempo.length →
          (∀ tc ∈ s.1.getLast?, sampleScaleLessThan sr tc.timePosition s.2 = true)
          ∧ (tempo.getD i default).timePosition ≤ s.2
          ∧ s.2 - (tempo.getD i default).timePosition < rawTickLength tempo i))
    ([], (tempo.getD 0 default).timePosition)
    ⟨by simp, List.chain'_nil, fun h =>
      ⟨by simp, le_refl _, by simpa using rawTickLength_pos hinc h⟩⟩
    (tempo.length - 1)
    (by
      rintro i ⟨changes, np⟩ hi ⟨hticks, hchain, hnext⟩
      have hi1 : i + 1 < tempo.length := by omega
      have htl := rawTickLength_pos hinc hi1
      have htl1 := hlong i hi1
      obtain ⟨hlast, hnp1, hnp2⟩ := hnext hi1
      simp only at hticks hchain hlast hnp1 hnp2
      have hticks' : ∀ tc ∈ changes ++ [(⟨np, rawTickLength tempo i⟩ : TempoChange)],
          1 / sr < tc.tickLength := by
        intro tc htc
        simp only [List.mem_append, List.mem_singleton] at htc
        rcases htc with htc | htc
        · exact hticks tc htc
        · subst htc; exact htl1
      have hchain' : (changes ++ [(⟨np, rawTickLength tempo i⟩ : TempoChange)]).Chain'
          (fun a b => sampleScaleLessThan sr a.timePosition b.timePosition = true) :=
        chain'_concat hchain (fun x hx => hlast x hx)
      by_cases hend : i = tempo.length - 2
      · refine ⟨0, (changes ++ [⟨np, rawTickLength tempo i⟩], np), ?_, hticks', hchain', ?_⟩
        · intro m _
          simp [-List.getD_eq_getElem?_getD, tempoStep, hend]
        · intro h; omega
      · have hi2 : i + 2 < tempo.length := by omega
        have hntl := rawTickLength_pos hinc (i := i + 1) hi2
        have hntl1 := hlong (i + 1) hi2
        -- the next tempo entry is more than one tick after the current position
        have hfar : np + rawTickLength tempo i < (tempo.getD (i + 1) default).timePosition := by
          have hq := hapart i hi2
          have ht := timeStep_eq hinc hi1
          have hmul := mul_le_mul_of_nonneg_left hq
            (by positivity : (0 : ℚ) ≤ rawTickLength tempo i * 24)
          linarith
        obtain ⟨N, k, hwalk, hstop, hvis⟩ := tickWalk_grid sr (rawTickLength tempo i)
          (tempo.getD (i + 1) default).timePosition np htl
        obtain ⟨L, hL⟩ : ∃ L : ℚ, L = np + k * rawTickLength tempo i := ⟨_, rfl⟩
        rw [← hL] at hwalk hstop
        by_cases heq : sampleScaleEquals sr L (tempo.getD (i + 1) default).timePosition = true
        · refine ⟨N, (changes ++ [⟨np, rawTickLength tempo i⟩],
            (tempo.getD (i + 1) default).timePosition), ?_, hticks', hchain', ?_⟩
          · intro m hm
            simp [-List.getD_eq_getElem?_getD, tempoStep, hend, hwalk m hm, heq]
          · intro _
            refine ⟨?_, le_refl _, by simpa using hntl⟩
            intro tc htc
            rw [eq_of_mem_getLast?_concat htc]
            show sampleScaleLessThan sr np (tempo.getD (i + 1) default).timePosition = true
            rw [sampleScaleLessThan_iff hsr]
            linarith
        · simp only [Bool.not_eq_true] at heq
          have hgt : (tempo.getD (i + 1) default).timePosition + halfASampleLength sr < L := by
            have h1 := (sampleScaleLessThan_eq_false_iff hsr _ _).mp hstop
            have h2 : ¬ |L - (tempo.getD (i + 1) default).timePosition| ≤ halfASampleLength sr := by
              rw [← sampleScaleEquals_iff, heq]; exact Bool.false_ne_true
            rw [not_le] at h2
            by_contra hcon
            rw [not_lt] at hcon
            have : |L - (tempo.getD (i + 1) default).timePosition| ≤ halfASampleLength sr := by
              rw [abs_le]; constructor <;> linarith
            exact absurd this (not_le.mpr h2)
          -- the walk took at least two steps
          have hk2 : (2 : ℚ) ≤ k := by
            have h1 : (1 : ℚ) < k := by
              by_contra hcon
              push_neg at hcon
              have := mul_le_mul_of_nonneg_right hcon htl.le
              linarith
            have h2 : 1 < k := by exact_mod_cast h1
            exact_mod_cast h2
          have hprev : sampleScaleLessThan sr (np + ((k - 1 : Nat) : ℚ) * rawTickLength tempo i)
              (tempo.getD (i + 1) default).timePosition = true :=
            hvis (k - 1) (by
              have : 1 ≤ k := by
                have : (1 : ℚ) ≤ k := by linarith
                exact_mod_cast this
              omega)
          have hkcast : ((k - 1 : Nat) : ℚ) = (k : ℚ) - 1 := by
            have : 1 ≤ k := by
              have : (1 : ℚ) ≤ k := by linarith
              exact_mod_cast this
            push_cast [this]; ring
          have hlt : L - (tempo.getD (i + 1) default).timePosition < rawTickLength tempo i := by
            have := (sampleScaleLessThan_iff hsr _ _).mp hprev
            rw [hkcast] at this
            rw [hL]
            linarith
          have hT0 : np + rawTickLength tempo i ≤ L - rawTickLength tempo i := by
            have := mul_le_mul_of_nonneg_right hk2 htl.le
            rw [hL]
            linarith
          have hb0 : 0 < (L - (tempo.getD (i + 1) default).timePosition) / rawTickLength tempo i :=
            div_pos (by linarith) htl
          have hb1 : (L - (tempo.getD (i + 1) default).timePosition) / rawTickLength tempo i < 1 :=
            (div_lt_one htl).mpr hlt
          obtain ⟨b, hb⟩ : ∃ b : ℚ,
              b = (L - (tempo.getD (i + 1) default).timePosition) / rawTickLength tempo i :=
            ⟨_, rfl⟩
          rw [← hb] at hb0 hb1
          have hbL : b * rawTickLength tempo i = L - (tempo.getD (i + 1) default).timePosition := by
            rw [hb]; field_simp
          have hnew : 1 / sr < rawTickLength tempo (i + 1) * b + rawTickLength tempo i * (1 - b) := by
            have h1 : 1 / sr * b < rawTickLength tempo (i + 1) * b :=
              mul_lt_mul_of_pos_right hntl1 hb0
            have h2 : 1 / sr * (1 - b) < rawTickLength tempo i * (1 - b) :=
              mul_lt_mul_of_pos_right htl1 (by linarith)
            linarith
          have hend2 : L - rawTickLength tempo i
                + (rawTickLength tempo (i + 1) * b + rawTickLength tempo i * (1 - b))
              - (tempo.getD (i + 1) default).timePosition
              = rawTickLength tempo (i + 1) * b := by
            have : rawTickLength tempo i * (1 - b)
                = rawTickLength tempo i - (L - (tempo.getD (i + 1) default).timePosition) := by
              rw [← hbL]; ring
            rw [this]; ring
          refine ⟨N, (changes ++ [⟨np, rawTickLength tempo i⟩]
              ++ [⟨L - rawTickLength tempo i,
                rawTickLength tempo (i + 1) * b + rawTickLength tempo i * (1 - b)⟩],
            L - rawTickLength tempo i
              + (rawTickLength tempo (i + 1) * b + rawTickLength tempo i * (1 - b))),
            ?_, ?_, ?_, ?_⟩
          · intro m hm
            rw [hb]
            simp [-List.getD_eq_getElem?_getD, tempoStep, hend, hwalk m hm, heq]
          · intro tc htc
            simp only [List.mem_append, List.mem_singleton] at htc
            rcases htc with htc | htc
            · exact hticks' tc (by simpa using htc)
            · subst htc; exact hnew
          · refine chain'_concat hchain' ?_
            intro x hx
            rw [eq_of_mem_getLast?_concat hx]
            show sampleScaleLessThan sr np (L - rawTickLength tempo i) = true
            rw [sampleScaleLessThan_iff hsr]
            linarith
          · intro _
            refine ⟨?_, ?_, ?_⟩
            · intro tc htc
              rw [eq_of_mem_getLast?_concat htc]
              show sampleScaleLessThan sr (L - rawTickLength tempo i)
                (L - rawTickLength tempo i
                  + (rawTickLength tempo (i + 1) * b + rawTickLength tempo i * (1 - b))) = true
              rw [sampleScaleLessThan_iff hsr]
              linarith
            · have := mul_pos hntl hb0
              show (tempo.getD (i + 1) default).timePosition ≤ L - rawTickLength tempo i
                + (rawTickLength tempo (i + 1) * b + rawTickLength tempo i * (1 - b))
              linarith
            · show L - rawTickLength tempo i
                  + (rawTickLength tempo (i + 1) * b + rawTickLength tempo i * (1 - b))
                - (tempo.getD (i + 1) default).timePosition < rawTickLength tempo (i + 1)
              rw [hend2]
              calc rawTickLength tempo (i + 1) * b < rawTickLength tempo (i + 1) * 1 :=
                    mul_lt_mul_of_pos_left hb1 hntl
                _ = rawTickLength tempo (i + 1) := mul_one _)
  refine ⟨N, r.1, ?_, hinv.2.1, hinv.1⟩
  intro m hm
  simp only [normalizeTempo]
  rw [hrun m hm]
  rfl

/-- The rounded position of a signature whose tick index fits in a `uint`. -/
theorem roundedQuarterPos_eq (b : BarSignature)
    (h : 24 * (cRound b.position).toNat < uintModulus) :
    roundedQuarterPos b = (cRound b.position).toNat := by
  unfold roundedQuarterPos
  exact toUint_of_lt (by omega)

/-- Step 1 moves no signature that lies on a bar boundary of the signature before it. -/
theorem foldl_sigStep_onBars :
    ∀ (l : List BarSignature) (changes : List TimeSigChange) (prev : BarSignature),
      OnBarBoundaries (prev :: l) →
      (l.foldl sigStep
          ⟨changes, quartersPerBarOf prev, (cRound prev.position).toNat⟩).timeSigChanges
        = changes
          ++ l.map (fun b => (⟨(cRound b.position).toNat, toUint (24 * quartersPerBarOf b)⟩ :
              TimeSigChange)) := by
  intro l
  induction l with
  | nil => intro changes prev _; simp
  | cons b l ih =>
    intro changes prev hob
    obtain ⟨hrange, hchain⟩ := hob
    rw [List.chain'_cons] at hchain
    obtain ⟨⟨hlt, hrem⟩, htail⟩ := hchain
    obtain ⟨_, hprodp, hrp⟩ := hrange prev (List.mem_cons_self _ _)
    obtain ⟨_, _, hrb⟩ := hrange b (List.mem_cons_of_mem _ (List.mem_cons_self _ _))
    have hmod : uintModulus = 4294967296 := rfl
    have hqp : quartersPerBarOf prev = max 1 (4 * prev.numerator / (prev.denominator : Nat)) :=
      quartersPerBarOf_eq prev hprodp
    have hq0 : quartersPerBarOf prev ≠ 0 := by
      rw [hqp]
      have : 1 ≤ max 1 (4 * prev.numerator / (prev.denominator : Nat)) := le_max_left _ _
      omega
    have hsub : uintSub (cRound b.position).toNat (cRound prev.position).toNat
        = (cRound b.position).toNat - (cRound prev.position).toNat :=
      uintSub_of_le hlt.le (by omega)
    have hquant : quantizeQuarterPos (quartersPerBarOf prev) (cRound prev.position).toNat
        (roundedQuarterPos b) = (cRound b.position).toNat := by
      unfold quantizeQuarterPos
      rw [if_pos hq0, roundedQuarterPos_eq b hrb, hsub, hqp]
      simp only [hrem, ne_eq, not_true_eq_false, if_false]
    have hstep : sigStep ⟨changes, quartersPerBarOf prev, (cRound prev.position).toNat⟩ b
        = ⟨changes ++ [⟨(cRound b.position).toNat, toUint (24 * quartersPerBarOf b)⟩],
            quartersPerBarOf b, (cRound b.position).toNat⟩ := by
      simp only [sigStep, hquant]
    have hrest := ih
      (changes ++ [(⟨(cRound b.position).toNat, toUint (24 * quartersPerBarOf b)⟩ :
        TimeSigChange)]) b
      ⟨fun x hx => hrange x (List.mem_cons_of_mem _ hx), htail⟩
    rw [List.foldl_cons, hstep, hrest]
    simp only [List.map_cons, List.append_assoc, List.singleton_append]

/-- Step 1 on signatures that lie on bar boundaries: every signature keeps its rounded
position. -/
theorem normalizeTimeSigs_onBars (sigs : List BarSignature) (h : OnBarBoundaries sigs) :
    normalizeTimeSigs sigs
      = sigs.map (fun b => (⟨(cRound b.position).toNat, toUint (24 * quartersPerBarOf b)⟩ :
          TimeSigChange)) := by
  cases sigs with
  | nil => rfl
  | cons b l =>
    obtain ⟨_, _, hrb⟩ := h.1 b (List.mem_cons_self _ _)
    have hstep : sigStep ⟨[], 0, 0⟩ b
        = ⟨[⟨(cRound b.position).toNat, toUint (24 * quartersPerBarOf b)⟩],
            quartersPerBarOf b, (cRound b.position).toNat⟩ := by
      simp [sigStep, quantizeQuarterPos, roundedQuarterPos_eq b hrb]
    have hrest := foldl_sigStep_onBars l
      [(⟨(cRound b.position).toNat, toUint (24 * quartersPerBarOf b)⟩ : TimeSigChange)] b h
    unfold normalizeTimeSigs
    rw [List.foldl_cons, hstep, hrest]
    simp only [List.map_cons, List.singleton_append]

/-- On bar boundaries the tick indices of the signature changes strictly increase. -/
theorem sigTick_onBars (sigs : List BarSignature) (h : OnBarBoundaries sigs) :
    ∀ k, k + 1 < (normalizeTimeSigs sigs).length →
      sigTick (normalizeTimeSigs sigs) k < sigTick (normalizeTimeSigs sigs) (k + 1) := by
  intro k hk
  rw [normalizeTimeSigs_onBars sigs h] at hk ⊢
  rw [List.length_map] at hk
  have hk0 : k < sigs.length := by omega
  have hget : ∀ j (hj : j < sigs.length),
      sigTick (sigs.map (fun b => (⟨(cRound b.position).toNat, toUint (24 * quartersPerBarOf b)⟩ :
          TimeSigChange))) j = 24 * (cRound (sigs.get ⟨j, hj⟩).position).toNat := by
    intro j hj
    unfold sigTick
    rw [List.getD_eq_getElem _ _ (by rw [List.length_map]; exact hj), List.getElem_map]
    obtain ⟨_, _, hr⟩ := h.1 (sigs.get ⟨j, hj⟩) (List.get_mem _ _ _)
    show toUint ((cRound (sigs.get ⟨j, hj⟩).position).toNat * 24) = _
    rw [Nat.mul_comm, toUint_of_lt hr]
  rw [hget k hk0, hget (k + 1) hk]
  have := (List.chain'_iff_get.mp h.2 k (by omega)).1
  omega

/-- C6 in its amended form: for at least two tempo entries with strictly increasing time
and quarter positions, the first at time 0, and at least one bar signature, such that
(i) every tempo change comes at least 1/12 of a quarter note (two ticks) after the
tempo entry before it, (ii) every tick length between consecutive tempo entries is
longer than one sample period, and (iii) the bar signatures lie on bar boundaries
(non-negative positions that, rounded to whole quarters, increase by positive whole
numbers of bars of the signature before, with `4 * numerator` and `24 * position`
inside 32 bits), the rebuild finishes and the segments of the built map are strictly
ascending by start position for the precision comparator (so no two segments share a
start position). -/
theorem segments_strictly_ascending (sr : ℚ) (tempo : List TempoEntry)
    (sigs : List BarSignature) (previous : List TickMapElement)
    (hsr : 0 < sr) (htempo : 1 < tempo.length) (hsigs : 0 < sigs.length)
    (hinc : StrictlyIncreasing tempo)
    (hzero : (tempo.getD 0 default).timePosition = 0)
    (hapart : ∀ i, i + 2 < tempo.length →
      1 / 12 ≤ (tempo.getD (i + 1) default).quarterPosition
        - (tempo.getD i default).quarterPosition)
    (hlong : ∀ i, i + 1 < tempo.length → 1 / sr < rawTickLength tempo i)
    (hbars : OnBarBoundaries sigs) :
    ∃ N tickMap,
      (∀ fuel, N ≤ fuel →
        rebuildTickMap fuel sr (some (tempo, sigs)) previous = some tickMap)
      ∧ tickMap.Pairwise
          (fun a b => sampleScaleLessThan sr a.startPosition b.startPosition = true) := by
  obtain ⟨N, tcs, hrun, hchain, htl⟩ := normalizeTempo_spaced sr hsr tempo hinc hlong hapart
  exact rebuild_ascending_of_normalised sr tempo sigs previous N tcs hsr htempo hsigs hinc
    hzero (hrun N le_rfl) hchain htl (sigTick_onBars sigs hbars)

set_option maxRecDepth 100000 in
/-- Witness of the amended C6: three tempo entries, the middle one between two ticks,
with 4/4 at quarter 0 and 3/4 at quarter 4, at 44100 Hz. -/
theorem segments_strictly_ascending_witness :
    (0 : ℚ) < 44100
    ∧ 1 < ([⟨0, 0⟩, ⟨1, 201 / 100⟩, ⟨2, 4⟩] : List TempoEntry).length
    ∧ 0 < ([⟨4, 4, 0⟩, ⟨3, 4, 4⟩] : List BarSignature).length
    ∧ StrictlyIncreasing [⟨0, 0⟩, ⟨1, 201 / 100⟩, ⟨2, 4⟩]
    ∧ (([⟨0, 0⟩, ⟨1, 201 / 100⟩, ⟨2, 4⟩] : List TempoEntry).getD 0 default).timePosition = 0
    ∧ (∀ i, i + 2 < ([⟨0, 0⟩, ⟨1, 201 / 100⟩, ⟨2, 4⟩] : List TempoEntry).length →
        (1 : ℚ) / 12
          ≤ (([⟨0, 0⟩, ⟨1, 201 / 100⟩, ⟨2, 4⟩] : List TempoEntry).getD (i + 1)
              default).quarterPosition
            - (([⟨0, 0⟩, ⟨1, 201 / 100⟩, ⟨2, 4⟩] : List TempoEntry).getD i
              default).quarterPosition)
    ∧ (∀ i, i + 1 < ([⟨0, 0⟩, ⟨1, 201 / 100⟩, ⟨2, 4⟩] : List TempoEntry).length →
        (1 : ℚ) / 44100 < rawTickLength [⟨0, 0⟩, ⟨1, 201 / 100⟩, ⟨2, 4⟩] i)
    ∧ OnBarBoundaries [⟨4, 4, 0⟩, ⟨3, 4, 4⟩]
    ∧ rebuildTickMap 100 44100
        (some ([⟨0, 0⟩, ⟨1, 201 / 100⟩, ⟨2, 4⟩], [⟨4, 4, 0⟩, ⟨3, 4, 4⟩])) []
      = some [⟨0, 25 / 1206, 96, 0⟩, ⟨200 / 201, 557 / 26666, 96, 48⟩,
          ⟨1213 / 1194, 25 / 1194, 96, 49⟩, ⟨2, 25 / 1194, 72, 0⟩]
    ∧ ∃ N tickMap,
      (∀ fuel, N ≤ fuel →
        rebuildTickMap fuel 44100
          (some ([⟨0, 0⟩, ⟨1, 201 / 100⟩, ⟨2, 4⟩], [⟨4, 4, 0⟩, ⟨3, 4, 4⟩])) [] = some tickMap)
      ∧ tickMap.Pairwise
          (fun a b => sampleScaleLessThan 44100 a.startPosition b.startPosition = true) :=
  have h4 : StrictlyIncreasing [⟨0, 0⟩, ⟨1, 201 / 100⟩, ⟨2, 4⟩] := by
    simp [StrictlyIncreasing]; norm_num
  have h5 : ∀ i, i + 2 < ([⟨0, 0⟩, ⟨1, 201 / 100⟩, ⟨2, 4⟩] : List TempoEntry).length →
      (1 : ℚ) / 12
        ≤ (([⟨0, 0⟩, ⟨1, 201 / 100⟩, ⟨2, 4⟩] : List TempoEntry).getD (i + 1)
            default).quarterPosition
          - (([⟨0, 0⟩, ⟨1, 201 / 100⟩, ⟨2, 4⟩] : List TempoEntry).getD i
            default).quarterPosition := by
    intro i hi
    have hi0 : i = 0 := by
      simp only [List.length_cons, List.length_nil] at hi
      omega
    subst hi0
    decide!
  have h6 : ∀ i, i + 1 < ([⟨0, 0⟩, ⟨1, 201 / 100⟩, ⟨2, 4⟩] : List TempoEntry).length →
      (1 : ℚ) / 44100 < rawTickLength [⟨0, 0⟩, ⟨1, 201 / 100⟩, ⟨2, 4⟩] i := by
    intro i hi
    have hi0 : i = 0 ∨ i = 1 := by
      simp only [List.length_cons, List.length_nil] at hi
      omega
    rcases hi0 with h | h <;> subst h <;> decide!
  have h7 : OnBarBoundaries [⟨4, 4, 0⟩, ⟨3, 4, 4⟩] := by
    unfold OnBarBoundaries
    refine ⟨?_, ?_⟩
    · intro b hb
      simp only [List.mem_cons, List.mem_singleton, List.not_mem_nil, or_false] at hb
      rcases hb with h | h <;> subst h <;> refine ⟨by decide!, by decide!, by decide!⟩
    · simp only [List.chain'_cons, List.chain'_singleton, and_true]
      exact ⟨by decide!, by decide!⟩
  ⟨by norm_num, by decide, by decide, h4, rfl, h5, h6, h7, by decide!,
    segments_strictly_ascending 44100 [⟨0, 0⟩, ⟨1, 201 / 100⟩, ⟨2, 4⟩] [⟨4, 4, 0⟩, ⟨3, 4, 4⟩] []
      (by norm_num) (by decide) (by decide) h4 rfl h5 h6 h7⟩


end MidroAudioSync
